import Mathlib

/-!
cad-app: ray/BVH intersection and ARAP deformation.

A shallow embedding of `src/ray.cpp` and `src/deform.cpp`.

Numbers: the C++ code computes in `float`.  The ray routines are embedded twice.
`Ray32` and `Trav32` run them as the machine does, on the type `F32` of IEEE 754
single-precision values with round-to-nearest-even, signed zeros, subnormal
numbers, overflow to the infinities and NaN; every `+`, `-`, `*`, `/` of the
source is one rounded operation (no fused multiply-add, no wider intermediate
precision).  `Ray` and `Trav` are the same
routines read over exact arithmetic: every finite value lives in a linearly
ordered field `K` (the definitions run at `K := ℚ`), and the two infinities that
the code uses as sentinels for times are the extra elements of `WithTop K` and
`WithBot (WithTop K)`.  A statement about `Ray` or `Trav` is a statement about
the exact reading only; the float runs below show where the two readings part.
The deformation code is embedded over exact arithmetic, with the SVD and the
linear solver of Eigen as parameters.

Containers: Eigen matrices with one column per vertex/face are lists of
columns; an index past the end reads the zero column.
-/

set_option linter.unusedSectionVars false

namespace CadApp

variable {K : Type} [LinearOrderedField K]

/-! ## Vectors -/

/-- Eigen::Vector3f: three coordinates, indexed 0, 1, 2. -/
abbrev Vec3 (K : Type) := Fin 3 → K

/-- Eigen `a.cross(b)`. -/
def cross (a b : Vec3 K) : Vec3 K :=
  ![a 1 * b 2 - a 2 * b 1, a 2 * b 0 - a 0 * b 2, a 0 * b 1 - a 1 * b 0]

/-- Eigen `a.dot(b)`. -/
def dot (a b : Vec3 K) : K := a 0 * b 0 + a 1 * b 1 + a 2 * b 2

/-- A time as the slab test holds it: finite, or one of the two infinities. -/
abbrev XTime (K : Type) := WithBot (WithTop K)

/-- A finite time seen as an extended time. -/
def XTime.fin (x : K) : XTime K := ((x : WithTop K) : WithBot (WithTop K))

/-! ## Mesh data seen by the ray -/

/-- Axis-aligned bounding box: `aabb.min`, `aabb.max`. -/
structure AABB (K : Type) where
  min : Vec3 K
  max : Vec3 K

/-- BVH node: `node.leaf.flag` tells the two shapes apart; an inner node carries
`inner.rightChild`, a leaf carries `leaf.startId` and `leaf.endId`. -/
inductive BVHNode (K : Type) where
  | inner (aabb : AABB K) (rightChild : Nat)
  | leaf (aabb : AABB K) (startId endId : Nat)

/-- The box of a node, `node.aabb`. -/
def BVHNode.aabb : BVHNode K → AABB K
  | .inner b _ => b
  | .leaf b _ _ => b

/-- The members of class `Ray` that the intersection routines read or write. -/
structure Ray (K : Type) where
  V : List (Vec3 K)
  F : List (Fin 3 → Nat)
  nodes : List (BVHNode K)
  origin : Vec3 K
  direction : Vec3 K
  minTime : K
  maxTime : WithTop K

/-- Ray::set: new origin and direction, validity interval reset to [0, +inf). -/
def Ray.set (r : Ray K) (origin_ direction_ : Vec3 K) : Ray K :=
  { r with origin := origin_, direction := direction_, minTime := 0, maxTime := ⊤ }

/-- Corner `k` of a face: `V.col(F(k, faceId))`. -/
def Ray.faceVertex (r : Ray K) (faceId : Nat) (k : Fin 3) : Vec3 K :=
  r.V.getD ((r.F.getD faceId (fun _ => 0)) k) 0

/-! ## Ray::intersectFace -/

/-- Ray::intersectFace read over exact arithmetic: `none` is `return false`;
`some (t, u, v)` is `return true` with the outputs `t` and `uv`.  No operation
rounds, overflows or yields a NaN here; the routine as the machine runs it is
`Ray32.intersectFace`. -/
def Ray.intersectFace (r : Ray K) (faceId : Nat) : Option (K × K × K) :=
  let va := r.faceVertex faceId 0
  let vb := r.faceVertex faceId 1
  let vc := r.faceVertex faceId 2
  let edge1 := vb - va
  let edge2 := vc - va
  let pvec := cross r.direction edge2
  let det := dot edge1 pvec
  if det = 0 then none else
  let inv_det := 1 / det
  let tvec := r.origin - va
  let u := dot tvec pvec * inv_det
  if u < 0 ∨ u > 1 then none else
  let qvec := cross tvec edge1
  let v := dot r.direction qvec * inv_det
  if v < 0 ∨ u + v > 1 then none else
  let time := dot edge2 qvec * inv_det
  if time < r.minTime ∨ (time : WithTop K) > r.maxTime then none else
  some (time, u, v)

/-- The determinant `edge1 · (direction × edge2)` computed by intersectFace. -/
def Ray.faceDet (r : Ray K) (faceId : Nat) : K :=
  dot (r.faceVertex faceId 1 - r.faceVertex faceId 0)
    (cross r.direction (r.faceVertex faceId 2 - r.faceVertex faceId 0))

/-- The point `origin + t·direction` is the point of the face with barycentric
coordinates `(u, v)`, and `(t, u, v)` are in range. -/
def Ray.HitsAt (r : Ray K) (faceId : Nat) (t u v : K) : Prop :=
  (∀ i : Fin 3, r.origin i + t * r.direction i =
      (1 - u - v) * r.faceVertex faceId 0 i + u * r.faceVertex faceId 1 i
        + v * r.faceVertex faceId 2 i) ∧
  0 ≤ u ∧ 0 ≤ v ∧ u + v ≤ 1 ∧ r.minTime ≤ t ∧ (t : WithTop K) ≤ r.maxTime

/-! ## Ray::intersectAABB -/

/-- Body of the `for` loop of intersectAABB for axis `i`, read over exact
arithmetic, on the running `(nearTime, farTime)`; `none` is `return false`.  The
divisions are exact here; the loop body as the machine runs it is
`Ray32.slabAxis`. -/
def Ray.slabAxis (r : Ray K) (aabb : AABB K) (i : Fin 3) (nf : XTime K × XTime K) :
    Option (XTime K × XTime K) :=
  if r.direction i = 0 then
    if r.origin i < aabb.min i ∨ r.origin i > aabb.max i then none else some nf
  else
    let t1 := (aabb.min i - r.origin i) / r.direction i
    let t2 := (aabb.max i - r.origin i) / r.direction i
    let t12 := if t1 > t2 then (t2, t1) else (t1, t2)
    let nearTime := max (XTime.fin t12.1) nf.1
    let farTime := min (XTime.fin t12.2) nf.2
    if ¬ (nearTime ≤ farTime) then none else some (nearTime, farTime)

/-- The `for` loop of intersectAABB over a list of axes, in order. -/
def Ray.slabLoop (r : Ray K) (aabb : AABB K) :
    List (Fin 3) → XTime K × XTime K → Option (XTime K × XTime K)
  | [], nf => some nf
  | i :: rest, nf =>
    match r.slabAxis aabb i nf with
    | none => none
    | some nf' => r.slabLoop aabb rest nf'

/-- The slab test carried out on the given axes only: the loop over these axes
from `(-inf, +inf)`, then the final comparison with `[minTime, maxTime]`. -/
def Ray.slabTest (r : Ray K) (aabb : AABB K) (axes : List (Fin 3)) : Bool :=
  match r.slabLoop aabb axes (⊥, ((⊤ : WithTop K) : XTime K)) with
  | none => false
  | some nf => decide (XTime.fin r.minTime ≤ nf.2 ∧ nf.1 ≤ ((r.maxTime : WithTop K) : XTime K))

/-- Ray::intersectAABB: the slab test over the axes 0, 1, 2. -/
def Ray.intersectAABB (r : Ray K) (aabb : AABB K) : Bool :=
  r.slabTest aabb [0, 1, 2]

/-- A time that is not `+inf`. -/
def XTime.NotTop (n : XTime K) : Prop := n = ⊥ ∨ ∃ a : K, n = XTime.fin a

/-- At time `t` the ray is between the two planes of the box on axis `i`. -/
def Ray.InSlab (r : Ray K) (aabb : AABB K) (i : Fin 3) (t : K) : Prop :=
  aabb.min i ≤ r.origin i + t * r.direction i ∧ r.origin i + t * r.direction i ≤ aabb.max i

/-! ## Ray::intersect(), the brute-force scan -/

/-- Body of the `for` loop of the brute-force intersect() on the running
`(currentFaceId, minTime)`; this `minTime` is the local variable of intersect(). -/
def Ray.intersectStep (r : Ray K) (st : Int × WithTop K) (i : Nat) : Int × WithTop K :=
  match r.intersectFace i with
  | some (time, _) => if (time : WithTop K) < st.2 then ((i : Int), (time : WithTop K)) else st
  | none => st

/-- Ray::intersect(): scan of the faces `0 .. F.cols()-1`; returns `currentFaceId`,
which is -1 when no face was accepted. -/
def Ray.intersect (r : Ray K) : Int :=
  ((List.range r.F.length).foldl r.intersectStep (-1, ⊤)).1

/-- Face `f` is hit at time `t`, and no face of the mesh is hit earlier. -/
def Ray.ClosestHit (r : Ray K) (f : Nat) (t : K) : Prop :=
  f < r.F.length ∧ (∃ uv : K × K, r.intersectFace f = some (t, uv)) ∧
  ∀ g : Nat, g < r.F.length → ∀ (t' : K) (uv' : K × K),
    r.intersectFace g = some (t', uv') → t ≤ t'

/-! ## Ray::intersect(faceId, t, uv), the BVH traversal -/

/-- Ways in which the traversal can leave defined behaviour, plus the end of
the fuel of the model. -/
inductive TravError where
  | outOfFuel
  | stackOverflow
  | nodeOutOfRange
  deriving DecidableEq, Repr

/-- The variables of the traversal: the ray (whose `maxTime` is tightened),
`nodeId`, the explicit stack (`stack[0 .. stackId-1]`, top first), `hit`, and the
outputs `faceId`, `t` and the pointee of `uv` (`none` for a null pointer). -/
structure Trav (K : Type) where
  ray : Ray K
  nodeId : Nat
  stack : List Nat
  hit : Bool
  faceId : Int
  t : WithTop K
  uv : Option (K × K)

/-- Size of the array `int stack[64]`. -/
def stackSize : Nat := 64

/-- Body of the leaf loop for face `fi`: on a hit, `faceId = fi; t = maxTime = _t;
hit = true; if (uv) *uv = _uv`. -/
def Trav.leafStep (s : Trav K) (fi : Nat) : Trav K :=
  match s.ray.intersectFace fi with
  | some (_t, _uv) =>
    { s with faceId := (fi : Int), t := (_t : WithTop K),
             ray := { s.ray with maxTime := (_t : WithTop K) },
             hit := true, uv := s.uv.map (fun _ => _uv) }
  | none => s

/-- The leaf loop `for (fi = startId; fi < endId; ++fi)`. -/
def Trav.leafLoop (s : Trav K) (startId endId : Nat) : Trav K :=
  (List.range' startId (endId - startId)).foldl Trav.leafStep s

/-- The shared tail `if (stackId == 0) break; nodeId = stack[--stackId]; continue;`:
`false` is `break`, `true` is `continue`. -/
def Trav.pop (s : Trav K) : Bool × Trav K :=
  match s.stack with
  | [] => (false, s)
  | top :: rest => (true, { s with nodeId := top, stack := rest })

/-- One iteration of `while (true)`. -/
def Trav.step (s : Trav K) : Except TravError (Bool × Trav K) :=
  match s.ray.nodes.get? s.nodeId with
  | none => .error .nodeOutOfRange
  | some node =>
    if s.ray.intersectAABB node.aabb = false then
      .ok s.pop
    else
      match node with
      | .inner _ rightChild =>
        if stackSize ≤ s.stack.length then .error .stackOverflow
        else .ok (true, { s with stack := rightChild :: s.stack, nodeId := s.nodeId + 1 })
      | .leaf _ startId endId => .ok (s.leafLoop startId endId).pop

/-- The loop `while (true)`, with a bound on the number of iterations. -/
def Trav.loop : Nat → Trav K → Except TravError (Trav K)
  | 0, _ => .error .outOfFuel
  | fuel + 1, s =>
    match s.step with
    | .error e => .error e
    | .ok (true, s') => Trav.loop fuel s'
    | .ok (false, s') => .ok s'

/-- Ray::intersect(faceId, t, uv): `faceId`, `t`, `uv` are the values the output
arguments hold on entry; the result holds the return value `hit`, the outputs
and the ray after the call. -/
def Ray.intersectBVH (r : Ray K) (fuel : Nat) (faceId : Int) (t : WithTop K)
    (uv : Option (K × K)) : Except TravError (Trav K) :=
  if r.nodes.isEmpty then
    .ok { ray := r, nodeId := 0, stack := [], hit := false, faceId := faceId, t := t, uv := uv }
  else
    Trav.loop fuel
      { ray := r, nodeId := 0, stack := [], hit := false, faceId := faceId, t := ⊤, uv := uv }

/-! ## Well-formed BVH -/

/-- The box contains the three corners of face `f`. -/
def Ray.BoxHasFace (r : Ray K) (b : AABB K) (f : Nat) : Prop :=
  ∀ (c i : Fin 3), b.min i ≤ r.faceVertex f c i ∧ r.faceVertex f c i ≤ b.max i

/-- Face `f` is in the index range of the leaf stored at node index `k`. -/
def Ray.LeafFace (r : Ray K) (k f : Nat) : Prop :=
  ∃ (b : AABB K) (s e : Nat), r.nodes.get? k = some (.leaf b s e) ∧ s ≤ f ∧ f < e

/-- Face `f` belongs to a leaf stored in the index range `[lo, hi)`. -/
def Ray.InRange (r : Ray K) (lo hi f : Nat) : Prop :=
  ∃ k : Nat, lo ≤ k ∧ k < hi ∧ r.LeafFace k f

/-- The nodes `[lo, hi)` are a subtree in preorder layout: a leaf alone, or an
inner node followed by its first subtree `[lo+1, rightChild)` and its second
subtree `[rightChild, hi)`.  Every box contains the faces of its subtree, leaf
ranges lie inside the face array, and at most `height` inner nodes are nested. -/
inductive Ray.SubtreeAt (r : Ray K) : Nat → Nat → Nat → Prop where
  | leaf (lo height : Nat) (b : AABB K) (s e : Nat)
      (hnode : r.nodes.get? lo = some (.leaf b s e))
      (hrange : e ≤ r.F.length)
      (hbox : ∀ f : Nat, s ≤ f → f < e → r.BoxHasFace b f) :
      Ray.SubtreeAt r lo (lo + 1) height
  | inner (lo mid hi height : Nat) (b : AABB K)
      (hnode : r.nodes.get? lo = some (.inner b mid))
      (hleft : Ray.SubtreeAt r (lo + 1) mid height)
      (hright : Ray.SubtreeAt r mid hi height)
      (hbox : ∀ f : Nat, r.InRange lo hi f → r.BoxHasFace b f) :
      Ray.SubtreeAt r lo hi (height + 1)

/-- Well-formed BVH over the mesh: the whole node array is one subtree in
preorder layout whose nesting fits the stack, and the leaf ranges cover all
faces; or there are no nodes and no faces. -/
def Ray.WellFormedBVH (r : Ray K) : Prop :=
  (r.nodes = [] ∧ r.F = []) ∨
  (r.SubtreeAt 0 r.nodes.length stackSize ∧
    ∀ f : Nat, f < r.F.length → r.InRange 0 r.nodes.length f)

/-- Invariant of the traversal started on ray `r0` with `faceId0` and `uv0` in the
output arguments, once the faces in `Seen` have been tested or pruned: the ray
differs from `r0` only in `maxTime`; before the first hit nothing has changed and
every face in `Seen` is missed by `r0`; after a hit, `faceId` is a face that `r0`
hits at time `t = maxTime`, `uv` holds its barycentric pair, and no face in `Seen`
is hit by `r0` earlier. -/
def Trav.Inv (r0 : Ray K) (faceId0 : Int) (uv0 : Option (K × K)) (Seen : Nat → Prop)
    (s : Trav K) : Prop :=
  s.ray = { r0 with maxTime := s.ray.maxTime } ∧
  s.ray.maxTime ≤ r0.maxTime ∧
  (s.hit = false → s.ray.maxTime = r0.maxTime ∧ s.t = ⊤ ∧ s.faceId = faceId0 ∧ s.uv = uv0 ∧
    ∀ f : Nat, Seen f → r0.intersectFace f = none) ∧
  (s.hit = true → ∃ (f : Nat) (tt : K) (uv' : K × K),
    s.faceId = (f : Int) ∧ f < r0.F.length ∧ s.t = (tt : WithTop K) ∧
    s.ray.maxTime = (tt : WithTop K) ∧ r0.intersectFace f = some (tt, uv') ∧
    s.uv = uv0.map (fun _ => uv') ∧
    ∀ g : Nat, Seen g → ∀ (t' : K) (uv'' : K × K),
      r0.intersectFace g = some (t', uv'') → tt ≤ t')

/-- What the loop does after an iteration that ended in `break` (`false`) or
`continue` (`true`), with `fuel` iterations left. -/
def Trav.cont (fuel : Nat) (bs : Bool × Trav K) : Except TravError (Trav K) :=
  match bs with
  | (true, s') => Trav.loop fuel s'
  | (false, s') => .ok s'

/-! ## Sample data -/

/-- A unit square split along its diagonal into faces 0 and 1, one leaf over
both faces, and the ray from `(1/2, 1/2, 1)` straight down onto the diagonal. -/
def tieRay : Ray ℚ :=
  { V := [![0, 0, 0], ![1, 0, 0], ![1, 1, 0], ![0, 1, 0]]
    F := [![0, 1, 2], ![0, 2, 3]]
    nodes := [.leaf ⟨![0, 0, 0], ![1, 1, 0]⟩ 0 2]
    origin := ![1 / 2, 1 / 2, 1]
    direction := ![0, 0, -1]
    minTime := 0
    maxTime := ⊤ }

/-- The state in which the traversal of `tieRay` ends. -/
def tieResult : Trav ℚ :=
  { ray := { tieRay with maxTime := ((1 : ℚ) : WithTop ℚ) }, nodeId := 0, stack := [],
    hit := true, faceId := 1, t := ((1 : ℚ) : WithTop ℚ), uv := none }

/-! ## Deform: data -/

/-- Eigen 3×3 matrix. -/
abbrev Mat3 (K : Type) := Matrix (Fin 3) (Fin 3) K

/-- The members of class `Deform`.  `W` is the sparse weight matrix in Eigen's
column-major layout: one list per column (`outerSize` of them), holding the
stored `(row, value)` entries of that column in iteration order.  `constraints`
is the `std::map<int, Vector3f>`: its `(key, value)` pairs in ascending key
order.  `L` is kept as the list of triplets it is built from; the matrix is
their sum. -/
structure Deform (K : Type) where
  V : List (Vec3 K)
  F : List (Fin 3 → Nat)
  W : List (List (Nat × K))
  constraints : List (Nat × Vec3 K)
  Vprime : List (Vec3 K)
  R : List (Mat3 K)
  freeIdxMap : List Int
  freeIdx : Nat
  L : List (Nat × Nat × K)
  bFixed : List (Vec3 K)
  b : List (Vec3 K)

/-- The `std::map` invariant: keys strictly ascending, hence unique. -/
def KeysAscending (m : List (Nat × Vec3 K)) : Prop :=
  m.Pairwise (fun a b => a.1 < b.1)

/-- The assignment `constraints[id] = position` on the ordered map. -/
def mapAssign : List (Nat × Vec3 K) → Nat → Vec3 K → List (Nat × Vec3 K)
  | [], id, position => [(id, position)]
  | (k, q) :: rest, id, position =>
    if id < k then (id, position) :: (k, q) :: rest
    else if id = k then (id, position) :: rest
    else (k, q) :: mapAssign rest id position

/-- Deform::init: adopt the mesh, clear the constraints. -/
def Deform.init (d : Deform K) (V : List (Vec3 K)) (F : List (Fin 3 → Nat))
    (W : List (List (Nat × K))) : Deform K :=
  { d with V := V, F := F, W := W, constraints := [] }

/-- Deform::setConstraint. -/
def Deform.setConstraint (d : Deform K) (id : Nat) (position : Vec3 K) : Deform K :=
  { d with constraints := mapAssign d.constraints id position }

/-- The call `v.resize(n)` of std::vector: keep the first `n` entries, pad with `fill`. -/
def resize {α : Type} (l : List α) (n : Nat) (fill : α) : List α :=
  l.take n ++ List.replicate (n - l.length) fill

/-- Deform::initializeRotations: `V.cols()` identity matrices. -/
def Deform.initializeRotations (d : Deform K) : Deform K :=
  { d with R := List.replicate d.V.length (1 : Mat3 K) }

/-- Body of the first loop of initializeConstraints on `(freeIdxMap, freeIdx)`:
`idx = constraints.find(i) != constraints.end() ? -1 : freeIdx++; freeIdxMap[i] = idx`. -/
def Deform.freeIdxStep (d : Deform K) (acc : List Int × Nat) (i : Nat) : List Int × Nat :=
  if (d.constraints.lookup i).isSome then (acc.1.set i (-1), acc.2)
  else (acc.1.set i (acc.2 : Int), acc.2 + 1)

/-- Deform::initializeConstraints: build the free-index map, then write every
constraint target into its column of `Vprime`. -/
def Deform.initializeConstraints (d : Deform K) : Deform K :=
  let fm := (List.range d.V.length).foldl d.freeIdxStep (resize d.freeIdxMap d.V.length 0, 0)
  { d with
    freeIdxMap := fm.1
    freeIdx := fm.2
    Vprime := d.constraints.foldl (fun vp c => vp.set c.1 c.2) d.Vprime }

/-- The update `m.col(idx) += p` on a matrix with three rows.  The C++ update
needs `idx < m.cols()`; for an index past the end, where Eigen reads and writes
out of bounds, the list is returned as it is.  The loops below reach it with an
index in range when the system has been prepared: the column index is a free
index below `freeIdx`, and `bFixed` and `b` have `freeIdx` columns. -/
def addCol (m : List (Vec3 K)) (idx : Nat) (p : Vec3 K) : List (Vec3 K) :=
  m.set idx (m.getD idx 0 + p)

/-- Body of the inner loop of initializeLinearSystem for the stored entry
`(i, j, w_ij)` of `W`, on `(bFixed, l_ij)`. -/
def Deform.linearSystemStep (d : Deform K) (j : Nat)
    (acc : List (Vec3 K) × List (Nat × Nat × K)) (e : Nat × K) :
    List (Vec3 K) × List (Nat × Nat × K) :=
  let i := e.1
  let idx_i := d.freeIdxMap.getD i 0
  let idx_j := d.freeIdxMap.getD j 0
  let w_ij := e.2
  if idx_i = -1 then acc
  else
    let acc' :=
      if idx_j = -1 then
        (addCol acc.1 idx_i.toNat (w_ij • (d.constraints.lookup j).getD 0), acc.2)
      else (acc.1, acc.2 ++ [(idx_i.toNat, idx_j.toNat, -w_ij)])
    (acc'.1, acc'.2 ++ [(idx_i.toNat, idx_i.toNat, w_ij)])

/-- The double loop over the stored entries of `W`: columns `k = 0 ..`, and
inside a column its entries in order, folding `step k`. -/
def foldEntries {α : Type} (W : List (List (Nat × K))) (step : Nat → α → Nat × K → α)
    (init : α) : α :=
  (List.range W.length).foldl (fun acc k => (W.getD k []).foldl (step k) acc) init

/-- Deform::initializeLinearSystem: `bFixed` and the triplets of `L`. -/
def Deform.initializeLinearSystem (d : Deform K) : Deform K :=
  let res := foldEntries d.W d.linearSystemStep (List.replicate d.freeIdx (0 : Vec3 K), [])
  { d with L := res.2, bFixed := res.1, b := resize d.b d.freeIdx 0 }

/-- The covariance accumulated by estimateRotations for column `k` of `W`:
the sum of `w_ij * (p_i - p_j) * (pp_i - pp_j)ᵀ` over its entries, `j = k`. -/
def Deform.covariance (d : Deform K) (k : Nat) : Mat3 K :=
  (d.W.getD k []).foldl
    (fun cov e =>
      let i := e.1
      let j := k
      let w_ij := e.2
      let p_i := d.V.getD i 0
      let p_j := d.V.getD j 0
      let pp_i := d.Vprime.getD i 0
      let pp_j := d.Vprime.getD j 0
      cov + Matrix.vecMulVec (w_ij • (p_i - p_j)) (pp_i - pp_j))
    0

/-- The assignment `M(i, j) = x`. -/
def setEntry (M : Mat3 K) (i j : Fin 3) (x : K) : Mat3 K :=
  Matrix.of (fun a b => if a = i ∧ b = j then x else M a b)

/-- The rotation that estimateRotations builds from the SVD factors:
`SV = matrixV`, `SU = matrixUᵀ`, `I = Identity` with `I(2,2) = det(SV * SU)`,
result `SV * I * SU`. -/
def fitRotation (matrixU matrixV : Mat3 K) : Mat3 K :=
  let SV := matrixV
  let SU := matrixU.transpose
  let I := setEntry (1 : Mat3 K) 2 2 (SV * SU).det
  SV * I * SU

/-- Deform::estimateRotations.  `svd cov` stands for Eigen's JacobiSVD of `cov`
and returns `(matrixU, matrixV)`. -/
def Deform.estimateRotations (svd : Mat3 K → Mat3 K × Mat3 K) (d : Deform K) : Deform K :=
  { d with
    R := (List.range d.W.length).foldl
      (fun R k => R.set k (fitRotation (svd (d.covariance k)).1 (svd (d.covariance k)).2))
      d.R }

/-- Body of the right-hand-side loop of estimatePositions for the stored entry
`(i, j, w_ij)`: `b.col(idx_i) += (R[i] + R[j]) * (p_i - p_j) * w_ij * 0.5`. -/
def Deform.rhsStep (d : Deform K) (j : Nat) (b : List (Vec3 K)) (e : Nat × K) :
    List (Vec3 K) :=
  let i := e.1
  let idx_i := d.freeIdxMap.getD i 0
  if idx_i = -1 then b
  else
    let w_ij := e.2
    let r := d.R.getD i 0 + d.R.getD j 0
    let p_i := d.V.getD i 0
    let p_j := d.V.getD j 0
    let p : Vec3 K := fun c => Matrix.mulVec r (p_i - p_j) c * w_ij * (1 / 2)
    addCol b idx_i.toNat p

/-- Body of the scatter loop for axis `i` and vertex `j`, on `(Vprime, idx)`:
`if (freeIdxMap[j] != -1) Vprime(i, j) = LU(idx++)`. -/
def Deform.scatterStep (d : Deform K) (i : Fin 3) (LU : List K)
    (acc : List (Vec3 K) × Nat) (j : Nat) : List (Vec3 K) × Nat :=
  if d.freeIdxMap.getD j 0 ≠ -1 then
    (acc.1.set j (Function.update (acc.1.getD j 0) i (LU.getD acc.2 0)), acc.2 + 1)
  else acc

/-- Deform::estimatePositions.  `solver L rhs` stands for `solver.solve(rhs)` after
`solver.compute(L)`; nothing is assumed about what it returns. -/
def Deform.estimatePositions (solver : List (Nat × Nat × K) → List K → List K)
    (d : Deform K) : Deform K :=
  let b := foldEntries d.W d.rhsStep d.bFixed
  let Vp := ([0, 1, 2] : List (Fin 3)).foldl
    (fun vp i =>
      let LU := solver d.L (b.map (fun col => col i))
      ((List.range d.V.length).foldl (d.scatterStep i LU) (vp, 0)).1)
    d.Vprime
  { d with b := b, Vprime := Vp }

/-- Number of local/global iterations of solve. -/
def iterMax : Nat := 3

/-- The part of Deform::solve before the loop: `Vprime = U`, then the three
initialisations. -/
def Deform.prepare (d : Deform K) (U : List (Vec3 K)) : Deform K :=
  ({ d with Vprime := U } : Deform K).initializeRotations.initializeConstraints.initializeLinearSystem

/-- Body of the loop of Deform::solve: one local step, one global step. -/
def Deform.iteration (svd : Mat3 K → Mat3 K × Mat3 K)
    (solver : List (Nat × Nat × K) → List K → List K) (d : Deform K) : Deform K :=
  (d.estimateRotations svd).estimatePositions solver

/-- Deform::solve: returns the solver state and the new contents of `U`. -/
def Deform.solve (svd : Mat3 K → Mat3 K × Mat3 K)
    (solver : List (Nat × Nat × K) → List K → List K)
    (d : Deform K) (U : List (Vec3 K)) : Deform K × List (Vec3 K) :=
  let d2 := (Deform.iteration svd solver)^[iterMax] (d.prepare U)
  (d2, d2.Vprime)

/-- Two vertices joined by one edge of weight 2, vertex 0 pinned to `(0, 0, 1)`,
with two rotation slots already allocated. -/
def pinned : Deform ℚ :=
  { V := [![0, 0, 0], ![1, 0, 0]]
    F := []
    W := [[(1, 2)], [(0, 2)]]
    constraints := [(0, ![0, 0, 1])]
    Vprime := [![0, 0, 1], ![1, 0, 1]]
    R := [1, 1]
    freeIdxMap := []
    freeIdx := 0
    L := []
    bFixed := []
    b := [] }

/-- SVD factors `(U, V)` with `det(V·Uᵀ) = -1`, returned for every input. -/
def mirrorFactors : Mat3 ℚ → Mat3 ℚ × Mat3 ℚ :=
  fun _ => (Matrix.diagonal ![1, 1, -1], 1)

/-! ## Rigidity energy and exact externals -/

/-- Squared Euclidean norm. -/
def normSq (v : Vec3 K) : K := dot v v

/-- One term of the rigidity energy, for the stored entry `(i, j, w_ij)` of `W`:
`w_ij * ‖(p'_i − p'_j) − R_i (p_i − p_j)‖²`, added to the running sum. -/
def Deform.energyStep (d : Deform K) (j : Nat) (acc : K) (e : Nat × K) : K :=
  let i := e.1
  let w_ij := e.2
  acc + w_ij * normSq ((d.Vprime.getD i 0 - d.Vprime.getD j 0)
    - Matrix.mulVec (d.R.getD i 0) (d.V.getD i 0 - d.V.getD j 0))

/-- The ARAP rigidity energy of the specification, summed over the stored
entries of `W`, for the rest positions `V`, the working positions `Vprime` and
the rotations `R` of the solver state. -/
def Deform.energy (d : Deform K) : K := foldEntries d.W d.energyStep 0

/-- The stored entries of `W` as one list of `(row, column, value)`, in the
order in which the double loop visits them. -/
def entries (W : List (List (Nat × K))) : List (Nat × Nat × K) :=
  (List.range W.length).flatMap (fun k => (W.getD k []).map (fun e => (e.1, k, e.2)))

/-- The weight matrix is symmetric: transposing the stored entries permutes
them. -/
def SymmetricW (W : List (List (Nat × K))) : Prop :=
  ((entries W).map (fun t => (t.2.1, t.1, t.2.2))).Perm (entries W)

/-- Row `m` of the product of the matrix given by the triplets `L` with `x`. -/
def tripletRow (L : List (Nat × Nat × K)) (x : List K) (m : Nat) : K :=
  (L.map (fun t => if t.1 = m then t.2.2 * x.getD t.2.1 0 else 0)).sum

/-- The vector `x` solves `L·x = rhs` in the rows `0 .. n-1`. -/
def SolvesSystem (L : List (Nat × Nat × K)) (n : Nat) (rhs x : List K) : Prop :=
  ∀ m : Nat, m < n → tripletRow L x m = rhs.getD m 0

/-- The pair `(U, V)` consists of the orthogonal factors of a singular value
decomposition `M = U · diag(σ) · Vᵀ` with `σ 0 ≥ σ 1 ≥ σ 2 ≥ 0`. -/
def IsSVD (M U V : Mat3 K) : Prop :=
  U.transpose * U = 1 ∧ V.transpose * V = 1 ∧
  ∃ σ : Fin 3 → K, σ 1 ≤ σ 0 ∧ σ 2 ≤ σ 1 ∧ 0 ≤ σ 2 ∧
    M = U * Matrix.diagonal σ * V.transpose

/-- The right-hand side that estimatePositions passes to the solver for axis `a`. -/
def Deform.rhsRow (d : Deform K) (a : Fin 3) : List K :=
  (foldEntries d.W d.rhsStep d.bFixed).map (fun col => col a)

/-- The energy term of the pair `(i, j)` with weight `w` for rest positions `p`,
working positions `P` and rotation `M`. -/
def pairEnergy (p P : Nat → Vec3 K) (M : Mat3 K) (i j : Nat) (w : K) : K :=
  w * normSq ((P i - P j) - Matrix.mulVec M (p i - p j))

/-- Vertex `j` is fixed: it is a key of the constraint map. -/
def Deform.isFixed (d : Deform K) (j : Nat) : Bool := (d.constraints.lookup j).isSome

/-- Number of free vertices below `j`. -/
def Deform.rank (d : Deform K) (j : Nat) : Nat :=
  (List.range j).countP (fun v => !d.isFixed v)

/-- The free-index map is the one that initializeConstraints builds: -1 at fixed
vertices, the rank among the free vertices elsewhere, and `freeIdx` free
vertices in all. -/
def Deform.MapReady (d : Deform K) : Prop :=
  d.freeIdx = d.rank d.V.length ∧
  ∀ j : Nat, j < d.V.length →
    d.freeIdxMap.getD j 0 = if d.isFixed j = true then -1 else (d.rank j : Int)

/-- The linear system is the one that initializeLinearSystem builds for the
current map: `W` has one column per vertex and rows in range, the free-index map
is ready, and `bFixed` and the triplets of `L` are the result of the assembly
loop. -/
def Deform.SystemReady (d : Deform K) : Prop :=
  d.W.length = d.V.length ∧ (∀ t ∈ entries d.W, t.1 < d.V.length) ∧ d.MapReady ∧
  (d.bFixed, d.L) = foldEntries d.W d.linearSystemStep (List.replicate d.freeIdx 0, [])

/-- The positions that estimatePositions leaves in `Vprime` when the solver
returns `x a` for axis `a`: fixed vertices keep their column, a free vertex gets
the entries of the three solutions at its rank. -/
def Deform.scattered (d : Deform K) (x : Fin 3 → List K) (j : Nat) : Vec3 K :=
  if d.isFixed j = true then d.Vprime.getD j 0 else fun a => (x a).getD (d.rank j) 0

/-- The solver state inside Deform::solve after `n` iterations of the loop. -/
def Deform.state (svd : Mat3 K → Mat3 K × Mat3 K)
    (solver : List (Nat × Nat × K) → List K → List K) (d : Deform K) (U : List (Vec3 K))
    (n : Nat) : Deform K :=
  (Deform.iteration svd solver)^[n] (d.prepare U)

/-- What the loop of solve keeps true: the mesh and the constraints are those of
the call, the system is the assembled one, `Vprime` has one column per vertex
with the targets in the fixed columns, and `R` holds proper rotations. -/
def Deform.LoopReady (d0 d : Deform K) : Prop :=
  d.V = d0.V ∧ d.W = d0.W ∧ d.constraints = d0.constraints ∧ d.SystemReady ∧
  d.Vprime.length = d.V.length ∧
  (∀ j : Nat, j < d.V.length → d.isFixed j = true →
    d.Vprime.getD j 0 = (d.constraints.lookup j).getD 0) ∧
  d.W.length ≤ d.R.length ∧
  (∀ k : Nat, k < d.W.length →
    (d.R.getD k 0).transpose * d.R.getD k 0 = 1 ∧ (d.R.getD k 0).det = 1)

/-- An exact solver for systems with one unknown: the right-hand side divided
by the sum of the triplet values. -/
def oneSolver (L : List (Nat × Nat × ℚ)) (rhs : List ℚ) : List ℚ :=
  [rhs.getD 0 0 / (L.map (fun t => t.2.2)).sum]

/-- Three vertices on a line, vertices 1 and 2 at the same place; edge 0–1 has
weight 1, edge 0–2 has weight -1; vertices 0 and 1 are pinned at their rest
positions, vertex 2 is free. -/
def signed : Deform ℚ :=
  { V := [![-1, 0, 0], ![0, 0, 0], ![0, 0, 0]]
    F := []
    W := [[(1, 1), (2, -1)], [(0, 1)], [(0, -1)]]
    constraints := [(0, ![-1, 0, 0]), (1, ![0, 0, 0])]
    Vprime := []
    R := []
    freeIdxMap := []
    freeIdx := 0
    L := []
    bFixed := []
    b := [] }

/-! ## The assembled matrix, entry by entry -/

/-- The coefficient `W(i, j)` of the sparse matrix: the sum of the values stored
in column `j` at row `i` (a compressed Eigen matrix stores one value at most;
nothing stored is a zero). -/
def coeff (W : List (List (Nat × K))) (i j : Nat) : K :=
  (((W.getD j []).filter (fun e => decide (e.1 = i))).map (fun e => e.2)).sum

/-- Entry `(a, b)` of the matrix that `setFromTriplets` builds from the triplets
`L`: the sum of the values of the triplets at `(a, b)`. -/
def tripletEntry (L : List (Nat × Nat × K)) (a b : Nat) : K :=
  (L.map (fun t => if t.1 = a ∧ t.2.1 = b then t.2.2 else 0)).sum

/-- The quadratic form `xᵗ L x` of the matrix given by the triplets `L`. -/
def quadForm (L : List (Nat × Nat × K)) (x : List K) : K :=
  (L.map (fun t => x.getD t.1 0 * t.2.2 * x.getD t.2.1 0)).sum

/-- The vertices `0 .. n-1` are connected by the edges of `W`: any two of them
are joined by a chain of pairs with a non-zero coefficient. -/
def ConnectedW (W : List (List (Nat × K))) (n : Nat) : Prop :=
  ∀ i j : Nat, i < n → j < n → Relation.ReflTransGen (fun u v => coeff W u v ≠ 0) i j

/-- The scatter as the specification words it, for comparison with the running
counter of scatterStep: the free vertex `j` receives the entry of the solution
at its free index, `Vprime(i, j) = LU(freeIdxMap[j])`. -/
def Deform.scatterByMapStep (d : Deform K) (i : Fin 3) (LU : List K) (vp : List (Vec3 K))
    (j : Nat) : List (Vec3 K) :=
  if d.freeIdxMap.getD j 0 ≠ -1 then
    vp.set j (Function.update (vp.getD j 0) i (LU.getD (d.freeIdxMap.getD j 0).toNat 0))
  else vp

/-! ## The traversal, iteration by iteration -/

/-- The states at the head of the iterations of `while (true)` that the loop
runs through from `s`, in order, for at most `fuel` iterations: the trace ends
after an iteration that breaks or leaves defined behaviour. -/
def Trav.run : Nat → Trav K → List (Trav K)
  | 0, _ => []
  | fuel + 1, s =>
    s :: (match s.step with
      | .ok (true, s') => Trav.run fuel s'
      | _ => [])

/-- The state in which Ray::intersect(faceId, t, uv) enters its loop. -/
def Ray.start (r : Ray K) (faceId : Int) (uv : Option (K × K)) : Trav K :=
  { ray := r, nodeId := 0, stack := [], hit := false, faceId := faceId, t := ⊤, uv := uv }

/-- The write `stack[stackId++] = node.inner.rightChild` of the iteration that
starts in `s`, as `(index, value)`; `none` when the iteration does not write. -/
def Trav.writes (s : Trav K) : Option (Nat × Nat) :=
  match s.ray.nodes.get? s.nodeId with
  | some (.inner b rightChild) =>
    if s.ray.intersectAABB b = false then none else some (s.stack.length, rightChild)
  | _ => none

/-- The read `nodeId = stack[--stackId]` of the iteration that starts in `s`
(after a pruned node or a leaf, with `stackId != 0`), as `(index, value)`;
`none` when the iteration does not read. -/
def Trav.reads (s : Trav K) : Option (Nat × Nat) :=
  match s.ray.nodes.get? s.nodeId with
  | none => none
  | some (.inner b _) =>
    if s.ray.intersectAABB b = false then
      match s.stack with
      | [] => none
      | top :: rest => some (rest.length, top)
    else none
  | some (.leaf _ _ _) =>
    match s.stack with
    | [] => none
    | top :: rest => some (rest.length, top)

/-- The iteration that starts in `s` prunes or processes its node with an empty
stack: the condition under which the loop reaches `break`. -/
def Trav.finished (s : Trav K) : Bool :=
  match s.ray.nodes.get? s.nodeId with
  | none => false
  | some (.inner b _) => (s.ray.intersectAABB b = false) && s.stack.isEmpty
  | some (.leaf _ _ _) => s.stack.isEmpty

/-- The nodes `[lo, hi)` are a subtree in preorder layout: a leaf alone, or an
inner node followed by its first subtree `[lo+1, rightChild)` and its second
subtree `[rightChild, hi)`. -/
inductive Ray.Preorder (r : Ray K) : Nat → Nat → Prop where
  | leaf (lo : Nat) (b : AABB K) (s e : Nat)
      (hnode : r.nodes.get? lo = some (.leaf b s e)) :
      Ray.Preorder r lo (lo + 1)
  | inner (lo mid hi : Nat) (b : AABB K)
      (hnode : r.nodes.get? lo = some (.inner b mid))
      (hleft : Ray.Preorder r (lo + 1) mid)
      (hright : Ray.Preorder r mid hi) :
      Ray.Preorder r lo hi

/-- Depth of node `k` below the node `lo`, found by walking down from `lo`: into
the first subtree when `k` lies before `rightChild`, into the second otherwise. -/
def Ray.depthFrom (r : Ray K) : Nat → Nat → Nat → Nat
  | 0, _, _ => 0
  | fuel + 1, lo, k =>
    if k = lo then 0
    else
      match r.nodes.get? lo with
      | some (.inner _ rightChild) =>
        if k < rightChild then r.depthFrom fuel (lo + 1) k + 1
        else r.depthFrom fuel rightChild k + 1
      | _ => 0

/-- Depth of node `k` in the tree rooted at node 0; the root has depth 0. -/
def Ray.depth (r : Ray K) (k : Nat) : Nat := r.depthFrom r.nodes.length 0 k

/-- The pending stack entries cut the nodes from `k` to `n` into consecutive
subtrees: `[k, c₁)`, `[c₁, c₂)`, …, `[c_m, n)` for the stack `c₁ :: … :: c_m`. -/
inductive Ray.Frames (r : Ray K) (n : Nat) : Nat → List Nat → Prop where
  | nil (k : Nat) (h : r.Preorder k n) : Ray.Frames r n k []
  | cons (k c : Nat) (rest : List Nat) (h : r.Preorder k c) (hrest : Ray.Frames r n c rest) :
      Ray.Frames r n k (c :: rest)

/-- The state `s'` comes after `s` in a traversal: the ray differs at most in
`maxTime`, which has not grown and has not dropped below `minTime` if it was
not below before, and `t` is still the `maxTime` of the ray after a hit if it
was before. -/
def Trav.Tightened (s s' : Trav K) : Prop :=
  s'.ray = { s.ray with maxTime := s'.ray.maxTime } ∧
  s'.ray.maxTime ≤ s.ray.maxTime ∧
  ((s.ray.minTime : WithTop K) ≤ s.ray.maxTime → (s.ray.minTime : WithTop K) ≤ s'.ray.maxTime) ∧
  ((s.hit = true → s.ray.maxTime = s.t) → (s'.hit = true → s'.ray.maxTime = s'.t))

/-- The depths of the pending stack entries decrease strictly from the top of
the stack to its bottom, start at `d` at most and stay positive. -/
def descends (δ : Nat → Nat) : Nat → List Nat → Prop
  | _, [] => True
  | d, c :: rest => 1 ≤ δ c ∧ δ c ≤ d ∧ descends δ (δ c - 1) rest

/-- What the traversal of the tree of `r` keeps true at the head of every
iteration: the node array is that of `r`, the current node and the pending
entries cut the rest of the array into subtrees, and the pending entries are
less deep than the current node, each less deep than the one above it. -/
def Trav.OnTree (r : Ray K) (s : Trav K) : Prop :=
  s.ray.nodes = r.nodes ∧ r.Frames r.nodes.length s.nodeId s.stack ∧
  descends r.depth (r.depth s.nodeId) s.stack

/-- The mesh and ray of `tieRay` with a three-node BVH: an inner node over two
leaves, one face each. -/
def forkRay : Ray ℚ :=
  { tieRay with
    nodes := [.inner ⟨![0, 0, 0], ![1, 1, 0]⟩ 2, .leaf ⟨![0, 0, 0], ![1, 1, 0]⟩ 0 1,
      .leaf ⟨![0, 0, 0], ![1, 1, 0]⟩ 1 2] }

/-- The mesh and ray of `tieRay` with a BVH of 131 nodes in preorder layout: a
chain of 65 inner nodes, each the first child of the one before, over 66 empty
leaves; node `k < 65` is inner with right child `130 - k`.  Every box is the one
that the ray hits. -/
def deepRay : Ray ℚ :=
  { tieRay with
    nodes := (List.range 65).map (fun k => BVHNode.inner ⟨![0, 0, 0], ![1, 1, 0]⟩ (130 - k))
      ++ List.replicate 66 (BVHNode.leaf ⟨![0, 0, 0], ![1, 1, 0]⟩ 0 0) }

/-- The state of the traversal of `deepRay` at the head of iteration `k ≤ 64`:
at node `k`, with the right children of the nodes `0 .. k-1` pending. -/
def deepState (faceId : Int) (uv : Option (ℚ × ℚ)) (k : Nat) : Trav ℚ :=
  { ray := deepRay, nodeId := k, stack := (List.range k).reverse.map (fun j => 130 - j),
    hit := false, faceId := faceId, t := ⊤, uv := uv }

/-! ## More sample data -/

/-- Three faces under a BVH of five nodes: face 0 in the plane `z = 0` and face 1
in the plane `z = 1` above it, each in its own leaf under the inner node 1, and
face 2 far to the side in the leaf 4; the ray comes straight down from
`(1/4, 1/4, 3)`.  The traversal pushes twice, accepts face 0 at time 3, pops,
accepts face 1 at time 2, pops, and prunes the leaf of face 2. -/
def gridRay : Ray ℚ :=
  { V := [![0, 0, 0], ![1, 0, 0], ![0, 1, 0], ![0, 0, 1], ![1, 0, 1], ![0, 1, 1],
          ![10, 0, 0], ![11, 0, 0], ![10, 1, 0]]
    F := [![0, 1, 2], ![3, 4, 5], ![6, 7, 8]]
    nodes := [.inner ⟨![0, 0, 0], ![11, 1, 1]⟩ 4, .inner ⟨![0, 0, 0], ![1, 1, 1]⟩ 3,
              .leaf ⟨![0, 0, 0], ![1, 1, 0]⟩ 0 1, .leaf ⟨![0, 0, 1], ![1, 1, 1]⟩ 1 2,
              .leaf ⟨![10, 0, 0], ![11, 1, 0]⟩ 2 3]
    origin := ![1 / 4, 1 / 4, 3]
    direction := ![0, 0, -1]
    minTime := 0
    maxTime := ⊤ }

/-! ## Deform: the Dirichlet form, sample externals and sample meshes -/

/-- The Dirichlet form of the weights at the values `y`: the sum of
`w_ij · (y_i − y_j)²` over the stored entries of `W`. -/
def laplaceForm (W : List (List (Nat × K))) (y : Nat → K) : K :=
  ((entries W).map (fun t => t.2.2 * ((y t.1 - y t.2.1) * (y t.1 - y t.2.1)))).sum

/-- The permutation matrix that exchanges the first two axes. -/
def swap01 : Mat3 ℚ := Matrix.of ![![0, 1, 0], ![1, 0, 0], ![0, 0, 1]]

/-- An exact SVD for the diagonal matrices `diag(a, b, 0)`: the signs of `a` and
`b` go into `U`, and when `|a| < |b|` both factors also exchange the first two
axes, so that the singular values `|a|`, `|b|`, `0` come in decreasing order.
The zero matrix gets `U = V = 1`. -/
def axisSVD (M : Mat3 ℚ) : Mat3 ℚ × Mat3 ℚ :=
  let s0 : ℚ := if M 0 0 < 0 then -1 else 1
  let s1 : ℚ := if M 1 1 < 0 then -1 else 1
  if M 1 1 * M 1 1 ≤ M 0 0 * M 0 0 then (Matrix.diagonal ![s0, s1, 1], 1)
  else (Matrix.diagonal ![s0, s1, 1] * swap01, swap01)

/-- An exact solver for systems with two unknowns, by Cramer's rule on the
entries of the matrix that the triplets add up to. -/
def twoSolver (L : List (Nat × Nat × ℚ)) (rhs : List ℚ) : List ℚ :=
  let a := tripletEntry L 0 0
  let b := tripletEntry L 0 1
  let c := tripletEntry L 1 0
  let e := tripletEntry L 1 1
  [(e * rhs.getD 0 0 - b * rhs.getD 1 0) / (a * e - b * c),
   (a * rhs.getD 1 0 - c * rhs.getD 0 0) / (a * e - b * c)]

/-- A kite: the triangles `(0, 1, 2)` and `(1, 0, 3)` on the corners
`(-5/4, 0, 0)`, `(5/4, 0, 0)`, `(0, 1, 0)`, `(0, -1, 0)`, with its cotangent
weights (half the sum of the cotangents of the angles opposite an edge): `-9/40`
on the shared edge 0–1, whose opposite angles are obtuse, and `5/8` on the four
outer edges.  Vertices 2 and 3 are constrained, pulled apart to `(0, ±2, 0)`. -/
def kite : Deform ℚ :=
  { V := [![-5 / 4, 0, 0], ![5 / 4, 0, 0], ![0, 1, 0], ![0, -1, 0]]
    F := [![0, 1, 2], ![1, 0, 3]]
    W := [[(1, -9 / 40), (2, 5 / 8), (3, 5 / 8)], [(0, -9 / 40), (2, 5 / 8), (3, 5 / 8)],
          [(0, 5 / 8), (1, 5 / 8)], [(0, 5 / 8), (1, 5 / 8)]]
    constraints := [(2, ![0, 2, 0]), (3, ![0, -2, 0])]
    Vprime := []
    R := []
    freeIdxMap := []
    freeIdx := 0
    L := []
    bFixed := []
    b := [] }

/-- The buffer `U` handed to solve on the kite: the free vertices 0 and 1 moved
out to `(∓3, 0, 0)`. -/
def kiteStart : List (Vec3 ℚ) := [![-3, 0, 0], ![3, 0, 0], ![0, 1, 0], ![0, -1, 0]]

/-- The kite with vertices 0 and 2 constrained instead, at their rest positions:
the free vertices 1 and 3 have the free indices 0 and 1. -/
def kiteSplit : Deform ℚ :=
  ((kite.init kite.V kite.F kite.W).setConstraint 0 ![-5 / 4, 0, 0]).setConstraint 2 ![0, 1, 0]

/-- Two right triangles `(0, 2, 1)` and `(0, 1, 3)` with the right angles at
vertex 0: corners `(0, 0, 0)`, `(0, 1, 0)`, `(1, 0, 0)`, `(-1, 0, 0)`.  The weight
matrix is data handed to Deform (`W = mesh.W`), symmetric and non-zero on mesh
edges only: 1 on the edges 0–1 and 0–3, and -2 on the edge 0–2.  These are not
the cotangent weights of this geometry (which are 1 on the edge 0–1 and 1/2 on
the edges 0–2 and 0–3).  Vertices 0, 1 and 3 are constrained at their rest
positions, vertex 2 is free. -/
def fan : Deform ℚ :=
  { V := [![0, 0, 0], ![0, 1, 0], ![1, 0, 0], ![-1, 0, 0]]
    F := [![0, 2, 1], ![0, 1, 3]]
    W := [[(1, 1), (2, -2), (3, 1)], [(0, 1)], [(0, -2)], [(0, 1)]]
    constraints := [(0, ![0, 0, 0]), (1, ![0, 1, 0]), (3, ![-1, 0, 0])]
    Vprime := []
    R := []
    freeIdxMap := []
    freeIdx := 0
    L := []
    bFixed := []
    b := [] }

/-- The pair `(i, j)` is an edge of the mesh: two different corners of one face. -/
def IsMeshEdge (F : List (Fin 3 → Nat)) (i j : Nat) : Prop :=
  ∃ f ∈ F, ∃ a b : Fin 3, a ≠ b ∧ f a = i ∧ f b = j

/-! ## float: IEEE 754 single precision -/

/-- A value of the C++ type `float` (IEEE 754 binary32): a NaN, an infinity with
its sign, or the finite value `± m · 2^e`.  Values produced by `F32.round` have
`m < 2^24` and `e ≥ -149`, with `m ≥ 2^23` unless `e = -149`; zero is `m = 0`
and keeps its sign. -/
inductive F32 where
  | nan
  | inf (neg : Bool)
  | fin (neg : Bool) (m : Nat) (e : Int)
  deriving DecidableEq, Repr

/-- Bounded search for the position of the leading binary digit. -/
def F32.log2Fuel : Nat → Nat → Nat
  | 0, _ => 0
  | fuel + 1, n => if 2 ≤ n then F32.log2Fuel fuel (n / 2) + 1 else 0

/-- The position of the leading binary digit of `n`: the largest `k` with
`2^k ≤ n`, and 0 for `n = 0`. -/
def F32.log2 (n : Nat) : Nat := F32.log2Fuel n n

/-- Rounding of the exact value `± (n / d) · 2^e` (with `d > 0`) to the nearest
float, ties to the even mantissa: results of magnitude `2^128` and above become
an infinity, results below `2^-126` are rounded on the grid `2^-149`. -/
def F32.round (neg : Bool) (n d : Nat) (e : Int) : F32 :=
  if n = 0 then .fin neg 0 (-149)
  else
    let k0 : Int := (F32.log2 n : Int) - (F32.log2 d : Int)
    let ge : Bool :=
      if 0 ≤ k0 then decide (d * 2 ^ k0.toNat ≤ n) else decide (d ≤ n * 2 ^ (-k0).toNat)
    let k : Int := if ge then k0 else k0 - 1
    let E : Int := max (k + e - 23) (-149)
    let s : Int := e - E
    let N : Nat := if 0 ≤ s then n * 2 ^ s.toNat else n
    let D : Nat := if 0 ≤ s then d else d * 2 ^ (-s).toNat
    let q : Nat := N / D
    let rem : Nat := N % D
    let m : Nat := if D < 2 * rem ∨ (2 * rem = D ∧ q % 2 = 1) then q + 1 else q
    let m' : Nat := if m = 2 ^ 24 then 2 ^ 23 else m
    let E' : Int := if m = 2 ^ 24 then E + 1 else E
    if 104 < E' then .inf neg else .fin neg m' E'

/-- The float nearest to the fraction `n / d`: how a decimal literal or an
exactly given coordinate enters the program. -/
def F32.ofFrac (n : Int) (d : Nat) : F32 :=
  F32.round (decide (n < 0)) n.natAbs d 0

/-- Unary minus: the sign is flipped. -/
def F32.neg : F32 → F32
  | .nan => .nan
  | .inf s => .inf (!s)
  | .fin s m e => .fin (!s) m e

/-- Float multiplication. -/
def F32.mul : F32 → F32 → F32
  | .nan, _ => .nan
  | _, .nan => .nan
  | .inf s, .inf t => .inf (xor s t)
  | .inf s, .fin t m _ => if m = 0 then .nan else .inf (xor s t)
  | .fin s m _, .inf t => if m = 0 then .nan else .inf (xor s t)
  | .fin s m1 e1, .fin t m2 e2 => F32.round (xor s t) (m1 * m2) 1 (e1 + e2)

/-- Float division. -/
def F32.div : F32 → F32 → F32
  | .nan, _ => .nan
  | _, .nan => .nan
  | .inf _, .inf _ => .nan
  | .inf s, .fin t _ _ => .inf (xor s t)
  | .fin s _ _, .inf t => .fin (xor s t) 0 (-149)
  | .fin s m1 e1, .fin t m2 e2 =>
    if m2 = 0 then (if m1 = 0 then .nan else .inf (xor s t))
    else F32.round (xor s t) m1 m2 (e1 - e2)

/-- The finite value `± m · 2^e` as an integer multiple of `2^c`, for `c ≤ e`. -/
def F32.scaled (s : Bool) (m : Nat) (e c : Int) : Int :=
  (if s then -1 else 1) * ((m * 2 ^ (e - c).toNat : Nat) : Int)

/-- Float addition. -/
def F32.add : F32 → F32 → F32
  | .nan, _ => .nan
  | _, .nan => .nan
  | .inf s, .inf t => if s = t then .inf s else .nan
  | .inf s, .fin _ _ _ => .inf s
  | .fin _ _ _, .inf t => .inf t
  | .fin s m1 e1, .fin t m2 e2 =>
    let c := min e1 e2
    let sum := F32.scaled s m1 e1 c + F32.scaled t m2 e2 c
    if sum = 0 then .fin (s && t) 0 (-149)
    else F32.round (decide (sum < 0)) sum.natAbs 1 c

/-- Float subtraction. -/
def F32.sub (a b : F32) : F32 := F32.add a b.neg

/-- The comparison `a < b` of floats: false when a NaN is involved. -/
def F32.lt : F32 → F32 → Bool
  | .nan, _ => false
  | _, .nan => false
  | .inf s, .inf t => s && !t
  | .inf s, .fin _ _ _ => s
  | .fin _ _ _, .inf t => !t
  | .fin s m1 e1, .fin t m2 e2 =>
    decide (F32.scaled s m1 e1 (min e1 e2) < F32.scaled t m2 e2 (min e1 e2))

/-- The comparison `a <= b` of floats: false when a NaN is involved. -/
def F32.le : F32 → F32 → Bool
  | .nan, _ => false
  | _, .nan => false
  | .inf s, .inf t => s || !t
  | .inf s, .fin _ _ _ => s
  | .fin _ _ _, .inf t => !t
  | .fin s m1 e1, .fin t m2 e2 =>
    decide (F32.scaled s m1 e1 (min e1 e2) ≤ F32.scaled t m2 e2 (min e1 e2))

/-- The comparison `a == 0`: true of both zeros only. -/
def F32.isZero : F32 → Bool
  | .fin _ m _ => decide (m = 0)
  | _ => false

/-- The float `0.0f`. -/
def F32.zero : F32 := .fin false 0 (-149)

/-- The float `1.0f`. -/
def F32.one : F32 := .fin false (2 ^ 23) (-23)

/-- The call `std::max(a, b)`: `(a < b) ? b : a`. -/
def F32.max (a b : F32) : F32 := if F32.lt a b then b else a

/-- The call `std::min(a, b)`: `(b < a) ? b : a`. -/
def F32.min (a b : F32) : F32 := if F32.lt b a then b else a

/-- The test `x != x`: true of a NaN only. -/
def F32.isNaN : F32 → Bool
  | .nan => true
  | _ => false

/-! ## The ray code in float arithmetic

`Ray32` and `Trav32` are the routines of `ray.cpp` once more, this time with
every `float` operation rounded as the machine rounds it; `Ray` and `Trav` above
are the same routines read over exact arithmetic. -/

/-- Eigen `a - b` on `Vector3f`. -/
def sub32 (a b : Vec3 F32) : Vec3 F32 := fun i => F32.sub (a i) (b i)

/-- Eigen `a.cross(b)` on `Vector3f`. -/
def cross32 (a b : Vec3 F32) : Vec3 F32 :=
  ![F32.sub (F32.mul (a 1) (b 2)) (F32.mul (a 2) (b 1)),
    F32.sub (F32.mul (a 2) (b 0)) (F32.mul (a 0) (b 2)),
    F32.sub (F32.mul (a 0) (b 1)) (F32.mul (a 1) (b 0))]

/-- Eigen `a.dot(b)` on `Vector3f`, the three products summed from left to
right.  (The order in which Eigen adds them is not fixed by the source; on the
sample inputs below every order gives the same values.) -/
def dot32 (a b : Vec3 F32) : F32 :=
  F32.add (F32.add (F32.mul (a 0) (b 0)) (F32.mul (a 1) (b 1))) (F32.mul (a 2) (b 2))

/-- The members of class `Ray` as the machine holds them. -/
structure Ray32 where
  V : List (Vec3 F32)
  F : List (Fin 3 → Nat)
  nodes : List (BVHNode F32)
  origin : Vec3 F32
  direction : Vec3 F32
  minTime : F32
  maxTime : F32

/-- Ray::set in float: `minTime = 0.0f`, `maxTime = +inf`. -/
def Ray32.set (r : Ray32) (origin_ direction_ : Vec3 F32) : Ray32 :=
  { r with origin := origin_, direction := direction_, minTime := F32.zero,
           maxTime := .inf false }

/-- Corner `k` of a face: `V.col(F(k, faceId))`. -/
def Ray32.faceVertex (r : Ray32) (faceId : Nat) (k : Fin 3) : Vec3 F32 :=
  r.V.getD ((r.F.getD faceId (fun _ => 0)) k) (fun _ => F32.zero)

/-- The values `(time, u, v)` that Ray::intersectFace computes when it gets past
`det == 0.0f`, before any range check. -/
def Ray32.faceValues (r : Ray32) (faceId : Nat) : F32 × F32 × F32 :=
  let va := r.faceVertex faceId 0
  let vb := r.faceVertex faceId 1
  let vc := r.faceVertex faceId 2
  let edge1 := sub32 vb va
  let edge2 := sub32 vc va
  let pvec := cross32 r.direction edge2
  let det := dot32 edge1 pvec
  let inv_det := F32.div F32.one det
  let tvec := sub32 r.origin va
  let u := F32.mul (dot32 tvec pvec) inv_det
  let qvec := cross32 tvec edge1
  let v := F32.mul (dot32 r.direction qvec) inv_det
  let time := F32.mul (dot32 edge2 qvec) inv_det
  (time, u, v)

/-- The determinant `edge1 · (direction × edge2)` as float intersectFace computes
it. -/
def Ray32.faceDet (r : Ray32) (faceId : Nat) : F32 :=
  dot32 (sub32 (r.faceVertex faceId 1) (r.faceVertex faceId 0))
    (cross32 r.direction (sub32 (r.faceVertex faceId 2) (r.faceVertex faceId 0)))

/-- Ray::intersectFace in float: `none` is `return false`; `some (t, u, v)` is
`return true` with the outputs `t` and `uv`. -/
def Ray32.intersectFace (r : Ray32) (faceId : Nat) : Option (F32 × F32 × F32) :=
  let va := r.faceVertex faceId 0
  let vb := r.faceVertex faceId 1
  let vc := r.faceVertex faceId 2
  let edge1 := sub32 vb va
  let edge2 := sub32 vc va
  let pvec := cross32 r.direction edge2
  let det := dot32 edge1 pvec
  if det.isZero then none else
  let inv_det := F32.div F32.one det
  let tvec := sub32 r.origin va
  let u := F32.mul (dot32 tvec pvec) inv_det
  if F32.lt u F32.zero || F32.lt F32.one u then none else
  let qvec := cross32 tvec edge1
  let v := F32.mul (dot32 r.direction qvec) inv_det
  if F32.lt v F32.zero || F32.lt F32.one (F32.add u v) then none else
  let time := F32.mul (dot32 edge2 qvec) inv_det
  if F32.lt time r.minTime || F32.lt r.maxTime time then none else
  some (time, u, v)

/-- Body of the `for` loop of intersectAABB in float for axis `i`, on the running
`(nearTime, farTime)`; `none` is `return false`. -/
def Ray32.slabAxis (r : Ray32) (aabb : AABB F32) (i : Fin 3) (nf : F32 × F32) :
    Option (F32 × F32) :=
  if (r.direction i).isZero then
    if F32.lt (r.origin i) (aabb.min i) || F32.lt (aabb.max i) (r.origin i) then none
    else some nf
  else
    let t1 := F32.div (F32.sub (aabb.min i) (r.origin i)) (r.direction i)
    let t2 := F32.div (F32.sub (aabb.max i) (r.origin i)) (r.direction i)
    let t12 := if F32.lt t2 t1 then (t2, t1) else (t1, t2)
    let nearTime := F32.max t12.1 nf.1
    let farTime := F32.min t12.2 nf.2
    if !(F32.le nearTime farTime) then none else some (nearTime, farTime)

/-- The `for` loop of intersectAABB in float over a list of axes, in order. -/
def Ray32.slabLoop (r : Ray32) (aabb : AABB F32) :
    List (Fin 3) → F32 × F32 → Option (F32 × F32)
  | [], nf => some nf
  | i :: rest, nf =>
    match r.slabAxis aabb i nf with
    | none => none
    | some nf' => r.slabLoop aabb rest nf'

/-- Ray::intersectAABB in float: the loop over the axes 0, 1, 2 from
`(-inf, +inf)`, then `minTime <= farTime && nearTime <= maxTime`. -/
def Ray32.intersectAABB (r : Ray32) (aabb : AABB F32) : Bool :=
  match r.slabLoop aabb [0, 1, 2] (.inf true, .inf false) with
  | none => false
  | some nf => F32.le r.minTime nf.2 && F32.le nf.1 r.maxTime

/-- Body of the `for` loop of the brute-force intersect() in float on the
running `(currentFaceId, minTime)`: `if (hit && time < minTime)`. -/
def Ray32.intersectStep (r : Ray32) (st : Int × F32) (i : Nat) : Int × F32 :=
  match r.intersectFace i with
  | some (time, _) => if F32.lt time st.2 then ((i : Int), time) else st
  | none => st

/-- Ray::intersect() in float. -/
def Ray32.intersect (r : Ray32) : Int :=
  ((List.range r.F.length).foldl r.intersectStep (-1, .inf false)).1

/-- The variables of the traversal in float. -/
structure Trav32 where
  ray : Ray32
  nodeId : Nat
  stack : List Nat
  hit : Bool
  faceId : Int
  t : F32
  uv : Option (F32 × F32)

/-- Body of the leaf loop in float for face `fi`. -/
def Trav32.leafStep (s : Trav32) (fi : Nat) : Trav32 :=
  match s.ray.intersectFace fi with
  | some (_t, _uv) =>
    { s with faceId := (fi : Int), t := _t, ray := { s.ray with maxTime := _t },
             hit := true, uv := s.uv.map (fun _ => _uv) }
  | none => s

/-- The leaf loop `for (fi = startId; fi < endId; ++fi)` in float. -/
def Trav32.leafLoop (s : Trav32) (startId endId : Nat) : Trav32 :=
  (List.range' startId (endId - startId)).foldl Trav32.leafStep s

/-- The shared tail `if (stackId == 0) break; nodeId = stack[--stackId]; continue;`. -/
def Trav32.pop (s : Trav32) : Bool × Trav32 :=
  match s.stack with
  | [] => (false, s)
  | top :: rest => (true, { s with nodeId := top, stack := rest })

/-- One iteration of `while (true)` in float. -/
def Trav32.step (s : Trav32) : Except TravError (Bool × Trav32) :=
  match s.ray.nodes.get? s.nodeId with
  | none => .error .nodeOutOfRange
  | some node =>
    if s.ray.intersectAABB node.aabb = false then
      .ok s.pop
    else
      match node with
      | .inner _ rightChild =>
        if stackSize ≤ s.stack.length then .error .stackOverflow
        else .ok (true, { s with stack := rightChild :: s.stack, nodeId := s.nodeId + 1 })
      | .leaf _ startId endId => .ok (s.leafLoop startId endId).pop

/-- The loop `while (true)` in float, with a bound on the number of iterations. -/
def Trav32.loop : Nat → Trav32 → Except TravError Trav32
  | 0, _ => .error .outOfFuel
  | fuel + 1, s =>
    match s.step with
    | .error e => .error e
    | .ok (true, s') => Trav32.loop fuel s'
    | .ok (false, s') => .ok s'

/-- The state in which Ray::intersect(faceId, t, uv) enters its loop, in float. -/
def Ray32.start (r : Ray32) (faceId : Int) (uv : Option (F32 × F32)) : Trav32 :=
  { ray := r, nodeId := 0, stack := [], hit := false, faceId := faceId, t := .inf false,
    uv := uv }

/-- Ray::intersect(faceId, t, uv) in float. -/
def Ray32.intersectBVH (r : Ray32) (fuel : Nat) (faceId : Int) (t : F32)
    (uv : Option (F32 × F32)) : Except TravError Trav32 :=
  if r.nodes.isEmpty then
    .ok { ray := r, nodeId := 0, stack := [], hit := false, faceId := faceId, t := t, uv := uv }
  else Trav32.loop fuel (r.start faceId uv)

/-- The exact value of a finite float; 0 for a NaN or an infinity. -/
def F32.toRat : F32 → ℚ
  | .fin s m e => (if s then -1 else 1) * (m : ℚ) * (2 : ℚ) ^ e
  | _ => 0

/-- A float time as a time of the exact model: `+inf` is the sentinel `⊤`. -/
def F32.toTime : F32 → WithTop ℚ
  | .inf false => ⊤
  | x => ((x.toRat : ℚ) : WithTop ℚ)

/-- A box with its coordinates taken exactly. -/
def exactBox (b : AABB F32) : AABB ℚ :=
  ⟨fun i => (b.min i).toRat, fun i => (b.max i).toRat⟩

/-- A node with its box taken exactly. -/
def exactNode : BVHNode F32 → BVHNode ℚ
  | .inner b rightChild => .inner (exactBox b) rightChild
  | .leaf b startId endId => .leaf (exactBox b) startId endId

/-- The same mesh, BVH and ray with every float taken as the exact number it
stands for: the input on which the exact reading of the code runs. -/
def Ray32.exact (r : Ray32) : Ray ℚ :=
  { V := r.V.map (fun p i => (p i).toRat)
    F := r.F
    nodes := r.nodes.map exactNode
    origin := fun i => (r.origin i).toRat
    direction := fun i => (r.direction i).toRat
    minTime := r.minTime.toRat
    maxTime := r.maxTime.toTime }

/-! ## Sample data in float -/

/-- The float nearest to the decimal literal `-0.8f`. -/
def minusEightTenths : F32 := F32.ofFrac (-8) 10

/-- One triangle in the plane `y = 1/2` under a single leaf whose box is the
bounding box of the triangle, and the ray from `(1.5, -0.8f, -4.5)` in the
direction `(-10, 13, 45)`, freshly set. -/
def flatRay : Ray32 :=
  { V := [![F32.ofFrac 1 2, F32.ofFrac 1 2, F32.ofFrac (-1) 2],
          ![F32.ofFrac 1 2, F32.ofFrac 1 2, F32.ofFrac 1 2],
          ![F32.ofFrac (-1) 2, F32.ofFrac 1 2, F32.ofFrac 0 1]]
    F := [![0, 1, 2]]
    nodes := [.leaf ⟨![F32.ofFrac (-1) 2, F32.ofFrac 1 2, F32.ofFrac (-1) 2],
                     ![F32.ofFrac 1 2, F32.ofFrac 1 2, F32.ofFrac 1 2]⟩ 0 1]
    origin := ![F32.ofFrac 3 2, minusEightTenths, F32.ofFrac (-9) 2]
    direction := ![F32.ofFrac (-10) 1, F32.ofFrac 13 1, F32.ofFrac 45 1]
    minTime := F32.zero
    maxTime := .inf false }

/-- The box of the leaf of `flatRay`. -/
def flatBox : AABB F32 :=
  ⟨![F32.ofFrac (-1) 2, F32.ofFrac 1 2, F32.ofFrac (-1) 2],
   ![F32.ofFrac 1 2, F32.ofFrac 1 2, F32.ofFrac 1 2]⟩

/-- A triangle with the corners `(0,0,0)`, `(9,0,0)`, `(0,45,0)` and the ray from
`(1, 40, 1)` straight down: it meets the triangle at `(1, 40, 0)`, a point of
the edge opposite the first corner. -/
def edgeRay : Ray32 :=
  { V := [![F32.ofFrac 0 1, F32.ofFrac 0 1, F32.ofFrac 0 1],
          ![F32.ofFrac 9 1, F32.ofFrac 0 1, F32.ofFrac 0 1],
          ![F32.ofFrac 0 1, F32.ofFrac 45 1, F32.ofFrac 0 1]]
    F := [![0, 1, 2]]
    nodes := []
    origin := ![F32.ofFrac 1 1, F32.ofFrac 40 1, F32.ofFrac 1 1]
    direction := ![F32.ofFrac 0 1, F32.ofFrac 0 1, F32.ofFrac (-1) 1]
    minTime := F32.zero
    maxTime := .inf false }

/-- The float `2^70`. -/
def big : F32 := .fin false (2 ^ 23) 47

/-- A triangle with the corners `(0,0,0)`, `(2^70,0,0)`, `(0,2^70,0)` under a
single leaf with its bounding box, and the ray from `(2^68, 2^68, 2^70)`
straight down, freshly set. -/
def bigRay : Ray32 :=
  { V := [![F32.zero, F32.zero, F32.zero], ![big, F32.zero, F32.zero],
          ![F32.zero, big, F32.zero]]
    F := [![0, 1, 2]]
    nodes := [.leaf ⟨![F32.zero, F32.zero, F32.zero], ![big, big, F32.zero]⟩ 0 1]
    origin := ![.fin false (2 ^ 23) 45, .fin false (2 ^ 23) 45, big]
    direction := ![F32.zero, F32.zero, F32.ofFrac (-1) 1]
    minTime := F32.zero
    maxTime := .inf false }

/-- The states at the head of the iterations of `while (true)` that the float
loop runs through from `s`, in order, for at most `fuel` iterations. -/
def Trav32.run : Nat → Trav32 → List Trav32
  | 0, _ => []
  | fuel + 1, s =>
    s :: (match s.step with
      | .ok (true, s') => Trav32.run fuel s'
      | _ => [])

/-- No face of the mesh is hit at a time that is a NaN, whatever `maxTime` the
traversal has tightened the ray to. -/
def Ray32.TimesDefined (r : Ray32) : Prop :=
  ∀ (m : F32) (fi : Nat) (t : F32) (uv : F32 × F32),
    ({ r with maxTime := m } : Ray32).intersectFace fi = some (t, uv) → t.isNaN = false

/-- The float state `s'` comes after `s` in a traversal: the ray differs at most
in `maxTime`, which compares `<=` to the one before and `>=` to `minTime` if it
did before, and `t` is still the `maxTime` of the ray after a hit if it was
before. -/
def Trav32.Tightened (s s' : Trav32) : Prop :=
  s'.ray = { s.ray with maxTime := s'.ray.maxTime } ∧
  F32.le s'.ray.maxTime s.ray.maxTime = true ∧
  (F32.le s.ray.minTime s.ray.maxTime = true → F32.le s.ray.minTime s'.ray.maxTime = true) ∧
  ((s.hit = true → s.ray.maxTime = s.t) → (s'.hit = true → s'.ray.maxTime = s'.t))

/-- What the float traversal of the tree of `r` keeps true at the head of every
iteration, as `Trav.OnTree` for the exact one. -/
def Trav32.OnTree (r : Ray32) (s : Trav32) : Prop :=
  s.ray.nodes = r.nodes ∧ r.exact.Frames r.exact.nodes.length s.nodeId s.stack ∧
  descends r.exact.depth (r.exact.depth s.nodeId) s.stack

/-- Two triangles over the unit right triangle, face 0 in the plane `z = 2` and
face 1 in the plane `z = 1`, under an inner node with one leaf for each, and the
ray from `(1/4, 1/4, 0)` straight up, freshly set: it meets face 0 at time 2 and
face 1 at time 1. -/
def layerRay : Ray32 :=
  { V := [![F32.ofFrac 0 1, F32.ofFrac 0 1, F32.ofFrac 2 1],
          ![F32.ofFrac 1 1, F32.ofFrac 0 1, F32.ofFrac 2 1],
          ![F32.ofFrac 0 1, F32.ofFrac 1 1, F32.ofFrac 2 1],
          ![F32.ofFrac 0 1, F32.ofFrac 0 1, F32.ofFrac 1 1],
          ![F32.ofFrac 1 1, F32.ofFrac 0 1, F32.ofFrac 1 1],
          ![F32.ofFrac 0 1, F32.ofFrac 1 1, F32.ofFrac 1 1]]
    F := [![0, 1, 2], ![3, 4, 5]]
    nodes := [.inner ⟨![F32.ofFrac 0 1, F32.ofFrac 0 1, F32.ofFrac 1 1],
                      ![F32.ofFrac 1 1, F32.ofFrac 1 1, F32.ofFrac 2 1]⟩ 2,
              .leaf ⟨![F32.ofFrac 0 1, F32.ofFrac 0 1, F32.ofFrac 2 1],
                     ![F32.ofFrac 1 1, F32.ofFrac 1 1, F32.ofFrac 2 1]⟩ 0 1,
              .leaf ⟨![F32.ofFrac 0 1, F32.ofFrac 0 1, F32.ofFrac 1 1],
                     ![F32.ofFrac 1 1, F32.ofFrac 1 1, F32.ofFrac 1 1]⟩ 1 2]
    origin := ![F32.ofFrac 1 4, F32.ofFrac 1 4, F32.ofFrac 0 1]
    direction := ![F32.ofFrac 0 1, F32.ofFrac 0 1, F32.ofFrac 1 1]
    minTime := F32.zero
    maxTime := .inf false }

/-! # Theorems -/

/-! ### Unfolding of intersectFace -/

theorem intersectFace_eq_some_iff (r : Ray K) (faceId : Nat) (t u v : K) :
    r.intersectFace faceId = some (t, u, v) ↔
      r.faceDet faceId ≠ 0 ∧
      u = dot (r.origin - r.faceVertex faceId 0)
            (cross r.direction (r.faceVertex faceId 2 - r.faceVertex faceId 0))
          * (1 / r.faceDet faceId) ∧
      v = dot r.direction (cross (r.origin - r.faceVertex faceId 0)
            (r.faceVertex faceId 1 - r.faceVertex faceId 0)) * (1 / r.faceDet faceId) ∧
      t = dot (r.faceVertex faceId 2 - r.faceVertex faceId 0)
            (cross (r.origin - r.faceVertex faceId 0)
              (r.faceVertex faceId 1 - r.faceVertex faceId 0)) * (1 / r.faceDet faceId) ∧
      0 ≤ u ∧ u ≤ 1 ∧ 0 ≤ v ∧ u + v ≤ 1 ∧ r.minTime ≤ t ∧ (t : WithTop K) ≤ r.maxTime := by
  unfold Ray.intersectFace Ray.faceDet
  simp only []
  split_ifs with h1 h2 h3 h4
  · simp [h1]
  · constructor
    · intro h; cases h
    · rintro ⟨_, hu, _, _, h0, h1', _⟩
      rcases h2 with h2 | h2
      · rw [← hu] at h2; exact absurd h0 (not_le.mpr h2)
      · rw [← hu] at h2; exact absurd h1' (not_le.mpr h2)
  · constructor
    · intro h; cases h
    · rintro ⟨_, hu, hv, _, _, _, h0, h1', _⟩
      rcases h3 with h3 | h3
      · rw [← hv] at h3; exact absurd h0 (not_le.mpr h3)
      · rw [← hu, ← hv] at h3; exact absurd h1' (not_le.mpr h3)
  · constructor
    · intro h; cases h
    · rintro ⟨_, _, _, ht, _, _, _, _, h0, h1'⟩
      rcases h4 with h4 | h4
      · rw [← ht] at h4; exact absurd h0 (not_le.mpr h4)
      · rw [← ht] at h4; exact absurd h1' (not_le.mpr h4)
  · push_neg at h2 h3 h4
    constructor
    · intro h
      simp only [Option.some.injEq, Prod.mk.injEq] at h
      obtain ⟨ht, hu, hv⟩ := h
      subst ht hu hv
      exact ⟨h1, rfl, rfl, rfl, h2.1, h2.2, h3.1, h3.2, h4.1, h4.2⟩
    · rintro ⟨_, hu, hv, ht, _⟩
      rw [hu, hv, ht]

/-- Cramer's rule behind Möller–Trumbore, coordinate by coordinate: with
`tvec = origin - va`, `det·tvec = -(edge2·qvec)·dir + (tvec·pvec)·edge1 + (dir·qvec)·edge2`. -/
theorem cramer_identity (o d va vb vc : Vec3 K) (i : Fin 3) :
    dot (vb - va) (cross d (vc - va)) * (o i - va i) =
      - dot (vc - va) (cross (o - va) (vb - va)) * d i
      + dot (o - va) (cross d (vc - va)) * (vb i - va i)
      + dot d (cross (o - va) (vb - va)) * (vc i - va i) := by
  fin_cases i <;> simp [dot, cross] <;> ring

/-- A hit reported by intersectFace is a point of the triangle at a time of the
validity interval. -/
theorem intersectFace_hitsAt (r : Ray K) (faceId : Nat) (t u v : K)
    (h : r.intersectFace faceId = some (t, u, v)) : r.HitsAt faceId t u v := by
  obtain ⟨hdet, hu, hv, ht, hu0, -, hv0, huv, hmin, hmax⟩ :=
    (intersectFace_eq_some_iff r faceId t u v).1 h
  refine ⟨fun i => ?_, hu0, hv0, huv, hmin, hmax⟩
  have hc := cramer_identity r.origin r.direction (r.faceVertex faceId 0)
    (r.faceVertex faceId 1) (r.faceVertex faceId 2) i
  have hu' : u * r.faceDet faceId = dot (r.origin - r.faceVertex faceId 0)
      (cross r.direction (r.faceVertex faceId 2 - r.faceVertex faceId 0)) := by
    rw [hu]; field_simp
  have hv' : v * r.faceDet faceId = dot r.direction (cross (r.origin - r.faceVertex faceId 0)
      (r.faceVertex faceId 1 - r.faceVertex faceId 0)) := by
    rw [hv]; field_simp
  have ht' : t * r.faceDet faceId = dot (r.faceVertex faceId 2 - r.faceVertex faceId 0)
      (cross (r.origin - r.faceVertex faceId 0)
        (r.faceVertex faceId 1 - r.faceVertex faceId 0)) := by
    rw [ht]; field_simp
  rw [← hu', ← hv', ← ht'] at hc
  have key : r.faceDet faceId * (r.origin i + t * r.direction i) =
      r.faceDet faceId * ((1 - u - v) * r.faceVertex faceId 0 i + u * r.faceVertex faceId 1 i
        + v * r.faceVertex faceId 2 i) := by
    have hc2 : r.faceDet faceId * (r.origin i - r.faceVertex faceId 0 i) =
        -(t * r.faceDet faceId) * r.direction i
        + u * r.faceDet faceId * (r.faceVertex faceId 1 i - r.faceVertex faceId 0 i)
        + v * r.faceDet faceId * (r.faceVertex faceId 2 i - r.faceVertex faceId 0 i) := hc
    linear_combination hc2
  exact mul_left_cancel₀ hdet key

/-- C5. Soundness of Ray::intersectFace (Möller–Trumbore) over exact arithmetic:
whenever it reports a hit with `(t, u, v)`, the point `origin + t·direction` equals
`(1 − u − v)·va + u·vb + v·vc`, with `u ≥ 0`, `v ≥ 0`, `u + v ≤ 1` and
`minTime ≤ t ≤ maxTime`; consequently, when no `(t, u, v)` in range puts a point of
the ray into the triangle, it reports a miss. -/
theorem intersectFace_sound (r : Ray K) (faceId : Nat) :
    (∀ t u v : K, r.intersectFace faceId = some (t, u, v) → r.HitsAt faceId t u v) ∧
    ((¬ ∃ t u v : K, r.HitsAt faceId t u v) → r.intersectFace faceId = none) := by
  refine ⟨intersectFace_hitsAt r faceId, fun hno => ?_⟩
  cases hres : r.intersectFace faceId with
  | none => rfl
  | some tuv =>
    obtain ⟨t, u, v⟩ := tuv
    exact absurd ⟨t, u, v, intersectFace_hitsAt r faceId t u v hres⟩ hno

/-- Uniqueness behind Möller–Trumbore: a solution `(t, u, v)` of
`origin + t·dir = va + u·edge1 + v·edge2` is given by the three triple products. -/
theorem triple_products_of_solution (o d va vb vc : Vec3 K) (t u v : K)
    (h : ∀ i : Fin 3, o i + t * d i = va i + u * (vb i - va i) + v * (vc i - va i)) :
    dot (o - va) (cross d (vc - va)) = u * dot (vb - va) (cross d (vc - va)) ∧
    dot d (cross (o - va) (vb - va)) = v * dot (vb - va) (cross d (vc - va)) ∧
    dot (vc - va) (cross (o - va) (vb - va)) = t * dot (vb - va) (cross d (vc - va)) := by
  have h0 := h 0
  have h1 := h 1
  have h2 := h 2
  simp only [dot, cross, Pi.sub_apply, Matrix.cons_val_zero, Matrix.cons_val_one,
    Matrix.head_cons, Matrix.cons_val_two, Matrix.tail_cons]
  refine ⟨?_, ?_, ?_⟩
  · linear_combination (d 1 * (vc 2 - va 2) - d 2 * (vc 1 - va 1)) * h0
      + (d 2 * (vc 0 - va 0) - d 0 * (vc 2 - va 2)) * h1
      + (d 0 * (vc 1 - va 1) - d 1 * (vc 0 - va 0)) * h2
  · linear_combination ((vb 1 - va 1) * d 2 - (vb 2 - va 2) * d 1) * h0
      + ((vb 2 - va 2) * d 0 - (vb 0 - va 0) * d 2) * h1
      + ((vb 0 - va 0) * d 1 - (vb 1 - va 1) * d 0) * h2
  · linear_combination ((vb 1 - va 1) * (vc 2 - va 2) - (vb 2 - va 2) * (vc 1 - va 1)) * h0
      + ((vb 2 - va 2) * (vc 0 - va 0) - (vb 0 - va 0) * (vc 2 - va 2)) * h1
      + ((vb 0 - va 0) * (vc 1 - va 1) - (vb 1 - va 1) * (vc 0 - va 0)) * h2

/-- Completeness of intersectFace for a non-zero determinant. -/
theorem intersectFace_of_solution (r : Ray K) (faceId : Nat) (t u v : K)
    (hdet : r.faceDet faceId ≠ 0)
    (ht0 : r.minTime ≤ t) (ht1 : (t : WithTop K) ≤ r.maxTime)
    (hu : 0 ≤ u) (hv : 0 ≤ v) (huv : u + v ≤ 1)
    (h : ∀ i : Fin 3, r.origin i + t * r.direction i =
      r.faceVertex faceId 0 i + u * (r.faceVertex faceId 1 i - r.faceVertex faceId 0 i)
        + v * (r.faceVertex faceId 2 i - r.faceVertex faceId 0 i)) :
    r.intersectFace faceId = some (t, u, v) := by
  obtain ⟨e1, e2, e3⟩ := triple_products_of_solution r.origin r.direction
    (r.faceVertex faceId 0) (r.faceVertex faceId 1) (r.faceVertex faceId 2) t u v h
  rw [intersectFace_eq_some_iff]
  have hD : r.faceDet faceId = dot (r.faceVertex faceId 1 - r.faceVertex faceId 0)
      (cross r.direction (r.faceVertex faceId 2 - r.faceVertex faceId 0)) := rfl
  rw [← hD] at e1 e2 e3
  refine ⟨hdet, ?_, ?_, ?_, hu, by linarith, hv, huv, ht0, ht1⟩
  · rw [e1]; field_simp
  · rw [e2]; field_simp
  · rw [e3]; field_simp

/-- C6, amended. Over exact arithmetic, Ray::intersectFace is complete up to
exact parallelism: a zero determinant `edge1 · (direction × edge2)` gives a miss, and for a non-zero
determinant every `t` in `[minTime, maxTime]` and `u ≥ 0`, `v ≥ 0`, `u + v ≤ 1` with
`origin + t·direction = va + u·(vb − va) + v·(vc − va)` is reported as the hit
`(t, u, v)`. -/
theorem intersectFace_complete (r : Ray K) (faceId : Nat) :
    (r.faceDet faceId = 0 → r.intersectFace faceId = none) ∧
    (r.faceDet faceId ≠ 0 → ∀ t u v : K,
      r.minTime ≤ t → (t : WithTop K) ≤ r.maxTime → 0 ≤ u → 0 ≤ v → u + v ≤ 1 →
      (∀ i : Fin 3, r.origin i + t * r.direction i =
        r.faceVertex faceId 0 i + u * (r.faceVertex faceId 1 i - r.faceVertex faceId 0 i)
          + v * (r.faceVertex faceId 2 i - r.faceVertex faceId 0 i)) →
      r.intersectFace faceId = some (t, u, v)) := by
  constructor
  · intro h0
    have h0' : dot (r.faceVertex faceId 1 - r.faceVertex faceId 0)
      (cross r.direction (r.faceVertex faceId 2 - r.faceVertex faceId 0)) = 0 := h0
    unfold Ray.intersectFace
    simp only [h0', if_true]
  · intro hdet t u v ht0 ht1 hu hv huv h
    exact intersectFace_of_solution r faceId t u v hdet ht0 ht1 hu hv huv h

/-! ### The slab test -/

theorem XTime.fin_le_fin (a b : K) : XTime.fin a ≤ XTime.fin b ↔ a ≤ b := by
  simp [XTime.fin]

theorem XTime.fin_max (a b : K) : max (XTime.fin a) (XTime.fin b) = XTime.fin (max a b) := by
  rcases le_total a b with h | h
  · rw [max_eq_right h, max_eq_right ((XTime.fin_le_fin a b).2 h)]
  · rw [max_eq_left h, max_eq_left ((XTime.fin_le_fin b a).2 h)]

/-- On an axis with non-zero direction the sorted pair `(t1, t2)` bounds exactly
the times at which the ray is inside the slab. -/
theorem inSlab_iff_sorted (r : Ray K) (aabb : AABB K) (i : Fin 3)
    (hbox : aabb.min i ≤ aabb.max i) (hd : r.direction i ≠ 0) (t : K) :
    r.InSlab aabb i t ↔
      (if (aabb.min i - r.origin i) / r.direction i > (aabb.max i - r.origin i) / r.direction i
        then ((aabb.max i - r.origin i) / r.direction i, (aabb.min i - r.origin i) / r.direction i)
        else ((aabb.min i - r.origin i) / r.direction i,
              (aabb.max i - r.origin i) / r.direction i)).1 ≤ t ∧
      t ≤ (if (aabb.min i - r.origin i) / r.direction i
            > (aabb.max i - r.origin i) / r.direction i
        then ((aabb.max i - r.origin i) / r.direction i, (aabb.min i - r.origin i) / r.direction i)
        else ((aabb.min i - r.origin i) / r.direction i,
              (aabb.max i - r.origin i) / r.direction i)).2 := by
  unfold Ray.InSlab
  rcases lt_or_gt_of_ne hd with hneg | hpos
  · -- negative direction: dividing reverses the order
    have e1 : ∀ c : K, c / r.direction i ≤ t ↔ t * r.direction i ≤ c := fun c =>
      div_le_iff_of_neg hneg
    have e2 : ∀ c : K, t ≤ c / r.direction i ↔ c ≤ t * r.direction i := fun c =>
      le_div_iff_of_neg hneg
    have hle : (aabb.max i - r.origin i) / r.direction i ≤
        (aabb.min i - r.origin i) / r.direction i := by
      rw [div_le_iff_of_neg hneg, div_mul_cancel₀ _ hd]; linarith
    split_ifs with hgt
    · simp only [e1, e2]
      constructor
      · rintro ⟨h1, h2⟩; exact ⟨by linarith, by linarith⟩
      · rintro ⟨h1, h2⟩; exact ⟨by linarith, by linarith⟩
    · have heq : (aabb.min i - r.origin i) / r.direction i =
          (aabb.max i - r.origin i) / r.direction i := le_antisymm (not_lt.mp hgt) hle
      have hmm : aabb.min i = aabb.max i := by
        have := congrArg (fun x => x * r.direction i) heq
        simp only [div_mul_cancel₀ _ hd] at this
        linarith
      simp only [e1, e2]
      constructor
      · rintro ⟨h1, h2⟩; exact ⟨by linarith, by linarith⟩
      · rintro ⟨h1, h2⟩; exact ⟨by linarith, by linarith⟩
  · have e1 : ∀ c : K, c / r.direction i ≤ t ↔ c ≤ t * r.direction i := fun c =>
      div_le_iff₀ hpos
    have e2 : ∀ c : K, t ≤ c / r.direction i ↔ t * r.direction i ≤ c := fun c =>
      le_div_iff₀ hpos
    have hle : (aabb.min i - r.origin i) / r.direction i ≤
        (aabb.max i - r.origin i) / r.direction i := by
      rw [div_le_iff₀ hpos, div_mul_cancel₀ _ hd]; linarith
    rw [if_neg (not_lt.mpr hle)]
    simp only [e1, e2]
    constructor
    · rintro ⟨h1, h2⟩; exact ⟨by linarith, by linarith⟩
    · rintro ⟨h1, h2⟩; exact ⟨by linarith, by linarith⟩

/-- A successful loop body narrows `[nearTime, farTime]` to exactly the times
that are also inside the slab of axis `i`, and keeps `nearTime` below `+inf`. -/
theorem slabAxis_some (r : Ray K) (aabb : AABB K) (i : Fin 3)
    (hbox : aabb.min i ≤ aabb.max i) (n f n' f' : XTime K)
    (h : r.slabAxis aabb i (n, f) = some (n', f')) :
    (n.NotTop → n'.NotTop) ∧ (n ≤ f → n' ≤ f') ∧
    ∀ t : K, (n' ≤ XTime.fin t ∧ XTime.fin t ≤ f') ↔
      (n ≤ XTime.fin t ∧ XTime.fin t ≤ f ∧ r.InSlab aabb i t) := by
  unfold Ray.slabAxis at h
  by_cases hd : r.direction i = 0
  · rw [if_pos hd] at h
    split_ifs at h with hout
    simp only [Option.some.injEq, Prod.mk.injEq] at h
    obtain ⟨rfl, rfl⟩ := h
    push_neg at hout
    refine ⟨id, id, fun t => ?_⟩
    have hin : r.InSlab aabb i t := by
      unfold Ray.InSlab
      rw [hd, mul_zero, add_zero]
      exact hout
    constructor
    · rintro ⟨h1, h2⟩; exact ⟨h1, h2, hin⟩
    · rintro ⟨h1, h2, _⟩; exact ⟨h1, h2⟩
  · rw [if_neg hd] at h
    simp only [] at h
    split_ifs at h with hgt hnf hnf
    all_goals
      simp only [Option.some.injEq, Prod.mk.injEq] at h
      obtain ⟨rfl, rfl⟩ := h
      have hs := inSlab_iff_sorted r aabb i hbox hd
      first
        | rw [if_pos hgt] at hs
        | rw [if_neg hgt] at hs
      simp only [] at hs
      refine ⟨?_, fun _ => hnf, fun t => ?_⟩
      · rintro (rfl | ⟨a, rfl⟩)
        · right; exact ⟨_, max_eq_left bot_le⟩
        · right; exact ⟨_, XTime.fin_max _ _⟩
      · rw [max_le_iff, le_min_iff, XTime.fin_le_fin, XTime.fin_le_fin, hs t]
        tauto

/-- A loop body that returns `false` means that no time of `[nearTime, farTime]`
is inside the slab of axis `i`. -/
theorem slabAxis_none (r : Ray K) (aabb : AABB K) (i : Fin 3)
    (hbox : aabb.min i ≤ aabb.max i) (n f : XTime K)
    (h : r.slabAxis aabb i (n, f) = none) (t : K) :
    ¬ (n ≤ XTime.fin t ∧ XTime.fin t ≤ f ∧ r.InSlab aabb i t) := by
  unfold Ray.slabAxis at h
  by_cases hd : r.direction i = 0
  · rw [if_pos hd] at h
    split_ifs at h with hout
    rintro ⟨-, -, hin⟩
    unfold Ray.InSlab at hin
    rw [hd, mul_zero, add_zero] at hin
    rcases hout with hout | hout
    · exact absurd hin.1 (not_le.mpr hout)
    · exact absurd hin.2 (not_le.mpr hout)
  · rw [if_neg hd] at h
    simp only [] at h
    have hs := inSlab_iff_sorted r aabb i hbox hd t
    rintro ⟨h1, h2, hin⟩
    rw [hs] at hin
    split_ifs at h hin with hgt hnf hnf
    all_goals
      apply hnf
      simp only []
      exact le_trans (max_le ((XTime.fin_le_fin _ _).2 hin.1) h1)
        (le_min ((XTime.fin_le_fin _ _).2 hin.2) h2)

/-- The loop over a list of axes: a successful run narrows the interval to the
times inside all these slabs. -/
theorem slabLoop_some (r : Ray K) (aabb : AABB K) (axes : List (Fin 3))
    (hbox : ∀ i ∈ axes, aabb.min i ≤ aabb.max i) :
    ∀ n f n' f' : XTime K, r.slabLoop aabb axes (n, f) = some (n', f') →
      (n.NotTop → n'.NotTop) ∧ (n ≤ f → n' ≤ f') ∧
      ∀ t : K, (n' ≤ XTime.fin t ∧ XTime.fin t ≤ f') ↔
        (n ≤ XTime.fin t ∧ XTime.fin t ≤ f ∧ ∀ i ∈ axes, r.InSlab aabb i t) := by
  induction axes with
  | nil =>
    intro n f n' f' h
    simp only [Ray.slabLoop, Option.some.injEq, Prod.mk.injEq] at h
    obtain ⟨rfl, rfl⟩ := h
    exact ⟨id, id, fun t => by simp⟩
  | cons i rest ih =>
    intro n f n' f' h
    simp only [Ray.slabLoop] at h
    cases hax : r.slabAxis aabb i (n, f) with
    | none => rw [hax] at h; cases h
    | some nf1 =>
      obtain ⟨n1, f1⟩ := nf1
      rw [hax] at h
      obtain ⟨hT1, hL1, hI1⟩ :=
        slabAxis_some r aabb i (hbox i (List.mem_cons_self _ _)) n f n1 f1 hax
      obtain ⟨hT2, hL2, hI2⟩ := ih (fun j hj => hbox j (List.mem_cons_of_mem _ hj)) n1 f1 n' f' h
      refine ⟨fun hn => hT2 (hT1 hn), fun hn => hL2 (hL1 hn), fun t => ?_⟩
      rw [hI2 t, ← and_assoc, hI1 t]
      simp only [List.mem_cons, forall_eq_or_imp]
      tauto

/-- The loop over a list of axes: `return false` inside the loop means that no
time of the interval is inside all these slabs. -/
theorem slabLoop_none (r : Ray K) (aabb : AABB K) (axes : List (Fin 3))
    (hbox : ∀ i ∈ axes, aabb.min i ≤ aabb.max i) :
    ∀ n f : XTime K, r.slabLoop aabb axes (n, f) = none → ∀ t : K,
      ¬ (n ≤ XTime.fin t ∧ XTime.fin t ≤ f ∧ ∀ i ∈ axes, r.InSlab aabb i t) := by
  induction axes with
  | nil => intro n f h; simp [Ray.slabLoop] at h
  | cons i rest ih =>
    intro n f h t
    simp only [Ray.slabLoop] at h
    cases hax : r.slabAxis aabb i (n, f) with
    | none =>
      rintro ⟨h1, h2, h3⟩
      exact slabAxis_none r aabb i (hbox i (List.mem_cons_self _ _)) n f hax t
        ⟨h1, h2, h3 i (List.mem_cons_self _ _)⟩
    | some nf1 =>
      obtain ⟨n1, f1⟩ := nf1
      rw [hax] at h
      obtain ⟨-, -, hI1⟩ :=
        slabAxis_some r aabb i (hbox i (List.mem_cons_self _ _)) n f n1 f1 hax
      rintro ⟨h1, h2, h3⟩
      refine ih (fun j hj => hbox j (List.mem_cons_of_mem _ hj)) n1 f1 h t ⟨?_, ?_, ?_⟩
      · exact ((hI1 t).2 ⟨h1, h2, h3 i (List.mem_cons_self _ _)⟩).1
      · exact ((hI1 t).2 ⟨h1, h2, h3 i (List.mem_cons_self _ _)⟩).2
      · exact fun j hj => h3 j (List.mem_cons_of_mem _ hj)

/-- The slab test on a list of axes decides whether some time of
`[minTime, maxTime]` is inside all these slabs. -/
theorem slabTest_iff (r : Ray K) (aabb : AABB K) (axes : List (Fin 3))
    (hbox : ∀ i ∈ axes, aabb.min i ≤ aabb.max i)
    (ht : (r.minTime : WithTop K) ≤ r.maxTime) :
    r.slabTest aabb axes = true ↔
      ∃ t : K, r.minTime ≤ t ∧ (t : WithTop K) ≤ r.maxTime ∧
        ∀ i ∈ axes, r.InSlab aabb i t := by
  unfold Ray.slabTest
  cases hl : r.slabLoop aabb axes (⊥, ((⊤ : WithTop K) : XTime K)) with
  | none =>
    simp only [Bool.false_eq_true, false_iff]
    rintro ⟨t, -, -, h3⟩
    exact slabLoop_none r aabb axes hbox _ _ hl t ⟨bot_le, by simp [XTime.fin], h3⟩
  | some nf =>
    obtain ⟨n', f'⟩ := nf
    obtain ⟨hT, hL, hI⟩ := slabLoop_some r aabb axes hbox _ _ n' f' hl
    simp only [decide_eq_true_eq]
    constructor
    · rintro ⟨hmin, hmax⟩
      rcases hT (Or.inl rfl) with rfl | ⟨a, rfl⟩
      · refine ⟨r.minTime, le_refl _, ht, ?_⟩
        exact ((hI r.minTime).1 ⟨bot_le, hmin⟩).2.2
      · refine ⟨max a r.minTime, le_max_right _ _, ?_, ?_⟩
        · have ha : (a : WithTop K) ≤ r.maxTime := by
            simpa [XTime.fin] using hmax
          rcases le_total a r.minTime with h | h
          · rw [max_eq_right h]; exact ht
          · rw [max_eq_left h]; exact ha
        · have hnf : XTime.fin a ≤ f' := hL bot_le
          refine ((hI (max a r.minTime)).1 ⟨?_, ?_⟩).2.2
          · exact (XTime.fin_le_fin _ _).2 (le_max_left _ _)
          · rw [← XTime.fin_max]; exact max_le hnf hmin
    · rintro ⟨t, h1, h2, h3⟩
      obtain ⟨hn, hf⟩ := (hI t).2 ⟨bot_le, by simp [XTime.fin], h3⟩
      refine ⟨le_trans ((XTime.fin_le_fin _ _).2 h1) hf, le_trans hn ?_⟩
      simpa [XTime.fin] using h2

/-- C7, amended. Over exact arithmetic, Ray::intersectAABB decides ray/box overlap
on the validity interval: for a box with `min ≤ max` on each axis and a ray with `minTime ≤ maxTime`, it
returns true if and only if some time `t` with `minTime ≤ t ≤ maxTime` puts
`origin + t·direction` inside the box on all three axes. -/
theorem intersectAABB_iff (r : Ray K) (aabb : AABB K)
    (hbox : ∀ i : Fin 3, aabb.min i ≤ aabb.max i)
    (ht : (r.minTime : WithTop K) ≤ r.maxTime) :
    r.intersectAABB aabb = true ↔
      ∃ t : K, r.minTime ≤ t ∧ (t : WithTop K) ≤ r.maxTime ∧
        ∀ i : Fin 3, aabb.min i ≤ r.origin i + t * r.direction i ∧
          r.origin i + t * r.direction i ≤ aabb.max i := by
  unfold Ray.intersectAABB
  rw [slabTest_iff r aabb [0, 1, 2] (fun i _ => hbox i) ht]
  constructor
  · rintro ⟨t, h1, h2, h3⟩
    refine ⟨t, h1, h2, fun i => h3 i ?_⟩
    fin_cases i <;> simp
  · rintro ⟨t, h1, h2, h3⟩
    exact ⟨t, h1, h2, fun i _ => h3 i⟩

/-! ### Rays parallel to an axis -/

theorem slabAxis_parallel_outside (r : Ray K) (aabb : AABB K) (i : Fin 3)
    (hd : r.direction i = 0) (hout : r.origin i < aabb.min i ∨ r.origin i > aabb.max i)
    (nf : XTime K × XTime K) : r.slabAxis aabb i nf = none := by
  unfold Ray.slabAxis
  rw [if_pos hd, if_pos hout]

theorem slabAxis_parallel_inside (r : Ray K) (aabb : AABB K) (i : Fin 3)
    (hd : r.direction i = 0) (hin : aabb.min i ≤ r.origin i ∧ r.origin i ≤ aabb.max i)
    (nf : XTime K × XTime K) : r.slabAxis aabb i nf = some nf := by
  unfold Ray.slabAxis
  rw [if_pos hd, if_neg]
  rintro (h | h)
  · exact absurd hin.1 (not_le.mpr h)
  · exact absurd hin.2 (not_le.mpr h)

theorem slabLoop_parallel_outside (r : Ray K) (aabb : AABB K) (i : Fin 3)
    (hd : r.direction i = 0) (hout : r.origin i < aabb.min i ∨ r.origin i > aabb.max i)
    (axes : List (Fin 3)) (hi : i ∈ axes) :
    ∀ nf : XTime K × XTime K, r.slabLoop aabb axes nf = none := by
  induction axes with
  | nil => simp at hi
  | cons j rest ih =>
    intro nf
    simp only [Ray.slabLoop]
    by_cases hj : j = i
    · rw [hj, slabAxis_parallel_outside r aabb i hd hout]
    · have hi' : i ∈ rest := by
        rcases List.mem_cons.1 hi with h | h
        · exact absurd h.symm hj
        · exact h
      cases r.slabAxis aabb j nf with
      | none => rfl
      | some nf' => exact ih hi' nf'

theorem slabLoop_parallel_inside (r : Ray K) (aabb : AABB K) (i : Fin 3)
    (hd : r.direction i = 0) (hin : aabb.min i ≤ r.origin i ∧ r.origin i ≤ aabb.max i)
    (axes : List (Fin 3)) :
    ∀ nf : XTime K × XTime K,
      r.slabLoop aabb axes nf = r.slabLoop aabb (axes.filter (fun j => decide (j ≠ i))) nf := by
  induction axes with
  | nil => intro nf; rfl
  | cons j rest ih =>
    intro nf
    by_cases hj : j = i
    · subst hj
      simp only [Ray.slabLoop, slabAxis_parallel_inside r aabb j hd hin, ne_eq,
        not_true_eq_false, decide_False, Bool.false_eq_true, not_false_eq_true,
        List.filter_cons_of_neg]
      exact ih nf
    · have hf : List.filter (fun j => decide (j ≠ i)) (j :: rest) =
          j :: List.filter (fun j => decide (j ≠ i)) rest :=
        List.filter_cons_of_pos (by simpa using hj)
      rw [hf]
      simp only [Ray.slabLoop]
      cases r.slabAxis aabb j nf with
      | none => rfl
      | some nf' => exact ih nf'

/-- C8. Slab test edge cases: for every box and every ray whose direction
component on axis `i` is exactly zero, intersectAABB returns false when
`origin[i]` lies outside `[min[i], max[i]]`, and when `origin[i]` lies inside that
range its result equals the slab test carried out on the other two axes only. -/
theorem intersectAABB_parallel_axis (r : Ray K) (aabb : AABB K) (i : Fin 3)
    (hd : r.direction i = 0) :
    ((r.origin i < aabb.min i ∨ r.origin i > aabb.max i) →
      r.intersectAABB aabb = false) ∧
    ((aabb.min i ≤ r.origin i ∧ r.origin i ≤ aabb.max i) →
      r.intersectAABB aabb =
        r.slabTest aabb (([0, 1, 2] : List (Fin 3)).filter (fun j => decide (j ≠ i)))) := by
  constructor
  · intro hout
    unfold Ray.intersectAABB Ray.slabTest
    rw [slabLoop_parallel_outside r aabb i hd hout [0, 1, 2] (by fin_cases i <;> simp)]
  · intro hin
    unfold Ray.intersectAABB Ray.slabTest
    rw [slabLoop_parallel_inside r aabb i hd hin [0, 1, 2]]

/-! ### The brute-force scan -/

/-- Loop invariant of the brute-force scan after the faces `0 .. n-1`. -/
theorem intersect_scan (r : Ray K) (n : Nat) :
    let st := (List.range n).foldl r.intersectStep (-1, ⊤)
    (st.1 = -1 ∧ st.2 = ⊤ ∧ ∀ i : Nat, i < n → r.intersectFace i = none) ∨
    (∃ (f : Nat) (t : K), st.1 = (f : Int) ∧ st.2 = (t : WithTop K) ∧ f < n ∧
      (∃ uv : K × K, r.intersectFace f = some (t, uv)) ∧
      (∀ g : Nat, g < n → ∀ (t' : K) (uv' : K × K),
        r.intersectFace g = some (t', uv') → t ≤ t') ∧
      (∀ g : Nat, g < f → ∀ (t' : K) (uv' : K × K),
        r.intersectFace g = some (t', uv') → t < t')) := by
  induction n with
  | zero =>
    left
    exact ⟨rfl, rfl, fun i hi => absurd hi (Nat.not_lt_zero i)⟩
  | succ n ih =>
    simp only [List.range_succ, List.foldl_append, List.foldl_cons, List.foldl_nil]
    simp only [] at ih
    generalize (List.range n).foldl r.intersectStep (-1, ⊤) = st at ih
    unfold Ray.intersectStep
    cases hn : r.intersectFace n with
    | none =>
      simp only []
      rcases ih with ⟨h1, h2, h3⟩ | ⟨f, t, h1, h2, h3, h4, h5, h6⟩
      · left
        refine ⟨h1, h2, fun i hi => ?_⟩
        rcases Nat.lt_succ_iff_lt_or_eq.1 hi with h | h
        · exact h3 i h
        · rw [h]; exact hn
      · right
        refine ⟨f, t, h1, h2, Nat.lt_succ_of_lt h3, h4, fun g hg t' uv' hg' => ?_, h6⟩
        rcases Nat.lt_succ_iff_lt_or_eq.1 hg with h | h
        · exact h5 g h t' uv' hg'
        · rw [h, hn] at hg'; cases hg'
    | some tuv =>
      obtain ⟨time, uv⟩ := tuv
      simp only []
      rcases ih with ⟨h1, h2, h3⟩ | ⟨f, t, h1, h2, h3, h4, h5, h6⟩
      · right
        have hlt : (time : WithTop K) < st.2 := by rw [h2]; exact WithTop.coe_lt_top time
        rw [if_pos hlt]
        refine ⟨n, time, rfl, rfl, Nat.lt_succ_self n, ⟨uv, hn⟩, fun g hg t' uv' hg' => ?_,
          fun g hg t' uv' hg' => ?_⟩
        · rcases Nat.lt_succ_iff_lt_or_eq.1 hg with h | h
          · rw [h3 g h] at hg'; cases hg'
          · rw [h, hn] at hg'
            simp only [Option.some.injEq, Prod.mk.injEq] at hg'
            rw [hg'.1]
        · rw [h3 g hg] at hg'; cases hg'
      · right
        by_cases hlt : (time : WithTop K) < st.2
        · rw [if_pos hlt]
          have hlt' : time < t := by rw [h2] at hlt; exact WithTop.coe_lt_coe.1 hlt
          refine ⟨n, time, rfl, rfl, Nat.lt_succ_self n, ⟨uv, hn⟩, fun g hg t' uv' hg' => ?_,
            fun g hg t' uv' hg' => ?_⟩
          · rcases Nat.lt_succ_iff_lt_or_eq.1 hg with h | h
            · exact le_trans (le_of_lt hlt') (h5 g h t' uv' hg')
            · rw [h, hn] at hg'
              simp only [Option.some.injEq, Prod.mk.injEq] at hg'
              rw [hg'.1]
          · exact lt_of_lt_of_le hlt' (h5 g hg t' uv' hg')
        · rw [if_neg hlt]
          have hle : t ≤ time := by
            rw [h2] at hlt; exact not_lt.1 (fun h => hlt (WithTop.coe_lt_coe.2 h))
          refine ⟨f, t, h1, h2, Nat.lt_succ_of_lt h3, h4, fun g hg t' uv' hg' => ?_, h6⟩
          rcases Nat.lt_succ_iff_lt_or_eq.1 hg with h | h
          · exact h5 g h t' uv' hg'
          · rw [h, hn] at hg'
            simp only [Option.some.injEq, Prod.mk.injEq] at hg'
            rw [← hg'.1]; exact hle

/-- The brute-force scan returns -1 when every face is missed, and otherwise the
lowest-numbered face among those hit at the smallest time. -/
theorem intersect_spec (r : Ray K) :
    (r.intersect = -1 ∧ ∀ i : Nat, i < r.F.length → r.intersectFace i = none) ∨
    (∃ (f : Nat) (t : K), r.intersect = (f : Int) ∧ r.ClosestHit f t ∧
      ∀ g : Nat, g < f → ∀ (t' : K) (uv' : K × K),
        r.intersectFace g = some (t', uv') → t < t') := by
  have h := intersect_scan r r.F.length
  simp only [] at h
  unfold Ray.intersect Ray.ClosestHit
  rcases h with ⟨h1, -, h3⟩ | ⟨f, t, h1, -, h3, h4, h5, h6⟩
  · exact Or.inl ⟨h1, h3⟩
  · exact Or.inr ⟨f, t, h1, ⟨h3, h4, h5⟩, h6⟩

/-- The scan over exact arithmetic (the scan as the machine runs it is
`Ray32.intersect`, treated further down).  The brute-force Ray::intersect()
returns the closest hit or no hit: it returns -1 if and only if intersectFace
misses every face, and otherwise returns a face id `f` that intersectFace hits,
whose hit time is at most the hit time of every face that intersectFace hits. -/
theorem intersect_closest (r : Ray K) :
    (r.intersect = -1 ↔ ∀ i : Nat, i < r.F.length → r.intersectFace i = none) ∧
    (r.intersect ≠ -1 → ∃ (f : Nat) (t : K) (uv : K × K),
      r.intersect = (f : Int) ∧ f < r.F.length ∧ r.intersectFace f = some (t, uv) ∧
      ∀ g : Nat, g < r.F.length → ∀ (t' : K) (uv' : K × K),
        r.intersectFace g = some (t', uv') → t ≤ t') := by
  rcases intersect_spec r with ⟨h1, h2⟩ | ⟨f, t, h1, ⟨h2, ⟨uv, h3⟩, h4⟩, -⟩
  · exact ⟨⟨fun _ => h2, fun _ => h1⟩, fun h => absurd h1 h⟩
  · refine ⟨⟨fun h => ?_, fun h => ?_⟩, fun _ => ⟨f, t, uv, h1, h2, h3, h4⟩⟩
    · rw [h1] at h; omega
    · rw [h f h2] at h3; cases h3

/-! ### The BVH traversal -/

/-- Tightening `maxTime` to `m` keeps exactly the hits at times up to `m`. -/
theorem intersectFace_tighten (r0 : Ray K) (m : WithTop K) (hm : m ≤ r0.maxTime)
    (f : Nat) (t : K) (uv : K × K) :
    ({ r0 with maxTime := m } : Ray K).intersectFace f = some (t, uv) ↔
      r0.intersectFace f = some (t, uv) ∧ (t : WithTop K) ≤ m := by
  obtain ⟨u, v⟩ := uv
  rw [intersectFace_eq_some_iff, intersectFace_eq_some_iff]
  simp only [Ray.faceDet, Ray.faceVertex]
  constructor
  · rintro ⟨h1, h2, h3, h4, h5, h6, h7, h8, h9, h10⟩
    exact ⟨⟨h1, h2, h3, h4, h5, h6, h7, h8, h9, le_trans h10 hm⟩, h10⟩
  · rintro ⟨⟨h1, h2, h3, h4, h5, h6, h7, h8, h9, -⟩, h10⟩
    exact ⟨h1, h2, h3, h4, h5, h6, h7, h8, h9, h10⟩

/-- A point of a triangle lies in every box that contains the three corners. -/
theorem hit_point_in_box (r : Ray K) (b : AABB K) (f : Nat) (t u v : K)
    (hb : r.BoxHasFace b f) (hh : r.HitsAt f t u v) (i : Fin 3) :
    b.min i ≤ r.origin i + t * r.direction i ∧ r.origin i + t * r.direction i ≤ b.max i := by
  obtain ⟨hp, hu, hv, huv, -, -⟩ := hh
  rw [hp i]
  have a0 := hb 0 i
  have a1 := hb 1 i
  have a2 := hb 2 i
  have hw : 0 ≤ 1 - u - v := by linarith
  constructor
  · have e0 := mul_nonneg hw (sub_nonneg.2 a0.1)
    have e1 := mul_nonneg hu (sub_nonneg.2 a1.1)
    have e2 := mul_nonneg hv (sub_nonneg.2 a2.1)
    nlinarith
  · have e0 := mul_nonneg hw (sub_nonneg.2 a0.2)
    have e1 := mul_nonneg hu (sub_nonneg.2 a1.2)
    have e2 := mul_nonneg hv (sub_nonneg.2 a2.2)
    nlinarith

/-- A box test that fails means that the ray misses every face inside the box. -/
theorem miss_of_box_miss (r : Ray K) (b : AABB K) (f : Nat)
    (hb : r.BoxHasFace b f) (hbox : r.intersectAABB b = false) :
    r.intersectFace f = none := by
  cases hres : r.intersectFace f with
  | none => rfl
  | some tuv =>
    obtain ⟨t, u, v⟩ := tuv
    have hh := intersectFace_hitsAt r f t u v hres
    have hin := hit_point_in_box r b f t u v hb hh
    have hmm : ∀ i ∈ ([0, 1, 2] : List (Fin 3)), b.min i ≤ b.max i :=
      fun i _ => le_trans (hb 0 i).1 (hb 0 i).2
    have ht : (r.minTime : WithTop K) ≤ r.maxTime :=
      le_trans (WithTop.coe_le_coe.2 hh.2.2.2.2.1) hh.2.2.2.2.2
    have : r.intersectAABB b = true :=
      (slabTest_iff r b [0, 1, 2] hmm ht).2
        ⟨t, hh.2.2.2.2.1, hh.2.2.2.2.2, fun i _ => hin i⟩
    rw [hbox] at this
    cases this

/-- The invariant only gets weaker when fewer faces are recorded as seen. -/
theorem Trav.Inv.mono (r0 : Ray K) (faceId0 : Int) (uv0 : Option (K × K))
    (Seen Seen' : Nat → Prop) (s : Trav K) (hsub : ∀ f, Seen' f → Seen f)
    (h : Trav.Inv r0 faceId0 uv0 Seen s) : Trav.Inv r0 faceId0 uv0 Seen' s := by
  obtain ⟨h1, h2, h3, h4⟩ := h
  refine ⟨h1, h2, fun hh => ?_, fun hh => ?_⟩
  · obtain ⟨a, b, c, d, e⟩ := h3 hh
    exact ⟨a, b, c, d, fun f hf => e f (hsub f hf)⟩
  · obtain ⟨f, tt, uv', a, b, c, d, e, g, k⟩ := h4 hh
    exact ⟨f, tt, uv', a, b, c, d, e, g, fun g hg => k g (hsub g hg)⟩

/-- Faces that the current ray misses can be added to the seen faces. -/
theorem Trav.Inv.add_missed (r0 : Ray K) (faceId0 : Int) (uv0 : Option (K × K))
    (Seen P : Nat → Prop) (s : Trav K) (h : Trav.Inv r0 faceId0 uv0 Seen s)
    (hmiss : ∀ f, P f → s.ray.intersectFace f = none) :
    Trav.Inv r0 faceId0 uv0 (fun f => Seen f ∨ P f) s := by
  obtain ⟨h1, h2, h3, h4⟩ := h
  have key : ∀ f, P f → ∀ (t' : K) (uv'' : K × K), r0.intersectFace f = some (t', uv'') →
      ¬ ((t' : WithTop K) ≤ s.ray.maxTime) := by
    intro f hf t' uv'' hr hle
    have := (intersectFace_tighten r0 s.ray.maxTime h2 f t' uv'').2 ⟨hr, hle⟩
    rw [← h1, hmiss f hf] at this
    cases this
  refine ⟨h1, h2, fun hh => ?_, fun hh => ?_⟩
  · obtain ⟨a, b, c, d, e⟩ := h3 hh
    refine ⟨a, b, c, d, ?_⟩
    rintro f (hf | hf)
    · exact e f hf
    · cases hr : r0.intersectFace f with
      | none => rfl
      | some tuv =>
        obtain ⟨t', uv''⟩ := tuv
        exfalso
        apply key f hf t' uv'' hr
        rw [a]
        obtain ⟨u', v'⟩ := uv''
        exact ((intersectFace_eq_some_iff r0 f t' u' v').1 hr).2.2.2.2.2.2.2.2.2
  · obtain ⟨f, tt, uv', a, b, c, d, e, g, k⟩ := h4 hh
    refine ⟨f, tt, uv', a, b, c, d, e, g, ?_⟩
    rintro g' (hg | hg) t' uv'' hr
    · exact k g' hg t' uv'' hr
    · have := key g' hg t' uv'' hr
      rw [d] at this
      exact le_of_lt (not_le.1 (fun hle => this (WithTop.coe_le_coe.2 hle)))

/-- The leaf loop body keeps the invariant and records face `fi` as seen; it
leaves `nodeId` and the stack alone. -/
theorem Trav.leafStep_inv (r0 : Ray K) (faceId0 : Int) (uv0 : Option (K × K))
    (Seen : Nat → Prop) (s : Trav K) (fi : Nat) (hfi : fi < r0.F.length)
    (h : Trav.Inv r0 faceId0 uv0 Seen s) :
    Trav.Inv r0 faceId0 uv0 (fun f => Seen f ∨ f = fi) (s.leafStep fi) ∧
    (s.leafStep fi).stack = s.stack ∧ (s.leafStep fi).nodeId = s.nodeId := by
  cases hres : s.ray.intersectFace fi with
  | none =>
    have hs : s.leafStep fi = s := by unfold Trav.leafStep; rw [hres]
    rw [hs]
    refine ⟨?_, rfl, rfl⟩
    exact Trav.Inv.add_missed r0 faceId0 uv0 Seen (fun f => f = fi) s h
      (fun f hf => by rw [hf]; exact hres)
  | some tuv =>
    obtain ⟨t1, uv1⟩ := tuv
    have hs : s.leafStep fi =
        { s with faceId := (fi : Int), t := (t1 : WithTop K),
                 ray := { s.ray with maxTime := (t1 : WithTop K) },
                 hit := true, uv := s.uv.map (fun _ => uv1) } := by
      unfold Trav.leafStep; rw [hres]
    rw [hs]
    refine ⟨?_, rfl, rfl⟩
    obtain ⟨h1, h2, h3, h4⟩ := h
    rw [h1] at hres
    obtain ⟨hr0, hle⟩ := (intersectFace_tighten r0 s.ray.maxTime h2 fi t1 uv1).1 hres
    refine ⟨?_, le_trans hle h2, fun hh => (by cases hh), fun _ => ?_⟩
    · show ({ s.ray with maxTime := (t1 : WithTop K) } : Ray K) =
        { r0 with maxTime := (t1 : WithTop K) }
      rw [h1]
    · refine ⟨fi, t1, uv1, rfl, hfi, rfl, rfl, hr0, ?_, ?_⟩
      · show s.uv.map (fun _ => uv1) = uv0.map (fun _ => uv1)
        cases hhit : s.hit with
        | false => rw [(h3 hhit).2.2.2.1]
        | true =>
          obtain ⟨f, tt, uv', -, -, -, -, -, g, -⟩ := h4 hhit
          rw [g]
          cases uv0 <;> rfl
      · rintro g (hg | hg) t' uv'' hr
        · cases hhit : s.hit with
          | false => rw [(h3 hhit).2.2.2.2 g hg] at hr; cases hr
          | true =>
            obtain ⟨f, tt, uv', -, -, -, d, -, -, k⟩ := h4 hhit
            rw [d] at hle
            exact le_trans (WithTop.coe_le_coe.1 hle) (k g hg t' uv'' hr)
        · rw [hg, hr0] at hr
          simp only [Option.some.injEq, Prod.mk.injEq] at hr
          rw [hr.1]

/-- The leaf loop over `n` faces from `start` keeps the invariant and records
these faces as seen. -/
theorem Trav.leafFold_inv (r0 : Ray K) (faceId0 : Int) (uv0 : Option (K × K)) (n : Nat) :
    ∀ (start : Nat) (Seen : Nat → Prop) (s : Trav K), start + n ≤ r0.F.length →
      Trav.Inv r0 faceId0 uv0 Seen s →
      Trav.Inv r0 faceId0 uv0 (fun f => Seen f ∨ (start ≤ f ∧ f < start + n))
        ((List.range' start n).foldl Trav.leafStep s) ∧
      ((List.range' start n).foldl Trav.leafStep s).stack = s.stack ∧
      ((List.range' start n).foldl Trav.leafStep s).nodeId = s.nodeId := by
  induction n with
  | zero =>
    intro start Seen s _ h
    refine ⟨?_, rfl, rfl⟩
    exact Trav.Inv.mono r0 faceId0 uv0 Seen _ s
      (fun f hf => hf.elim id (fun hc => by omega)) h
  | succ n ih =>
    intro start Seen s hle h
    simp only [List.range', List.foldl_cons]
    obtain ⟨hi1, hs1, hn1⟩ := Trav.leafStep_inv r0 faceId0 uv0 Seen s start (by omega) h
    obtain ⟨hi2, hs2, hn2⟩ := ih (start + 1) _ (s.leafStep start) (by omega) hi1
    refine ⟨?_, hs2.trans hs1, hn2.trans hn1⟩
    refine Trav.Inv.mono r0 faceId0 uv0 _ _ _ (fun f hf => ?_) hi2
    rcases hf with hf | hf
    · exact Or.inl (Or.inl hf)
    · by_cases hfs : f = start
      · exact Or.inl (Or.inr hfs)
      · exact Or.inr ⟨by omega, by omega⟩

/-- The leaf loop `[startId, endId)` keeps the invariant and records its faces. -/
theorem Trav.leafLoop_inv (r0 : Ray K) (faceId0 : Int) (uv0 : Option (K × K))
    (Seen : Nat → Prop) (s : Trav K) (startId endId : Nat) (hle : endId ≤ r0.F.length)
    (h : Trav.Inv r0 faceId0 uv0 Seen s) :
    Trav.Inv r0 faceId0 uv0 (fun f => Seen f ∨ (startId ≤ f ∧ f < endId))
      (s.leafLoop startId endId) ∧
    (s.leafLoop startId endId).stack = s.stack ∧
    (s.leafLoop startId endId).nodeId = s.nodeId := by
  unfold Trav.leafLoop
  by_cases hse : startId ≤ endId
  · obtain ⟨h1, h2, h3⟩ := Trav.leafFold_inv r0 faceId0 uv0 (endId - startId) startId Seen s
      (by omega) h
    refine ⟨Trav.Inv.mono r0 faceId0 uv0 _ _ _ (fun f hf => ?_) h1, h2, h3⟩
    rcases hf with hf | hf
    · exact Or.inl hf
    · exact Or.inr ⟨hf.1, by omega⟩
  · have h0 : endId - startId = 0 := by omega
    rw [h0]
    refine ⟨?_, rfl, rfl⟩
    exact Trav.Inv.mono r0 faceId0 uv0 Seen _ s
      (fun f hf => hf.elim id (fun hc => by omega)) h

/-! ### One iteration of the traversal loop -/

theorem Trav.loop_succ (s : Trav K) (fuel : Nat) (bs : Bool × Trav K)
    (h : s.step = .ok bs) : Trav.loop (fuel + 1) s = Trav.cont fuel bs := by
  obtain ⟨b, s'⟩ := bs
  cases b <;> simp only [Trav.loop, h, Trav.cont]

theorem Trav.step_pruned (s : Trav K) (node : BVHNode K)
    (hget : s.ray.nodes.get? s.nodeId = some node)
    (hb : s.ray.intersectAABB node.aabb = false) : s.step = .ok s.pop := by
  unfold Trav.step
  rw [hget]
  simp only [hb, if_true]

theorem Trav.step_inner (s : Trav K) (b : AABB K) (rightChild : Nat)
    (hget : s.ray.nodes.get? s.nodeId = some (.inner b rightChild))
    (hb : ¬ s.ray.intersectAABB b = false) (hst : s.stack.length < stackSize) :
    s.step = .ok (true, { s with stack := rightChild :: s.stack, nodeId := s.nodeId + 1 }) := by
  have hb' : s.ray.intersectAABB b = true := by simpa using hb
  unfold Trav.step
  rw [hget]
  simp [BVHNode.aabb, hb', not_le.2 hst]

theorem Trav.step_leaf (s : Trav K) (b : AABB K) (startId endId : Nat)
    (hget : s.ray.nodes.get? s.nodeId = some (.leaf b startId endId))
    (hb : ¬ s.ray.intersectAABB b = false) :
    s.step = .ok (s.leafLoop startId endId).pop := by
  have hb' : s.ray.intersectAABB b = true := by simpa using hb
  unfold Trav.step
  rw [hget]
  simp [BVHNode.aabb, hb']

/-! ### Shape of a subtree -/

theorem Ray.SubtreeAt.lt (r : Ray K) (lo hi h : Nat) (T : r.SubtreeAt lo hi h) : lo < hi := by
  induction T with
  | leaf lo height b s e hnode hrange hbox => exact Nat.lt_succ_self lo
  | inner lo mid hi height b hnode hleft hright hbox ihl ihr => omega

theorem Ray.inRange_leaf (r : Ray K) (lo : Nat) (b : AABB K) (s e : Nat)
    (hnode : r.nodes.get? lo = some (.leaf b s e)) (f : Nat) :
    r.InRange lo (lo + 1) f ↔ s ≤ f ∧ f < e := by
  constructor
  · rintro ⟨k, h1, h2, b', s', e', hk, hs, he⟩
    have hk' : k = lo := by omega
    rw [hk', hnode] at hk
    simp only [Option.some.injEq, BVHNode.leaf.injEq] at hk
    obtain ⟨-, rfl, rfl⟩ := hk
    exact ⟨hs, he⟩
  · rintro ⟨hs, he⟩
    exact ⟨lo, le_refl lo, Nat.lt_succ_self lo, b, s, e, hnode, hs, he⟩

theorem Ray.inRange_inner (r : Ray K) (lo mid hi : Nat) (b : AABB K)
    (hnode : r.nodes.get? lo = some (.inner b mid)) (f : Nat)
    (h : r.InRange lo hi f) : r.InRange (lo + 1) mid f ∨ r.InRange mid hi f := by
  obtain ⟨k, h1, h2, b', s', e', hk, hs, he⟩ := h
  have hne : k ≠ lo := by
    intro hkl
    rw [hkl, hnode] at hk
    cases hk
  by_cases hkm : k < mid
  · exact Or.inl ⟨k, by omega, hkm, b', s', e', hk, hs, he⟩
  · exact Or.inr ⟨k, by omega, h2, b', s', e', hk, hs, he⟩

/-- Simulation of the loop on one subtree: started at the root `lo` of a subtree
`[lo, hi)` with room on the stack, the loop spends at most `hi - lo` iterations
there, keeps the invariant, records every face of the subtree as seen, and
leaves through the shared `pop` tail with the stack it started with. -/
theorem Trav.subtree_run (r0 : Ray K) (faceId0 : Int) (uv0 : Option (K × K))
    (lo hi h : Nat) (T : r0.SubtreeAt lo hi h) :
    ∀ (s : Trav K) (Seen : Nat → Prop), Trav.Inv r0 faceId0 uv0 Seen s → s.nodeId = lo →
      s.stack.length + h ≤ stackSize →
      ∃ (s' : Trav K) (n : Nat),
        Trav.Inv r0 faceId0 uv0 (fun f => Seen f ∨ r0.InRange lo hi f) s' ∧
        s'.stack = s.stack ∧ 1 ≤ n ∧ n ≤ hi - lo ∧
        ∀ fuel : Nat, Trav.loop (fuel + n) s = Trav.cont fuel s'.pop := by
  induction T with
  | leaf lo height b st e hnode hrange hbox =>
    intro s Seen hInv hid _
    have hray : s.ray = { r0 with maxTime := s.ray.maxTime } := hInv.1
    have hget : s.ray.nodes.get? s.nodeId = some (.leaf b st e) := by
      rw [hray, hid]; exact hnode
    by_cases hb : s.ray.intersectAABB b = false
    · refine ⟨s, 1, ?_, rfl, le_refl 1, by omega, fun fuel => ?_⟩
      · refine Trav.Inv.add_missed r0 faceId0 uv0 Seen _ s hInv (fun f hf => ?_)
        refine miss_of_box_miss s.ray b f ?_ hb
        rw [hray]
        exact hbox f ((r0.inRange_leaf lo b st e hnode f).1 hf).1
          ((r0.inRange_leaf lo b st e hnode f).1 hf).2
      · exact Trav.loop_succ s fuel _ (Trav.step_pruned s _ hget hb)
    · obtain ⟨hi1, hs1, -⟩ := Trav.leafLoop_inv r0 faceId0 uv0 Seen s st e hrange hInv
      refine ⟨s.leafLoop st e, 1, ?_, hs1, le_refl 1, by omega, fun fuel => ?_⟩
      · exact Trav.Inv.mono r0 faceId0 uv0 _ _ _
          (fun f hf => hf.elim Or.inl
            (fun hr => Or.inr ((r0.inRange_leaf lo b st e hnode f).1 hr))) hi1
      · exact Trav.loop_succ s fuel _ (Trav.step_leaf s b st e hget hb)
  | inner lo mid hi height b hnode hleft hright hbox ihl ihr =>
    intro s Seen hInv hid hstack
    have hray : s.ray = { r0 with maxTime := s.ray.maxTime } := hInv.1
    have hget : s.ray.nodes.get? s.nodeId = some (.inner b mid) := by
      rw [hray, hid]; exact hnode
    have hlt1 := Ray.SubtreeAt.lt r0 _ _ _ hleft
    have hlt2 := Ray.SubtreeAt.lt r0 _ _ _ hright
    by_cases hb : s.ray.intersectAABB b = false
    · refine ⟨s, 1, ?_, rfl, le_refl 1, by omega, fun fuel => ?_⟩
      · refine Trav.Inv.add_missed r0 faceId0 uv0 Seen _ s hInv (fun f hf => ?_)
        refine miss_of_box_miss s.ray b f ?_ hb
        rw [hray]
        exact hbox f hf
      · exact Trav.loop_succ s fuel _ (Trav.step_pruned s _ hget hb)
    · have hstep := Trav.step_inner s b mid hget hb (by omega)
      obtain ⟨s1, n1, hi1, hs1, hn1, hn1', hrun1⟩ :=
        ihl { s with stack := mid :: s.stack, nodeId := s.nodeId + 1 } Seen hInv
          (by show s.nodeId + 1 = lo + 1; rw [hid])
          (by show (mid :: s.stack).length + height ≤ stackSize
              simp only [List.length_cons]; omega)
      have hpop1 : s1.pop = (true, { s1 with nodeId := mid, stack := s.stack }) := by
        unfold Trav.pop
        rw [hs1]
      obtain ⟨s2, n2, hi2, hs2, hn2, hn2', hrun2⟩ :=
        ihr { s1 with nodeId := mid, stack := s.stack } _ hi1 rfl
          (by show s.stack.length + height ≤ stackSize; omega)
      refine ⟨s2, 1 + n1 + n2, ?_, hs2, by omega, by omega, fun fuel => ?_⟩
      · refine Trav.Inv.mono r0 faceId0 uv0 _ _ _ (fun f hf => ?_) hi2
        rcases hf with hf | hf
        · exact Or.inl (Or.inl hf)
        · rcases r0.inRange_inner lo mid hi b hnode f hf with h' | h'
          · exact Or.inl (Or.inr h')
          · exact Or.inr h'
      · have e1 : fuel + (1 + n1 + n2) = (fuel + n2 + n1) + 1 := by omega
        rw [e1, Trav.loop_succ s _ _ hstep]
        show Trav.loop (fuel + n2 + n1) _ = _
        rw [hrun1 (fuel + n2), hpop1]
        show Trav.loop (fuel + n2) _ = _
        exact hrun2 fuel

/-- The traversal on a well-formed BVH: with fuel for one iteration per node it
returns; it reports no hit exactly when every face is missed, and otherwise its
outputs describe a closest hit and the ray keeps that time as `maxTime`. -/
theorem intersectBVH_spec (r : Ray K) (hwf : r.WellFormedBVH) (fuel : Nat)
    (hfuel : r.nodes.length ≤ fuel) (faceId0 : Int) (t0 : WithTop K) (uv0 : Option (K × K)) :
    ∃ res : Trav K, r.intersectBVH fuel faceId0 t0 uv0 = .ok res ∧
      ((res.hit = false ∧ ∀ f : Nat, f < r.F.length → r.intersectFace f = none) ∨
       (res.hit = true ∧ ∃ (f : Nat) (tt : K) (uv' : K × K),
          res.faceId = (f : Int) ∧ res.t = (tt : WithTop K) ∧ r.ClosestHit f tt ∧
          r.intersectFace f = some (tt, uv') ∧ res.uv = uv0.map (fun _ => uv') ∧
          res.ray = { r with maxTime := (tt : WithTop K) })) := by
  rcases hwf with ⟨hn, hF⟩ | ⟨hT, hcover⟩
  · refine ⟨{ ray := r, nodeId := 0, stack := [], hit := false, faceId := faceId0,
               t := t0, uv := uv0 }, ?_, Or.inl ⟨rfl, fun f hf => ?_⟩⟩
    · unfold Ray.intersectBVH
      rw [hn]
      rfl
    · rw [hF] at hf
      exact absurd hf (Nat.not_lt_zero f)
  · have hpos := Ray.SubtreeAt.lt r _ _ _ hT
    have hne : r.nodes.isEmpty = false := by
      cases hnodes : r.nodes with
      | nil => rw [hnodes] at hpos; exact absurd hpos (Nat.lt_irrefl 0)
      | cons a l => rfl
    have hinit : Trav.Inv r faceId0 uv0 (fun _ => False)
        { ray := r, nodeId := 0, stack := [], hit := false, faceId := faceId0,
          t := ⊤, uv := uv0 } :=
      ⟨rfl, le_refl _, fun _ => ⟨rfl, rfl, rfl, rfl, fun f hf => hf.elim⟩,
        fun hh => (by cases hh)⟩
    obtain ⟨s', n, hInv, hstack, -, hn, hrun⟩ :=
      Trav.subtree_run r faceId0 uv0 0 r.nodes.length stackSize hT _ _ hinit rfl
        (by show 0 + stackSize ≤ stackSize; omega)
    have hpop : s'.pop = (false, s') := by
      unfold Trav.pop
      rw [hstack]
    have hres : r.intersectBVH fuel faceId0 t0 uv0 = .ok s' := by
      unfold Ray.intersectBVH
      rw [hne]
      have e : fuel = (fuel - n) + n := by omega
      simp only [Bool.false_eq_true, if_false]
      rw [e, hrun (fuel - n), hpop]
      rfl
    refine ⟨s', hres, ?_⟩
    obtain ⟨h1, h2, h3, h4⟩ := hInv
    cases hhit : s'.hit with
    | false =>
      exact Or.inl ⟨rfl, fun f hf => (h3 hhit).2.2.2.2 f (Or.inr (hcover f hf))⟩
    | true =>
      obtain ⟨f, tt, uv', a, b, c, d, e, g, k⟩ := h4 hhit
      refine Or.inr ⟨rfl, f, tt, uv', a, c, ⟨b, ⟨uv', e⟩, fun g' hg' t' uv'' hr => ?_⟩, e, g, ?_⟩
      · exact k g' (Or.inr (hcover g' hg')) t' uv'' hr
      · rw [h1, d]

/-- C2, amended. Over exact arithmetic, the BVH-accelerated
Ray::intersect(faceId, t, uv) returns the closest hit: on a well-formed BVH (preorder layout, boxes containing the triangles of
their subtrees, leaf ranges covering all faces, nesting within the stack bound),
with at least one iteration allowed per node, the call returns; it returns true
if and only if intersectFace hits at least one face; and when it returns true,
`t` is the minimum hit time over all faces, `faceId` is a face whose
intersectFace time equals `t`, and `uv` (when requested) is that face's
barycentric pair. -/
theorem intersectBVH_closest (r : Ray K) (hwf : r.WellFormedBVH) (fuel : Nat)
    (hfuel : r.nodes.length ≤ fuel) (faceId0 : Int) (t0 : WithTop K) (uv0 : Option (K × K)) :
    ∃ res : Trav K, r.intersectBVH fuel faceId0 t0 uv0 = .ok res ∧
      (res.hit = true ↔ ∃ f : Nat, f < r.F.length ∧ (r.intersectFace f).isSome = true) ∧
      (res.hit = true → ∃ (f : Nat) (tt : K) (uv' : K × K),
        res.faceId = (f : Int) ∧ f < r.F.length ∧ res.t = (tt : WithTop K) ∧
        r.intersectFace f = some (tt, uv') ∧ res.uv = uv0.map (fun _ => uv') ∧
        ∀ g : Nat, g < r.F.length → ∀ (t' : K) (uv'' : K × K),
          r.intersectFace g = some (t', uv'') → tt ≤ t') := by
  obtain ⟨res, hres, hcase⟩ := intersectBVH_spec r hwf fuel hfuel faceId0 t0 uv0
  refine ⟨res, hres, ?_, ?_⟩
  · rcases hcase with ⟨hh, hmiss⟩ | ⟨hh, f, tt, uv', -, -, hc, he, -, -⟩
    · rw [hh]
      refine ⟨fun h => (by cases h), ?_⟩
      rintro ⟨f, hf, hs⟩
      rw [hmiss f hf] at hs
      cases hs
    · rw [hh]
      refine ⟨fun _ => ⟨f, hc.1, ?_⟩, fun _ => rfl⟩
      rw [he]; rfl
  · intro hh
    rcases hcase with ⟨hh', -⟩ | ⟨-, f, tt, uv', a, c, hc, he, g, -⟩
    · rw [hh'] at hh; cases hh
    · exact ⟨f, tt, uv', a, hc.1, c, he, g, hc.2.2⟩

/-! ### BVH traversal against the brute-force scan -/

/-- C3, amended. Over exact arithmetic, for a well-formed BVH and a ray that hits
at least one face, the BVH-accelerated intersect returns true with the hit time of the face that
the brute-force intersect() returns; its face id is a face hit at that same
time, and it is the brute-force face whenever no other face is hit at that
time. -/
theorem intersectBVH_agrees_brute (r : Ray K) (hwf : r.WellFormedBVH) (fuel : Nat)
    (hfuel : r.nodes.length ≤ fuel) (faceId0 : Int) (t0 : WithTop K) (uv0 : Option (K × K))
    (hhit : ∃ f : Nat, f < r.F.length ∧ (r.intersectFace f).isSome = true) :
    ∃ (res : Trav K) (fb : Nat) (tb : K) (uvb : K × K),
      r.intersectBVH fuel faceId0 t0 uv0 = .ok res ∧ res.hit = true ∧
      r.intersect = (fb : Int) ∧ r.intersectFace fb = some (tb, uvb) ∧
      res.t = (tb : WithTop K) ∧
      (∃ (f' : Nat) (uv' : K × K), res.faceId = (f' : Int) ∧ f' < r.F.length ∧
        r.intersectFace f' = some (tb, uv')) ∧
      ((∀ g : Nat, g < r.F.length → ∀ uv'' : K × K,
          r.intersectFace g = some (tb, uv'') → g = fb) → res.faceId = (fb : Int)) := by
  obtain ⟨f0, hf0, hs0⟩ := hhit
  obtain ⟨res, hres, hcase⟩ := intersectBVH_spec r hwf fuel hfuel faceId0 t0 uv0
  rcases hcase with ⟨-, hmiss⟩ | ⟨hh, f, tt, uv', a, c, hc, he, -, -⟩
  · rw [hmiss f0 hf0] at hs0; cases hs0
  · rcases intersect_spec r with ⟨-, hmiss⟩ | ⟨fb, tb, hb1, ⟨hb2, ⟨uvb, hb3⟩, hb4⟩, -⟩
    · rw [hmiss f0 hf0] at hs0; cases hs0
    · have htt : tt = tb :=
        le_antisymm (hc.2.2 fb hb2 tb uvb hb3) (hb4 f hc.1 tt uv' he)
      subst htt
      refine ⟨res, fb, tt, uvb, hres, hh, hb1, hb3, c, ⟨f, uv', a, hc.1, he⟩, fun huniq => ?_⟩
      rw [a, huniq f hc.1 uv' he]

/-! ### The sample ray -/

theorem tieRay_face0 : tieRay.intersectFace 0 = some (1, 0, 1 / 2) := by
  simp [Ray.intersectFace, Ray.faceVertex, tieRay, dot, cross]
  norm_num

theorem tieRay_face1 : tieRay.intersectFace 1 = some (1, 1 / 2, 0) := by
  simp [Ray.intersectFace, Ray.faceVertex, tieRay, dot, cross]
  norm_num

theorem tieRay_intersect : tieRay.intersect = 0 := by
  have hF : tieRay.F.length = 2 := rfl
  simp [Ray.intersect, hF, List.range_succ, Ray.intersectStep, tieRay_face0, tieRay_face1]

theorem tieRay_face1_tight :
    ({ tieRay with maxTime := ((1 : ℚ) : WithTop ℚ) } : Ray ℚ).intersectFace 1
      = some (1, 1 / 2, 0) :=
  (intersectFace_tighten tieRay _ le_top 1 1 (1 / 2, 0)).2 ⟨tieRay_face1, le_refl _⟩

theorem tieRay_box_le (i : Fin 3) :
    (⟨![0, 0, 0], ![1, 1, 0]⟩ : AABB ℚ).min i ≤ (⟨![0, 0, 0], ![1, 1, 0]⟩ : AABB ℚ).max i := by
  fin_cases i <;> simp

theorem tieRay_time_le : (tieRay.minTime : WithTop ℚ) ≤ tieRay.maxTime := le_top

theorem tieRay_box : tieRay.intersectAABB ⟨![0, 0, 0], ![1, 1, 0]⟩ = true := by
  refine (slabTest_iff tieRay _ [0, 1, 2] (fun i _ => tieRay_box_le i) le_top).2
    ⟨1, ?_, le_top, ?_⟩
  · show (0 : ℚ) ≤ 1; norm_num
  · intro i _; fin_cases i <;> simp [Ray.InSlab, tieRay] <;> norm_num

theorem tieRay_leafLoop :
    Trav.leafLoop (K := ℚ)
      { ray := tieRay, nodeId := 0, stack := [], hit := false, faceId := -1, t := ⊤, uv := none }
      0 2 = tieResult := by
  have e0 : Trav.leafStep (K := ℚ)
      { ray := tieRay, nodeId := 0, stack := [], hit := false, faceId := -1, t := ⊤, uv := none }
      0 = { ray := { tieRay with maxTime := ((1 : ℚ) : WithTop ℚ) }, nodeId := 0, stack := [],
            hit := true, faceId := 0, t := ((1 : ℚ) : WithTop ℚ), uv := none } := by
    simp only [Trav.leafStep, tieRay_face0]
    rfl
  have e1 : Trav.leafStep (K := ℚ)
      { ray := { tieRay with maxTime := ((1 : ℚ) : WithTop ℚ) }, nodeId := 0, stack := [],
        hit := true, faceId := 0, t := ((1 : ℚ) : WithTop ℚ), uv := none } 1 = tieResult := by
    simp only [Trav.leafStep, tieRay_face1_tight]
    rfl
  show List.foldl Trav.leafStep _ [0, 1] = _
  simp only [List.foldl, e0, e1]

theorem tieRay_bvh : tieRay.intersectBVH 1 (-1) ⊤ none = .ok tieResult := by
  have hstep := Trav.step_leaf (K := ℚ)
    { ray := tieRay, nodeId := 0, stack := [], hit := false, faceId := -1, t := ⊤, uv := none }
    ⟨![0, 0, 0], ![1, 1, 0]⟩ 0 2 rfl (by rw [tieRay_box]; simp)
  unfold Ray.intersectBVH
  rw [if_neg (by simp [tieRay])]
  rw [Trav.loop_succ _ 0 _ hstep, tieRay_leafLoop]
  rfl

theorem tieRay_wellFormed : tieRay.WellFormedBVH := by
  right
  refine ⟨Ray.SubtreeAt.leaf 0 stackSize ⟨![0, 0, 0], ![1, 1, 0]⟩ 0 2 rfl (le_refl 2) ?_, ?_⟩
  · intro f _ hf c i
    interval_cases f <;> fin_cases c <;> fin_cases i <;> simp [Ray.faceVertex, tieRay]
  · intro f hf
    exact ⟨0, le_refl 0, Nat.zero_lt_one, ⟨![0, 0, 0], ![1, 1, 0]⟩, 0, 2, rfl, Nat.zero_le f, hf⟩

theorem tieRay_hits : ∃ f : Nat, f < tieRay.F.length ∧ (tieRay.intersectFace f).isSome = true :=
  ⟨0, Nat.zero_lt_two, by rw [tieRay_face0]; rfl⟩

/-! ### A BVH with pushes, pops and a pruned leaf -/

theorem gridRay_inRange (lo hi f : Nat) (h : gridRay.InRange lo hi f) :
    f < 3 ∧ (hi ≤ 4 → f < 2) := by
  obtain ⟨k, -, hk2, b, s, e, hget, hs, he⟩ := h
  rcases k with _ | _ | _ | _ | _ | k
  · cases hget
  · cases hget
  · cases hget
    exact ⟨by omega, fun _ => by omega⟩
  · cases hget
    exact ⟨by omega, fun _ => by omega⟩
  · cases hget
    exact ⟨by omega, fun h4 => by omega⟩
  · cases hget

theorem gridRay_wellFormed : gridRay.WellFormedBVH := by
  right
  constructor
  · show gridRay.SubtreeAt 0 5 (63 + 1)
    refine Ray.SubtreeAt.inner 0 4 5 63 ⟨![0, 0, 0], ![11, 1, 1]⟩ rfl ?_ ?_ ?_
    · show gridRay.SubtreeAt 1 4 (62 + 1)
      refine Ray.SubtreeAt.inner 1 3 4 62 ⟨![0, 0, 0], ![1, 1, 1]⟩ rfl ?_ ?_ ?_
      · refine Ray.SubtreeAt.leaf 2 62 ⟨![0, 0, 0], ![1, 1, 0]⟩ 0 1 rfl (by decide) ?_
        intro f _ hf
        have hf0 : f = 0 := by omega
        rw [hf0]
        unfold Ray.BoxHasFace
        decide!
      · refine Ray.SubtreeAt.leaf 3 62 ⟨![0, 0, 1], ![1, 1, 1]⟩ 1 2 rfl (by decide) ?_
        intro f h1 hf
        have hf0 : f = 1 := by omega
        rw [hf0]
        unfold Ray.BoxHasFace
        decide!
      · intro f hf
        have hf2 := (gridRay_inRange 1 4 f hf).2 (le_refl 4)
        unfold Ray.BoxHasFace
        interval_cases f <;> decide!
    · refine Ray.SubtreeAt.leaf 4 63 ⟨![10, 0, 0], ![11, 1, 0]⟩ 2 3 rfl (by decide) ?_
      intro f h1 hf
      have hf0 : f = 2 := by omega
      rw [hf0]
      unfold Ray.BoxHasFace
      decide!
    · intro f hf
      have hf3 := (gridRay_inRange 0 5 f hf).1
      unfold Ray.BoxHasFace
      interval_cases f <;> decide!
  · intro f hf
    have hf3 : f < 3 := hf
    interval_cases f
    · exact ⟨2, by decide, by decide, _, 0, 1, rfl, by decide, by decide⟩
    · exact ⟨3, by decide, by decide, _, 1, 2, rfl, by decide, by decide⟩
    · exact ⟨4, by decide, by decide, _, 2, 3, rfl, by decide, by decide⟩

theorem gridRay_hits :
    ∃ f : Nat, f < gridRay.F.length ∧ (gridRay.intersectFace f).isSome = true :=
  ⟨0, by decide, by decide!⟩

/-- The traversal of `gridRay`, iteration by iteration: node, pending stack,
`maxTime` and `faceId` at the head of each iteration, and whether the box test
of the node fails. -/
theorem gridRay_trace :
    (Trav.run 5 (gridRay.start (-1) none)).map
        (fun q => (q.nodeId, q.stack, q.ray.maxTime, q.faceId,
          (q.ray.nodes.get? q.nodeId).map (fun n => q.ray.intersectAABB n.aabb)))
      = [(0, [], ⊤, -1, some true), (1, [4], ⊤, -1, some true),
         (2, [3, 4], ⊤, -1, some true), (3, [4], ((3 : ℚ) : WithTop ℚ), 0, some true),
         (4, [], ((2 : ℚ) : WithTop ℚ), 1, some false)] := by
  decide!

theorem gridRay_intersect : gridRay.intersect = 1 := by decide!

theorem gridRay_face1 : gridRay.intersectFace 1 = some (2, 1 / 4, 1 / 4) := by decide!

/-- Witness for C2 as amended, on a BVH of five nodes: the traversal pushes
twice, tests two leaves, pops twice and prunes the third leaf; it returns face 1
at time 2, the closer of the two faces under the ray. -/
theorem intersectBVH_closest_witness :
    (gridRay.WellFormedBVH ∧ gridRay.nodes.length ≤ 5) ∧
    (gridRay.intersectBVH 5 (-1) ⊤ none).toOption.map (fun s => (s.hit, s.faceId, s.t))
      = some (true, 1, ((2 : ℚ) : WithTop ℚ)) ∧
    ∃ res : Trav ℚ, gridRay.intersectBVH 5 (-1) ⊤ none = .ok res ∧
      (res.hit = true ↔
        ∃ f : Nat, f < gridRay.F.length ∧ (gridRay.intersectFace f).isSome = true) ∧
      (res.hit = true → ∃ (f : Nat) (tt : ℚ) (uv' : ℚ × ℚ),
        res.faceId = (f : Int) ∧ f < gridRay.F.length ∧ res.t = (tt : WithTop ℚ) ∧
        gridRay.intersectFace f = some (tt, uv') ∧
        res.uv = (none : Option (ℚ × ℚ)).map (fun _ => uv') ∧
        ∀ g : Nat, g < gridRay.F.length → ∀ (t' : ℚ) (uv'' : ℚ × ℚ),
          gridRay.intersectFace g = some (t', uv'') → tt ≤ t') :=
  ⟨⟨gridRay_wellFormed, le_refl 5⟩, by decide!,
    intersectBVH_closest gridRay gridRay_wellFormed 5 (le_refl 5) (-1) ⊤ none⟩

/-- Witness for C3 as amended, on the same BVH: the brute-force scan and the
traversal both return face 1, hit at time 2. -/
theorem intersectBVH_agrees_brute_witness :
    (gridRay.WellFormedBVH ∧ gridRay.nodes.length ≤ 5 ∧
      (∃ f : Nat, f < gridRay.F.length ∧ (gridRay.intersectFace f).isSome = true)) ∧
    (gridRay.intersect = 1 ∧ gridRay.intersectFace 1 = some (2, 1 / 4, 1 / 4)) ∧
    ∃ (res : Trav ℚ) (fb : Nat) (tb : ℚ) (uvb : ℚ × ℚ),
      gridRay.intersectBVH 5 (-1) ⊤ none = .ok res ∧ res.hit = true ∧
      gridRay.intersect = (fb : Int) ∧ gridRay.intersectFace fb = some (tb, uvb) ∧
      res.t = (tb : WithTop ℚ) ∧
      (∃ (f' : Nat) (uv' : ℚ × ℚ), res.faceId = (f' : Int) ∧ f' < gridRay.F.length ∧
        gridRay.intersectFace f' = some (tb, uv')) ∧
      ((∀ g : Nat, g < gridRay.F.length → ∀ uv'' : ℚ × ℚ,
          gridRay.intersectFace g = some (tb, uv'') → g = fb) → res.faceId = (fb : Int)) :=
  ⟨⟨gridRay_wellFormed, le_refl 5, gridRay_hits⟩, ⟨gridRay_intersect, gridRay_face1⟩,
    intersectBVH_agrees_brute gridRay gridRay_wellFormed 5 (le_refl 5) (-1) ⊤ none gridRay_hits⟩

/-- Witness for C7: the sample ray against the box of the square. -/
theorem intersectAABB_iff_witness :
    (∀ i : Fin 3, (⟨![0, 0, 0], ![1, 1, 0]⟩ : AABB ℚ).min i
      ≤ (⟨![0, 0, 0], ![1, 1, 0]⟩ : AABB ℚ).max i) ∧
    (tieRay.minTime : WithTop ℚ) ≤ tieRay.maxTime ∧
    (tieRay.intersectAABB ⟨![0, 0, 0], ![1, 1, 0]⟩ = true ↔
      ∃ t : ℚ, tieRay.minTime ≤ t ∧ (t : WithTop ℚ) ≤ tieRay.maxTime ∧
        ∀ i : Fin 3, (⟨![0, 0, 0], ![1, 1, 0]⟩ : AABB ℚ).min i
            ≤ tieRay.origin i + t * tieRay.direction i ∧
          tieRay.origin i + t * tieRay.direction i
            ≤ (⟨![0, 0, 0], ![1, 1, 0]⟩ : AABB ℚ).max i) :=
  ⟨tieRay_box_le, tieRay_time_le,
    intersectAABB_iff tieRay ⟨![0, 0, 0], ![1, 1, 0]⟩ tieRay_box_le tieRay_time_le⟩

/-- Witness for C8: the sample ray is parallel to axis 0 with its origin inside
the range of the box on that axis. -/
theorem intersectAABB_parallel_axis_witness :
    tieRay.direction 0 = 0 ∧
    tieRay.intersectAABB ⟨![0, 0, 0], ![1, 1, 0]⟩ =
      tieRay.slabTest ⟨![0, 0, 0], ![1, 1, 0]⟩
        (([0, 1, 2] : List (Fin 3)).filter (fun j => decide (j ≠ 0))) :=
  ⟨rfl, (intersectAABB_parallel_axis tieRay ⟨![0, 0, 0], ![1, 1, 0]⟩ 0 rfl).2
    ⟨by simp [tieRay], by simp [tieRay]; norm_num⟩⟩

/-- Witness for C5: the hit of the sample ray on face 0. -/
theorem intersectFace_sound_witness :
    tieRay.intersectFace 0 = some (1, 0, 1 / 2) ∧ tieRay.HitsAt 0 1 0 (1 / 2) :=
  ⟨tieRay_face0, (intersectFace_sound tieRay 0).1 1 0 (1 / 2) tieRay_face0⟩

/-- The exact scan on the split square. -/
theorem intersect_closest_witness :
    tieRay.intersect ≠ -1 ∧ ∃ (f : Nat) (t : ℚ) (uv : ℚ × ℚ),
      tieRay.intersect = (f : Int) ∧ f < tieRay.F.length ∧
      tieRay.intersectFace f = some (t, uv) ∧
      ∀ g : Nat, g < tieRay.F.length → ∀ (t' : ℚ) (uv' : ℚ × ℚ),
        tieRay.intersectFace g = some (t', uv') → t ≤ t' :=
  ⟨by rw [tieRay_intersect]; decide,
    (intersect_closest tieRay).2 (by rw [tieRay_intersect]; decide)⟩

theorem tieRay_faceDet : tieRay.faceDet 0 ≠ 0 := by
  simp [Ray.faceDet, Ray.faceVertex, tieRay, dot, cross]

/-- Witness for C6: the point of face 0 under the sample ray is reported. -/
theorem intersectFace_complete_witness :
    tieRay.faceDet 0 ≠ 0 ∧ tieRay.intersectFace 0 = some (1, 0, 1 / 2) :=
  ⟨tieRay_faceDet,
    (intersectFace_complete tieRay 0).2 tieRay_faceDet 1 0 (1 / 2)
      (by show (0 : ℚ) ≤ 1; norm_num) le_top (le_refl 0) (by norm_num) (by norm_num)
      (by intro i; fin_cases i <;> simp [Ray.faceVertex, tieRay])⟩

/-! ### The constraint map -/

theorem mem_mapAssign (m : List (Nat × Vec3 K)) (id : Nat) (position : Vec3 K)
    (c : Nat × Vec3 K) (hc : c ∈ mapAssign m id position) : c.1 = id ∨ c ∈ m := by
  induction m with
  | nil =>
    simp only [mapAssign, List.mem_singleton] at hc
    left; rw [hc]
  | cons kq rest ih =>
    obtain ⟨k, q⟩ := kq
    simp only [mapAssign] at hc
    split_ifs at hc with h1 h2
    · rcases List.mem_cons.1 hc with h | h
      · left; rw [h]
      · right; exact h
    · rcases List.mem_cons.1 hc with h | h
      · left; rw [h]
      · right; exact List.mem_cons_of_mem _ h
    · rcases List.mem_cons.1 hc with h | h
      · right; rw [h]; exact List.mem_cons_self _ _
      · rcases ih h with h' | h'
        · left; exact h'
        · right; exact List.mem_cons_of_mem _ h'

/-- The assignment `constraints[id] = position` keeps the keys ascending. -/
theorem mapAssign_keysAscending (m : List (Nat × Vec3 K)) (id : Nat) (position : Vec3 K)
    (hm : KeysAscending m) : KeysAscending (mapAssign m id position) := by
  unfold KeysAscending at hm ⊢
  induction m with
  | nil => exact List.pairwise_singleton _ _
  | cons kq rest ih =>
    obtain ⟨k, q⟩ := kq
    obtain ⟨hhead, htail⟩ := List.pairwise_cons.1 hm
    simp only [mapAssign]
    split_ifs with h1 h2
    · refine List.pairwise_cons.2 ⟨fun c hc => ?_, hm⟩
      rcases List.mem_cons.1 hc with h | h
      · rw [h]; exact h1
      · exact lt_trans h1 (hhead c h)
    · refine List.pairwise_cons.2 ⟨fun c hc => ?_, htail⟩
      rw [h2]
      exact hhead c hc
    · refine List.pairwise_cons.2 ⟨fun c hc => ?_, ih htail⟩
      rcases mem_mapAssign rest id position c hc with h | h
      · rw [h]
        show k < id
        omega
      · exact hhead c h

/-- After `constraints[id] = position` the map holds `position` at `id`. -/
theorem mapAssign_lookup (m : List (Nat × Vec3 K)) (id : Nat) (position : Vec3 K)
    (hm : KeysAscending m) : (mapAssign m id position).lookup id = some position := by
  induction m with
  | nil => simp [mapAssign]
  | cons kq rest ih =>
    obtain ⟨k, q⟩ := kq
    simp only [mapAssign]
    split_ifs with h1 h2
    · simp
    · simp
    · rw [List.lookup_cons]
      have hbeq : (id == k) = false := by simpa using h2
      rw [hbeq]
      exact ih (List.pairwise_cons.1 hm).2

/-- Deform::init followed by any number of setConstraint calls leaves a
constraint map with ascending keys. -/
theorem setConstraint_keysAscending (d : Deform K) (id : Nat) (position : Vec3 K)
    (hm : KeysAscending d.constraints) :
    KeysAscending (d.setConstraint id position).constraints :=
  mapAssign_keysAscending d.constraints id position hm

theorem init_keysAscending (d : Deform K) (V : List (Vec3 K)) (F : List (Fin 3 → Nat))
    (W : List (List (Nat × K))) : KeysAscending (d.init V F W).constraints :=
  List.Pairwise.nil

/-! ### Deform: constrained columns -/

/-- Writes at other columns do not touch column `k`. -/
theorem foldl_set_other (m : List (Nat × Vec3 K)) (k : Nat) (hne : ∀ c ∈ m, c.1 ≠ k) :
    ∀ vp : List (Vec3 K), (m.foldl (fun vp c => vp.set c.1 c.2) vp)[k]? = vp[k]? := by
  induction m with
  | nil => intro vp; rfl
  | cons c rest ih =>
    intro vp
    simp only [List.foldl_cons]
    rw [ih (fun c' hc' => hne c' (List.mem_cons_of_mem _ hc'))]
    exact List.getElem?_set_ne (hne c (List.mem_cons_self _ _))

/-- The second loop of initializeConstraints leaves the target of every
constraint in its column. -/
theorem foldl_set_target (m : List (Nat × Vec3 K)) (hm : KeysAscending m) (k : Nat)
    (p : Vec3 K) (hmem : (k, p) ∈ m) :
    ∀ vp : List (Vec3 K), k < vp.length →
      (m.foldl (fun vp c => vp.set c.1 c.2) vp)[k]? = some p := by
  induction m with
  | nil => simp at hmem
  | cons c rest ih =>
    intro vp hk
    simp only [List.foldl_cons]
    have hm' := List.pairwise_cons.1 hm
    rcases List.mem_cons.1 hmem with h | h
    · rw [foldl_set_other rest k (fun c' hc' => by
        have := hm'.1 c' hc'
        rw [← h] at this
        exact Nat.ne_of_gt this)]
      rw [← h]
      exact List.getElem?_set_self hk
    · exact ih hm'.2 h _ (by rw [List.length_set]; exact hk)

theorem lookup_isSome_of_mem (m : List (Nat × Vec3 K)) (k : Nat) (p : Vec3 K)
    (hmem : (k, p) ∈ m) : (m.lookup k).isSome = true := by
  induction m with
  | nil => simp at hmem
  | cons c rest ih =>
    obtain ⟨k', p'⟩ := c
    rw [List.lookup_cons]
    by_cases hk : k = k'
    · subst hk; simp
    · have hbeq : (k == k') = false := by simpa using hk
      rw [hbeq]
      rcases List.mem_cons.1 hmem with h | h
      · exact absurd (congrArg Prod.fst h) hk
      · exact ih h

theorem resize_length {α : Type} (l : List α) (n : Nat) (fill : α) :
    (resize l n fill).length = n := by
  unfold resize
  rw [List.length_append, List.length_take, List.length_replicate]
  omega

/-- The first loop of initializeConstraints: after the vertices `0 .. n-1` the
map keeps its length and holds -1 at every constrained vertex below `n`. -/
theorem freeIdx_scan (d : Deform K) (init : List Int × Nat) (n : Nat) :
    ((List.range n).foldl d.freeIdxStep init).1.length = init.1.length ∧
    ∀ j : Nat, j < n → j < init.1.length → (d.constraints.lookup j).isSome = true →
      ((List.range n).foldl d.freeIdxStep init).1[j]? = some (-1) := by
  induction n with
  | zero => exact ⟨rfl, fun j hj => absurd hj (Nat.not_lt_zero j)⟩
  | succ n ih =>
    simp only [List.range_succ, List.foldl_append, List.foldl_cons, List.foldl_nil]
    generalize (List.range n).foldl d.freeIdxStep init = acc at ih
    obtain ⟨hlen, hval⟩ := ih
    unfold Deform.freeIdxStep
    by_cases hc : (d.constraints.lookup n).isSome = true
    · rw [if_pos hc]
      refine ⟨by simp only [List.length_set]; exact hlen, fun j hj hjl hcj => ?_⟩
      by_cases hjn : j = n
      · subst hjn
        exact List.getElem?_set_self (by rw [hlen]; exact hjl)
      · rw [List.getElem?_set_ne (Ne.symm hjn)]
        exact hval j (by omega) hjl hcj
    · rw [if_neg hc]
      refine ⟨by simp only [List.length_set]; exact hlen, fun j hj hjl hcj => ?_⟩
      by_cases hjn : j = n
      · subst hjn; exact absurd hcj hc
      · rw [List.getElem?_set_ne (Ne.symm hjn)]
        exact hval j (by omega) hjl hcj

/-- The scatter loop of one axis never writes a column whose map entry is -1. -/
theorem scatter_fixed (d : Deform K) (i : Fin 3) (LU : List K) (k : Nat)
    (hk : d.freeIdxMap.getD k 0 = -1) (js : List Nat) :
    ∀ acc : List (Vec3 K) × Nat, (js.foldl (d.scatterStep i LU) acc).1[k]? = acc.1[k]? := by
  induction js with
  | nil => intro acc; rfl
  | cons j rest ih =>
    intro acc
    simp only [List.foldl_cons]
    rw [ih]
    unfold Deform.scatterStep
    by_cases hj : d.freeIdxMap.getD j 0 ≠ -1
    · rw [if_pos hj]
      have hjk : j ≠ k := fun h => hj (h ▸ hk)
      exact List.getElem?_set_ne hjk
    · rw [if_neg hj]

/-- estimatePositions keeps every column whose map entry is -1. -/
theorem estimatePositions_fixed (solver : List (Nat × Nat × K) → List K → List K)
    (d : Deform K) (k : Nat) (hk : d.freeIdxMap.getD k 0 = -1) :
    (d.estimatePositions solver).Vprime[k]? = d.Vprime[k]? := by
  unfold Deform.estimatePositions
  simp only [List.foldl_cons, List.foldl_nil]
  rw [scatter_fixed d _ _ k hk, scatter_fixed d _ _ k hk, scatter_fixed d _ _ k hk]

/-- The iterations of solve keep the map and every column whose map entry is -1. -/
theorem iterate_fixed (svd : Mat3 K → Mat3 K × Mat3 K)
    (solver : List (Nat × Nat × K) → List K → List K) (k : Nat) (n : Nat) :
    ∀ d : Deform K, d.freeIdxMap.getD k 0 = -1 →
      ((Deform.iteration svd solver)^[n] d).Vprime[k]? = d.Vprime[k]? := by
  induction n with
  | zero => intro d _; rfl
  | succ n ih =>
    intro d hk
    rw [Function.iterate_succ_apply]
    rw [ih _ (by exact hk)]
    exact estimatePositions_fixed solver (Deform.estimateRotations svd d) k hk

/-- C1. Constraint satisfaction: for every mesh, every constraint set (an ordered
map) and key `k` that is a valid vertex id, every initial position buffer with
one column per vertex, and whatever the SVD and the linear solver return, after
Deform::solve the output column of vertex `k` equals its constraint target. -/
theorem solve_constraint (svd : Mat3 K → Mat3 K × Mat3 K)
    (solver : List (Nat × Nat × K) → List K → List K)
    (d : Deform K) (U : List (Vec3 K)) (k : Nat) (p : Vec3 K)
    (hmap : KeysAscending d.constraints) (hmem : (k, p) ∈ d.constraints)
    (hk : k < d.V.length) (hU : U.length = d.V.length) :
    (d.solve svd solver U).2[k]? = some p := by
  unfold Deform.solve
  simp only []
  rw [iterate_fixed svd solver k iterMax]
  · show (List.foldl (fun vp c => vp.set c.1 c.2) U d.constraints)[k]? = some p
    exact foldl_set_target d.constraints hmap k p hmem U (by rw [hU]; exact hk)
  · show List.getD ((List.range d.V.length).foldl
      (Deform.freeIdxStep ({ d with Vprime := U } : Deform K).initializeRotations)
      (resize d.freeIdxMap d.V.length 0, 0)).1 k 0 = -1
    have hscan := (freeIdx_scan ({ d with Vprime := U } : Deform K).initializeRotations
      (resize d.freeIdxMap d.V.length 0, 0) d.V.length).2 k hk
      (by rw [resize_length]; exact hk) (lookup_isSome_of_mem d.constraints k p hmem)
    rw [List.getD_eq_getElem?_getD, hscan]
    rfl

/-! ### Deform: fitted rotations -/

theorem setEntry_one_eq_diagonal (x : K) :
    setEntry (1 : Mat3 K) 2 2 x = Matrix.diagonal ![1, 1, x] := by
  ext a b
  fin_cases a <;> fin_cases b <;> simp [setEntry, Matrix.diagonal, Matrix.one_apply]

theorem det_sq_of_orthogonal (M : Mat3 K) (hM : M.transpose * M = 1) : M.det * M.det = 1 := by
  have h := congrArg Matrix.det hM
  rw [Matrix.det_mul, Matrix.det_transpose, Matrix.det_one] at h
  exact h

/-- The matrix built from orthogonal SVD factors is a proper rotation. -/
theorem fitRotation_proper (U V : Mat3 K) (hU : U.transpose * U = 1)
    (hV : V.transpose * V = 1) :
    (fitRotation U V).transpose * fitRotation U V = 1 ∧ (fitRotation U V).det = 1 := by
  have hdU := det_sq_of_orthogonal U hU
  have hdV := det_sq_of_orthogonal V hV
  have hUU : U * U.transpose = 1 := Matrix.mul_eq_one_comm.1 hU
  have hval : (V * U.transpose).det = V.det * U.det := by
    rw [Matrix.det_mul, Matrix.det_transpose]
  have hδ : V.det * U.det * (V.det * U.det) = 1 := by
    calc V.det * U.det * (V.det * U.det) = (V.det * V.det) * (U.det * U.det) := by ring
      _ = 1 := by rw [hdU, hdV, mul_one]
  unfold fitRotation
  simp only []
  rw [setEntry_one_eq_diagonal, hval]
  have hDD : Matrix.diagonal ![1, 1, V.det * U.det] * Matrix.diagonal ![1, 1, V.det * U.det]
      = (1 : Mat3 K) := by
    rw [Matrix.diagonal_mul_diagonal, ← Matrix.diagonal_one]
    refine congrArg Matrix.diagonal (funext fun a => ?_)
    fin_cases a <;> simp [hδ]
  constructor
  · rw [Matrix.transpose_mul, Matrix.transpose_mul, Matrix.transpose_transpose,
      Matrix.diagonal_transpose]
    calc U * (Matrix.diagonal ![1, 1, V.det * U.det] * V.transpose)
          * (V * Matrix.diagonal ![1, 1, V.det * U.det] * U.transpose)
        = U * (Matrix.diagonal ![1, 1, V.det * U.det] * (V.transpose * V)
            * Matrix.diagonal ![1, 1, V.det * U.det]) * U.transpose := by
          simp only [Matrix.mul_assoc]
      _ = 1 := by rw [hV, Matrix.mul_one, hDD, Matrix.mul_one, hUU]
  · rw [Matrix.det_mul, Matrix.det_mul, Matrix.det_transpose, Matrix.det_diagonal]
    simp only [Fin.prod_univ_three, Matrix.cons_val_zero, Matrix.cons_val_one,
      Matrix.head_cons, Matrix.cons_val_two, Matrix.tail_cons, one_mul]
    linear_combination hδ

/-- The loop of estimateRotations stores the value computed for `k` in slot `k`. -/
theorem foldl_set_range {α : Type} (f : Nat → α) (n : Nat) (R0 : List α) :
    ((List.range n).foldl (fun R k => R.set k (f k)) R0).length = R0.length ∧
    ∀ k : Nat, k < n → k < R0.length →
      ((List.range n).foldl (fun R k => R.set k (f k)) R0)[k]? = some (f k) := by
  induction n with
  | zero => exact ⟨rfl, fun k hk => absurd hk (Nat.not_lt_zero k)⟩
  | succ n ih =>
    simp only [List.range_succ, List.foldl_append, List.foldl_cons, List.foldl_nil]
    obtain ⟨hlen, hval⟩ := ih
    refine ⟨by rw [List.length_set]; exact hlen, fun k hk hkl => ?_⟩
    by_cases hkn : k = n
    · subst hkn
      exact List.getElem?_set_self (by rw [hlen]; exact hkl)
    · rw [List.getElem?_set_ne (Ne.symm hkn)]
      exact hval k (by omega) hkl

/-- C9. Proper rotations: for every vertex `k`, the matrix that estimateRotations
stores in `R[k]` is `V · diag(1, 1, det(V·Uᵀ)) · Uᵀ` for the factors `U`, `V` that the
SVD returns for the covariance of `k`, and for every orthogonal `U` and `V`
(whatever the sign of `det(V·Uᵀ)`) it is orthogonal with determinant +1. -/
theorem estimateRotations_proper (svd : Mat3 K → Mat3 K × Mat3 K) (d : Deform K) (k : Nat)
    (hk : k < d.W.length) (hR : k < d.R.length)
    (hU : (svd (d.covariance k)).1.transpose * (svd (d.covariance k)).1 = 1)
    (hV : (svd (d.covariance k)).2.transpose * (svd (d.covariance k)).2 = 1) :
    ∃ Rk : Mat3 K, (d.estimateRotations svd).R[k]? = some Rk ∧
      Rk = (svd (d.covariance k)).2
            * Matrix.diagonal ![1, 1, ((svd (d.covariance k)).2
                * (svd (d.covariance k)).1.transpose).det]
            * (svd (d.covariance k)).1.transpose ∧
      Rk.transpose * Rk = 1 ∧ Rk.det = 1 := by
  refine ⟨fitRotation (svd (d.covariance k)).1 (svd (d.covariance k)).2, ?_, ?_,
    (fitRotation_proper _ _ hU hV).1, (fitRotation_proper _ _ hU hV).2⟩
  · exact (foldl_set_range
      (fun k => fitRotation (svd (d.covariance k)).1 (svd (d.covariance k)).2)
      d.W.length d.R).2 k hk hR
  · unfold fitRotation
    simp only []
    rw [setEntry_one_eq_diagonal]

theorem mirrorFactors_orthogonal (M : Mat3 ℚ) :
    (mirrorFactors M).1.transpose * (mirrorFactors M).1 = 1 ∧
    (mirrorFactors M).2.transpose * (mirrorFactors M).2 = 1 := by
  constructor
  · show (Matrix.diagonal ![1, 1, -1] : Mat3 ℚ).transpose * Matrix.diagonal ![1, 1, -1] = 1
    rw [Matrix.diagonal_transpose, Matrix.diagonal_mul_diagonal, ← Matrix.diagonal_one]
    refine congrArg Matrix.diagonal (funext fun a => ?_)
    fin_cases a <;> simp
  · show (1 : Mat3 ℚ).transpose * 1 = 1
    rw [Matrix.transpose_one, Matrix.mul_one]

/-- Witness for C9: slot 0 of the pinned edge, with factors of determinant -1. -/
theorem estimateRotations_proper_witness :
    (0 < pinned.W.length ∧ 0 < pinned.R.length) ∧
    ∃ Rk : Mat3 ℚ, (pinned.estimateRotations mirrorFactors).R[0]? = some Rk ∧
      Rk = (mirrorFactors (pinned.covariance 0)).2
            * Matrix.diagonal ![1, 1, ((mirrorFactors (pinned.covariance 0)).2
                * (mirrorFactors (pinned.covariance 0)).1.transpose).det]
            * (mirrorFactors (pinned.covariance 0)).1.transpose ∧
      Rk.transpose * Rk = 1 ∧ Rk.det = 1 :=
  ⟨⟨Nat.zero_lt_two, Nat.zero_lt_two⟩,
    estimateRotations_proper mirrorFactors pinned 0 Nat.zero_lt_two Nat.zero_lt_two
      (mirrorFactors_orthogonal _).1 (mirrorFactors_orthogonal _).2⟩

theorem pinned_keysAscending : KeysAscending pinned.constraints :=
  List.pairwise_singleton _ _

/-- Witness for C1: the pinned edge, with a solver that returns 42 everywhere. -/
theorem solve_constraint_witness :
    KeysAscending pinned.constraints ∧ ((0, ![0, 0, 1]) : Nat × Vec3 ℚ) ∈ pinned.constraints ∧
    0 < pinned.V.length ∧ ([![5, 5, 5], ![7, 7, 7]] : List (Vec3 ℚ)).length = pinned.V.length ∧
    (pinned.solve mirrorFactors (fun _ _ => [42]) [![5, 5, 5], ![7, 7, 7]]).2[0]?
      = some ![0, 0, 1] :=
  ⟨pinned_keysAscending, List.mem_singleton.2 rfl, Nat.zero_lt_two, rfl,
    solve_constraint mirrorFactors (fun _ _ => [42]) pinned [![5, 5, 5], ![7, 7, 7]] 0
      ![0, 0, 1] pinned_keysAscending (List.mem_singleton.2 rfl) Nat.zero_lt_two rfl⟩

/-! ### Rotations and traces -/

theorem orthogonal_col (M : Mat3 K) (hM : M.transpose * M = 1) (a : Fin 3) :
    M 0 a * M 0 a + M 1 a * M 1 a + M 2 a * M 2 a = 1 := by
  have h := congrFun (congrFun hM a) a
  simpa [Matrix.mul_apply, Fin.sum_univ_three, Matrix.transpose_apply] using h

theorem orthogonal_diag_le_one (M : Mat3 K) (hM : M.transpose * M = 1) (a : Fin 3) :
    M a a ≤ 1 := by
  have h0 := orthogonal_col M hM 0
  have h1 := orthogonal_col M hM 1
  have h2 := orthogonal_col M hM 2
  have e0 : M 0 0 ≤ 1 := by
    nlinarith [sq_nonneg (M 0 0 - 1), mul_self_nonneg (M 1 0), mul_self_nonneg (M 2 0)]
  have e1 : M 1 1 ≤ 1 := by
    nlinarith [sq_nonneg (M 1 1 - 1), mul_self_nonneg (M 0 1), mul_self_nonneg (M 2 1)]
  have e2 : M 2 2 ≤ 1 := by
    nlinarith [sq_nonneg (M 2 2 - 1), mul_self_nonneg (M 0 2), mul_self_nonneg (M 1 2)]
  fin_cases a
  · exact e0
  · exact e1
  · exact e2

/-- An orthogonal 3×3 matrix of determinant -1 has trace at most 1. -/
theorem trace_le_one_of_det_neg_one (M : Mat3 K) (hM : M.transpose * M = 1)
    (hdet : M.det = -1) : M 0 0 + M 1 1 + M 2 2 ≤ 1 := by
  have hadj : M.adjugate = (-1 : K) • M.transpose := by
    have h1 : M * M.adjugate = (-1 : K) • (1 : Mat3 K) := by
      rw [Matrix.mul_adjugate, hdet]
    calc M.adjugate = (M.transpose * M) * M.adjugate := by rw [hM, Matrix.one_mul]
      _ = M.transpose * (M * M.adjugate) := by rw [Matrix.mul_assoc]
      _ = (-1 : K) • M.transpose := by rw [h1, Matrix.mul_smul, Matrix.mul_one]
  have a0 := congrFun (congrFun hadj 0) 0
  have a1 := congrFun (congrFun hadj 1) 1
  have a2 := congrFun (congrFun hadj 2) 2
  rw [Matrix.adjugate_fin_three] at a0 a1 a2
  simp [Matrix.transpose_apply] at a0 a1 a2
  have c0 := orthogonal_col M hM 0
  have c1 := orthogonal_col M hM 1
  have c2 := orthogonal_col M hM 2
  nlinarith [sq_nonneg (M 0 1 - M 1 0), sq_nonneg (M 0 2 - M 2 0), sq_nonneg (M 1 2 - M 2 1),
    sq_nonneg (M 0 0 + M 1 1 + M 2 2 - 1)]

theorem trace_mul_diagonal (M : Mat3 K) (σ : Fin 3 → K) :
    Matrix.trace (M * Matrix.diagonal σ) = M 0 0 * σ 0 + M 1 1 * σ 1 + M 2 2 * σ 2 := by
  simp [Matrix.trace, Fin.sum_univ_three, Matrix.mul_diagonal]

/-- The weighted diagonal sum of an orthogonal matrix of determinant `δ = ±1` is
at most `σ 0 + σ 1 + δ·σ 2` for sorted non-negative weights. -/
theorem weighted_diag_le (M : Mat3 K) (hM : M.transpose * M = 1) (σ : Fin 3 → K)
    (h10 : σ 1 ≤ σ 0) (h21 : σ 2 ≤ σ 1) (h2 : 0 ≤ σ 2) :
    M 0 0 * σ 0 + M 1 1 * σ 1 + M 2 2 * σ 2 ≤ σ 0 + σ 1 + M.det * σ 2 := by
  have d0 := orthogonal_diag_le_one M hM 0
  have d1 := orthogonal_diag_le_one M hM 1
  have d2 := orthogonal_diag_le_one M hM 2
  have hdd : M.det * M.det = 1 := det_sq_of_orthogonal M hM
  rcases mul_self_eq_one_iff.1 hdd with hd | hd
  · rw [hd]
    nlinarith [mul_nonneg (sub_nonneg.2 d0) (le_trans h2 (le_trans h21 h10)),
      mul_nonneg (sub_nonneg.2 d1) (le_trans h2 h21), mul_nonneg (sub_nonneg.2 d2) h2]
  · rw [hd]
    have ht := trace_le_one_of_det_neg_one M hM hd
    nlinarith [mul_nonneg (sub_nonneg.2 d0) (sub_nonneg.2 (le_trans h21 h10)),
      mul_nonneg (sub_nonneg.2 d1) (sub_nonneg.2 h21), mul_nonneg (sub_nonneg.2 ht) h2]

/-- Optimality of the fitted rotation: among proper rotations `Q`, the matrix
built from the SVD factors of `cov` has the largest `trace (Q * cov)`. -/
theorem trace_fitRotation_ge (cov U V Q : Mat3 K) (hsvd : IsSVD cov U V)
    (hQ : Q.transpose * Q = 1) (hdet : Q.det = 1) :
    Matrix.trace (Q * cov) ≤ Matrix.trace (fitRotation U V * cov) := by
  obtain ⟨hU, hV, σ, h10, h21, h2, hcov⟩ := hsvd
  have hVV : V * V.transpose = 1 := Matrix.mul_eq_one_comm.1 hV
  have hval : (V * U.transpose).det = V.det * U.det := by
    rw [Matrix.det_mul, Matrix.det_transpose]
  -- the right-hand side
  have hR : Matrix.trace (fitRotation U V * cov)
      = σ 0 + σ 1 + (V.det * U.det) * σ 2 := by
    unfold fitRotation
    simp only []
    rw [setEntry_one_eq_diagonal, hval, hcov]
    have e : V * Matrix.diagonal ![1, 1, V.det * U.det] * U.transpose
          * (U * Matrix.diagonal σ * V.transpose)
        = V * (Matrix.diagonal ![1, 1, V.det * U.det] * Matrix.diagonal σ) * V.transpose := by
      calc V * Matrix.diagonal ![1, 1, V.det * U.det] * U.transpose
            * (U * Matrix.diagonal σ * V.transpose)
          = V * Matrix.diagonal ![1, 1, V.det * U.det] * (U.transpose * U)
            * Matrix.diagonal σ * V.transpose := by simp only [Matrix.mul_assoc]
        _ = V * (Matrix.diagonal ![1, 1, V.det * U.det] * Matrix.diagonal σ) * V.transpose := by
            rw [hU, Matrix.mul_one]; simp only [Matrix.mul_assoc]
    rw [e, Matrix.trace_mul_comm, ← Matrix.mul_assoc, hV, Matrix.one_mul,
      Matrix.diagonal_mul_diagonal]
    simp [Matrix.trace, Fin.sum_univ_three]
  -- the left-hand side
  have hL : Matrix.trace (Q * cov)
      = Matrix.trace ((V.transpose * Q * U) * Matrix.diagonal σ) := by
    rw [hcov]
    calc Matrix.trace (Q * (U * Matrix.diagonal σ * V.transpose))
        = Matrix.trace ((Q * U * Matrix.diagonal σ) * V.transpose) := by
          simp only [Matrix.mul_assoc]
      _ = Matrix.trace (V.transpose * (Q * U * Matrix.diagonal σ)) :=
          Matrix.trace_mul_comm _ _
      _ = Matrix.trace ((V.transpose * Q * U) * Matrix.diagonal σ) := by
          simp only [Matrix.mul_assoc]
  have hMo : (V.transpose * Q * U).transpose * (V.transpose * Q * U) = 1 := by
    rw [Matrix.transpose_mul, Matrix.transpose_mul, Matrix.transpose_transpose]
    calc U.transpose * (Q.transpose * V) * (V.transpose * Q * U)
        = U.transpose * (Q.transpose * (V * V.transpose) * Q) * U := by
          simp only [Matrix.mul_assoc]
      _ = 1 := by rw [hVV, Matrix.mul_one, hQ, Matrix.mul_one, hU]
  have hMd : (V.transpose * Q * U).det = V.det * U.det := by
    rw [Matrix.det_mul, Matrix.det_mul, Matrix.det_transpose, hdet, mul_one]
  rw [hL, hR, trace_mul_diagonal, ← hMd]
  exact weighted_diag_le _ hMo σ h10 h21 h2

/-! ### Sums over the stored entries -/

theorem foldl_flatMap_eq {α β γ : Type} (f : α → List β) (g : γ → β → γ) (ks : List α) :
    ∀ init : γ, (ks.flatMap f).foldl g init = ks.foldl (fun acc k => (f k).foldl g acc) init := by
  induction ks with
  | nil => intro init; rfl
  | cons k rest ih =>
    intro init
    rw [List.flatMap_cons, List.foldl_append, ih]
    rfl

/-- The double loop over `W` is one loop over the list of stored entries. -/
theorem foldEntries_eq {α : Type} (W : List (List (Nat × K))) (step : Nat → α → Nat × K → α)
    (init : α) :
    foldEntries W step init
      = (entries W).foldl (fun acc t => step t.2.1 acc (t.1, t.2.2)) init := by
  unfold foldEntries entries
  rw [foldl_flatMap_eq]
  congr 1
  funext acc k
  rw [List.foldl_map]

theorem foldl_add_eq_sum {β A : Type} [AddCommMonoid A] (g : β → A) (l : List β) :
    ∀ init : A, l.foldl (fun acc e => acc + g e) init = init + (l.map g).sum := by
  induction l with
  | nil => intro init; simp
  | cons e rest ih =>
    intro init
    rw [List.foldl_cons, ih, List.map_cons, List.sum_cons, add_assoc]

theorem sum_flatMap_eq {α β : Type} (f : α → List β) (g : β → K) (ks : List α) :
    ((ks.flatMap f).map g).sum = (ks.map (fun k => ((f k).map g).sum)).sum := by
  induction ks with
  | nil => rfl
  | cons k rest ih =>
    rw [List.flatMap_cons, List.map_append, List.sum_append, ih, List.map_cons, List.sum_cons]

/-- The energy as a sum over the stored entries. -/
theorem energy_eq_sum (d : Deform K) :
    d.energy = ((entries d.W).map (fun t =>
      pairEnergy (fun i => d.V.getD i 0) (fun i => d.Vprime.getD i 0) (d.R.getD t.1 0)
        t.1 t.2.1 t.2.2)).sum := by
  unfold Deform.energy
  rw [foldEntries_eq]
  have h := foldl_add_eq_sum (fun t : Nat × Nat × K =>
      pairEnergy (fun i => d.V.getD i 0) (fun i => d.Vprime.getD i 0) (d.R.getD t.1 0)
        t.1 t.2.1 t.2.2) (entries d.W) 0
  rw [zero_add] at h
  exact h

/-- Transposing the index pair under a sum over the entries of a symmetric `W`. -/
theorem sum_swap (W : List (List (Nat × K))) (hsym : SymmetricW W) (g : Nat × Nat × K → K) :
    ((entries W).map g).sum = ((entries W).map (fun t => g (t.2.1, t.1, t.2.2))).sum := by
  have h := (hsym.map g).sum_eq
  rw [List.map_map] at h
  exact h.symm

theorem mem_entries (W : List (List (Nat × K))) (t : Nat × Nat × K) (h : t ∈ entries W) :
    t.2.1 < W.length := by
  unfold entries at h
  rw [List.mem_flatMap] at h
  obtain ⟨k, hk, ht⟩ := h
  rw [List.mem_map] at ht
  obtain ⟨e, -, rfl⟩ := ht
  exact List.mem_range.1 hk

/-! ### Vector identities -/

theorem dot_eq_dotProduct (a b : Vec3 K) : dot a b = Matrix.dotProduct a b := by
  simp [dot, Matrix.dotProduct, Fin.sum_univ_three]

theorem normSq_neg (v : Vec3 K) : normSq (-v) = normSq v := by
  simp [normSq, dot]

theorem normSq_nonneg (v : Vec3 K) : 0 ≤ normSq v := by
  unfold normSq dot
  nlinarith [mul_self_nonneg (v 0), mul_self_nonneg (v 1), mul_self_nonneg (v 2)]

theorem normSq_sub (a b : Vec3 K) : normSq (a - b) = normSq a - 2 * dot a b + normSq b := by
  simp only [normSq, dot, Pi.sub_apply]
  ring

theorem normSq_add (a b : Vec3 K) : normSq (a + b) = normSq a + 2 * dot a b + normSq b := by
  simp only [normSq, dot, Pi.add_apply]
  ring

theorem normSq_mulVec (M : Mat3 K) (hM : M.transpose * M = 1) (e : Vec3 K) :
    normSq (Matrix.mulVec M e) = normSq e := by
  unfold normSq
  rw [dot_eq_dotProduct, dot_eq_dotProduct, Matrix.dotProduct_mulVec, ← Matrix.mulVec_transpose,
    Matrix.mulVec_mulVec, hM, Matrix.one_mulVec]

theorem dot_mulVec_eq_trace (M : Mat3 K) (e e' : Vec3 K) :
    dot e' (Matrix.mulVec M e) = Matrix.trace (M * Matrix.vecMulVec e e') := by
  simp only [dot, Matrix.mulVec, Matrix.dotProduct, Matrix.trace, Matrix.diag, Matrix.mul_apply,
    Matrix.vecMulVec_apply, Fin.sum_univ_three]
  ring

/-- The energy of one column of `W` for an orthogonal matrix `M`: a constant
minus twice the trace of `M` times the covariance of the column. -/
theorem col_energy_eq (p P : Nat → Vec3 K) (k : Nat) (M : Mat3 K)
    (hM : M.transpose * M = 1) (l : List (Nat × K)) :
    (l.map (fun e => pairEnergy p P M e.1 k e.2)).sum
      = (l.map (fun e => e.2 * (normSq (P e.1 - P k) + normSq (p e.1 - p k)))).sum
        - 2 * Matrix.trace (M * (l.map (fun e =>
            Matrix.vecMulVec (e.2 • (p e.1 - p k)) (P e.1 - P k))).sum) := by
  induction l with
  | nil => simp
  | cons e rest ih =>
    simp only [List.map_cons, List.sum_cons]
    rw [ih, Matrix.mul_add, Matrix.trace_add, ← dot_mulVec_eq_trace]
    unfold pairEnergy
    rw [normSq_sub, normSq_mulVec M hM, Matrix.mulVec_smul]
    have : dot (P e.1 - P k) (e.2 • Matrix.mulVec M (p e.1 - p k))
        = e.2 * dot (P e.1 - P k) (Matrix.mulVec M (p e.1 - p k)) := by
      simp only [dot, Pi.smul_apply, smul_eq_mul]
      ring
    rw [this]
    ring

/-- The covariance of estimateRotations as a sum over the column. -/
theorem covariance_eq_sum (d : Deform K) (k : Nat) :
    d.covariance k = ((d.W.getD k []).map (fun e =>
      Matrix.vecMulVec (e.2 • (d.V.getD e.1 0 - d.V.getD k 0))
        (d.Vprime.getD e.1 0 - d.Vprime.getD k 0))).sum := by
  unfold Deform.covariance
  have h := foldl_add_eq_sum (fun e : Nat × K =>
      Matrix.vecMulVec (e.2 • (d.V.getD e.1 0 - d.V.getD k 0))
        (d.Vprime.getD e.1 0 - d.Vprime.getD k 0)) (d.W.getD k []) (0 : Mat3 K)
  rw [zero_add] at h
  exact h

theorem pairEnergy_swap (p P : Nat → Vec3 K) (M : Mat3 K) (i j : Nat) (w : K) :
    pairEnergy p P M j i w = pairEnergy p P M i j w := by
  unfold pairEnergy
  have h : (P j - P i) - Matrix.mulVec M (p j - p i)
      = -((P i - P j) - Matrix.mulVec M (p i - p j)) := by
    have e1 : p j - p i = -(p i - p j) := by ring
    rw [e1, Matrix.mulVec_neg]
    ring
  rw [h, normSq_neg]

/-- The energy regrouped by columns: by symmetry of `W` the term of the stored
entry `(i, j)` can be charged to the rotation of its column `j`. -/
theorem energy_by_columns (W : List (List (Nat × K))) (hsym : SymmetricW W)
    (p P : Nat → Vec3 K) (R : Nat → Mat3 K) :
    ((entries W).map (fun t => pairEnergy p P (R t.1) t.1 t.2.1 t.2.2)).sum
      = ((List.range W.length).map (fun k =>
          ((W.getD k []).map (fun e => pairEnergy p P (R k) e.1 k e.2)).sum)).sum := by
  rw [sum_swap W hsym]
  have hsw : (fun t : Nat × Nat × K => pairEnergy p P (R t.2.1) t.2.1 t.1 t.2.2)
      = (fun t : Nat × Nat × K => pairEnergy p P (R t.2.1) t.1 t.2.1 t.2.2) :=
    funext fun t => pairEnergy_swap p P (R t.2.1) t.1 t.2.1 t.2.2
  rw [hsw]
  unfold entries
  rw [sum_flatMap_eq]
  congr 1
  refine List.map_congr_left (fun k _ => ?_)
  rw [List.map_map]
  rfl

/-! ### The local step does not increase the energy -/

theorem estimateRotations_getD (svd : Mat3 K → Mat3 K × Mat3 K) (d : Deform K) (k : Nat)
    (hk : k < d.W.length) (hR : k < d.R.length) :
    (d.estimateRotations svd).R.getD k 0
      = fitRotation (svd (d.covariance k)).1 (svd (d.covariance k)).2 := by
  have h := (foldl_set_range
      (fun k => fitRotation (svd (d.covariance k)).1 (svd (d.covariance k)).2)
      d.W.length d.R).2 k hk hR
  rw [List.getD_eq_getElem?_getD]
  show Option.getD ((List.range d.W.length).foldl
      (fun R k => R.set k (fitRotation (svd (d.covariance k)).1 (svd (d.covariance k)).2))
      d.R)[k]? 0 = _
  rw [h]
  rfl

/-- Local step: with a symmetric `W`, proper rotations in `R` and exact SVD
factors, estimateRotations does not increase the energy. -/
theorem estimateRotations_energy_le (svd : Mat3 K → Mat3 K × Mat3 K) (d : Deform K)
    (hRlen : d.W.length ≤ d.R.length) (hsym : SymmetricW d.W)
    (hR : ∀ k : Nat, k < d.W.length →
      (d.R.getD k 0).transpose * d.R.getD k 0 = 1 ∧ (d.R.getD k 0).det = 1)
    (hsvd : ∀ k : Nat, k < d.W.length →
      IsSVD (d.covariance k) (svd (d.covariance k)).1 (svd (d.covariance k)).2) :
    (d.estimateRotations svd).energy ≤ d.energy := by
  rw [energy_eq_sum, energy_eq_sum]
  show ((entries d.W).map (fun t =>
      pairEnergy (fun i => d.V.getD i 0) (fun i => d.Vprime.getD i 0)
        ((d.estimateRotations svd).R.getD t.1 0) t.1 t.2.1 t.2.2)).sum ≤ _
  rw [energy_by_columns d.W hsym _ _ (fun k => (d.estimateRotations svd).R.getD k 0),
    energy_by_columns d.W hsym _ _ (fun k => d.R.getD k 0)]
  refine List.sum_le_sum (fun k hk => ?_)
  have hk' : k < d.W.length := List.mem_range.1 hk
  rw [estimateRotations_getD svd d k hk' (lt_of_lt_of_le hk' hRlen)]
  obtain ⟨hU, hV, -⟩ := hsvd k hk'
  rw [col_energy_eq _ _ k _ (fitRotation_proper _ _ hU hV).1,
    col_energy_eq _ _ k _ (hR k hk').1, ← covariance_eq_sum]
  have ht := trace_fitRotation_ge (d.covariance k) _ _ (d.R.getD k 0) (hsvd k hk')
    (hR k hk').1 (hR k hk').2
  linarith

/-! ### The global step as a minimisation -/

theorem sum_map_comm {α β : Type} (l : List α) (ks : List β) (F : α → β → K) :
    (l.map (fun t => (ks.map (fun v => F t v)).sum)).sum
      = (ks.map (fun v => (l.map (fun t => F t v)).sum)).sum := by
  induction l with
  | nil => simp
  | cons t rest ih =>
    simp only [List.map_cons, List.sum_cons]
    rw [ih, ← List.sum_map_add]

theorem sum_range_ite (N i : Nat) (G : Nat → K) :
    ((List.range N).map (fun v => if i = v then G v else 0)).sum = if i < N then G i else 0 := by
  induction N with
  | zero => simp
  | succ N ih =>
    rw [List.range_succ, List.map_append, List.sum_append, ih]
    simp only [List.map_cons, List.map_nil, List.sum_cons, List.sum_nil, add_zero]
    by_cases h1 : i < N
    · rw [if_pos h1, if_neg (Nat.ne_of_lt h1), if_pos (Nat.lt_succ_of_lt h1), add_zero]
    · rw [if_neg h1]
      by_cases h2 : i = N
      · rw [if_pos h2, if_pos (by omega), zero_add, h2]
      · rw [if_neg h2, if_neg (by omega), add_zero]

/-- Grouping a sum over entries by the row of the entry. -/
theorem sum_group_rows (E : List (Nat × Nat × K)) (N : Nat) (hrow : ∀ t ∈ E, t.1 < N)
    (F : Nat → Nat × Nat × K → K) :
    (E.map (fun t => F t.1 t)).sum
      = ((List.range N).map (fun v => (E.map (fun t => if t.1 = v then F v t else 0)).sum)).sum := by
  rw [← sum_map_comm]
  refine congrArg List.sum (List.map_congr_left (fun t ht => ?_))
  rw [sum_range_ite N t.1 (fun v => F v t), if_pos (hrow t ht)]

/-- Stationarity makes the first-order term vanish: if for every free vertex `v`
the row sum of `H v` is zero, then the sum of `δ · H` over all entries is zero
for every `δ` that vanishes at the fixed vertices. -/
theorem sum_delta_rows_zero (E : List (Nat × Nat × K)) (N : Nat) (hrow : ∀ t ∈ E, t.1 < N)
    (isFixed : Nat → Bool) (δ : Nat → K) (H : Nat → Nat × Nat × K → K)
    (hδ : ∀ v : Nat, v < N → isFixed v = true → δ v = 0)
    (hstat : ∀ v : Nat, v < N → isFixed v = false →
      (E.map (fun t => if t.1 = v then H v t else 0)).sum = 0) :
    (E.map (fun t => δ t.1 * H t.1 t)).sum = 0 := by
  rw [sum_group_rows E N hrow (fun v t => δ v * H v t)]
  refine List.sum_eq_zero (fun x hx => ?_)
  rw [List.mem_map] at hx
  obtain ⟨v, hv, rfl⟩ := hx
  have hvN : v < N := List.mem_range.1 hv
  have e : (E.map (fun t => if t.1 = v then δ v * H v t else 0)).sum
      = δ v * (E.map (fun t => if t.1 = v then H v t else 0)).sum := by
    rw [← List.sum_map_mul_left]
    refine congrArg List.sum (List.map_congr_left (fun t _ => ?_))
    split_ifs
    · rfl
    · rw [mul_zero]
  rw [e]
  cases hf : isFixed v with
  | true => rw [hδ v hvN hf, zero_mul]
  | false => rw [hstat v hvN hf, mul_zero]

theorem sum_map_sub {α : Type} (l : List α) (f g : α → K) :
    (l.map (fun t => f t - g t)).sum = (l.map f).sum - (l.map g).sum := by
  induction l with
  | nil => simp
  | cons t rest ih =>
    simp only [List.map_cons, List.sum_cons]
    rw [ih]
    ring

theorem sum_swap_list (E : List (Nat × Nat × K))
    (hsym : (E.map (fun t => (t.2.1, t.1, t.2.2))).Perm E) (g : Nat × Nat × K → K) :
    (E.map g).sum = (E.map (fun t => g (t.2.1, t.1, t.2.2))).sum := by
  have h := (hsym.map g).sum_eq
  rw [List.map_map] at h
  exact h.symm

/-- Second-order expansion of one energy term around the positions `P'`. -/
theorem pairEnergy_expand (p P P' : Nat → Vec3 K) (M : Mat3 K) (i j : Nat) (w : K) :
    pairEnergy p P M i j w
      = pairEnergy p P' M i j w
        + 2 * (w * dot ((P' i - P' j) - Matrix.mulVec M (p i - p j))
                  ((P i - P' i) - (P j - P' j)))
        + w * normSq ((P i - P' i) - (P j - P' j)) := by
  unfold pairEnergy
  have h : (P i - P j) - Matrix.mulVec M (p i - p j)
      = ((P' i - P' j) - Matrix.mulVec M (p i - p j)) + ((P i - P' i) - (P j - P' j)) := by
    ring
  rw [h, normSq_add]
  ring

/-- The antisymmetric part of the first-order coefficient, by components. -/
theorem first_order_pair (p P' : Nat → Vec3 K) (R : Nat → Mat3 K) (i j : Nat) (w : K)
    (δ : Vec3 K) :
    w * dot ((P' i - P' j) - Matrix.mulVec (R i) (p i - p j)) δ
      - w * dot ((P' j - P' i) - Matrix.mulVec (R j) (p j - p i)) δ
    = 2 * (δ 0 * (w * ((P' i - P' j) 0
              - (1 / 2) * Matrix.mulVec (R i + R j) (p i - p j) 0))
        + δ 1 * (w * ((P' i - P' j) 1
              - (1 / 2) * Matrix.mulVec (R i + R j) (p i - p j) 1))
        + δ 2 * (w * ((P' i - P' j) 2
              - (1 / 2) * Matrix.mulVec (R i + R j) (p i - p j) 2))) := by
  have e1 : p j - p i = -(p i - p j) := by ring
  rw [e1, Matrix.mulVec_neg, Matrix.add_mulVec]
  simp only [dot, Pi.sub_apply, Pi.add_apply, Pi.neg_apply]
  ring

/-- Global step, abstractly: positions `P'` that agree with `P` at the fixed
vertices and are stationary at every free vertex have, for symmetric weights
whose Dirichlet form is non-negative, an energy no larger than that of `P`. -/
theorem stationary_energy_le (E : List (Nat × Nat × K))
    (hsym : (E.map (fun t => (t.2.1, t.1, t.2.2))).Perm E)
    (hlap : ∀ y : Nat → K,
      0 ≤ (E.map (fun t => t.2.2 * ((y t.1 - y t.2.1) * (y t.1 - y t.2.1)))).sum)
    (N : Nat) (hrow : ∀ t ∈ E, t.1 < N)
    (isFixed : Nat → Bool) (p P P' : Nat → Vec3 K) (R : Nat → Mat3 K)
    (hfix : ∀ v : Nat, v < N → isFixed v = true → P' v = P v)
    (hstat : ∀ v : Nat, v < N → isFixed v = false → ∀ a : Fin 3,
      (E.map (fun t => if t.1 = v then
          t.2.2 * ((P' v - P' t.2.1) a
            - (1 / 2) * Matrix.mulVec (R v + R t.2.1) (p v - p t.2.1) a)
        else 0)).sum = 0) :
    (E.map (fun t => pairEnergy p P' (R t.1) t.1 t.2.1 t.2.2)).sum
      ≤ (E.map (fun t => pairEnergy p P (R t.1) t.1 t.2.1 t.2.2)).sum := by
  -- expansion of every term
  have hexp : (E.map (fun t => pairEnergy p P (R t.1) t.1 t.2.1 t.2.2)).sum
      = (E.map (fun t => pairEnergy p P' (R t.1) t.1 t.2.1 t.2.2)).sum
        + 2 * (E.map (fun t => t.2.2 * dot ((P' t.1 - P' t.2.1)
              - Matrix.mulVec (R t.1) (p t.1 - p t.2.1))
              ((P t.1 - P' t.1) - (P t.2.1 - P' t.2.1)))).sum
        + (E.map (fun t => t.2.2 * normSq ((P t.1 - P' t.1) - (P t.2.1 - P' t.2.1)))).sum := by
    rw [← List.sum_map_mul_left, ← List.sum_map_add, ← List.sum_map_add]
    refine congrArg List.sum (List.map_congr_left (fun t _ => ?_))
    exact pairEnergy_expand p P P' (R t.1) t.1 t.2.1 t.2.2
  -- the second-order part is non-negative
  have hquad : 0 ≤ (E.map (fun t =>
      t.2.2 * normSq ((P t.1 - P' t.1) - (P t.2.1 - P' t.2.1)))).sum := by
    have hsplit3 : (E.map (fun t =>
        t.2.2 * normSq ((P t.1 - P' t.1) - (P t.2.1 - P' t.2.1)))).sum
        = (E.map (fun t => t.2.2 * (((P t.1 - P' t.1) 0 - (P t.2.1 - P' t.2.1) 0)
              * ((P t.1 - P' t.1) 0 - (P t.2.1 - P' t.2.1) 0)))).sum
          + (E.map (fun t => t.2.2 * (((P t.1 - P' t.1) 1 - (P t.2.1 - P' t.2.1) 1)
              * ((P t.1 - P' t.1) 1 - (P t.2.1 - P' t.2.1) 1)))).sum
          + (E.map (fun t => t.2.2 * (((P t.1 - P' t.1) 2 - (P t.2.1 - P' t.2.1) 2)
              * ((P t.1 - P' t.1) 2 - (P t.2.1 - P' t.2.1) 2)))).sum := by
      rw [← List.sum_map_add, ← List.sum_map_add]
      refine congrArg List.sum (List.map_congr_left (fun t _ => ?_))
      simp only [normSq, dot, Pi.sub_apply]
      ring
    rw [hsplit3]
    exact add_nonneg (add_nonneg (hlap (fun v => (P v - P' v) 0))
      (hlap (fun v => (P v - P' v) 1))) (hlap (fun v => (P v - P' v) 2))
  -- the first-order part vanishes
  have hδ : ∀ a : Fin 3, ∀ v : Nat, v < N → isFixed v = true → (P v - P' v) a = 0 := by
    intro a v hv hf
    rw [hfix v hv hf, sub_self]
    rfl
  have hz : ∀ a : Fin 3, (E.map (fun t => (P t.1 - P' t.1) a *
      (t.2.2 * ((P' t.1 - P' t.2.1) a
        - (1 / 2) * Matrix.mulVec (R t.1 + R t.2.1) (p t.1 - p t.2.1) a)))).sum = 0 := by
    intro a
    exact sum_delta_rows_zero E N hrow isFixed (fun v => (P v - P' v) a)
      (fun v t => t.2.2 * ((P' v - P' t.2.1) a
        - (1 / 2) * Matrix.mulVec (R v + R t.2.1) (p v - p t.2.1) a))
      (hδ a) (fun v hv hf => hstat v hv hf a)
  have hlin : (E.map (fun t => t.2.2 * dot ((P' t.1 - P' t.2.1)
        - Matrix.mulVec (R t.1) (p t.1 - p t.2.1))
        ((P t.1 - P' t.1) - (P t.2.1 - P' t.2.1)))).sum = 0 := by
    have hsplit : (E.map (fun t => t.2.2 * dot ((P' t.1 - P' t.2.1)
          - Matrix.mulVec (R t.1) (p t.1 - p t.2.1))
          ((P t.1 - P' t.1) - (P t.2.1 - P' t.2.1)))).sum
        = (E.map (fun t => t.2.2 * dot ((P' t.1 - P' t.2.1)
            - Matrix.mulVec (R t.1) (p t.1 - p t.2.1)) (P t.1 - P' t.1))).sum
          - (E.map (fun t => t.2.2 * dot ((P' t.1 - P' t.2.1)
            - Matrix.mulVec (R t.1) (p t.1 - p t.2.1)) (P t.2.1 - P' t.2.1))).sum := by
      rw [← sum_map_sub]
      refine congrArg List.sum (List.map_congr_left (fun t _ => ?_))
      simp only [dot, Pi.sub_apply]
      ring
    rw [hsplit, sum_swap_list E hsym (fun t => t.2.2 * dot ((P' t.1 - P' t.2.1)
        - Matrix.mulVec (R t.1) (p t.1 - p t.2.1)) (P t.2.1 - P' t.2.1)),
      ← sum_map_sub]
    have hpt : ∀ t : Nat × Nat × K,
        t.2.2 * dot ((P' t.1 - P' t.2.1) - Matrix.mulVec (R t.1) (p t.1 - p t.2.1))
            (P t.1 - P' t.1)
          - t.2.2 * dot ((P' t.2.1 - P' t.1) - Matrix.mulVec (R t.2.1) (p t.2.1 - p t.1))
            (P t.1 - P' t.1)
        = 2 * ((P t.1 - P' t.1) 0 * (t.2.2 * ((P' t.1 - P' t.2.1) 0
              - (1 / 2) * Matrix.mulVec (R t.1 + R t.2.1) (p t.1 - p t.2.1) 0)))
          + (2 * ((P t.1 - P' t.1) 1 * (t.2.2 * ((P' t.1 - P' t.2.1) 1
              - (1 / 2) * Matrix.mulVec (R t.1 + R t.2.1) (p t.1 - p t.2.1) 1)))
          + 2 * ((P t.1 - P' t.1) 2 * (t.2.2 * ((P' t.1 - P' t.2.1) 2
              - (1 / 2) * Matrix.mulVec (R t.1 + R t.2.1) (p t.1 - p t.2.1) 2)))) := by
      intro t
      rw [first_order_pair]
      ring
    simp only [hpt]
    rw [List.sum_map_add, List.sum_map_add, List.sum_map_mul_left, List.sum_map_mul_left,
      List.sum_map_mul_left, hz 0, hz 1, hz 2]
    ring
  rw [hexp, hlin]
  linarith

/-! ### The free-index map -/

theorem rank_succ (d : Deform K) (j : Nat) :
    d.rank (j + 1) = d.rank j + if d.isFixed j = true then 0 else 1 := by
  unfold Deform.rank
  rw [List.range_succ, List.countP_append]
  cases h : d.isFixed j <;> simp [h]

theorem rank_mono (d : Deform K) (j n : Nat) (h : j ≤ n) : d.rank j ≤ d.rank n := by
  induction n with
  | zero =>
    have : j = 0 := by omega
    rw [this]
  | succ n ih =>
    rcases Nat.lt_or_ge j (n + 1) with h1 | h1
    · have := ih (by omega)
      rw [rank_succ]
      omega
    · have : j = n + 1 := by omega
      rw [this]

theorem rank_lt_of_free (d : Deform K) (j n : Nat) (h : j < n) (hf : d.isFixed j = false) :
    d.rank j < d.rank n := by
  have h1 := rank_succ d j
  rw [hf] at h1
  have h2 := rank_mono d (j + 1) n h
  simp at h1
  omega

theorem rank_injective (d : Deform K) (i j : Nat) (hi : d.isFixed i = false)
    (hj : d.isFixed j = false) (h : d.rank i = d.rank j) : i = j := by
  rcases Nat.lt_trichotomy i j with h1 | h1 | h1
  · have := rank_lt_of_free d i j h1 hi
    omega
  · exact h1
  · have := rank_lt_of_free d j i h1 hj
    omega

/-- The first loop of initializeConstraints after the vertices `0 .. n-1`: the
counter is the number of free vertices below `n`, and every visited slot holds
-1 or the rank of its vertex. -/
theorem freeIdx_scan_rank (d : Deform K) (l0 : List Int) (n : Nat) (hn : n ≤ l0.length) :
    ((List.range n).foldl d.freeIdxStep (l0, 0)).1.length = l0.length ∧
    ((List.range n).foldl d.freeIdxStep (l0, 0)).2 = d.rank n ∧
    ∀ j : Nat, j < n →
      ((List.range n).foldl d.freeIdxStep (l0, 0)).1[j]?
        = some (if d.isFixed j = true then -1 else (d.rank j : Int)) := by
  induction n with
  | zero => exact ⟨rfl, rfl, fun j hj => absurd hj (Nat.not_lt_zero j)⟩
  | succ n ih =>
    obtain ⟨hlen, hcnt, hval⟩ := ih (by omega)
    simp only [List.range_succ, List.foldl_append, List.foldl_cons, List.foldl_nil]
    generalize (List.range n).foldl d.freeIdxStep (l0, 0) = acc at hlen hcnt hval
    have hstep : d.freeIdxStep acc n
        = if d.isFixed n = true then (acc.1.set n (-1), acc.2)
          else (acc.1.set n (acc.2 : Int), acc.2 + 1) := rfl
    rw [hstep, rank_succ]
    cases hf : d.isFixed n with
    | true =>
      simp only [if_true]
      refine ⟨by rw [List.length_set]; exact hlen, by rw [hcnt, add_zero], fun j hj => ?_⟩
      by_cases hjn : j = n
      · subst hjn
        rw [List.getElem?_set_self (by omega), hf]
        rfl
      · rw [List.getElem?_set_ne (Ne.symm hjn)]
        exact hval j (by omega)
    | false =>
      simp only [Bool.false_eq_true, if_false]
      refine ⟨by rw [List.length_set]; exact hlen, by rw [hcnt], fun j hj => ?_⟩
      by_cases hjn : j = n
      · subst hjn
        rw [List.getElem?_set_self (by omega), hf, hcnt]
        rfl
      · rw [List.getElem?_set_ne (Ne.symm hjn)]
        exact hval j (by omega)

/-- After initializeConstraints the free-index map is ready. -/
theorem initializeConstraints_mapReady (d : Deform K) : d.initializeConstraints.MapReady := by
  obtain ⟨-, hcnt, hval⟩ := freeIdx_scan_rank d (resize d.freeIdxMap d.V.length 0) d.V.length
    (by rw [resize_length])
  refine ⟨hcnt, fun j hj => ?_⟩
  rw [List.getD_eq_getElem?_getD]
  show Option.getD ((List.range d.V.length).foldl d.freeIdxStep
    (resize d.freeIdxMap d.V.length 0, 0)).1[j]? 0 = _
  rw [hval j hj]
  rfl

/-! ### Accumulation into columns -/

theorem addCol_length (b : List (Vec3 K)) (m : Nat) (v : Vec3 K) :
    (addCol b m v).length = b.length := by
  unfold addCol
  rw [List.length_set]

theorem addCol_getD (b : List (Vec3 K)) (m m' : Nat) (v : Vec3 K) (hm' : m' < b.length) :
    (addCol b m v).getD m' 0 = b.getD m' 0 + if m = m' then v else 0 := by
  unfold addCol
  rw [List.getD_eq_getElem?_getD]
  by_cases h : m = m'
  · subst h
    rw [List.getElem?_set_self hm', if_pos rfl]
    rfl
  · rw [List.getElem?_set_ne h, if_neg h, add_zero, List.getD_eq_getElem?_getD]

/-- A loop whose body adds `val e` to column `key e` (or skips the entry) leaves
in every column its old content plus the sum of the values sent there. -/
theorem foldl_scatter_add {β : Type} (l : List β) (key : β → Option Nat) (val : β → Vec3 K)
    (step : List (Vec3 K) → β → List (Vec3 K))
    (hstep : ∀ e ∈ l, ∀ b : List (Vec3 K),
      step b e = match key e with
        | none => b
        | some m => addCol b m (val e)) :
    ∀ b0 : List (Vec3 K), (l.foldl step b0).length = b0.length ∧
      ∀ m' : Nat, m' < b0.length →
        (l.foldl step b0).getD m' 0
          = b0.getD m' 0 + (l.map (fun e => if key e = some m' then val e else 0)).sum := by
  induction l with
  | nil => intro b0; exact ⟨rfl, fun m' _ => by simp⟩
  | cons e rest ih =>
    intro b0
    have hrest := ih (fun e' he' => hstep e' (List.mem_cons_of_mem _ he'))
    have he := hstep e (List.mem_cons_self _ _) b0
    simp only [List.foldl_cons, List.map_cons, List.sum_cons]
    cases hk : key e with
    | none =>
      rw [hk] at he
      simp only [] at he
      rw [he]
      obtain ⟨h1, h2⟩ := hrest b0
      refine ⟨h1, fun m' hm' => ?_⟩
      rw [h2 m' hm']
      simp
    | some m =>
      rw [hk] at he
      simp only [] at he
      rw [he]
      obtain ⟨h1, h2⟩ := hrest (addCol b0 m (val e))
      rw [addCol_length] at h1 h2
      refine ⟨h1, fun m' hm' => ?_⟩
      rw [h2 m' hm', addCol_getD b0 m m' (val e) hm']
      by_cases hmm : m = m'
      · subst hmm
        simp only [if_true]
        rw [add_assoc]
      · have : ¬ (some m = some m') := fun h => hmm (Option.some.inj h)
        rw [if_neg hmm, if_neg this, add_zero, zero_add]

/-- A loop on a pair whose first component is updated from the first component
alone and whose second component is appended to. -/
theorem foldl_pair {β γ δ : Type} (l : List β) (step : γ × List δ → β → γ × List δ)
    (s1 : γ → β → γ) (tr : β → List δ)
    (hstep : ∀ e ∈ l, ∀ acc : γ × List δ, step acc e = (s1 acc.1 e, acc.2 ++ tr e)) :
    ∀ acc : γ × List δ, (l.foldl step acc).1 = l.foldl s1 acc.1 ∧
      (l.foldl step acc).2 = acc.2 ++ l.flatMap tr := by
  induction l with
  | nil => intro acc; exact ⟨rfl, by simp⟩
  | cons e rest ih =>
    intro acc
    simp only [List.foldl_cons, List.flatMap_cons]
    rw [hstep e (List.mem_cons_self _ _) acc]
    obtain ⟨h1, h2⟩ := ih (fun e' he' => hstep e' (List.mem_cons_of_mem _ he'))
      (s1 acc.1 e, acc.2 ++ tr e)
    exact ⟨h1, by rw [h2, List.append_assoc]⟩

theorem tripletRow_append (L1 L2 : List (Nat × Nat × K)) (x : List K) (m : Nat) :
    tripletRow (L1 ++ L2) x m = tripletRow L1 x m + tripletRow L2 x m := by
  unfold tripletRow
  rw [List.map_append, List.sum_append]

theorem tripletRow_flatMap {β : Type} (l : List β) (tr : β → List (Nat × Nat × K))
    (x : List K) (m : Nat) :
    tripletRow (l.flatMap tr) x m = (l.map (fun e => tripletRow (tr e) x m)).sum := by
  induction l with
  | nil => rfl
  | cons e rest ih =>
    rw [List.flatMap_cons, tripletRow_append, ih, List.map_cons, List.sum_cons]

theorem sum_apply_vec {β : Type} (l : List β) (f : β → Vec3 K) (a : Fin 3) :
    (l.map f).sum a = (l.map (fun e => f e a)).sum := by
  induction l with
  | nil => rfl
  | cons e rest ih =>
    simp only [List.map_cons, List.sum_cons, Pi.add_apply]
    rw [ih]

theorem getD_map_apply (b : List (Vec3 K)) (a : Fin 3) (m : Nat) :
    (b.map (fun col => col a)).getD m 0 = (b.getD m 0) a := by
  rw [List.getD_eq_getElem?_getD, List.getD_eq_getElem?_getD, List.getElem?_map]
  cases b[m]? <;> rfl

/-! ### The assembled system, entry by entry -/

theorem mapReady_getD (d : Deform K) (h : d.MapReady) (j : Nat) (hj : j < d.V.length) :
    (d.isFixed j = true → d.freeIdxMap.getD j 0 = -1) ∧
    (d.isFixed j = false → d.freeIdxMap.getD j 0 ≠ -1 ∧
      (d.freeIdxMap.getD j 0).toNat = d.rank j) := by
  have hv := h.2 j hj
  constructor
  · intro hf; rw [hv, if_pos hf]
  · intro hf
    rw [hv, hf]
    simp only [Bool.false_eq_true, if_false, Int.toNat_ofNat, and_true]
    omega

/-- The body of the assembly loop on a stored entry, in terms of ranks. -/
theorem linearSystemStep_eq (d : Deform K) (h : d.SystemReady) (t : Nat × Nat × K)
    (ht : t ∈ entries d.W) (acc : List (Vec3 K) × List (Nat × Nat × K)) :
    d.linearSystemStep t.2.1 acc (t.1, t.2.2)
      = ((match (if d.isFixed t.1 = false ∧ d.isFixed t.2.1 = true then some (d.rank t.1)
                 else none) with
          | none => acc.1
          | some m => addCol acc.1 m (t.2.2 • (d.constraints.lookup t.2.1).getD 0)),
         acc.2 ++ (if d.isFixed t.1 = true then []
            else (if d.isFixed t.2.1 = true then []
                  else [(d.rank t.1, d.rank t.2.1, -t.2.2)])
              ++ [(d.rank t.1, d.rank t.1, t.2.2)])) := by
  obtain ⟨hW, hrow, hmap, -⟩ := h
  have hi := mapReady_getD d hmap t.1 (hrow t ht)
  have hj := mapReady_getD d hmap t.2.1 (by rw [← hW]; exact mem_entries d.W t ht)
  unfold Deform.linearSystemStep
  simp only []
  cases hfi : d.isFixed t.1 with
  | true =>
    rw [if_pos (hi.1 hfi)]
    simp
  | false =>
    obtain ⟨hne, hnat⟩ := hi.2 hfi
    rw [if_neg hne, hnat]
    cases hfj : d.isFixed t.2.1 with
    | true =>
      rw [if_pos (hj.1 hfj)]
      simp
    | false =>
      obtain ⟨hne', hnat'⟩ := hj.2 hfj
      rw [if_neg hne', hnat']
      simp

/-- The body of the right-hand-side loop on a stored entry, in terms of ranks. -/
theorem rhsStep_eq (d : Deform K) (h : d.SystemReady) (t : Nat × Nat × K)
    (ht : t ∈ entries d.W) (b : List (Vec3 K)) :
    d.rhsStep t.2.1 b (t.1, t.2.2)
      = match (if d.isFixed t.1 = true then none else some (d.rank t.1)) with
        | none => b
        | some m => addCol b m (fun c =>
            Matrix.mulVec (d.R.getD t.1 0 + d.R.getD t.2.1 0)
              (d.V.getD t.1 0 - d.V.getD t.2.1 0) c * t.2.2 * (1 / 2)) := by
  obtain ⟨-, hrow, hmap, -⟩ := h
  have hi := mapReady_getD d hmap t.1 (hrow t ht)
  unfold Deform.rhsStep
  simp only []
  cases hfi : d.isFixed t.1 with
  | true =>
    rw [if_pos (hi.1 hfi)]
    simp
  | false =>
    obtain ⟨hne, hnat⟩ := hi.2 hfi
    rw [if_neg hne, hnat]
    simp

/-- Closed form of the assembled system: `bFixed` has `freeIdx` columns, column
`m` holds the weighted targets of the fixed neighbours of the free vertex of
rank `m`, and `L` holds for every entry with a free row its diagonal triplet
and, for a free column, its off-diagonal triplet. -/
theorem system_closed_form (d : Deform K) (h : d.SystemReady) :
    d.bFixed.length = d.freeIdx ∧
    (∀ m : Nat, m < d.freeIdx → d.bFixed.getD m 0
      = ((entries d.W).map (fun t =>
          if (if d.isFixed t.1 = false ∧ d.isFixed t.2.1 = true then some (d.rank t.1)
              else none) = some m
          then t.2.2 • (d.constraints.lookup t.2.1).getD 0 else 0)).sum) ∧
    d.L = (entries d.W).flatMap (fun t =>
      if d.isFixed t.1 = true then []
      else (if d.isFixed t.2.1 = true then []
            else [(d.rank t.1, d.rank t.2.1, -t.2.2)])
        ++ [(d.rank t.1, d.rank t.1, t.2.2)]) := by
  have hbuilt := h.2.2.2
  rw [foldEntries_eq] at hbuilt
  obtain ⟨h1, h2⟩ := foldl_pair (entries d.W)
    (fun acc t => d.linearSystemStep t.2.1 acc (t.1, t.2.2))
    (fun b t => match (if d.isFixed t.1 = false ∧ d.isFixed t.2.1 = true
                       then some (d.rank t.1) else none) with
      | none => b
      | some m => addCol b m (t.2.2 • (d.constraints.lookup t.2.1).getD 0))
    (fun t => if d.isFixed t.1 = true then []
      else (if d.isFixed t.2.1 = true then []
            else [(d.rank t.1, d.rank t.2.1, -t.2.2)])
        ++ [(d.rank t.1, d.rank t.1, t.2.2)])
    (fun t ht acc => linearSystemStep_eq d h t ht acc)
    (List.replicate d.freeIdx 0, [])
  rw [← hbuilt] at h1 h2
  simp only [List.nil_append] at h2
  obtain ⟨h3, h4⟩ := foldl_scatter_add (entries d.W)
    (fun t => if d.isFixed t.1 = false ∧ d.isFixed t.2.1 = true then some (d.rank t.1)
              else none)
    (fun t => t.2.2 • (d.constraints.lookup t.2.1).getD 0)
    (fun b t => match (if d.isFixed t.1 = false ∧ d.isFixed t.2.1 = true
                       then some (d.rank t.1) else none) with
      | none => b
      | some m => addCol b m (t.2.2 • (d.constraints.lookup t.2.1).getD 0))
    (fun _ _ _ => rfl) (List.replicate d.freeIdx 0)
  simp only [] at h1
  rw [← h1, List.length_replicate] at h3 h4
  refine ⟨h3, fun m hm => ?_, h2⟩
  rw [h4 m hm]
  have hz : (List.replicate d.freeIdx (0 : Vec3 K)).getD m 0 = 0 := by
    rw [List.getD_eq_getElem?_getD]
    simp [List.getElem?_replicate, hm]
  rw [hz, zero_add]

/-- Closed form of the right-hand side built by estimatePositions. -/
theorem rhs_closed_form (d : Deform K) (h : d.SystemReady) (m : Nat) (hm : m < d.freeIdx) :
    (foldEntries d.W d.rhsStep d.bFixed).getD m 0
      = d.bFixed.getD m 0 + ((entries d.W).map (fun t =>
          if (if d.isFixed t.1 = true then none else some (d.rank t.1)) = some m
          then (fun c => Matrix.mulVec (d.R.getD t.1 0 + d.R.getD t.2.1 0)
              (d.V.getD t.1 0 - d.V.getD t.2.1 0) c * t.2.2 * (1 / 2))
          else 0)).sum := by
  rw [foldEntries_eq]
  obtain ⟨-, h4⟩ := foldl_scatter_add (entries d.W)
    (fun t => if d.isFixed t.1 = true then none else some (d.rank t.1))
    (fun t => (fun c => Matrix.mulVec (d.R.getD t.1 0 + d.R.getD t.2.1 0)
              (d.V.getD t.1 0 - d.V.getD t.2.1 0) c * t.2.2 * (1 / 2)))
    (fun b t => d.rhsStep t.2.1 b (t.1, t.2.2))
    (fun t ht b => rhsStep_eq d h t ht b) d.bFixed
  exact h4 m (by rw [(system_closed_form d h).1]; exact hm)

/-! ### Stationarity of the solved positions -/

/-- One entry's share of row `rank v` of `L·x − b`, which is its share of the
stationarity equation of the free vertex `v`. -/
theorem stationarity_entry (d : Deform K) (h : d.SystemReady) (x : List K) (a : Fin 3)
    (P' : Nat → Vec3 K)
    (hfree : ∀ j : Nat, j < d.V.length → d.isFixed j = false → P' j a = x.getD (d.rank j) 0)
    (hfixed : ∀ j : Nat, j < d.V.length → d.isFixed j = true →
      P' j = (d.constraints.lookup j).getD 0)
    (v : Nat) (hv : v < d.V.length) (hf : d.isFixed v = false)
    (t : Nat × Nat × K) (ht : t ∈ entries d.W) :
    (if t.1 = v then
        t.2.2 * ((P' v - P' t.2.1) a
          - (1 / 2) * Matrix.mulVec (d.R.getD v 0 + d.R.getD t.2.1 0)
              (d.V.getD v 0 - d.V.getD t.2.1 0) a)
      else 0)
    = tripletRow (if d.isFixed t.1 = true then []
        else (if d.isFixed t.2.1 = true then []
              else [(d.rank t.1, d.rank t.2.1, -t.2.2)])
          ++ [(d.rank t.1, d.rank t.1, t.2.2)]) x (d.rank v)
      - (if (if d.isFixed t.1 = false ∧ d.isFixed t.2.1 = true then some (d.rank t.1)
              else none) = some (d.rank v)
          then t.2.2 • (d.constraints.lookup t.2.1).getD 0 else 0) a
      - (if (if d.isFixed t.1 = true then none else some (d.rank t.1)) = some (d.rank v)
          then (fun c => Matrix.mulVec (d.R.getD t.1 0 + d.R.getD t.2.1 0)
              (d.V.getD t.1 0 - d.V.getD t.2.1 0) c * t.2.2 * (1 / 2))
          else 0) a := by
  have hj : t.2.1 < d.V.length := by rw [← h.1]; exact mem_entries d.W t ht
  cases hfi : d.isFixed t.1 with
  | true =>
    have hne : t.1 ≠ v := fun e => by rw [e, hf] at hfi; cases hfi
    simp [hne, tripletRow]
  | false =>
    by_cases hiv : t.1 = v
    · rw [if_pos hiv, hiv]
      cases hfj : d.isFixed t.2.1 with
      | true =>
        simp only [hf, Bool.false_eq_true, if_false, if_true, and_self, List.nil_append,
          tripletRow, List.map_cons, List.map_nil, List.sum_cons, List.sum_nil, add_zero,
          Pi.sub_apply, Pi.smul_apply, smul_eq_mul]
        rw [hfree v hv hf, hfixed t.2.1 hj hfj]
        ring
      | false =>
        simp only [hf, Bool.false_eq_true, if_false, if_true, and_false, and_self,
          tripletRow, List.map_cons, List.map_nil, List.sum_cons, List.sum_nil, add_zero,
          List.cons_append, List.nil_append, Pi.sub_apply, Pi.zero_apply, reduceCtorEq]
        rw [hfree v hv hf, hfree t.2.1 hj hfj]
        ring
    · have hr : d.rank t.1 ≠ d.rank v := fun e => hiv (rank_injective d t.1 v hfi hf e)
      rw [if_neg hiv]
      cases hfj : d.isFixed t.2.1 <;> simp [hr, tripletRow]

/-- Stationarity: when the solver returns an exact solution `x` of `L·x = b` for
axis `a`, positions that take `x` at the free vertices and the constraint targets
at the fixed ones satisfy the stationarity equation of every free vertex. -/
theorem stationarity_sum (d : Deform K) (h : d.SystemReady) (x : List K) (a : Fin 3)
    (hsolve : SolvesSystem d.L d.freeIdx (d.rhsRow a) x)
    (P' : Nat → Vec3 K)
    (hfree : ∀ j : Nat, j < d.V.length → d.isFixed j = false → P' j a = x.getD (d.rank j) 0)
    (hfixed : ∀ j : Nat, j < d.V.length → d.isFixed j = true →
      P' j = (d.constraints.lookup j).getD 0)
    (v : Nat) (hv : v < d.V.length) (hf : d.isFixed v = false) :
    ((entries d.W).map (fun t => if t.1 = v then
        t.2.2 * ((P' v - P' t.2.1) a
          - (1 / 2) * Matrix.mulVec (d.R.getD v 0 + d.R.getD t.2.1 0)
              (d.V.getD v 0 - d.V.getD t.2.1 0) a)
      else 0)).sum = 0 := by
  have hm : d.rank v < d.freeIdx := by
    rw [h.2.2.1.1]
    exact rank_lt_of_free d v d.V.length hv hf
  have e1 := hsolve (d.rank v) hm
  obtain ⟨-, hbF, hL⟩ := system_closed_form d h
  unfold Deform.rhsRow at e1
  rw [getD_map_apply, rhs_closed_form d h _ hm, hbF _ hm, hL, tripletRow_flatMap,
    Pi.add_apply, sum_apply_vec, sum_apply_vec] at e1
  rw [List.map_congr_left (fun t ht =>
    stationarity_entry d h x a P' hfree hfixed v hv hf t ht)]
  rw [sum_map_sub, sum_map_sub, e1]
  ring

/-! ### The scatter loop -/

/-- The scatter loop of axis `a` after the vertices `0 .. n-1`: the counter is
the number of free vertices below `n`, a visited free column has entry `a`
replaced by the solution at its rank, and every other column is unchanged. -/
theorem scatter_scan (d : Deform K) (hmap : d.MapReady) (a : Fin 3) (LU : List K)
    (vp : List (Vec3 K)) (n : Nat) (hn : n ≤ d.V.length) :
    ((List.range n).foldl (d.scatterStep a LU) (vp, 0)).1.length = vp.length ∧
    ((List.range n).foldl (d.scatterStep a LU) (vp, 0)).2 = d.rank n ∧
    ∀ j : Nat, j < vp.length →
      ((List.range n).foldl (d.scatterStep a LU) (vp, 0)).1.getD j 0
        = if j < n ∧ d.isFixed j = false
          then Function.update (vp.getD j 0) a (LU.getD (d.rank j) 0)
          else vp.getD j 0 := by
  induction n with
  | zero =>
    refine ⟨rfl, rfl, fun j _ => ?_⟩
    simp
  | succ n ih =>
    obtain ⟨hl, hc, hval⟩ := ih (by omega)
    simp only [List.range_succ, List.foldl_append, List.foldl_cons, List.foldl_nil]
    generalize (List.range n).foldl (d.scatterStep a LU) (vp, 0) = acc at hl hc hval
    have hn' : n < d.V.length := by omega
    have hg := mapReady_getD d hmap n hn'
    unfold Deform.scatterStep
    rw [rank_succ]
    cases hfn : d.isFixed n with
    | true =>
      rw [if_neg (not_not.2 (hg.1 hfn))]
      refine ⟨hl, by rw [hc]; simp, fun j hj => ?_⟩
      rw [hval j hj]
      by_cases hjn : j = n
      · subst hjn
        simp [hfn]
      · by_cases hcs : j < n ∧ d.isFixed j = false
        · rw [if_pos hcs, if_pos ⟨by omega, hcs.2⟩]
        · rw [if_neg hcs, if_neg (fun h => hcs ⟨by omega, h.2⟩)]
    | false =>
      rw [if_pos (hg.2 hfn).1]
      refine ⟨by rw [List.length_set]; exact hl, by rw [hc]; simp, fun j hj => ?_⟩
      simp only []
      by_cases hjn : j = n
      · subst hjn
        rw [List.getD_eq_getElem?_getD, List.getElem?_set_self (by omega)]
        have hv := hval j hj
        simp only [lt_irrefl, false_and, if_false] at hv
        rw [if_pos ⟨Nat.lt_succ_self j, hfn⟩, hv, hc]
        rfl
      · rw [List.getD_eq_getElem?_getD, List.getElem?_set_ne (Ne.symm hjn),
          ← List.getD_eq_getElem?_getD, hval j hj]
        by_cases hcs : j < n ∧ d.isFixed j = false
        · rw [if_pos hcs, if_pos ⟨by omega, hcs.2⟩]
        · rw [if_neg hcs, if_neg (fun h => hcs ⟨by omega, h.2⟩)]

/-- One axis of the scatter: the free columns get entry `a` from the solution. -/
theorem scatter_axis (d : Deform K) (hmap : d.MapReady) (a : Fin 3) (LU : List K)
    (vp : List (Vec3 K)) (hlen : vp.length = d.V.length) :
    ((List.range d.V.length).foldl (d.scatterStep a LU) (vp, 0)).1.length = d.V.length ∧
    ∀ j : Nat, j < d.V.length →
      ((List.range d.V.length).foldl (d.scatterStep a LU) (vp, 0)).1.getD j 0
        = if d.isFixed j = false
          then Function.update (vp.getD j 0) a (LU.getD (d.rank j) 0)
          else vp.getD j 0 := by
  obtain ⟨h1, -, h3⟩ := scatter_scan d hmap a LU vp d.V.length (le_refl _)
  refine ⟨by rw [h1, hlen], fun j hj => ?_⟩
  rw [h3 j (by rw [hlen]; exact hj)]
  by_cases hf : d.isFixed j = false
  · rw [if_pos ⟨hj, hf⟩, if_pos hf]
  · rw [if_neg (fun h => hf h.2), if_neg hf]

/-- The positions left by estimatePositions, column by column. -/
theorem estimatePositions_getD (solver : List (Nat × Nat × K) → List K → List K)
    (d : Deform K) (hmap : d.MapReady) (hlen : d.Vprime.length = d.V.length)
    (j : Nat) (hj : j < d.V.length) :
    (d.estimatePositions solver).Vprime.getD j 0
      = d.scattered (fun a => solver d.L (d.rhsRow a)) j := by
  obtain ⟨l0, g0⟩ := scatter_axis d hmap 0 (solver d.L (d.rhsRow 0)) d.Vprime hlen
  obtain ⟨l1, g1⟩ := scatter_axis d hmap 1 (solver d.L (d.rhsRow 1)) _ l0
  obtain ⟨-, g2⟩ := scatter_axis d hmap 2 (solver d.L (d.rhsRow 2)) _ l1
  show (([0, 1, 2] : List (Fin 3)).foldl
    (fun vp i => ((List.range d.V.length).foldl
      (d.scatterStep i (solver d.L (d.rhsRow i))) (vp, 0)).1) d.Vprime).getD j 0 = _
  simp only [List.foldl_cons, List.foldl_nil]
  rw [g2 j hj, g1 j hj, g0 j hj]
  unfold Deform.scattered
  cases hf : d.isFixed j with
  | true => simp
  | false =>
    simp only [if_true, Bool.false_eq_true, if_false]
    funext a
    fin_cases a <;> simp [Function.update]

/-- Global step: with a system assembled for the current map, symmetric weights
whose Dirichlet form is non-negative, constraint targets in the fixed columns
and an exact solver, estimatePositions does not increase the energy. -/
theorem estimatePositions_energy_le (solver : List (Nat × Nat × K) → List K → List K)
    (d : Deform K) (h : d.SystemReady) (hlen : d.Vprime.length = d.V.length)
    (hsym : SymmetricW d.W) (hlap : ∀ y : Nat → K, 0 ≤ laplaceForm d.W y)
    (hC : ∀ j : Nat, j < d.V.length → d.isFixed j = true →
      d.Vprime.getD j 0 = (d.constraints.lookup j).getD 0)
    (hsolve : ∀ a : Fin 3,
      SolvesSystem d.L d.freeIdx (d.rhsRow a) (solver d.L (d.rhsRow a))) :
    (d.estimatePositions solver).energy ≤ d.energy := by
  rw [energy_eq_sum, energy_eq_sum]
  have hj : ∀ t ∈ entries d.W, t.2.1 < d.V.length :=
    fun t ht => by rw [← h.1]; exact mem_entries d.W t ht
  have hnew : ((entries (d.estimatePositions solver).W).map (fun t =>
      pairEnergy (fun i => (d.estimatePositions solver).V.getD i 0)
        (fun i => (d.estimatePositions solver).Vprime.getD i 0)
        ((d.estimatePositions solver).R.getD t.1 0) t.1 t.2.1 t.2.2)).sum
      = ((entries d.W).map (fun t =>
          pairEnergy (fun i => d.V.getD i 0)
            (d.scattered (fun a => solver d.L (d.rhsRow a)))
            (d.R.getD t.1 0) t.1 t.2.1 t.2.2)).sum := by
    refine congrArg List.sum (List.map_congr_left (fun t ht => ?_))
    show pairEnergy (fun i => d.V.getD i 0)
        (fun i => (d.estimatePositions solver).Vprime.getD i 0)
        (d.R.getD t.1 0) t.1 t.2.1 t.2.2 = _
    unfold pairEnergy
    simp only []
    rw [estimatePositions_getD solver d h.2.2.1 hlen t.1 (h.2.1 t ht),
      estimatePositions_getD solver d h.2.2.1 hlen t.2.1 (hj t ht)]
  rw [hnew]
  refine stationary_energy_le (entries d.W) hsym hlap d.V.length h.2.1 d.isFixed
    (fun i => d.V.getD i 0) (fun i => d.Vprime.getD i 0)
    (d.scattered (fun a => solver d.L (d.rhsRow a))) (fun k => d.R.getD k 0) ?_ ?_
  · intro v _ hf
    unfold Deform.scattered
    rw [if_pos hf]
  · intro v hv hf a
    refine stationarity_sum d h (solver d.L (d.rhsRow a)) a (hsolve a)
      (d.scattered (fun a => solver d.L (d.rhsRow a))) ?_ ?_ v hv hf
    · intro j _ hfj
      unfold Deform.scattered
      rw [hfj]
      simp
    · intro j hj' hfj
      unfold Deform.scattered
      rw [if_pos hfj]
      exact hC j hj' hfj

/-! ### The loop of solve -/

theorem mem_of_lookup (m : List (Nat × Vec3 K)) (k : Nat) (p : Vec3 K)
    (h : m.lookup k = some p) : (k, p) ∈ m := by
  induction m with
  | nil => simp at h
  | cons c rest ih =>
    obtain ⟨k', p'⟩ := c
    rw [List.lookup_cons] at h
    by_cases hk : k = k'
    · subst hk
      simp only [beq_self_eq_true, Option.some.injEq] at h
      rw [h]
      exact List.mem_cons_self _ _
    · have hbeq : (k == k') = false := by simpa using hk
      rw [hbeq] at h
      exact List.mem_cons_of_mem _ (ih h)

theorem foldl_set_length (m : List (Nat × Vec3 K)) :
    ∀ vp : List (Vec3 K), (m.foldl (fun vp c => vp.set c.1 c.2) vp).length = vp.length := by
  induction m with
  | nil => intro vp; rfl
  | cons c rest ih =>
    intro vp
    simp only [List.foldl_cons]
    rw [ih, List.length_set]

/-- The state that solve prepares before its loop is ready for the loop. -/
theorem prepare_loopReady (d : Deform K) (U : List (Vec3 K))
    (hN : d.W.length = d.V.length) (hU : U.length = d.V.length)
    (hrows : ∀ t ∈ entries d.W, t.1 < d.V.length) (hkeys : KeysAscending d.constraints) :
    Deform.LoopReady d (d.prepare U) := by
  refine ⟨rfl, rfl, rfl, ⟨hN, hrows, ?_, rfl⟩, ?_, ?_, ?_, ?_⟩
  · exact initializeConstraints_mapReady ({ d with Vprime := U } : Deform K).initializeRotations
  · show (d.constraints.foldl (fun vp c => vp.set c.1 c.2) U).length = d.V.length
    rw [foldl_set_length, hU]
  · intro j hj hf
    show (d.constraints.foldl (fun vp c => vp.set c.1 c.2) U).getD j 0
      = (d.constraints.lookup j).getD 0
    have hf' : (d.constraints.lookup j).isSome = true := hf
    obtain ⟨p, hp⟩ := Option.isSome_iff_exists.1 hf'
    rw [List.getD_eq_getElem?_getD,
      foldl_set_target d.constraints hkeys j p (mem_of_lookup _ _ _ hp) U (by rw [hU]; exact hj),
      hp]
  · show d.W.length ≤ (List.replicate d.V.length (1 : Mat3 K)).length
    rw [List.length_replicate, hN]
  · intro k hk
    have hk' : k < d.V.length := by rw [← hN]; exact hk
    have h1 : (List.replicate d.V.length (1 : Mat3 K)).getD k 0 = 1 := by
      rw [List.getD_eq_getElem?_getD]
      simp [List.getElem?_replicate, hk']
    show ((List.replicate d.V.length (1 : Mat3 K)).getD k 0).transpose
        * (List.replicate d.V.length (1 : Mat3 K)).getD k 0 = 1
      ∧ ((List.replicate d.V.length (1 : Mat3 K)).getD k 0).det = 1
    rw [h1]
    exact ⟨by rw [Matrix.transpose_one, Matrix.mul_one], Matrix.det_one⟩

/-- The local step keeps the loop invariant when the SVD factors are orthogonal. -/
theorem estimateRotations_loopReady (svd : Mat3 K → Mat3 K × Mat3 K) (d0 d : Deform K)
    (h : Deform.LoopReady d0 d)
    (hsvd : ∀ k : Nat, k < d.W.length →
      (svd (d.covariance k)).1.transpose * (svd (d.covariance k)).1 = 1 ∧
      (svd (d.covariance k)).2.transpose * (svd (d.covariance k)).2 = 1) :
    Deform.LoopReady d0 (d.estimateRotations svd) := by
  obtain ⟨h1, h2, h3, h4, h5, h6, h7, -⟩ := h
  have hlen : (d.estimateRotations svd).R.length = d.R.length :=
    (foldl_set_range
      (fun k => fitRotation (svd (d.covariance k)).1 (svd (d.covariance k)).2)
      d.W.length d.R).1
  refine ⟨h1, h2, h3, h4, h5, h6, ?_, fun k hk => ?_⟩
  · rw [hlen]; exact h7
  · have hk' : k < d.W.length := hk
    rw [estimateRotations_getD svd d k hk' (lt_of_lt_of_le hk' h7)]
    exact fitRotation_proper _ _ (hsvd k hk').1 (hsvd k hk').2

/-- The global step keeps the loop invariant. -/
theorem estimatePositions_loopReady (solver : List (Nat × Nat × K) → List K → List K)
    (d0 d : Deform K) (h : Deform.LoopReady d0 d) :
    Deform.LoopReady d0 (d.estimatePositions solver) := by
  obtain ⟨h1, h2, h3, h4, h5, h6, h7, h8⟩ := h
  obtain ⟨l0, -⟩ := scatter_axis d h4.2.2.1 0 (solver d.L (d.rhsRow 0)) d.Vprime h5
  obtain ⟨l1, -⟩ := scatter_axis d h4.2.2.1 1 (solver d.L (d.rhsRow 1)) _ l0
  obtain ⟨l2, -⟩ := scatter_axis d h4.2.2.1 2 (solver d.L (d.rhsRow 2)) _ l1
  refine ⟨h1, h2, h3, h4, l2, fun j hj hf => ?_, h7, h8⟩
  have hf' : d.isFixed j = true := hf
  rw [estimatePositions_getD solver d h4.2.2.1 h5 j hj]
  unfold Deform.scattered
  rw [if_pos hf']
  exact h6 j hj hf'

theorem state_succ (svd : Mat3 K → Mat3 K × Mat3 K)
    (solver : List (Nat × Nat × K) → List K → List K) (d : Deform K) (U : List (Vec3 K))
    (n : Nat) :
    Deform.state svd solver d U (n + 1)
      = ((Deform.state svd solver d U n).estimateRotations svd).estimatePositions solver := by
  unfold Deform.state
  rw [Function.iterate_succ_apply']
  rfl

/-- Every state of the loop of solve satisfies the loop invariant, as long as
the SVD has returned orthogonal factors so far. -/
theorem state_loopReady (svd : Mat3 K → Mat3 K × Mat3 K)
    (solver : List (Nat × Nat × K) → List K → List K) (d : Deform K) (U : List (Vec3 K))
    (hN : d.W.length = d.V.length) (hU : U.length = d.V.length)
    (hrows : ∀ t ∈ entries d.W, t.1 < d.V.length) (hkeys : KeysAscending d.constraints)
    (n : Nat)
    (hsvd : ∀ m : Nat, m < n → ∀ k : Nat, k < d.V.length →
      IsSVD ((Deform.state svd solver d U m).covariance k)
        (svd ((Deform.state svd solver d U m).covariance k)).1
        (svd ((Deform.state svd solver d U m).covariance k)).2) :
    Deform.LoopReady d (Deform.state svd solver d U n) := by
  induction n with
  | zero => exact prepare_loopReady d U hN hU hrows hkeys
  | succ n ih =>
    have hprev := ih (fun m hm k hk => hsvd m (Nat.lt_succ_of_lt hm) k hk)
    rw [state_succ]
    refine estimatePositions_loopReady solver d _ (estimateRotations_loopReady svd d _ hprev
      (fun k hk => ?_))
    have hk' : k < d.V.length := by
      rw [← hN, ← hprev.2.1]; exact hk
    obtain ⟨hU', hV', -⟩ := hsvd n (Nat.lt_succ_self n) k hk'
    exact ⟨hU', hV'⟩

/-- C10, amended. Energy monotonicity over exact arithmetic: for a mesh whose
weight matrix has one column per vertex, rows in range, is symmetric and has a
non-negative Dirichlet form (the sum of `w_ij (y_i − y_j)²` over its stored
entries is non-negative for every assignment `y` of numbers to the vertices), a
constraint map and a buffer with one column per vertex, if the SVD has returned
exact factors (orthogonal `U`, `V` with `cov = U·diag(σ)·Vᵀ`, `σ` decreasing and
non-negative) in the iterations so far and in this one, and the solver returns
exact solutions of `L·x = b` in this iteration, then the rigidity energy after
iteration `n + 1` of Deform::solve is at most the energy after iteration `n`. -/
theorem energy_nonincreasing (svd : Mat3 K → Mat3 K × Mat3 K)
    (solver : List (Nat × Nat × K) → List K → List K) (d : Deform K) (U : List (Vec3 K))
    (n : Nat)
    (hN : d.W.length = d.V.length) (hU : U.length = d.V.length)
    (hrows : ∀ t ∈ entries d.W, t.1 < d.V.length) (hkeys : KeysAscending d.constraints)
    (hsym : SymmetricW d.W) (hlap : ∀ y : Nat → K, 0 ≤ laplaceForm d.W y)
    (hsvd : ∀ m : Nat, m ≤ n → ∀ k : Nat, k < d.V.length →
      IsSVD ((Deform.state svd solver d U m).covariance k)
        (svd ((Deform.state svd solver d U m).covariance k)).1
        (svd ((Deform.state svd solver d U m).covariance k)).2)
    (hsolve : ∀ a : Fin 3,
      SolvesSystem (Deform.state svd solver d U n).L (Deform.state svd solver d U n).freeIdx
        (((Deform.state svd solver d U n).estimateRotations svd).rhsRow a)
        (solver (Deform.state svd solver d U n).L
          (((Deform.state svd solver d U n).estimateRotations svd).rhsRow a))) :
    (Deform.state svd solver d U (n + 1)).energy ≤ (Deform.state svd solver d U n).energy := by
  have hready := state_loopReady svd solver d U hN hU hrows hkeys n
    (fun m hm k hk => hsvd m (Nat.le_of_lt hm) k hk)
  have hW : (Deform.state svd solver d U n).W = d.W := hready.2.1
  have hsvdn : ∀ k : Nat, k < (Deform.state svd solver d U n).W.length →
      IsSVD ((Deform.state svd solver d U n).covariance k)
        (svd ((Deform.state svd solver d U n).covariance k)).1
        (svd ((Deform.state svd solver d U n).covariance k)).2 :=
    fun k hk => hsvd n (le_refl n) k (by rw [← hN, ← hW]; exact hk)
  have hrot := estimateRotations_loopReady svd d _ hready
    (fun k hk => ⟨(hsvdn k hk).1, (hsvdn k hk).2.1⟩)
  obtain ⟨-, hW', -, hsys, hlen, hC, -, -⟩ := hrot
  have hsym' : SymmetricW ((Deform.state svd solver d U n).estimateRotations svd).W := by
    rw [hW']; exact hsym
  have hlap' : ∀ y : Nat → K,
      0 ≤ laplaceForm ((Deform.state svd solver d U n).estimateRotations svd).W y := by
    rw [hW']; exact hlap
  rw [state_succ]
  calc (((Deform.state svd solver d U n).estimateRotations svd).estimatePositions solver).energy
      ≤ ((Deform.state svd solver d U n).estimateRotations svd).energy :=
        estimatePositions_energy_le solver _ hsys hlen hsym' hlap' hC hsolve
    _ ≤ (Deform.state svd solver d U n).energy :=
        estimateRotations_energy_le svd _ hready.2.2.2.2.2.2.1 (by rw [hW]; exact hsym)
          hready.2.2.2.2.2.2.2 hsvdn

/-! ### Sample deformations -/

theorem signed_rows : ∀ t ∈ entries signed.W, t.1 < signed.V.length := by
  decide!

theorem swap01_mul_self : swap01 * swap01 = 1 := by decide!

theorem swap01_transpose : swap01.transpose = swap01 := by decide!

theorem swap01_conj (x y z : ℚ) :
    swap01 * Matrix.diagonal ![x, y, z] * swap01 = Matrix.diagonal ![y, x, z] := by
  have e00 : swap01 0 0 = 0 := rfl
  have e01 : swap01 0 1 = 1 := rfl
  have e02 : swap01 0 2 = 0 := rfl
  have e10 : swap01 1 0 = 1 := rfl
  have e11 : swap01 1 1 = 0 := rfl
  have e12 : swap01 1 2 = 0 := rfl
  have e20 : swap01 2 0 = 0 := rfl
  have e21 : swap01 2 1 = 0 := rfl
  have e22 : swap01 2 2 = 1 := rfl
  ext i j
  fin_cases i <;> fin_cases j <;>
    simp [Matrix.mul_apply, Fin.sum_univ_three, Matrix.diagonal_apply, e00, e01, e02, e10, e11,
      e12, e20, e21, e22]

/-- The sample SVD is exact on every matrix `diag(a, b, 0)`. -/
theorem axisSVD_isSVD (M : Mat3 ℚ) (hM : M = Matrix.diagonal ![M 0 0, M 1 1, 0]) :
    IsSVD M (axisSVD M).1 (axisSVD M).2 := by
  have hs0 : (if M 0 0 < 0 then (-1 : ℚ) else 1) * (if M 0 0 < 0 then (-1 : ℚ) else 1) = 1 := by
    split_ifs <;> norm_num
  have hs1 : (if M 1 1 < 0 then (-1 : ℚ) else 1) * (if M 1 1 < 0 then (-1 : ℚ) else 1) = 1 := by
    split_ifs <;> norm_num
  have ha0 : (if M 0 0 < 0 then (-1 : ℚ) else 1) * |M 0 0| = M 0 0 := by
    split_ifs with h
    · rw [abs_of_neg h]; ring
    · rw [abs_of_nonneg (not_lt.1 h)]; ring
  have ha1 : (if M 1 1 < 0 then (-1 : ℚ) else 1) * |M 1 1| = M 1 1 := by
    split_ifs with h
    · rw [abs_of_neg h]; ring
    · rw [abs_of_nonneg (not_lt.1 h)]; ring
  have hDD : (Matrix.diagonal ![if M 0 0 < 0 then (-1 : ℚ) else 1,
        if M 1 1 < 0 then (-1 : ℚ) else 1, 1] : Mat3 ℚ).transpose
      * Matrix.diagonal ![if M 0 0 < 0 then (-1 : ℚ) else 1,
        if M 1 1 < 0 then (-1 : ℚ) else 1, 1] = 1 := by
    rw [Matrix.diagonal_transpose, Matrix.diagonal_mul_diagonal, ← Matrix.diagonal_one]
    refine congrArg Matrix.diagonal (funext fun a => ?_)
    fin_cases a
    · exact hs0
    · exact hs1
    · show (1 : ℚ) * 1 = 1
      norm_num
  have hDS : (Matrix.diagonal ![if M 0 0 < 0 then (-1 : ℚ) else 1,
        if M 1 1 < 0 then (-1 : ℚ) else 1, 1] : Mat3 ℚ)
      * Matrix.diagonal ![|M 0 0|, |M 1 1|, 0] = M := by
    rw [Matrix.diagonal_mul_diagonal]
    conv_rhs => rw [hM]
    refine congrArg Matrix.diagonal (funext fun a => ?_)
    fin_cases a
    · exact ha0
    · exact ha1
    · show (1 : ℚ) * 0 = 0
      norm_num
  unfold axisSVD
  simp only []
  by_cases hord : M 1 1 * M 1 1 ≤ M 0 0 * M 0 0
  · rw [if_pos hord]
    have hle : |M 1 1| ≤ |M 0 0| := by
      rw [← sq_le_sq, sq, sq]
      exact hord
    refine ⟨hDD, ?_, ![|M 0 0|, |M 1 1|, 0], hle, abs_nonneg _, le_refl _, ?_⟩
    · show (1 : Mat3 ℚ).transpose * 1 = 1
      rw [Matrix.transpose_one, Matrix.mul_one]
    · show M = Matrix.diagonal _ * Matrix.diagonal ![|M 0 0|, |M 1 1|, 0] * (1 : Mat3 ℚ).transpose
      rw [Matrix.transpose_one, Matrix.mul_one]
      exact hDS.symm
  · rw [if_neg hord]
    have hle : |M 0 0| ≤ |M 1 1| := by
      rw [← sq_le_sq, sq, sq]
      exact le_of_lt (not_le.1 hord)
    refine ⟨?_, ?_, ![|M 1 1|, |M 0 0|, 0], hle, abs_nonneg _, le_refl _, ?_⟩
    · show (Matrix.diagonal _ * swap01 : Mat3 ℚ).transpose * (Matrix.diagonal _ * swap01) = 1
      rw [Matrix.transpose_mul, swap01_transpose, Matrix.mul_assoc,
        ← Matrix.mul_assoc _ (Matrix.diagonal _) swap01, hDD, Matrix.one_mul, swap01_mul_self]
    · show swap01.transpose * swap01 = 1
      rw [swap01_transpose, swap01_mul_self]
    · show M = Matrix.diagonal _ * swap01 * Matrix.diagonal ![|M 1 1|, |M 0 0|, 0]
        * swap01.transpose
      rw [swap01_transpose, Matrix.mul_assoc, Matrix.mul_assoc,
        ← Matrix.mul_assoc swap01 _ swap01, swap01_conj]
      exact hDS.symm

/-! ### The kite and the fan -/

theorem kite_rows : ∀ t ∈ entries kite.W, t.1 < kite.V.length := by
  decide!

theorem kite_coeff_symm (i j : Nat) : coeff kite.W i j = coeff kite.W j i := by
  rcases i with _ | _ | _ | _ | i <;> rcases j with _ | _ | _ | _ | j <;> simp [coeff, kite]

/-- The Dirichlet form of the cotangent weights of the kite is non-negative,
although the weight of the edge 0–1 is negative. -/
theorem kite_laplace_nonneg (y : Nat → ℚ) : 0 ≤ laplaceForm kite.W y := by
  have h : laplaceForm kite.W y
      = 2 * (-9 / 40 * ((y 0 - y 1) * (y 0 - y 1))
          + 5 / 8 * ((y 0 - y 2) * (y 0 - y 2) + (y 1 - y 2) * (y 1 - y 2)
            + (y 0 - y 3) * (y 0 - y 3) + (y 1 - y 3) * (y 1 - y 3))) := by
    simp [laplaceForm, entries, kite, List.range_succ, List.flatMap]
    ring
  rw [h]
  nlinarith [mul_self_nonneg (y 0 - y 1), mul_self_nonneg (y 0 + y 1 - 2 * y 2),
    mul_self_nonneg (y 0 + y 1 - 2 * y 3)]

theorem kite_meshEdges (i j : Nat) (h : coeff kite.W i j ≠ 0) : IsMeshEdge kite.F i j := by
  rcases i with _ | _ | _ | _ | i <;> rcases j with _ | _ | _ | _ | j <;>
    first
    | (exfalso; revert h; simp [coeff, kite]; done)
    | exact ⟨![0, 1, 2], by simp [kite], 0, 1, by decide, rfl, rfl⟩
    | exact ⟨![0, 1, 2], by simp [kite], 1, 0, by decide, rfl, rfl⟩
    | exact ⟨![0, 1, 2], by simp [kite], 0, 2, by decide, rfl, rfl⟩
    | exact ⟨![0, 1, 2], by simp [kite], 2, 0, by decide, rfl, rfl⟩
    | exact ⟨![0, 1, 2], by simp [kite], 1, 2, by decide, rfl, rfl⟩
    | exact ⟨![0, 1, 2], by simp [kite], 2, 1, by decide, rfl, rfl⟩
    | exact ⟨![1, 0, 3], by simp [kite], 1, 2, by decide, rfl, rfl⟩
    | exact ⟨![1, 0, 3], by simp [kite], 2, 1, by decide, rfl, rfl⟩
    | exact ⟨![1, 0, 3], by simp [kite], 0, 2, by decide, rfl, rfl⟩
    | exact ⟨![1, 0, 3], by simp [kite], 2, 0, by decide, rfl, rfl⟩

theorem fan_rows : ∀ t ∈ entries fan.W, t.1 < fan.V.length := by
  decide!

theorem fan_coeff_symm (i j : Nat) : coeff fan.W i j = coeff fan.W j i := by
  rcases i with _ | _ | _ | _ | i <;> rcases j with _ | _ | _ | _ | j <;> simp [coeff, fan]

theorem fan_connected : ConnectedW fan.W fan.V.length := by
  have hto : ∀ i : Nat, i < 4 →
      Relation.ReflTransGen (fun u v => coeff fan.W u v ≠ 0) i 0 := by
    intro i hi
    interval_cases i
    · exact Relation.ReflTransGen.refl
    · exact Relation.ReflTransGen.single (by simp [coeff, fan])
    · exact Relation.ReflTransGen.single (by simp [coeff, fan])
    · exact Relation.ReflTransGen.single (by simp [coeff, fan])
  have hfrom : ∀ j : Nat, j < 4 →
      Relation.ReflTransGen (fun u v => coeff fan.W u v ≠ 0) 0 j := by
    intro j hj
    interval_cases j
    · exact Relation.ReflTransGen.refl
    · exact Relation.ReflTransGen.single (by simp [coeff, fan])
    · exact Relation.ReflTransGen.single (by simp [coeff, fan])
    · exact Relation.ReflTransGen.single (by simp [coeff, fan])
  intro i j hi hj
  exact (hto i hi).trans (hfrom j hj)

/-- The weights of `fan` are non-zero on edges of its two triangles only. -/
theorem fan_meshEdges (i j : Nat) (h : coeff fan.W i j ≠ 0) : IsMeshEdge fan.F i j := by
  rcases i with _ | _ | _ | _ | i <;> rcases j with _ | _ | _ | _ | j <;>
    first
    | (exfalso; revert h; simp [coeff, fan]; done)
    | exact ⟨![0, 2, 1], by simp [fan], 0, 2, by decide, rfl, rfl⟩
    | exact ⟨![0, 2, 1], by simp [fan], 2, 0, by decide, rfl, rfl⟩
    | exact ⟨![0, 2, 1], by simp [fan], 0, 1, by decide, rfl, rfl⟩
    | exact ⟨![0, 2, 1], by simp [fan], 1, 0, by decide, rfl, rfl⟩
    | exact ⟨![0, 1, 3], by simp [fan], 0, 2, by decide, rfl, rfl⟩
    | exact ⟨![0, 1, 3], by simp [fan], 2, 0, by decide, rfl, rfl⟩

theorem fan_symmetric : SymmetricW fan.W := by
  unfold SymmetricW
  decide!

theorem fan_keysAscending : KeysAscending fan.constraints := by
  unfold KeysAscending
  decide!

theorem fan_cov_axis (m : Nat) (hm : m ≤ 2) (k : Nat) (hk : k < 4) (i j : Fin 3) :
    (Deform.state axisSVD oneSolver fan fan.V m).covariance k i j
      = (Matrix.diagonal
          ![(Deform.state axisSVD oneSolver fan fan.V m).covariance k 0 0,
            (Deform.state axisSVD oneSolver fan fan.V m).covariance k 1 1, 0] :
          Mat3 ℚ) i j := by
  interval_cases m <;> interval_cases k <;> revert i j <;> decide!

theorem fan_svd_exact (m : Nat) (hm : m ≤ 2) (k : Nat) (hk : k < fan.V.length) :
    IsSVD ((Deform.state axisSVD oneSolver fan fan.V m).covariance k)
      (axisSVD ((Deform.state axisSVD oneSolver fan fan.V m).covariance k)).1
      (axisSVD ((Deform.state axisSVD oneSolver fan fan.V m).covariance k)).2 :=
  axisSVD_isSVD _ (Matrix.ext fun i j => fan_cov_axis m hm k hk i j)

theorem fan_solver_exact (n : Nat) (hn : n ≤ 2) (a : Fin 3) :
    SolvesSystem (Deform.state axisSVD oneSolver fan fan.V n).L
      (Deform.state axisSVD oneSolver fan fan.V n).freeIdx
      (((Deform.state axisSVD oneSolver fan fan.V n).estimateRotations axisSVD).rhsRow a)
      (oneSolver (Deform.state axisSVD oneSolver fan fan.V n).L
        (((Deform.state axisSVD oneSolver fan fan.V n).estimateRotations
          axisSVD).rhsRow a)) := by
  unfold SolvesSystem
  interval_cases n <;> revert a <;> decide!

/-- In the iterations of the counterexample no covariance vanishes along the
direction of an edge of its vertex: every rotation is fixed by the covariance on
the edges it is applied to. -/
theorem fan_cov_entries :
    ((List.range 3).map (fun m => (List.range 4).map (fun k =>
        ((Deform.state axisSVD oneSolver fan fan.V m).covariance k 0 0,
         (Deform.state axisSVD oneSolver fan fan.V m).covariance k 1 1))))
      = [[(-1, 1), (0, 1), (-2, 0), (1, 0)], [(3, 1), (0, 1), (2, 0), (1, 0)],
         [(-1, 1), (0, 1), (-2, 0), (1, 0)]] := by
  decide!

theorem kite_symmetric : SymmetricW kite.W := by
  unfold SymmetricW
  decide!

theorem kite_keysAscending : KeysAscending kite.constraints := by
  unfold KeysAscending
  decide!

theorem kite_cov_axis (k : Nat) (hk : k < 4) (i j : Fin 3) :
    (Deform.state axisSVD twoSolver kite kiteStart 0).covariance k i j
      = (Matrix.diagonal
          ![(Deform.state axisSVD twoSolver kite kiteStart 0).covariance k 0 0,
            (Deform.state axisSVD twoSolver kite kiteStart 0).covariance k 1 1, 0] :
          Mat3 ℚ) i j := by
  interval_cases k <;> revert i j <;> decide!

theorem kite_svd_exact (m : Nat) (hm : m ≤ 0) (k : Nat) (hk : k < kite.V.length) :
    IsSVD ((Deform.state axisSVD twoSolver kite kiteStart m).covariance k)
      (axisSVD ((Deform.state axisSVD twoSolver kite kiteStart m).covariance k)).1
      (axisSVD ((Deform.state axisSVD twoSolver kite kiteStart m).covariance k)).2 := by
  have h0 : m = 0 := Nat.le_zero.1 hm
  subst h0
  exact axisSVD_isSVD _ (Matrix.ext fun i j => kite_cov_axis k hk i j)

theorem kite_solver_exact (a : Fin 3) :
    SolvesSystem (Deform.state axisSVD twoSolver kite kiteStart 0).L
      (Deform.state axisSVD twoSolver kite kiteStart 0).freeIdx
      (((Deform.state axisSVD twoSolver kite kiteStart 0).estimateRotations axisSVD).rhsRow a)
      (twoSolver (Deform.state axisSVD twoSolver kite kiteStart 0).L
        (((Deform.state axisSVD twoSolver kite kiteStart 0).estimateRotations
          axisSVD).rhsRow a)) := by
  unfold SolvesSystem
  revert a
  decide!

/-- C10, counterexample. The mesh `fan` of two triangles has a symmetric weight
matrix that is non-zero on mesh edges only, with the weight -2 on the edge 0–2.
With exact SVD factors and exact solutions of the linear system, started from
the rest pose with the three constraints at rest, the rigidity energy is 0
after the second iteration of Deform::solve and 4 after the third (and 4 after
the first).  In all three iterations every covariance matrix is diagonal and
non-zero along each edge of its vertex. -/
theorem energy_increases_fan :
    fan.W.length = fan.V.length ∧
    (∀ t ∈ entries fan.W, t.1 < fan.V.length) ∧
    KeysAscending fan.constraints ∧ SymmetricW fan.W ∧
    (∀ i j : Nat, coeff fan.W i j ≠ 0 → IsMeshEdge fan.F i j) ∧
    (∀ m : Nat, m ≤ 2 → ∀ k : Nat, k < fan.V.length →
      IsSVD ((Deform.state axisSVD oneSolver fan fan.V m).covariance k)
        (axisSVD ((Deform.state axisSVD oneSolver fan fan.V m).covariance k)).1
        (axisSVD ((Deform.state axisSVD oneSolver fan fan.V m).covariance k)).2) ∧
    (∀ n : Nat, n ≤ 2 → ∀ a : Fin 3,
      SolvesSystem (Deform.state axisSVD oneSolver fan fan.V n).L
        (Deform.state axisSVD oneSolver fan fan.V n).freeIdx
        (((Deform.state axisSVD oneSolver fan fan.V n).estimateRotations
          axisSVD).rhsRow a)
        (oneSolver (Deform.state axisSVD oneSolver fan fan.V n).L
          (((Deform.state axisSVD oneSolver fan fan.V n).estimateRotations
            axisSVD).rhsRow a))) ∧
    ((List.range 3).map (fun m => (List.range 4).map (fun k =>
        ((Deform.state axisSVD oneSolver fan fan.V m).covariance k 0 0,
         (Deform.state axisSVD oneSolver fan fan.V m).covariance k 1 1))))
      = [[(-1, 1), (0, 1), (-2, 0), (1, 0)], [(3, 1), (0, 1), (2, 0), (1, 0)],
         [(-1, 1), (0, 1), (-2, 0), (1, 0)]] ∧
    (Deform.state axisSVD oneSolver fan fan.V 1).energy = 4 ∧
    (Deform.state axisSVD oneSolver fan fan.V 2).energy = 0 ∧
    (Deform.state axisSVD oneSolver fan fan.V 3).energy = 4 ∧
    (Deform.state axisSVD oneSolver fan fan.V 2).energy
      < (Deform.state axisSVD oneSolver fan fan.V 3).energy :=
  ⟨rfl, fan_rows, fan_keysAscending, fan_symmetric, fan_meshEdges, fan_svd_exact,
    fan_solver_exact, fan_cov_entries, by decide!, by decide!, by decide!, by decide!⟩

/-- Witness for C10 as amended: the kite with its cotangent weights, one of them
negative, from a start with the free vertices moved out; the first iteration
brings the energy from 74/5 down to 5. -/
theorem energy_nonincreasing_witness :
    (kite.W.length = kite.V.length ∧ kiteStart.length = kite.V.length ∧
      (∀ t ∈ entries kite.W, t.1 < kite.V.length) ∧ KeysAscending kite.constraints ∧
      SymmetricW kite.W ∧ (∀ y : Nat → ℚ, 0 ≤ laplaceForm kite.W y) ∧
      coeff kite.W 0 1 = -9 / 40 ∧
      (∀ i j : Nat, coeff kite.W i j ≠ 0 → IsMeshEdge kite.F i j)) ∧
    (Deform.state axisSVD twoSolver kite kiteStart 0).energy = 74 / 5 ∧
    (Deform.state axisSVD twoSolver kite kiteStart 1).energy = 5 ∧
    (Deform.state axisSVD twoSolver kite kiteStart (0 + 1)).energy
      ≤ (Deform.state axisSVD twoSolver kite kiteStart 0).energy :=
  ⟨⟨rfl, rfl, kite_rows, kite_keysAscending, kite_symmetric, kite_laplace_nonneg,
      by decide!, kite_meshEdges⟩,
    by decide!, by decide!,
    energy_nonincreasing axisSVD twoSolver kite kiteStart 0 rfl rfl
      kite_rows kite_keysAscending kite_symmetric kite_laplace_nonneg kite_svd_exact
      kite_solver_exact⟩

/-! ### The free-index map as a bijection -/

theorem rank_surjective (d : Deform K) (n m : Nat) (hm : m < d.rank n) :
    ∃ i : Nat, i < n ∧ d.isFixed i = false ∧ d.rank i = m := by
  induction n with
  | zero => simp [Deform.rank] at hm
  | succ n ih =>
    rw [rank_succ] at hm
    by_cases hlt : m < d.rank n
    · obtain ⟨i, hi, hf, hr⟩ := ih hlt
      exact ⟨i, by omega, hf, hr⟩
    · by_cases hfix : d.isFixed n = true
      · rw [if_pos hfix] at hm
        omega
      · rw [if_neg hfix] at hm
        exact ⟨n, by omega, by simpa using hfix, by omega⟩

theorem mapReady_of_eq (d : Deform K) (hmap : d.freeIdxMap = d.initializeConstraints.freeIdxMap)
    (hidx : d.freeIdx = d.initializeConstraints.freeIdx) : d.MapReady := by
  have h := initializeConstraints_mapReady d
  refine ⟨?_, ?_⟩
  · rw [hidx]
    exact h.1
  · intro j hj
    rw [hmap]
    exact h.2 j hj

/-- The hypotheses of `mapReady_of_eq` hold in every state that
initializeConstraints returns: running it again changes neither the map nor the
count. -/
theorem initializeConstraints_idem (d : Deform K) :
    d.initializeConstraints.freeIdxMap = d.initializeConstraints.initializeConstraints.freeIdxMap ∧
    d.initializeConstraints.freeIdx = d.initializeConstraints.initializeConstraints.freeIdx := by
  have h1 := initializeConstraints_mapReady d
  have h2 := initializeConstraints_mapReady d.initializeConstraints
  have hlen : ∀ e : Deform K, e.initializeConstraints.freeIdxMap.length = e.V.length := by
    intro e
    have h := (freeIdx_scan_rank e (resize e.freeIdxMap e.V.length 0) e.V.length
      (by rw [resize_length])).1
    rw [resize_length] at h
    exact h
  refine ⟨?_, ?_⟩
  · apply List.ext_getElem?
    intro j
    by_cases hj : j < d.V.length
    · have g1 := h1.2 j hj
      have g2 := h2.2 j hj
      rw [List.getD_eq_getElem?_getD] at g1 g2
      have l1 : j < d.initializeConstraints.freeIdxMap.length := by rw [hlen]; exact hj
      have l2 : j < d.initializeConstraints.initializeConstraints.freeIdxMap.length := by
        rw [hlen]; exact hj
      rw [List.getElem?_eq_getElem l1] at g1 ⊢
      rw [List.getElem?_eq_getElem l2] at g2 ⊢
      simp only [Option.getD_some] at g1 g2
      rw [g1, g2]
      rfl
    · rw [List.getElem?_eq_none (by rw [hlen]; omega),
        List.getElem?_eq_none (by rw [hlen]; exact not_lt.1 hj)]
  · rw [h1.1, h2.1]
    rfl

/-- C11. After initializeConstraints the free-index map has one entry per vertex:
-1 at every key of the constraint map, and at a free vertex the number of free
vertices with a smaller index.  Hence the entries at free vertices are strictly
increasing in the vertex index, they lie in `0 .. freeIdx-1`, every value in that
range is the entry of exactly one free vertex, and `freeIdx` is the number of
free vertices. -/
theorem initializeConstraints_freeIdxMap (d : Deform K) :
    d.initializeConstraints.freeIdxMap.length = d.V.length ∧
    (∀ i : Nat, i < d.V.length →
      d.initializeConstraints.freeIdxMap.getD i 0
        = if (d.constraints.lookup i).isSome = true then -1
          else (((List.range i).countP (fun v => !(d.constraints.lookup v).isSome) : Nat) : Int)) ∧
    d.initializeConstraints.freeIdx
      = (List.range d.V.length).countP (fun v => !(d.constraints.lookup v).isSome) ∧
    (∀ i j : Nat, i < j → j < d.V.length →
      (d.constraints.lookup i).isSome = false → (d.constraints.lookup j).isSome = false →
      d.initializeConstraints.freeIdxMap.getD i 0
        < d.initializeConstraints.freeIdxMap.getD j 0) ∧
    (∀ i : Nat, i < d.V.length → (d.constraints.lookup i).isSome = false →
      0 ≤ d.initializeConstraints.freeIdxMap.getD i 0 ∧
      d.initializeConstraints.freeIdxMap.getD i 0 < (d.initializeConstraints.freeIdx : Int)) ∧
    (∀ m : Nat, m < d.initializeConstraints.freeIdx →
      ∃! i : Nat, i < d.V.length ∧ (d.constraints.lookup i).isSome = false ∧
        d.initializeConstraints.freeIdxMap.getD i 0 = (m : Int)) := by
  have hready := initializeConstraints_mapReady d
  have hV : d.initializeConstraints.V = d.V := rfl
  have hfixed : ∀ j : Nat, d.initializeConstraints.isFixed j = (d.constraints.lookup j).isSome :=
    fun _ => rfl
  have hrank : ∀ j : Nat, d.initializeConstraints.rank j
      = (List.range j).countP (fun v => !(d.constraints.lookup v).isSome) := fun _ => rfl
  have hlen : d.initializeConstraints.freeIdxMap.length = d.V.length := by
    have h := (freeIdx_scan_rank d (resize d.freeIdxMap d.V.length 0) d.V.length
      (by rw [resize_length])).1
    rw [resize_length] at h
    exact h
  have hget : ∀ i : Nat, i < d.V.length →
      d.initializeConstraints.freeIdxMap.getD i 0
        = if (d.constraints.lookup i).isSome = true then -1
          else ((d.initializeConstraints.rank i : Nat) : Int) := by
    intro i hi
    have h := hready.2 i (by rw [hV]; exact hi)
    rw [hfixed] at h
    exact h
  have hfree : ∀ i : Nat, i < d.V.length → (d.constraints.lookup i).isSome = false →
      d.initializeConstraints.freeIdxMap.getD i 0 = ((d.initializeConstraints.rank i : Nat) : Int) := by
    intro i hi hf
    rw [hget i hi, hf]
    simp
  have hidx : d.initializeConstraints.freeIdx = d.initializeConstraints.rank d.V.length :=
    hready.1
  refine ⟨hlen, ?_, ?_, ?_, ?_, ?_⟩
  · intro i hi
    rw [hget i hi, hrank]
  · rw [hidx, hrank]
  · intro i j hij hj hfi hfj
    rw [hfree i (by omega) hfi, hfree j hj hfj]
    exact_mod_cast rank_lt_of_free d.initializeConstraints i j hij (by rw [hfixed]; exact hfi)
  · intro i hi hfi
    rw [hfree i hi hfi, hidx]
    refine ⟨by positivity, ?_⟩
    exact_mod_cast rank_lt_of_free d.initializeConstraints i d.V.length hi
      (by rw [hfixed]; exact hfi)
  · intro m hm
    rw [hidx] at hm
    obtain ⟨i, hi, hf, hr⟩ := rank_surjective d.initializeConstraints d.V.length m hm
    rw [hfixed] at hf
    refine ⟨i, ⟨hi, hf, by rw [hfree i hi hf, hr]⟩, ?_⟩
    rintro j ⟨hj, hfj, hjm⟩
    rw [hfree j hj hfj] at hjm
    have hjm' : d.initializeConstraints.rank j = m := by exact_mod_cast hjm
    exact rank_injective d.initializeConstraints j i (by rw [hfixed]; exact hfj)
      (by rw [hfixed]; exact hf) (by rw [hjm', hr])

/-! ### Entries of the assembled matrix -/

theorem sum_flatMap_gen {α β M : Type} [AddCommMonoid M] (f : α → List β) (g : β → M)
    (ks : List α) :
    ((ks.flatMap f).map g).sum = (ks.map (fun k => ((f k).map g).sum)).sum := by
  induction ks with
  | nil => rfl
  | cons k rest ih =>
    rw [List.flatMap_cons, List.map_append, List.sum_append, ih, List.map_cons, List.sum_cons]

theorem sum_column_row {M : Type} [AddCommMonoid M] [Module K M] (col : List (Nat × K))
    (i j : Nat) (h : Nat → M) :
    ((col.map (fun e => ((e.1, j, e.2) : Nat × Nat × K))).map
        (fun t => if t.1 = i then t.2.2 • h t.2.1 else 0)).sum
      = (((col.filter (fun e => decide (e.1 = i))).map (fun e => e.2)).sum) • h j := by
  induction col with
  | nil => simp
  | cons e rest ih =>
    rw [List.map_cons, List.map_cons, List.sum_cons, ih]
    by_cases he : e.1 = i
    · rw [List.filter_cons_of_pos (by simpa using he), List.map_cons, List.sum_cons, add_smul]
      simp [he]
    · rw [List.filter_cons_of_neg (by simpa using he)]
      simp [he]

/-- A sum over the stored entries of row `i` is a sum over the columns, weighted
with the coefficients of the row. -/
theorem sum_entries_row {M : Type} [AddCommMonoid M] [Module K M] (W : List (List (Nat × K)))
    (i : Nat) (h : Nat → M) :
    ((entries W).map (fun t => if t.1 = i then t.2.2 • h t.2.1 else 0)).sum
      = ((List.range W.length).map (fun j => coeff W i j • h j)).sum := by
  unfold entries
  rw [sum_flatMap_gen]
  congr 1
  apply List.map_congr_left
  intro j _
  exact sum_column_row (W.getD j []) i j h

theorem tripletEntry_flatMap {β : Type} (l : List β) (tr : β → List (Nat × Nat × K))
    (a b : Nat) :
    tripletEntry (l.flatMap tr) a b = (l.map (fun e => tripletEntry (tr e) a b)).sum := by
  unfold tripletEntry
  exact sum_flatMap_gen tr _ l

theorem initializeLinearSystem_systemReady (d : Deform K) (hN : d.W.length = d.V.length)
    (hrows : ∀ t ∈ entries d.W, t.1 < d.V.length) (hmap : d.MapReady) :
    d.initializeLinearSystem.SystemReady :=
  ⟨hN, hrows, hmap, rfl⟩

/-- Entry `(rank i, b)` of the assembled matrix, for a free vertex `i`, as a sum
over the columns of `W`. -/
theorem entry_row_form (d : Deform K) (h : d.SystemReady) (i : Nat)
    (hf : d.isFixed i = false) (b : Nat) :
    tripletEntry d.L (d.rank i) b
      = ((List.range d.V.length).map (fun j => coeff d.W i j *
          ((if d.isFixed j = false ∧ d.rank j = b then -1 else 0)
            + (if d.rank i = b then 1 else 0)))).sum := by
  rw [← h.1]
  have hrow := sum_entries_row (M := K) d.W i (fun j =>
    (if d.isFixed j = false ∧ d.rank j = b then (-1 : K) else 0)
      + (if d.rank i = b then 1 else 0))
  simp only [smul_eq_mul] at hrow
  rw [← hrow, (system_closed_form d h).2.2, tripletEntry_flatMap]
  congr 1
  apply List.map_congr_left
  intro t _
  by_cases hti : t.1 = i
  · rw [if_pos hti, hti, hf]
    by_cases hfj : d.isFixed t.2.1 = true
    · by_cases hab : d.rank i = b <;> simp [tripletEntry, hfj, hab]
    · have hfj' : d.isFixed t.2.1 = false := by simpa using hfj
      by_cases hab : d.rank i = b <;> by_cases hjb : d.rank t.2.1 = b <;>
        simp [tripletEntry, hfj', hab, hjb, mul_add]
  · rw [if_neg hti]
    by_cases hft : d.isFixed t.1 = true
    · simp [tripletEntry, hft]
    · have hft' : d.isFixed t.1 = false := by simpa using hft
      have hne : d.rank t.1 ≠ d.rank i := fun he => hti (rank_injective d t.1 i hft' hf he)
      by_cases hfj : d.isFixed t.2.1 = true <;> simp [tripletEntry, hft', hfj, hne]

/-- Column `rank i` of `bFixed`, for a free vertex `i`, as a sum over the columns
of `W`. -/
theorem bFixed_row_form (d : Deform K) (h : d.SystemReady) (i : Nat) (hi : i < d.V.length)
    (hf : d.isFixed i = false) :
    d.bFixed.getD (d.rank i) 0
      = ((List.range d.V.length).map (fun j => coeff d.W i j •
          (if d.isFixed j = true then (d.constraints.lookup j).getD 0 else 0))).sum := by
  have hm : d.rank i < d.freeIdx := by
    rw [h.2.2.1.1]
    exact rank_lt_of_free d i d.V.length hi hf
  rw [(system_closed_form d h).2.1 (d.rank i) hm, ← h.1,
    ← sum_entries_row (M := Vec3 K) d.W i
      (fun j => if d.isFixed j = true then (d.constraints.lookup j).getD 0 else 0)]
  congr 1
  apply List.map_congr_left
  intro t _
  by_cases hti : t.1 = i
  · rw [if_pos hti, hti, hf]
    by_cases hfj : d.isFixed t.2.1 = true <;> simp [hfj]
  · rw [if_neg hti]
    by_cases hft : d.isFixed t.1 = true
    · simp [hft]
    · have hft' : d.isFixed t.1 = false := by simpa using hft
      have hne : d.rank t.1 ≠ d.rank i := fun he => hti (rank_injective d t.1 i hft' hf he)
      by_cases hfj : d.isFixed t.2.1 = true <;> simp [hft', hfj, hne]

/-- Every triplet of the assembled matrix lies in the block of the free indices. -/
theorem triplets_in_block (d : Deform K) (h : d.SystemReady) :
    ∀ t ∈ d.L, t.1 < d.freeIdx ∧ t.2.1 < d.freeIdx := by
  intro t ht
  rw [(system_closed_form d h).2.2, List.mem_flatMap] at ht
  obtain ⟨e, he, hte⟩ := ht
  have hrow : e.1 < d.V.length := h.2.1 e he
  have hcol : e.2.1 < d.V.length := by
    rw [← h.1]
    exact mem_entries d.W e he
  rw [h.2.2.1.1]
  by_cases hfe : d.isFixed e.1 = true
  · simp [hfe] at hte
  · have hfe' : d.isFixed e.1 = false := by simpa using hfe
    have hr := rank_lt_of_free d e.1 d.V.length hrow hfe'
    by_cases hfj : d.isFixed e.2.1 = true
    · simp [hfe', hfj] at hte
      subst hte
      exact ⟨hr, hr⟩
    · have hfj' : d.isFixed e.2.1 = false := by simpa using hfj
      have hc := rank_lt_of_free d e.2.1 d.V.length hcol hfj'
      simp [hfe', hfj'] at hte
      rcases hte with rfl | rfl
      · exact ⟨hr, hc⟩
      · exact ⟨hr, hr⟩

theorem sum_range_single (N i : Nat) (hi : i < N) (G : Nat → K) :
    ((List.range N).map (fun v => G v * if v = i then (-1 : K) else 0)).sum = - G i := by
  have h := sum_range_ite N i (fun v => - G v)
  rw [if_pos hi] at h
  rw [← h]
  congr 1
  apply List.map_congr_left
  intro v _
  by_cases hv : v = i
  · simp [hv]
  · have hv' : ¬ i = v := fun e => hv e.symm
    simp [hv, hv']

theorem entry_offdiag (d : Deform K) (h : d.SystemReady) (i j : Nat) (hj : j < d.V.length)
    (hf : d.isFixed i = false) (hfj : d.isFixed j = false) (hji : j ≠ i) :
    tripletEntry d.L (d.rank i) (d.rank j) = - coeff d.W i j := by
  rw [entry_row_form d h i hf, ← sum_range_single d.V.length j hj (fun v => coeff d.W i v)]
  congr 1
  apply List.map_congr_left
  intro v _
  have hab : d.rank i ≠ d.rank j := fun he => hji (rank_injective d i j hf hfj he).symm
  by_cases hv : v = j
  · simp [hv, hfj, hab]
  · by_cases hfv : d.isFixed v = true
    · simp [hv, hfv, hab]
    · have hfv' : d.isFixed v = false := by simpa using hfv
      have hvr : d.rank v ≠ d.rank j := fun he => hv (rank_injective d v j hfv' hfj he)
      simp [hv, hfv', hab, hvr]

theorem entry_diag (d : Deform K) (h : d.SystemReady) (i : Nat) (hf : d.isFixed i = false) :
    tripletEntry d.L (d.rank i) (d.rank i)
      = ((List.range d.V.length).map (fun j => if j = i then 0 else coeff d.W i j)).sum := by
  rw [entry_row_form d h i hf]
  congr 1
  apply List.map_congr_left
  intro v _
  by_cases hv : v = i
  · simp [hv, hf]
  · by_cases hfv : d.isFixed v = true
    · simp [hv, hfv]
    · have hfv' : d.isFixed v = false := by simpa using hfv
      have hvr : d.rank v ≠ d.rank i := fun he => hv (rank_injective d v i hfv' hf he)
      simp [hv, hfv', hvr]

theorem entry_outside (d : Deform K) (h : d.SystemReady) (a b : Nat)
    (hab : ¬ (a < d.freeIdx ∧ b < d.freeIdx)) : tripletEntry d.L a b = 0 := by
  unfold tripletEntry
  apply List.sum_eq_zero
  intro x hx
  rw [List.mem_map] at hx
  obtain ⟨t, ht, rfl⟩ := hx
  have hblock := triplets_in_block d h t ht
  rw [if_neg]
  rintro ⟨rfl, rfl⟩
  exact hab hblock

/-- C12. In a state whose free-index map is the one initializeConstraints builds,
with `W` an `N × N` matrix, initializeLinearSystem assembles this system.  For a
free vertex `i` with free index `a`: `L[a, b] = −w_ij` at the free index `b` of
every other free vertex `j`; `L[a, a]` is the sum of `w_ij` over all `j ≠ i`,
free or fixed; an entry `L[a, b]` with `b ≠ a` is zero when no free vertex with
index `b` has a weight stored in row `i`; and column `a` of `bFixed` is the sum
of `w_ij · constraints[j]` over the fixed `j`.  A stored entry in the row of a
fixed vertex changes neither `bFixed` nor the triplets, and every triplet lies
in the `freeIdx × freeIdx` block. -/
theorem initializeLinearSystem_entries (d : Deform K) (hN : d.W.length = d.V.length)
    (hrows : ∀ t ∈ entries d.W, t.1 < d.V.length)
    (hmap : d.freeIdxMap = d.initializeConstraints.freeIdxMap)
    (hidx : d.freeIdx = d.initializeConstraints.freeIdx) :
    (∀ i : Nat, i < d.V.length → d.freeIdxMap.getD i 0 ≠ -1 →
      (∀ j : Nat, j < d.V.length → d.freeIdxMap.getD j 0 ≠ -1 → j ≠ i →
        tripletEntry d.initializeLinearSystem.L (d.freeIdxMap.getD i 0).toNat
          (d.freeIdxMap.getD j 0).toNat = - coeff d.W i j) ∧
      tripletEntry d.initializeLinearSystem.L (d.freeIdxMap.getD i 0).toNat
          (d.freeIdxMap.getD i 0).toNat
        = ((List.range d.V.length).map (fun j => if j = i then 0 else coeff d.W i j)).sum ∧
      (∀ b : Nat, b ≠ (d.freeIdxMap.getD i 0).toNat →
        (∀ j : Nat, j < d.V.length → d.freeIdxMap.getD j 0 ≠ -1 →
          (d.freeIdxMap.getD j 0).toNat = b → coeff d.W i j = 0) →
        tripletEntry d.initializeLinearSystem.L (d.freeIdxMap.getD i 0).toNat b = 0) ∧
      d.initializeLinearSystem.bFixed.getD (d.freeIdxMap.getD i 0).toNat 0
        = ((List.range d.V.length).map (fun j =>
            if d.freeIdxMap.getD j 0 = -1 then coeff d.W i j • (d.constraints.lookup j).getD 0
            else 0)).sum) ∧
    (∀ i : Nat, i < d.V.length → d.freeIdxMap.getD i 0 = -1 →
      ∀ (j : Nat) (acc : List (Vec3 K) × List (Nat × Nat × K)) (w : K),
        d.linearSystemStep j acc (i, w) = acc) ∧
    (∀ t ∈ d.initializeLinearSystem.L, t.1 < d.freeIdx ∧ t.2.1 < d.freeIdx) := by
  have hready := mapReady_of_eq d hmap hidx
  have hsys := initializeLinearSystem_systemReady d hN hrows hready
  have hfix : ∀ j : Nat, j < d.V.length →
      (d.freeIdxMap.getD j 0 = -1 ↔ d.isFixed j = true) := by
    intro j hj
    constructor
    · intro hm
      cases hf : d.isFixed j with
      | true => rfl
      | false => exact absurd hm ((mapReady_getD d hready j hj).2 hf).1
    · exact (mapReady_getD d hready j hj).1
  have hfree : ∀ j : Nat, j < d.V.length → d.freeIdxMap.getD j 0 ≠ -1 →
      d.isFixed j = false ∧ (d.freeIdxMap.getD j 0).toNat = d.rank j := by
    intro j hj hne
    cases hf : d.isFixed j with
    | true => exact absurd ((mapReady_getD d hready j hj).1 hf) hne
    | false => exact ⟨rfl, ((mapReady_getD d hready j hj).2 hf).2⟩
  refine ⟨?_, ?_, triplets_in_block d.initializeLinearSystem hsys⟩
  · intro i hi hne
    obtain ⟨hf, hr⟩ := hfree i hi hne
    have hrow := entry_row_form d.initializeLinearSystem hsys i hf
    have hrank : ∀ j : Nat, d.initializeLinearSystem.rank j = d.rank j := fun _ => rfl
    have hisf : ∀ j : Nat, d.initializeLinearSystem.isFixed j = d.isFixed j := fun _ => rfl
    have hVl : d.initializeLinearSystem.V = d.V := rfl
    have hWl : d.initializeLinearSystem.W = d.W := rfl
    simp only [hrank, hisf, hVl, hWl] at hrow
    rw [hr]
    refine ⟨?_, ?_, ?_, ?_⟩
    · intro j hj hnej hji
      obtain ⟨hfj, hrj⟩ := hfree j hj hnej
      rw [hrj]
      exact entry_offdiag d.initializeLinearSystem hsys i j hj hf hfj hji
    · exact entry_diag d.initializeLinearSystem hsys i hf
    · intro b hb hzero
      rw [hrow]
      apply List.sum_eq_zero
      intro x hx
      rw [List.mem_map] at hx
      obtain ⟨v, hv, rfl⟩ := hx
      have hvN : v < d.V.length := List.mem_range.1 hv
      have hab : d.rank i ≠ b := fun he => hb he.symm
      by_cases hc : d.isFixed v = false ∧ d.rank v = b
      · have hvm := (mapReady_getD d hready v hvN).2 hc.1
        rw [hzero v hvN hvm.1 (by rw [hvm.2]; exact hc.2)]
        simp
      · simp [hc, hab]
    · have hb := bFixed_row_form d.initializeLinearSystem hsys i hi hf
      simp only [hrank, hisf, hVl, hWl] at hb
      rw [hb]
      congr 1
      apply List.map_congr_left
      intro v hv
      have hvN : v < d.V.length := List.mem_range.1 hv
      by_cases hfv : d.isFixed v = true
      · rw [if_pos hfv, if_pos ((hfix v hvN).2 hfv)]
        rfl
      · rw [if_neg hfv, if_neg (fun hm => hfv ((hfix v hvN).1 hm))]
        simp
  · intro i hi hm j acc w
    unfold Deform.linearSystemStep
    simp only [hm, if_true]

theorem initializeLinearSystem_entries_witness :
    (signed.initializeConstraints.W.length = signed.initializeConstraints.V.length ∧
      (∀ t ∈ entries signed.initializeConstraints.W, t.1 < signed.initializeConstraints.V.length) ∧
      signed.initializeConstraints.freeIdxMap = [-1, -1, 0] ∧
      signed.initializeConstraints.freeIdx = 1) ∧
    (tripletEntry signed.initializeConstraints.initializeLinearSystem.L
        (signed.initializeConstraints.freeIdxMap.getD 2 0).toNat
        (signed.initializeConstraints.freeIdxMap.getD 2 0).toNat
      = ((List.range signed.initializeConstraints.V.length).map
          (fun j => if j = 2 then 0 else coeff signed.initializeConstraints.W 2 j)).sum) ∧
    (signed.initializeConstraints.initializeLinearSystem.bFixed.getD
        (signed.initializeConstraints.freeIdxMap.getD 2 0).toNat 0
      = ((List.range signed.initializeConstraints.V.length).map (fun j =>
          if signed.initializeConstraints.freeIdxMap.getD j 0 = -1
          then coeff signed.initializeConstraints.W 2 j
            • (signed.initializeConstraints.constraints.lookup j).getD 0
          else 0)).sum) :=
  ⟨⟨rfl, signed_rows, by decide, by decide⟩,
    ((initializeLinearSystem_entries signed.initializeConstraints rfl signed_rows
      (by decide) (by decide)).1 2 (by decide) (by decide)).2.1,
    ((initializeLinearSystem_entries signed.initializeConstraints rfl signed_rows
      (by decide) (by decide)).1 2 (by decide) (by decide)).2.2.2⟩

/-- C13. In a state whose free-index map is the one initializeConstraints builds,
with `W` an `N × N` matrix whose coefficients satisfy `w_ij = w_ji`, the matrix
assembled by initializeLinearSystem is symmetric: `L[a, b] = L[b, a]` for all
indices `a`, `b`, whatever the constraint set. -/
theorem initializeLinearSystem_symmetric (d : Deform K) (hN : d.W.length = d.V.length)
    (hrows : ∀ t ∈ entries d.W, t.1 < d.V.length)
    (hmap : d.freeIdxMap = d.initializeConstraints.freeIdxMap)
    (hidx : d.freeIdx = d.initializeConstraints.freeIdx)
    (hsym : ∀ i j : Nat, coeff d.W i j = coeff d.W j i) (a b : Nat) :
    tripletEntry d.initializeLinearSystem.L a b = tripletEntry d.initializeLinearSystem.L b a := by
  have hready := mapReady_of_eq d hmap hidx
  have hsys := initializeLinearSystem_systemReady d hN hrows hready
  by_cases hab : a = b
  · rw [hab]
  by_cases hin : a < d.freeIdx ∧ b < d.freeIdx
  · have ha := hin.1
    have hb := hin.2
    rw [hready.1] at ha hb
    obtain ⟨i, hi, hfi, hri⟩ := rank_surjective d d.V.length a ha
    obtain ⟨j, hj, hfj, hrj⟩ := rank_surjective d d.V.length b hb
    have hij : i ≠ j := fun e => hab (by rw [← hri, ← hrj, e])
    have h1 := entry_offdiag d.initializeLinearSystem hsys i j hj hfi hfj (fun e => hij e.symm)
    have h2 := entry_offdiag d.initializeLinearSystem hsys j i hi hfj hfi hij
    have hrank : ∀ v : Nat, d.initializeLinearSystem.rank v = d.rank v := fun _ => rfl
    rw [hrank, hrank, hri, hrj] at h1
    rw [hrank, hrank, hri, hrj] at h2
    rw [h1, h2]
    exact congrArg Neg.neg (hsym i j)
  · rw [entry_outside d.initializeLinearSystem hsys a b hin,
      entry_outside d.initializeLinearSystem hsys b a (fun h => hin ⟨h.2, h.1⟩)]

/-- Witness for C13: the kite with vertices 0 and 2 constrained.  The free
vertices 1 and 3 have the free indices 0 and 1, and the assembled matrix has
`-5/8`, minus the weight of the edge 1–3, in both off-diagonal places. -/
theorem initializeLinearSystem_symmetric_witness :
    (kiteSplit.initializeConstraints.W.length = kiteSplit.initializeConstraints.V.length ∧
      kiteSplit.initializeConstraints.freeIdxMap = [-1, 0, -1, 1] ∧
      kiteSplit.initializeConstraints.freeIdx = 2 ∧
      coeff kiteSplit.W 1 3 = 5 / 8 ∧ coeff kiteSplit.W 3 1 = 5 / 8 ∧
      tripletEntry kiteSplit.initializeConstraints.initializeLinearSystem.L 0 0 = 41 / 40 ∧
      tripletEntry kiteSplit.initializeConstraints.initializeLinearSystem.L 1 1 = 5 / 4 ∧
      tripletEntry kiteSplit.initializeConstraints.initializeLinearSystem.L 0 1 = -5 / 8 ∧
      tripletEntry kiteSplit.initializeConstraints.initializeLinearSystem.L 1 0 = -5 / 8) ∧
    tripletEntry kiteSplit.initializeConstraints.initializeLinearSystem.L 0 1
      = tripletEntry kiteSplit.initializeConstraints.initializeLinearSystem.L 1 0 :=
  ⟨⟨rfl, by decide, by decide, by decide!, by decide!, by decide!, by decide!, by decide!,
      by decide!⟩,
    initializeLinearSystem_symmetric kiteSplit.initializeConstraints rfl kite_rows
      (by decide) (by decide) kite_coeff_symm 0 1⟩

/-! ### The quadratic form of the assembled matrix -/

theorem quadForm_flatMap {β : Type} (l : List β) (tr : β → List (Nat × Nat × K))
    (x : List K) :
    quadForm (l.flatMap tr) x = (l.map (fun e => quadForm (tr e) x)).sum := by
  unfold quadForm
  exact sum_flatMap_gen tr _ l

/-- The quadratic form of the assembled matrix as a double sum over the vertices,
for the values `y v = x[rank v]` at free vertices and `y v = 0` at fixed ones. -/
theorem quadForm_double_sum (d : Deform K) (h : d.SystemReady) (x : List K) (y : Nat → K)
    (hy : ∀ v : Nat, y v = if d.isFixed v = true then 0 else x.getD (d.rank v) 0) :
    quadForm d.L x
      = ((List.range d.V.length).map (fun v =>
          ((List.range d.V.length).map (fun j =>
            coeff d.W v j * (y v * y v - y v * y j))).sum)).sum := by
  have hentry : quadForm d.L x
      = ((entries d.W).map (fun t => t.2.2 * (y t.1 * y t.1 - y t.1 * y t.2.1))).sum := by
    rw [(system_closed_form d h).2.2, quadForm_flatMap]
    congr 1
    apply List.map_congr_left
    intro t _
    rw [hy t.1, hy t.2.1]
    by_cases hft : d.isFixed t.1 = true
    · simp [quadForm, hft]
    · by_cases hfj : d.isFixed t.2.1 = true
      · simp [quadForm, hft, hfj]
        ring
      · simp [quadForm, hft, hfj]
        ring
  rw [hentry, sum_group_rows (entries d.W) d.V.length h.2.1
    (fun v t => t.2.2 * (y v * y v - y v * y t.2.1))]
  congr 1
  apply List.map_congr_left
  intro v _
  have hrow := sum_entries_row (M := K) d.W v (fun j => y v * y v - y v * y j)
  simp only [smul_eq_mul] at hrow
  rw [hrow, h.1]

/-! ### The Dirichlet form of the weights -/

/-- The Dirichlet form as a double sum over the vertices. -/
theorem laplaceForm_double_sum (W : List (List (Nat × K))) (N : Nat) (hN : W.length = N)
    (hrows : ∀ t ∈ entries W, t.1 < N) (y : Nat → K) :
    laplaceForm W y
      = ((List.range N).map (fun v =>
          ((List.range N).map (fun j =>
            coeff W v j * ((y v - y j) * (y v - y j)))).sum)).sum := by
  unfold laplaceForm
  rw [sum_group_rows (entries W) N hrows (fun v t => t.2.2 * ((y v - y t.2.1) * (y v - y t.2.1)))]
  congr 1
  apply List.map_congr_left
  intro v _
  have hrow := sum_entries_row (M := K) W v (fun j => (y v - y j) * (y v - y j))
  simp only [smul_eq_mul] at hrow
  rw [hrow, hN]

/-- For symmetric coefficients the double sum of `c_vj (y_v − y_j)²` is twice the
double sum of `c_vj (y_v² − y_v y_j)`. -/
theorem double_sum_halves (N : Nat) (c : Nat → Nat → K) (y : Nat → K)
    (hsym : ∀ i j : Nat, c i j = c j i) :
    ((List.range N).map (fun v =>
        ((List.range N).map (fun j => c v j * ((y v - y j) * (y v - y j)))).sum)).sum
      = 2 * ((List.range N).map (fun v =>
          ((List.range N).map (fun j => c v j * (y v * y v - y v * y j))).sum)).sum := by
  have hswap : ((List.range N).map (fun v =>
        ((List.range N).map (fun j => c v j * (y v * y v - y v * y j))).sum)).sum
      = ((List.range N).map (fun v =>
        ((List.range N).map (fun j => c v j * (y j * y j - y j * y v))).sum)).sum := by
    rw [sum_map_comm (List.range N) (List.range N)
      (fun v j => c v j * (y j * y j - y j * y v))]
    congr 1
    apply List.map_congr_left
    intro v _
    congr 1
    apply List.map_congr_left
    intro j _
    show c v j * (y v * y v - y v * y j) = c j v * (y v * y v - y v * y j)
    rw [hsym v j]
  have hadd : ((List.range N).map (fun v =>
        ((List.range N).map (fun j => c v j * ((y v - y j) * (y v - y j)))).sum)).sum
      = ((List.range N).map (fun v =>
          ((List.range N).map (fun j => c v j * (y v * y v - y v * y j))).sum)).sum
        + ((List.range N).map (fun v =>
          ((List.range N).map (fun j => c v j * (y j * y j - y j * y v))).sum)).sum := by
    rw [← List.sum_map_add]
    congr 1
    apply List.map_congr_left
    intro v _
    rw [← List.sum_map_add]
    congr 1
    apply List.map_congr_left
    intro j _
    ring
  rw [hadd, ← hswap]
  ring

/-- C14, amended.  In a state whose free-index map is the one
initializeConstraints builds, with `W` an `N × N` matrix whose coefficients
satisfy `w_ij = w_ji`, twice the quadratic form `xᵗ L x` of the matrix assembled
by initializeLinearSystem is the sum of `w_ij (y_i − y_j)²` over the stored
entries of `W`, for `y` equal to `x` at the free vertices and to 0 at the
constrained ones.  So if that sum is non-negative for every `y`, the assembled
matrix is positive semi-definite, `xᵗ L x ≥ 0` for every `x`, whatever the
constraint set and whether or not the mesh is connected. -/
theorem initializeLinearSystem_psd (d : Deform K) (hN : d.W.length = d.V.length)
    (hrows : ∀ t ∈ entries d.W, t.1 < d.V.length)
    (hmap : d.freeIdxMap = d.initializeConstraints.freeIdxMap)
    (hidx : d.freeIdx = d.initializeConstraints.freeIdx)
    (hsym : ∀ i j : Nat, coeff d.W i j = coeff d.W j i)
    (hlap : ∀ y : Nat → K, 0 ≤ laplaceForm d.W y) (x : List K) :
    2 * quadForm d.initializeLinearSystem.L x
        = laplaceForm d.W (fun v => if d.isFixed v = true then 0 else x.getD (d.rank v) 0) ∧
    0 ≤ quadForm d.initializeLinearSystem.L x := by
  have hready := mapReady_of_eq d hmap hidx
  have hsys := initializeLinearSystem_systemReady d hN hrows hready
  have hid : 2 * quadForm d.initializeLinearSystem.L x
      = laplaceForm d.W (fun v => if d.isFixed v = true then 0 else x.getD (d.rank v) 0) := by
    rw [quadForm_double_sum d.initializeLinearSystem hsys x
      (fun v => if d.isFixed v = true then 0 else x.getD (d.rank v) 0) (fun _ => rfl),
      laplaceForm_double_sum d.W d.V.length hN hrows]
    exact (double_sum_halves d.V.length (coeff d.W) _ hsym).symm
  refine ⟨hid, ?_⟩
  have h := hlap (fun v => if d.isFixed v = true then 0 else x.getD (d.rank v) 0)
  rw [← hid] at h
  linarith

/-- C14, counterexample.  The mesh `fan` of two triangles is connected, its weight
matrix is symmetric and non-zero on mesh edges only, with the weight -2 on the
edge 0–2; vertices 0, 1 and 3 are constrained.  The assembled matrix is the
`1 × 1` matrix `(-2)`, and `xᵗ L x = -2 < 0` for `x = (1)`. -/
theorem quadForm_negative_fan :
    fan.initializeConstraints.W.length = fan.initializeConstraints.V.length ∧
    (∀ t ∈ entries fan.initializeConstraints.W, t.1 < fan.initializeConstraints.V.length) ∧
    (∀ i j : Nat, coeff fan.initializeConstraints.W i j
      = coeff fan.initializeConstraints.W j i) ∧
    (∀ i j : Nat, coeff fan.initializeConstraints.W i j ≠ 0 →
      IsMeshEdge fan.initializeConstraints.F i j) ∧
    ConnectedW fan.initializeConstraints.W fan.initializeConstraints.V.length ∧
    fan.initializeConstraints.freeIdxMap = [-1, -1, 0, -1] ∧
    fan.initializeConstraints.freeIdx = 1 ∧
    fan.initializeConstraints.initializeLinearSystem.L = [(0, 0, -2)] ∧
    quadForm fan.initializeConstraints.initializeLinearSystem.L [1] = -2 ∧
    quadForm fan.initializeConstraints.initializeLinearSystem.L [1] < 0 := by
  have hL : fan.initializeConstraints.initializeLinearSystem.L = [(0, 0, -2)] := by decide!
  refine ⟨rfl, fan_rows, fan_coeff_symm, fan_meshEdges, fan_connected, by decide, by decide,
    hL, ?_, ?_⟩
  · rw [hL]
    simp [quadForm]
  · rw [hL]
    simp [quadForm]

/-- Witness for C14 as amended: the kite with its cotangent weights, one of them
negative, and vertices 2 and 3 constrained; the assembled matrix is
`[[41/40, 9/40], [9/40, 41/40]]`. -/
theorem initializeLinearSystem_psd_witness :
    (kite.initializeConstraints.W.length = kite.initializeConstraints.V.length ∧
      kite.initializeConstraints.freeIdxMap = [0, 1, -1, -1] ∧
      kite.initializeConstraints.freeIdx = 2 ∧
      coeff kite.W 0 1 = -9 / 40 ∧
      tripletEntry kite.initializeConstraints.initializeLinearSystem.L 0 0 = 41 / 40 ∧
      tripletEntry kite.initializeConstraints.initializeLinearSystem.L 0 1 = 9 / 40 ∧
      tripletEntry kite.initializeConstraints.initializeLinearSystem.L 1 0 = 9 / 40 ∧
      tripletEntry kite.initializeConstraints.initializeLinearSystem.L 1 1 = 41 / 40 ∧
      quadForm kite.initializeConstraints.initializeLinearSystem.L [1, -1] = 8 / 5) ∧
    (2 * quadForm kite.initializeConstraints.initializeLinearSystem.L [1, -1]
        = laplaceForm kite.initializeConstraints.W
            (fun v => if kite.initializeConstraints.isFixed v = true then 0
              else ([1, -1] : List ℚ).getD (kite.initializeConstraints.rank v) 0) ∧
      0 ≤ quadForm kite.initializeConstraints.initializeLinearSystem.L [1, -1]) :=
  ⟨⟨rfl, by decide, by decide, by decide!, by decide!, by decide!, by decide!, by decide!,
      by decide!⟩,
    initializeLinearSystem_psd kite.initializeConstraints rfl kite_rows
      (by decide) (by decide) kite_coeff_symm kite_laplace_nonneg [1, -1]⟩

/-! ### The system without constraints -/

/-- The scatter loop with its running counter computes what indexing by the
free-index map computes, vertex by vertex. -/
theorem scatter_by_map (d : Deform K) (hmap : d.MapReady) (a : Fin 3) (LU : List K)
    (vp : List (Vec3 K)) (n : Nat) (hn : n ≤ d.V.length) :
    ((List.range n).foldl (d.scatterStep a LU) (vp, 0)).1
      = (List.range n).foldl (d.scatterByMapStep a LU) vp := by
  induction n with
  | zero => rfl
  | succ n ih =>
    have hprev := ih (by omega)
    have hcount := (scatter_scan d hmap a LU vp n (by omega)).2.1
    simp only [List.range_succ, List.foldl_append, List.foldl_cons, List.foldl_nil]
    rw [← hprev]
    generalize (List.range n).foldl (d.scatterStep a LU) (vp, 0) = acc at hcount
    have hg := mapReady_getD d hmap n (by omega)
    unfold Deform.scatterStep Deform.scatterByMapStep
    cases hfn : d.isFixed n with
    | true => rw [if_neg (not_not.2 (hg.1 hfn)), if_neg (not_not.2 (hg.1 hfn))]
    | false => rw [if_pos (hg.2 hfn).1, if_pos (hg.2 hfn).1, (hg.2 hfn).2, hcount]

/-- C20.  In a prepared state (the free-index map is the one
initializeConstraints builds, the rows of `W` are in range, `bFixed` has
`freeIdx` columns) and for a solver that returns `freeIdx` values,
every column update `b.col(idx)` of the right-hand-side loop is in range, and
the scatter loop of estimatePositions, which hands out the entries of the
solution with a running counter over the vertices in ascending order, computes
the same buffer as indexing by the free-index map.  After estimatePositions,
`Vprime(a, j) = x_a[freeIdxMap[j]]` at every free vertex `j` for every axis `a`,
where `x_a` is what the solver returned for the right-hand side of axis `a` and
`freeIdxMap[j]` is an index into it; and every index `m < freeIdx` of `x_a` is
the map entry of exactly one free vertex, so that entry is written to exactly
one vertex. -/
theorem estimatePositions_scatter (solver : List (Nat × Nat × K) → List K → List K)
    (d : Deform K) (hmap : d.freeIdxMap = d.initializeConstraints.freeIdxMap)
    (hidx : d.freeIdx = d.initializeConstraints.freeIdx)
    (hlen : d.Vprime.length = d.V.length)
    (hrows : ∀ t ∈ entries d.W, t.1 < d.V.length)
    (hb : d.bFixed.length = d.freeIdx) (a : Fin 3)
    (hsol : (solver d.L ((foldEntries d.W d.rhsStep d.bFixed).map (fun col => col a))).length
      = d.freeIdx) :
    (∀ t ∈ entries d.W, d.freeIdxMap.getD t.1 0 ≠ -1 →
      (d.freeIdxMap.getD t.1 0).toNat < d.bFixed.length) ∧
    (∀ (LU : List K) (vp : List (Vec3 K)),
      ((List.range d.V.length).foldl (d.scatterStep a LU) (vp, 0)).1
        = (List.range d.V.length).foldl (d.scatterByMapStep a LU) vp) ∧
    (∀ j : Nat, j < d.V.length → d.freeIdxMap.getD j 0 ≠ -1 →
      (d.freeIdxMap.getD j 0).toNat
        < (solver d.L ((foldEntries d.W d.rhsStep d.bFixed).map (fun col => col a))).length ∧
      ((d.estimatePositions solver).Vprime.getD j 0) a
        = (solver d.L ((foldEntries d.W d.rhsStep d.bFixed).map (fun col => col a))).getD
            (d.freeIdxMap.getD j 0).toNat 0) ∧
    (∀ m : Nat, m < d.freeIdx →
      ∃! j : Nat, j < d.V.length ∧ d.freeIdxMap.getD j 0 ≠ -1 ∧
        (d.freeIdxMap.getD j 0).toNat = m ∧
        ((d.estimatePositions solver).Vprime.getD j 0) a
          = (solver d.L ((foldEntries d.W d.rhsStep d.bFixed).map (fun col => col a))).getD
              m 0) := by
  have hready := mapReady_of_eq d hmap hidx
  have hfree : ∀ j : Nat, j < d.V.length → d.freeIdxMap.getD j 0 ≠ -1 →
      d.isFixed j = false ∧ (d.freeIdxMap.getD j 0).toNat = d.rank j := by
    intro j hj hne
    cases hf : d.isFixed j with
    | true => exact absurd ((mapReady_getD d hready j hj).1 hf) hne
    | false => exact ⟨rfl, ((mapReady_getD d hready j hj).2 hf).2⟩
  have hrank : ∀ j : Nat, j < d.V.length → d.isFixed j = false → d.rank j < d.freeIdx := by
    intro j hj hf
    rw [hready.1]
    have hj1 : j + 1 ≤ d.V.length := hj
    have h1 := rank_mono d (j + 1) d.V.length hj1
    have hne : ¬ d.isFixed j = true := by rw [hf]; simp
    rw [rank_succ, if_neg hne] at h1
    exact Nat.lt_of_succ_le h1
  have hval : ∀ j : Nat, j < d.V.length → d.freeIdxMap.getD j 0 ≠ -1 →
      ((d.estimatePositions solver).Vprime.getD j 0) a
        = (solver d.L ((foldEntries d.W d.rhsStep d.bFixed).map (fun col => col a))).getD
            (d.freeIdxMap.getD j 0).toNat 0 := by
    intro j hj hne
    obtain ⟨hf, hr⟩ := hfree j hj hne
    rw [estimatePositions_getD solver d hready hlen j hj, hr]
    unfold Deform.scattered
    rw [hf]
    simp [Deform.rhsRow]
  refine ⟨?_, fun LU vp => scatter_by_map d hready a LU vp d.V.length (le_refl _), ?_, ?_⟩
  · intro t ht hne
    obtain ⟨hf, hr⟩ := hfree t.1 (hrows t ht) hne
    rw [hr, hb]
    exact hrank t.1 (hrows t ht) hf
  · intro j hj hne
    obtain ⟨hf, hr⟩ := hfree j hj hne
    refine ⟨?_, hval j hj hne⟩
    rw [hsol, hr]
    exact hrank j hj hf
  · intro m hm
    rw [hready.1] at hm
    obtain ⟨j, hj, hf, hr⟩ := rank_surjective d d.V.length m hm
    have hj1 := (mapReady_getD d hready j hj).2 hf
    refine ⟨j, ⟨hj, hj1.1, by rw [hj1.2, hr], ?_⟩, ?_⟩
    · rw [hval j hj hj1.1, hj1.2, hr]
    · rintro i ⟨hi, hne, him, -⟩
      obtain ⟨hfi, hri⟩ := hfree i hi hne
      exact rank_injective d i j hfi hf (by rw [← hri, him, hr])

/-- Witness for C20: the kite with vertices 0 and 2 constrained, prepared as
solve prepares it.  The free vertices 1 and 3 have the free indices 0 and 1;
the solver returns `(5/4, 0)` for the first axis and `(0, -1)` for the second,
and estimatePositions writes `5/4` to `Vprime(0, 1)` and `-1` to `Vprime(1, 3)`. -/
theorem estimatePositions_scatter_witness :
    ((kiteSplit.prepare kiteStart).freeIdxMap = [-1, 0, -1, 1] ∧
      (kiteSplit.prepare kiteStart).freeIdx = 2 ∧
      (kiteSplit.prepare kiteStart).bFixed.length = 2 ∧
      twoSolver (kiteSplit.prepare kiteStart).L
        ((foldEntries (kiteSplit.prepare kiteStart).W (kiteSplit.prepare kiteStart).rhsStep
          (kiteSplit.prepare kiteStart).bFixed).map (fun col => col 0)) = [5 / 4, 0] ∧
      twoSolver (kiteSplit.prepare kiteStart).L
        ((foldEntries (kiteSplit.prepare kiteStart).W (kiteSplit.prepare kiteStart).rhsStep
          (kiteSplit.prepare kiteStart).bFixed).map (fun col => col 1)) = [0, -1] ∧
      (((kiteSplit.prepare kiteStart).estimatePositions twoSolver).Vprime.getD 1 0) 0 = 5 / 4 ∧
      (((kiteSplit.prepare kiteStart).estimatePositions twoSolver).Vprime.getD 3 0) 1 = -1) ∧
    ((kiteSplit.prepare kiteStart).freeIdxMap.getD 3 0).toNat
        < (twoSolver (kiteSplit.prepare kiteStart).L
            ((foldEntries (kiteSplit.prepare kiteStart).W (kiteSplit.prepare kiteStart).rhsStep
              (kiteSplit.prepare kiteStart).bFixed).map (fun col => col 1))).length ∧
      (((kiteSplit.prepare kiteStart).estimatePositions twoSolver).Vprime.getD 3 0) 1
        = (twoSolver (kiteSplit.prepare kiteStart).L
            ((foldEntries (kiteSplit.prepare kiteStart).W (kiteSplit.prepare kiteStart).rhsStep
              (kiteSplit.prepare kiteStart).bFixed).map (fun col => col 1))).getD
            ((kiteSplit.prepare kiteStart).freeIdxMap.getD 3 0).toNat 0 :=
  ⟨⟨by decide, by decide, by decide!, by decide!, by decide!, by decide!, by decide!⟩,
    (estimatePositions_scatter twoSolver (kiteSplit.prepare kiteStart) (by decide) (by decide)
      (by decide) kite_rows (by decide!) 1 rfl).2.2.1 3 (by decide) (by decide)⟩

/-! ### The traversal, iteration by iteration -/

theorem Trav.Tightened.refl (s : Trav K) : Trav.Tightened s s :=
  ⟨rfl, le_refl _, id, id⟩

theorem Trav.Tightened.trans (s1 s2 s3 : Trav K) (h12 : Trav.Tightened s1 s2)
    (h23 : Trav.Tightened s2 s3) : Trav.Tightened s1 s3 := by
  obtain ⟨a1, a2, a3, a4⟩ := h12
  obtain ⟨b1, b2, b3, b4⟩ := h23
  have hmin : s2.ray.minTime = s1.ray.minTime := by rw [a1]
  refine ⟨?_, le_trans b2 a2, fun h => ?_, fun h => b4 (a4 h)⟩
  · rw [b1, a1]
  · have := b3 (by rw [hmin]; exact a3 h)
    rw [hmin] at this
    exact this

/-- One face test: the ray is tightened, `nodeId` and the stack are left alone. -/
theorem Trav.leafStep_tightened (s : Trav K) (fi : Nat) :
    Trav.Tightened s (s.leafStep fi) ∧ (s.leafStep fi).stack = s.stack ∧
    (s.leafStep fi).nodeId = s.nodeId := by
  cases hres : s.ray.intersectFace fi with
  | none =>
    have hs : s.leafStep fi = s := by unfold Trav.leafStep; rw [hres]
    rw [hs]
    exact ⟨Trav.Tightened.refl s, rfl, rfl⟩
  | some tuv =>
    obtain ⟨t1, u1, v1⟩ := tuv
    have hs : s.leafStep fi =
        { s with faceId := (fi : Int), t := (t1 : WithTop K),
                 ray := { s.ray with maxTime := (t1 : WithTop K) },
                 hit := true, uv := s.uv.map (fun _ => (u1, v1)) } := by
      unfold Trav.leafStep; rw [hres]
    rw [hs]
    have hin := (intersectFace_eq_some_iff s.ray fi t1 u1 v1).1 hres
    refine ⟨⟨rfl, hin.2.2.2.2.2.2.2.2.2, fun _ => ?_, fun _ _ => rfl⟩, rfl, rfl⟩
    show (s.ray.minTime : WithTop K) ≤ (t1 : WithTop K)
    exact WithTop.coe_le_coe.2 hin.2.2.2.2.2.2.2.2.1

theorem Trav.leafFold_tightened (l : List Nat) :
    ∀ s : Trav K, Trav.Tightened s (l.foldl Trav.leafStep s) ∧
      (l.foldl Trav.leafStep s).stack = s.stack ∧
      (l.foldl Trav.leafStep s).nodeId = s.nodeId := by
  induction l with
  | nil => intro s; exact ⟨Trav.Tightened.refl s, rfl, rfl⟩
  | cons fi rest ih =>
    intro s
    rw [List.foldl_cons]
    obtain ⟨h1, h2, h3⟩ := Trav.leafStep_tightened s fi
    obtain ⟨g1, g2, g3⟩ := ih (s.leafStep fi)
    exact ⟨Trav.Tightened.trans _ _ _ h1 g1, g2.trans h2, g3.trans h3⟩

theorem Trav.leafLoop_tightened (s : Trav K) (startId endId : Nat) :
    Trav.Tightened s (s.leafLoop startId endId) ∧
    (s.leafLoop startId endId).stack = s.stack ∧
    (s.leafLoop startId endId).nodeId = s.nodeId :=
  Trav.leafFold_tightened _ s

/-- The shapes of an iteration that stays within defined behaviour: the node is
pruned, or it is an inner node whose right child is pushed, or it is a leaf
whose faces are tested. -/
theorem Trav.step_ok_cases (s : Trav K) (bs : Bool × Trav K) (h : s.step = .ok bs) :
    (∃ node : BVHNode K, s.ray.nodes.get? s.nodeId = some node ∧
      s.ray.intersectAABB node.aabb = false ∧ bs = s.pop) ∨
    (∃ (b : AABB K) (mid : Nat), s.ray.nodes.get? s.nodeId = some (.inner b mid) ∧
      s.ray.intersectAABB b = true ∧ s.stack.length < stackSize ∧
      bs = (true, { s with stack := mid :: s.stack, nodeId := s.nodeId + 1 })) ∨
    (∃ (b : AABB K) (startId endId : Nat),
      s.ray.nodes.get? s.nodeId = some (.leaf b startId endId) ∧
      s.ray.intersectAABB b = true ∧ bs = (s.leafLoop startId endId).pop) := by
  cases hget : s.ray.nodes.get? s.nodeId with
  | none =>
    unfold Trav.step at h
    rw [hget] at h
    cases h
  | some node =>
    by_cases hb : s.ray.intersectAABB node.aabb = false
    · rw [Trav.step_pruned s node hget hb] at h
      exact Or.inl ⟨node, rfl, hb, (Except.ok.inj h).symm⟩
    · have hb' : s.ray.intersectAABB node.aabb = true := by simpa using hb
      cases node with
      | inner b mid =>
        by_cases hst : s.stack.length < stackSize
        · rw [Trav.step_inner s b mid hget hb hst] at h
          exact Or.inr (Or.inl ⟨b, mid, rfl, hb', hst, (Except.ok.inj h).symm⟩)
        · unfold Trav.step at h
          rw [hget] at h
          have hb2 : s.ray.intersectAABB b = true := hb'
          simp only [BVHNode.aabb, hb2, Bool.true_eq_false, if_false,
            if_pos (not_lt.1 hst)] at h
          cases h
      | leaf b startId endId =>
        rw [Trav.step_leaf s b startId endId hget hb] at h
        exact Or.inr (Or.inr ⟨b, startId, endId, rfl, hb', (Except.ok.inj h).symm⟩)

theorem Trav.pop_fields (s : Trav K) :
    s.pop.2.ray = s.ray ∧ s.pop.2.hit = s.hit ∧ s.pop.2.t = s.t := by
  unfold Trav.pop
  cases s.stack <;> exact ⟨rfl, rfl, rfl⟩

theorem Trav.pop_tightened (s : Trav K) : Trav.Tightened s s.pop.2 := by
  obtain ⟨h1, h2, h3⟩ := Trav.pop_fields s
  unfold Trav.Tightened
  rw [h1, h2, h3]
  exact ⟨rfl, le_refl _, id, id⟩

/-- Every iteration tightens the ray. -/
theorem Trav.step_tightened (s : Trav K) (bs : Bool × Trav K) (h : s.step = .ok bs) :
    Trav.Tightened s bs.2 := by
  rcases Trav.step_ok_cases s bs h with ⟨node, -, -, rfl⟩ | ⟨b, mid, -, -, -, rfl⟩ |
    ⟨b, startId, endId, -, -, rfl⟩
  · exact Trav.pop_tightened s
  · exact ⟨rfl, le_refl _, id, id⟩
  · exact Trav.Tightened.trans _ _ _ (Trav.leafLoop_tightened s startId endId).1
      (Trav.pop_tightened _)

theorem Trav.run_succ (s : Trav K) (fuel : Nat) (s' : Trav K) (h : s.step = .ok (true, s')) :
    Trav.run (fuel + 1) s = s :: Trav.run fuel s' := by
  simp only [Trav.run, h]

theorem Trav.run_stop (s : Trav K) (fuel : Nat) (s' : Trav K) (h : s.step = .ok (false, s')) :
    Trav.run (fuel + 1) s = [s] := by
  simp only [Trav.run, h]

theorem Trav.run_error (s : Trav K) (fuel : Nat) (e : TravError) (h : s.step = .error e) :
    Trav.run (fuel + 1) s = [s] := by
  simp only [Trav.run, h]

/-- Every state of the trace is a tightening of the state the trace starts in. -/
theorem Trav.run_tightened (fuel : Nat) :
    ∀ s : Trav K, ∀ q ∈ Trav.run fuel s, Trav.Tightened s q := by
  induction fuel with
  | zero => intro s q hq; simp [Trav.run] at hq
  | succ fuel ih =>
    intro s q hq
    cases hstep : s.step with
    | error e =>
      rw [Trav.run_error s fuel e hstep] at hq
      rw [List.mem_singleton.1 hq]
      exact Trav.Tightened.refl s
    | ok bs =>
      obtain ⟨b, s'⟩ := bs
      cases b with
      | false =>
        rw [Trav.run_stop s fuel s' hstep] at hq
        rw [List.mem_singleton.1 hq]
        exact Trav.Tightened.refl s
      | true =>
        rw [Trav.run_succ s fuel s' hstep] at hq
        rcases List.mem_cons.1 hq with rfl | hq'
        · exact Trav.Tightened.refl _
        · exact Trav.Tightened.trans _ _ _ (Trav.step_tightened s _ hstep) (ih s' q hq')

/-- The state the loop returns is a tightening of the state it starts in. -/
theorem Trav.loop_tightened (fuel : Nat) :
    ∀ (s res : Trav K), Trav.loop fuel s = .ok res → Trav.Tightened s res := by
  induction fuel with
  | zero => intro s res h; cases h
  | succ fuel ih =>
    intro s res h
    cases hstep : s.step with
    | error e =>
      simp only [Trav.loop, hstep] at h
      cases h
    | ok bs =>
      obtain ⟨b, s'⟩ := bs
      have ht := Trav.step_tightened s _ hstep
      rw [Trav.loop_succ s fuel _ hstep] at h
      cases b with
      | false =>
        have : s' = res := Except.ok.inj h
        rw [← this]
        exact ht
      | true => exact Trav.Tightened.trans _ _ _ ht (ih s' res h)

/-- Later states of the trace have a `maxTime` no larger than earlier ones. -/
theorem Trav.run_pairwise (fuel : Nat) :
    ∀ s : Trav K, (Trav.run fuel s).Pairwise (fun a b => b.ray.maxTime ≤ a.ray.maxTime) := by
  induction fuel with
  | zero => intro s; exact List.Pairwise.nil
  | succ fuel ih =>
    intro s
    cases hstep : s.step with
    | error e =>
      rw [Trav.run_error s fuel e hstep]
      exact List.pairwise_singleton _ _
    | ok bs =>
      obtain ⟨b, s'⟩ := bs
      cases b with
      | false =>
        rw [Trav.run_stop s fuel s' hstep]
        exact List.pairwise_singleton _ _
      | true =>
        rw [Trav.run_succ s fuel s' hstep]
        refine List.Pairwise.cons (fun q hq => ?_) (ih s')
        exact (Trav.Tightened.trans _ _ _ (Trav.step_tightened s _ hstep)
          (Trav.run_tightened fuel s' q hq)).2.1

/-- The tightening of `maxTime` over exact arithmetic (the traversal as the
machine runs it is `Trav32`, treated further down).  `maxTime` tightens
monotonically during the BVH-accelerated intersect.  Every face test leaves
origin, direction and `minTime` alone and does not increase `maxTime`; an accepted hit time is at most the `maxTime` before it,
which after a hit is the previously accepted time `t`, and becomes the new
`maxTime` and `t`.  Every iteration of the loop tightens in the same way.  In
every state the loop runs through, `maxTime` is at most that of the call, at
least `minTime` if it was so at the call, later states have the smaller
`maxTime`, and `t` is the `maxTime` once a face has been hit.  On a well-formed
BVH the call returns, and whenever it returns, the ray differs from the one of
the call at most by a smaller `maxTime`, which is the returned `t` when the
call returns true. -/
theorem maxTime_tightens (r : Ray K) (fuel : Nat) (faceId : Int) (t : WithTop K)
    (uv : Option (K × K)) :
    (∀ (s : Trav K) (fi : Nat),
      (s.leafStep fi).ray = { s.ray with maxTime := (s.leafStep fi).ray.maxTime } ∧
      (s.leafStep fi).ray.maxTime ≤ s.ray.maxTime ∧
      ((s.ray.minTime : WithTop K) ≤ s.ray.maxTime →
        (s.ray.minTime : WithTop K) ≤ (s.leafStep fi).ray.maxTime) ∧
      ∀ (tm : K) (uv' : K × K), s.ray.intersectFace fi = some (tm, uv') →
        (s.leafStep fi).ray.maxTime = (tm : WithTop K) ∧
        (s.leafStep fi).t = (tm : WithTop K) ∧
        (tm : WithTop K) ≤ s.ray.maxTime ∧
        (s.hit = true → s.ray.maxTime = s.t → (tm : WithTop K) ≤ s.t)) ∧
    (∀ (s : Trav K) (bs : Bool × Trav K), s.step = .ok bs →
      bs.2.ray = { s.ray with maxTime := bs.2.ray.maxTime } ∧
      bs.2.ray.maxTime ≤ s.ray.maxTime ∧
      ((s.ray.minTime : WithTop K) ≤ s.ray.maxTime →
        (s.ray.minTime : WithTop K) ≤ bs.2.ray.maxTime)) ∧
    (∀ q ∈ Trav.run fuel (r.start faceId uv),
      q.ray = { r with maxTime := q.ray.maxTime } ∧
      q.ray.maxTime ≤ r.maxTime ∧
      ((r.minTime : WithTop K) ≤ r.maxTime → (r.minTime : WithTop K) ≤ q.ray.maxTime) ∧
      (q.hit = true → q.ray.maxTime = q.t)) ∧
    (Trav.run fuel (r.start faceId uv)).Pairwise (fun a b => b.ray.maxTime ≤ a.ray.maxTime) ∧
    (r.WellFormedBVH → r.nodes.length ≤ fuel →
      ∃ res : Trav K, r.intersectBVH fuel faceId t uv = .ok res) ∧
    (∀ res : Trav K, r.intersectBVH fuel faceId t uv = .ok res →
      res.ray.origin = r.origin ∧ res.ray.direction = r.direction ∧
      res.ray.minTime = r.minTime ∧
      res.ray.maxTime ≤ r.maxTime ∧
      ((r.minTime : WithTop K) ≤ r.maxTime → (r.minTime : WithTop K) ≤ res.ray.maxTime) ∧
      (res.hit = true → res.ray.maxTime = res.t)) := by
  have hstart : ∀ q : Trav K, Trav.Tightened (r.start faceId uv) q →
      q.ray = { r with maxTime := q.ray.maxTime } ∧
      q.ray.maxTime ≤ r.maxTime ∧
      ((r.minTime : WithTop K) ≤ r.maxTime → (r.minTime : WithTop K) ≤ q.ray.maxTime) ∧
      (q.hit = true → q.ray.maxTime = q.t) := by
    intro q hq
    obtain ⟨h1, h2, h3, h4⟩ := hq
    exact ⟨h1, h2, h3, h4 (fun hh => by cases hh)⟩
  refine ⟨?_, ?_, ?_, Trav.run_pairwise fuel _, ?_, ?_⟩
  · intro s fi
    obtain ⟨⟨h1, h2, h3, -⟩, -, -⟩ := Trav.leafStep_tightened s fi
    refine ⟨h1, h2, h3, ?_⟩
    intro tm uv' hres
    obtain ⟨u1, v1⟩ := uv'
    have hs : s.leafStep fi =
        { s with faceId := (fi : Int), t := (tm : WithTop K),
                 ray := { s.ray with maxTime := (tm : WithTop K) },
                 hit := true, uv := s.uv.map (fun _ => (u1, v1)) } := by
      unfold Trav.leafStep; rw [hres]
    have hle : (tm : WithTop K) ≤ s.ray.maxTime :=
      ((intersectFace_eq_some_iff s.ray fi tm u1 v1).1 hres).2.2.2.2.2.2.2.2.2
    rw [hs]
    exact ⟨rfl, rfl, hle, fun _ ht => by rw [← ht]; exact hle⟩
  · intro s bs hstep
    obtain ⟨h1, h2, h3, -⟩ := Trav.step_tightened s bs hstep
    exact ⟨h1, h2, h3⟩
  · intro q hq
    exact hstart q (Trav.run_tightened fuel _ q hq)
  · intro hwf hfuel
    obtain ⟨res, hres, -⟩ := intersectBVH_spec r hwf fuel hfuel faceId t uv
    exact ⟨res, hres⟩
  · intro res hres
    unfold Ray.intersectBVH at hres
    by_cases hempty : r.nodes.isEmpty = true
    · rw [if_pos hempty] at hres
      have hr := Except.ok.inj hres
      rw [← hr]
      exact ⟨rfl, rfl, rfl, le_refl _, id, fun hh => by cases hh⟩
    · rw [if_neg hempty] at hres
      obtain ⟨h1, h2, h3, h4⟩ := hstart res (Trav.loop_tightened fuel _ res hres)
      refine ⟨?_, ?_, ?_, h2, h3, h4⟩
      · rw [h1]
      · rw [h1]
      · rw [h1]

theorem maxTime_tightens_witness :
    tieRay.intersectBVH 1 (-1) ⊤ none = .ok tieResult ∧ tieResult.hit = true ∧
    (tieResult.ray.origin = tieRay.origin ∧ tieResult.ray.direction = tieRay.direction ∧
      tieResult.ray.minTime = tieRay.minTime ∧
      tieResult.ray.maxTime ≤ tieRay.maxTime ∧
      ((tieRay.minTime : WithTop ℚ) ≤ tieRay.maxTime →
        (tieRay.minTime : WithTop ℚ) ≤ tieResult.ray.maxTime) ∧
      (tieResult.hit = true → tieResult.ray.maxTime = tieResult.t)) :=
  ⟨tieRay_bvh, rfl, (maxTime_tightens tieRay 1 (-1) ⊤ none).2.2.2.2.2 tieResult tieRay_bvh⟩

/-! ### Preorder layout and depth -/

theorem Ray.Preorder.lo_lt_hi (r : Ray K) (lo hi : Nat) (T : r.Preorder lo hi) : lo < hi := by
  induction T with
  | leaf lo b s e hnode => exact Nat.lt_succ_self lo
  | inner lo mid hi b hnode hleft hright ihl ihr => omega

theorem Ray.Preorder.le_length (r : Ray K) (lo hi : Nat) (T : r.Preorder lo hi) :
    hi ≤ r.nodes.length := by
  induction T with
  | leaf lo b s e hnode =>
    have h := List.get?_eq_some.1 hnode
    obtain ⟨hlt, -⟩ := h
    omega
  | inner lo mid hi b hnode hleft hright ihl ihr => exact ihr

/-- A subtree that starts with an inner node consists of that node and the two
subtrees of its children. -/
theorem Ray.Preorder.inner_inv (r : Ray K) (lo hi : Nat) (T : r.Preorder lo hi)
    (b : AABB K) (mid : Nat) (hnode : r.nodes.get? lo = some (.inner b mid)) :
    r.Preorder (lo + 1) mid ∧ r.Preorder mid hi := by
  cases T with
  | leaf _ b' s e hnode' =>
    rw [hnode] at hnode'
    cases hnode'
  | inner _ mid' _ b' hnode' hleft hright =>
    rw [hnode] at hnode'
    have hm : mid = mid' := by
      have h := Option.some.inj hnode'
      injection h
    rw [hm]
    exact ⟨hleft, hright⟩

theorem Ray.depthFrom_self (r : Ray K) (fuel lo : Nat) : r.depthFrom fuel lo lo = 0 := by
  cases fuel with
  | zero => rfl
  | succ fuel => simp [Ray.depthFrom]

theorem Ray.depthFrom_left (r : Ray K) (fuel lo k : Nat) (b : AABB K) (mid : Nat)
    (hnode : r.nodes.get? lo = some (.inner b mid)) (hk : lo < k) (hkm : k < mid) :
    r.depthFrom (fuel + 1) lo k = r.depthFrom fuel (lo + 1) k + 1 := by
  have hne : ¬ k = lo := by omega
  simp only [Ray.depthFrom, hnode, if_neg hne, if_pos hkm]

theorem Ray.depthFrom_right (r : Ray K) (fuel lo k : Nat) (b : AABB K) (mid : Nat)
    (hnode : r.nodes.get? lo = some (.inner b mid)) (hk : lo < k) (hkm : mid ≤ k) :
    r.depthFrom (fuel + 1) lo k = r.depthFrom fuel mid k + 1 := by
  have hne : ¬ k = lo := by omega
  have hlt : ¬ k < mid := by omega
  simp only [Ray.depthFrom, hnode, if_neg hne, if_neg hlt]

/-- Inside a subtree in preorder layout, both children of an inner node lie in
the subtree and are one level deeper than the node. -/
theorem Ray.Preorder.depthFrom_rules (r : Ray K) (lo hi : Nat) (T : r.Preorder lo hi) :
    ∀ fuel : Nat, hi - lo ≤ fuel → ∀ (k : Nat) (b : AABB K) (mid : Nat), lo ≤ k → k < hi →
      r.nodes.get? k = some (.inner b mid) →
      k + 1 < mid ∧ mid < hi ∧
      r.depthFrom fuel lo (k + 1) = r.depthFrom fuel lo k + 1 ∧
      r.depthFrom fuel lo mid = r.depthFrom fuel lo k + 1 := by
  induction T with
  | leaf lo b0 s e hnode =>
    intro fuel _ k b mid hlo hhi hk
    have hkl : k = lo := by omega
    rw [hkl, hnode] at hk
    cases hk
  | inner lo mid0 hi b0 hnode hleft hright ihl ihr =>
    intro fuel hfuel k b mid hlo hhi hk
    have hl := Ray.Preorder.lo_lt_hi r _ _ hleft
    have hr := Ray.Preorder.lo_lt_hi r _ _ hright
    obtain ⟨f, rfl⟩ : ∃ f, fuel = f + 1 := ⟨fuel - 1, by omega⟩
    by_cases hkl : k = lo
    · subst hkl
      rw [hnode] at hk
      have hm : mid0 = mid := by
        have h := Option.some.inj hk
        injection h
      subst hm
      refine ⟨hl, hr, ?_, ?_⟩
      · rw [Ray.depthFrom_left r f k (k + 1) b0 mid0 hnode (by omega) hl,
          Ray.depthFrom_self, Ray.depthFrom_self]
      · rw [Ray.depthFrom_right r f k mid0 b0 mid0 hnode (by omega) (le_refl _),
          Ray.depthFrom_self, Ray.depthFrom_self]
    · by_cases hkm : k < mid0
      · obtain ⟨h1, h2, h3, h4⟩ := ihl f (by omega) k b mid (by omega) hkm hk
        refine ⟨h1, by omega, ?_, ?_⟩
        · rw [Ray.depthFrom_left r f lo (k + 1) b0 mid0 hnode (by omega) (by omega),
            Ray.depthFrom_left r f lo k b0 mid0 hnode (by omega) hkm, h3]
        · rw [Ray.depthFrom_left r f lo mid b0 mid0 hnode (by omega) h2,
            Ray.depthFrom_left r f lo k b0 mid0 hnode (by omega) hkm, h4]
      · obtain ⟨h1, h2, h3, h4⟩ := ihr f (by omega) k b mid (by omega) hhi hk
        refine ⟨h1, h2, ?_, ?_⟩
        · rw [Ray.depthFrom_right r f lo (k + 1) b0 mid0 hnode (by omega) (by omega),
            Ray.depthFrom_right r f lo k b0 mid0 hnode (by omega) (by omega), h3]
        · rw [Ray.depthFrom_right r f lo mid b0 mid0 hnode (by omega) (by omega),
            Ray.depthFrom_right r f lo k b0 mid0 hnode (by omega) (by omega), h4]

/-- In a node array in preorder layout the root has depth 0 and both children of
an inner node are one level deeper than the node. -/
theorem Ray.depth_rules (r : Ray K) (hpre : r.Preorder 0 r.nodes.length) :
    r.depth 0 = 0 ∧
    ∀ (k : Nat) (b : AABB K) (mid : Nat), r.nodes.get? k = some (.inner b mid) →
      r.depth (k + 1) = r.depth k + 1 ∧ r.depth mid = r.depth k + 1 := by
  refine ⟨Ray.depthFrom_self r _ 0, fun k b mid hk => ?_⟩
  have hlt : k < r.nodes.length := (List.get?_eq_some.1 hk).1
  obtain ⟨-, -, h3, h4⟩ := Ray.Preorder.depthFrom_rules r 0 r.nodes.length hpre r.nodes.length
    (by omega) k b mid (Nat.zero_le k) hlt hk
  exact ⟨h3, h4⟩

/-! ### The walk over the tree -/

theorem descends_mono (δ : Nat → Nat) (d d' : Nat) (h : d ≤ d') :
    ∀ st : List Nat, descends δ d st → descends δ d' st := by
  intro st hst
  cases st with
  | nil => trivial
  | cons c rest => exact ⟨hst.1, le_trans hst.2.1 h, hst.2.2⟩

theorem descends_length (δ : Nat → Nat) :
    ∀ (st : List Nat) (d : Nat), descends δ d st → st.length ≤ d := by
  intro st
  induction st with
  | nil => intro d _; exact Nat.zero_le d
  | cons c rest ih =>
    intro d h
    have h1 := ih (δ c - 1) h.2.2
    have h2 := h.1
    have h3 := h.2.1
    simp only [List.length_cons]
    omega

theorem Ray.Frames.node_lt (r : Ray K) (n k : Nat) (st : List Nat) (h : r.Frames n k st) :
    k < n := by
  induction h with
  | nil k h => exact Ray.Preorder.lo_lt_hi r _ _ h
  | cons k c rest h hrest ih => exact lt_trans (Ray.Preorder.lo_lt_hi r _ _ h) ih

/-- Visiting an inner node splits its subtree into the subtrees of its children. -/
theorem Ray.Frames.push (r : Ray K) (n k : Nat) (st : List Nat) (b : AABB K) (mid : Nat)
    (h : r.Frames n k st) (hget : r.nodes.get? k = some (.inner b mid)) :
    r.Frames n (k + 1) (mid :: st) := by
  cases h with
  | nil _ hk =>
    obtain ⟨hl, hr⟩ := Ray.Preorder.inner_inv r _ _ hk b mid hget
    exact Ray.Frames.cons _ _ _ hl (Ray.Frames.nil _ hr)
  | cons _ c rest hk hrest =>
    obtain ⟨hl, hr⟩ := Ray.Preorder.inner_inv r _ _ hk b mid hget
    exact Ray.Frames.cons _ _ _ hl (Ray.Frames.cons _ _ _ hr hrest)

/-- The walk starts on the tree. -/
theorem Ray.start_onTree (r : Ray K) (hpre : r.Preorder 0 r.nodes.length) (faceId : Int)
    (uv : Option (K × K)) : Trav.OnTree r (r.start faceId uv) :=
  ⟨rfl, Ray.Frames.nil 0 hpre, trivial⟩

/-- Popping keeps the walk on the tree and moves to a later node. -/
theorem Trav.pop_onTree (r : Ray K) (s s1 s' : Trav K) (h : Trav.OnTree r s)
    (hnodes : s1.ray.nodes = s.ray.nodes) (hstack : s1.stack = s.stack)
    (hpop : s1.pop = (true, s')) :
    Trav.OnTree r s' ∧ s.nodeId < s'.nodeId := by
  obtain ⟨h1, h2, h3⟩ := h
  unfold Trav.pop at hpop
  cases hst : s1.stack with
  | nil =>
    rw [hst] at hpop
    cases hpop
  | cons top rest =>
    rw [hst] at hpop
    have hs' : s' = { s1 with nodeId := top, stack := rest } := (Prod.mk.inj hpop).2.symm
    rw [hstack] at hst
    rw [hst] at h2 h3
    cases h2 with
    | cons _ _ _ hk hrest =>
      rw [hs']
      refine ⟨⟨hnodes.trans h1, hrest, ?_⟩, Ray.Preorder.lo_lt_hi r _ _ hk⟩
      exact descends_mono r.depth _ _ (Nat.sub_le _ _) rest h3.2.2

/-- An iteration that continues keeps the walk on the tree and moves to a later
node. -/
theorem Trav.step_onTree (r : Ray K) (hpre : r.Preorder 0 r.nodes.length) (s s' : Trav K)
    (h : Trav.OnTree r s) (hstep : s.step = .ok (true, s')) :
    Trav.OnTree r s' ∧ s.nodeId < s'.nodeId := by
  rcases Trav.step_ok_cases s _ hstep with ⟨node, -, -, hbs⟩ | ⟨b, mid, hget, -, -, hbs⟩ |
    ⟨b, startId, endId, -, -, hbs⟩
  · exact Trav.pop_onTree r s s s' h rfl rfl hbs.symm
  · have hs' : s' = { s with stack := mid :: s.stack, nodeId := s.nodeId + 1 } :=
      (Prod.mk.inj hbs).2
    obtain ⟨h1, h2, h3⟩ := h
    rw [h1] at hget
    obtain ⟨d1, d2⟩ := (Ray.depth_rules r hpre).2 s.nodeId b mid hget
    rw [hs']
    refine ⟨⟨h1, ?_, ?_⟩, Nat.lt_succ_self _⟩
    · exact Ray.Frames.push r _ _ _ b mid h2 hget
    · show descends r.depth (r.depth (s.nodeId + 1)) (mid :: s.stack)
      refine ⟨by omega, by omega, ?_⟩
      rw [d2, Nat.add_sub_cancel]
      exact h3
  · obtain ⟨ht, hst, -⟩ := Trav.leafLoop_tightened s startId endId
    have hnodes : (s.leafLoop startId endId).ray.nodes = s.ray.nodes := by
      rw [ht.1]
    exact Trav.pop_onTree r s _ s' h hnodes hst hbs.symm

/-- Every state of the trace is on the tree, at or after the node of the first. -/
theorem Trav.run_onTree (r : Ray K) (hpre : r.Preorder 0 r.nodes.length) (fuel : Nat) :
    ∀ s : Trav K, Trav.OnTree r s → ∀ q ∈ Trav.run fuel s,
      Trav.OnTree r q ∧ s.nodeId ≤ q.nodeId := by
  induction fuel with
  | zero => intro s _ q hq; simp [Trav.run] at hq
  | succ fuel ih =>
    intro s hs q hq
    cases hstep : s.step with
    | error e =>
      rw [Trav.run_error s fuel e hstep] at hq
      rw [List.mem_singleton.1 hq]
      exact ⟨hs, le_refl _⟩
    | ok bs =>
      obtain ⟨b, s'⟩ := bs
      cases b with
      | false =>
        rw [Trav.run_stop s fuel s' hstep] at hq
        rw [List.mem_singleton.1 hq]
        exact ⟨hs, le_refl _⟩
      | true =>
        rw [Trav.run_succ s fuel s' hstep] at hq
        rcases List.mem_cons.1 hq with rfl | hq'
        · exact ⟨hs, le_refl _⟩
        · obtain ⟨h1, h2⟩ := Trav.step_onTree r hpre s s' hs hstep
          obtain ⟨g1, g2⟩ := ih s' h1 q hq'
          exact ⟨g1, by omega⟩

theorem Trav.writes_eq (s : Trav K) (i v : Nat) (h : s.writes = some (i, v)) :
    i = s.stack.length ∧ ∃ b : AABB K, s.ray.nodes.get? s.nodeId = some (.inner b v) ∧
      s.ray.intersectAABB b = true := by
  unfold Trav.writes at h
  cases hget : s.ray.nodes.get? s.nodeId with
  | none => rw [hget] at h; cases h
  | some node =>
    rw [hget] at h
    cases node with
    | leaf b a e => cases h
    | inner b mid =>
      by_cases hb : s.ray.intersectAABB b = false
      · have h : (if s.ray.intersectAABB b = false then none
            else some (s.stack.length, mid)) = some (i, v) := h
        rw [if_pos hb] at h
        cases h
      · have h : (if s.ray.intersectAABB b = false then none
            else some (s.stack.length, mid)) = some (i, v) := h
        rw [if_neg hb] at h
        have h' := Prod.mk.inj (Option.some.inj h)
        have h2 : mid = v := h'.2
        subst h2
        exact ⟨h'.1.symm, b, rfl, by simpa using hb⟩

theorem Trav.reads_eq (s : Trav K) (i v : Nat) (h : s.reads = some (i, v)) :
    ∃ rest : List Nat, s.stack = v :: rest ∧ i = rest.length := by
  have key : ∀ o : Option (Nat × Nat),
      o = (match s.stack with
        | [] => none
        | top :: rest => some (rest.length, top)) → o = some (i, v) →
      ∃ rest : List Nat, s.stack = v :: rest ∧ i = rest.length := by
    intro o ho hov
    cases hst : s.stack with
    | nil => rw [hst] at ho; rw [ho] at hov; cases hov
    | cons top rest =>
      rw [hst] at ho
      rw [ho] at hov
      simp only [Option.some.injEq, Prod.mk.injEq] at hov
      exact ⟨rest, by rw [hov.2], hov.1.symm⟩
  unfold Trav.reads at h
  cases hget : s.ray.nodes.get? s.nodeId with
  | none => rw [hget] at h; cases h
  | some node =>
    rw [hget] at h
    cases node with
    | leaf b a e => exact key _ rfl h
    | inner b mid =>
      by_cases hb : s.ray.intersectAABB b = false
      · have h : (if s.ray.intersectAABB b = false then
            (match s.stack with
              | [] => none
              | top :: rest => some (rest.length, top))
            else none) = some (i, v) := h
        rw [if_pos hb] at h
        exact key _ rfl h
      · have h : (if s.ray.intersectAABB b = false then
            (match s.stack with
              | [] => none
              | top :: rest => some (rest.length, top))
            else none) = some (i, v) := h
        rw [if_neg hb] at h
        cases h

/-- Every pending stack entry was written, at its slot, by an earlier iteration:
this holds at every state of the trace for the states before it. -/
theorem Trav.run_history (fuel : Nat) :
    ∀ (s : Trav K) (H : List (Trav K)),
      (∀ i v : Nat, s.stack.reverse[i]? = some v → ∃ p ∈ H, p.writes = some (i, v)) →
      ∀ (pre : List (Trav K)) (q : Trav K) (post : List (Trav K)),
        Trav.run fuel s = pre ++ q :: post →
        ∀ i v : Nat, q.stack.reverse[i]? = some v → ∃ p ∈ H ++ pre, p.writes = some (i, v) := by
  induction fuel with
  | zero =>
    intro s H _ pre q post hrun
    simp [Trav.run] at hrun
  | succ fuel ih =>
    intro s H hH pre q post hrun i v hiv
    cases pre with
    | nil =>
      have hq : q = s := by
        have h := congrArg List.head? hrun
        simp [Trav.run] at h
        exact h.symm
      rw [hq] at hiv
      rw [List.append_nil]
      exact hH i v hiv
    | cons p0 pre' =>
      cases hstep : s.step with
      | error e =>
        rw [Trav.run_error s fuel e hstep] at hrun
        have h := congrArg List.length hrun
        simp at h
      | ok bs =>
        obtain ⟨b, s'⟩ := bs
        cases b with
        | false =>
          rw [Trav.run_stop s fuel s' hstep] at hrun
          have h := congrArg List.length hrun
          simp at h
        | true =>
          rw [Trav.run_succ s fuel s' hstep] at hrun
          have hp0 : s = p0 := by
            have h := congrArg List.head? hrun
            simpa using h
          have htail : Trav.run fuel s' = pre' ++ q :: post := by
            have h := congrArg List.tail hrun
            simpa using h
          have hH' : ∀ i v : Nat, s'.stack.reverse[i]? = some v →
              ∃ p ∈ H ++ [s], p.writes = some (i, v) := by
            intro i v hiv'
            have hpopcase : ∀ s1 : Trav K, s1.stack = s.stack → s1.pop = (true, s') →
                ∃ p ∈ H ++ [s], p.writes = some (i, v) := by
              intro s1 hst hpop
              unfold Trav.pop at hpop
              cases hs1 : s1.stack with
              | nil => rw [hs1] at hpop; cases hpop
              | cons top rest =>
                rw [hs1] at hpop
                have hs' : s' = { s1 with nodeId := top, stack := rest } :=
                  (Prod.mk.inj hpop).2.symm
                rw [hs'] at hiv'
                have hiv' : rest.reverse[i]? = some v := hiv'
                have hlt : i < rest.reverse.length := by
                  by_contra hcon
                  rw [List.getElem?_eq_none (by omega)] at hiv'
                  cases hiv'
                have hold : s.stack.reverse[i]? = some v := by
                  rw [← hst, hs1, List.reverse_cons, List.getElem?_append_left hlt]
                  exact hiv'
                obtain ⟨p, hp, hw⟩ := hH i v hold
                exact ⟨p, List.mem_append_left _ hp, hw⟩
            rcases Trav.step_ok_cases s _ hstep with ⟨node, -, -, hbs⟩ |
              ⟨bx, mid, hget, hbx, -, hbs⟩ | ⟨bx, a, e, -, -, hbs⟩
            · exact hpopcase s rfl hbs.symm
            · have hs' : s' = { s with stack := mid :: s.stack, nodeId := s.nodeId + 1 } :=
                (Prod.mk.inj hbs).2
              rw [hs'] at hiv'
              have hiv2 : (s.stack.reverse ++ [mid])[i]? = some v := by
                rw [← List.reverse_cons]
                exact hiv'
              have hlen : s.stack.reverse.length = s.stack.length := List.length_reverse _
              by_cases hlt : i < s.stack.length
              · rw [List.getElem?_append_left (by rw [hlen]; exact hlt)] at hiv2
                obtain ⟨p, hp, hw⟩ := hH i v hiv2
                exact ⟨p, List.mem_append_left _ hp, hw⟩
              · rw [List.getElem?_append_right (by rw [hlen]; omega), hlen] at hiv2
                have hi0 : i - s.stack.length = 0 := by
                  by_contra hcon
                  rw [List.getElem?_eq_none (by
                    rw [List.length_singleton]
                    omega)] at hiv2
                  cases hiv2
                rw [hi0] at hiv2
                have hv : mid = v := by simpa using hiv2
                have hi : i = s.stack.length := by omega
                refine ⟨s, List.mem_append_right _ (List.mem_singleton.2 rfl), ?_⟩
                unfold Trav.writes
                rw [hget]
                simp [hbx, hi, hv]
            · exact hpopcase (s.leafLoop a e) (Trav.leafLoop_tightened s a e).2.1 hbs.symm
          obtain ⟨p, hp, hw⟩ := ih s' (H ++ [s]) hH' pre' q post htail i v hiv
          refine ⟨p, ?_, hw⟩
          rw [List.append_assoc] at hp
          rw [← hp0]
          exact hp

/-- On the tree, with every inner node less deep than the stack is large, an
iteration stays within defined behaviour. -/
theorem Trav.step_defined (r : Ray K)
    (hbound : ∀ (k : Nat) (b : AABB K) (mid : Nat),
      r.nodes.get? k = some (.inner b mid) → r.depth k ≤ 63)
    (s : Trav K) (h : Trav.OnTree r s) : ∃ bs : Bool × Trav K, s.step = .ok bs := by
  obtain ⟨h1, h2, h3⟩ := h
  have hlt : s.nodeId < s.ray.nodes.length := by
    rw [h1]
    exact Ray.Frames.node_lt r _ _ _ h2
  have hget : s.ray.nodes.get? s.nodeId = some (s.ray.nodes.get ⟨s.nodeId, hlt⟩) :=
    List.get?_eq_get hlt
  generalize s.ray.nodes.get ⟨s.nodeId, hlt⟩ = node at hget
  by_cases hb : s.ray.intersectAABB node.aabb = false
  · exact ⟨_, Trav.step_pruned s node hget hb⟩
  · cases node with
    | inner b mid =>
      have hd : r.depth s.nodeId ≤ 63 := hbound s.nodeId b mid (by rw [← h1]; exact hget)
      have hlen := descends_length r.depth s.stack _ h3
      exact ⟨_, Trav.step_inner s b mid hget hb (by unfold stackSize; omega)⟩
    | leaf b a e => exact ⟨_, Trav.step_leaf s b a e hget hb⟩

/-- On such a tree the loop can only fail by running out of iterations. -/
theorem Trav.loop_error (r : Ray K) (hpre : r.Preorder 0 r.nodes.length)
    (hbound : ∀ (k : Nat) (b : AABB K) (mid : Nat),
      r.nodes.get? k = some (.inner b mid) → r.depth k ≤ 63)
    (fuel : Nat) :
    ∀ s : Trav K, Trav.OnTree r s → ∀ e : TravError, Trav.loop fuel s = .error e →
      e = .outOfFuel := by
  induction fuel with
  | zero =>
    intro s _ e he
    exact (Except.error.inj he).symm
  | succ fuel ih =>
    intro s hs e he
    obtain ⟨bs, hstep⟩ := Trav.step_defined r hbound s hs
    obtain ⟨b, s'⟩ := bs
    rw [Trav.loop_succ s fuel _ hstep] at he
    cases b with
    | false => cases he
    | true => exact ih s' (Trav.step_onTree r hpre s s' hs hstep).1 e he

/-- C17. The traversal stack stays in bounds.  On a node array in preorder
layout, at the head of every iteration the number of pending stack entries is
at most the depth of the node being visited (the root has depth 0).  If every
inner node has depth at most 63, then every write `stack[stackId++]` uses an
index of at most 63, every read `stack[--stackId]` uses an index of at most 63
that an earlier iteration wrote, with the value read, and the call never
overruns the stack. -/
theorem stack_in_bounds (r : Ray K) (hpre : r.Preorder 0 r.nodes.length) (fuel : Nat)
    (faceId : Int) (uv : Option (K × K)) :
    (∀ q ∈ Trav.run fuel (r.start faceId uv), q.stack.length ≤ r.depth q.nodeId) ∧
    ((∀ (k : Nat) (b : AABB K) (mid : Nat),
        r.nodes.get? k = some (.inner b mid) → r.depth k ≤ 63) →
      (∀ q ∈ Trav.run fuel (r.start faceId uv), ∀ i v : Nat,
        q.writes = some (i, v) → i ≤ 63) ∧
      (∀ (pre : List (Trav K)) (q : Trav K) (post : List (Trav K)) (i v : Nat),
        Trav.run fuel (r.start faceId uv) = pre ++ q :: post → q.reads = some (i, v) →
        i ≤ 63 ∧ ∃ p ∈ pre, p.writes = some (i, v)) ∧
      ∀ t : WithTop K, r.intersectBVH fuel faceId t uv ≠ .error .stackOverflow) := by
  have hon := Ray.start_onTree r hpre faceId uv
  have hlen : ∀ q ∈ Trav.run fuel (r.start faceId uv), q.stack.length ≤ r.depth q.nodeId := by
    intro q hq
    obtain ⟨⟨-, -, h3⟩, -⟩ := Trav.run_onTree r hpre fuel _ hon q hq
    exact descends_length r.depth q.stack _ h3
  refine ⟨hlen, fun hbound => ?_⟩
  have hwrite : ∀ q ∈ Trav.run fuel (r.start faceId uv), ∀ i v : Nat,
      q.writes = some (i, v) → i ≤ 63 := by
    intro q hq i v hw
    obtain ⟨hi, b, hget, -⟩ := Trav.writes_eq q i v hw
    obtain ⟨⟨h1, -, -⟩, -⟩ := Trav.run_onTree r hpre fuel _ hon q hq
    rw [h1] at hget
    have := hbound q.nodeId b v hget
    have := hlen q hq
    omega
  refine ⟨hwrite, ?_, ?_⟩
  · intro pre q post i v hrun hread
    obtain ⟨rest, hst, hi⟩ := Trav.reads_eq q i v hread
    have hslot : q.stack.reverse[i]? = some v := by
      rw [hst, List.reverse_cons, List.getElem?_append_right (by rw [List.length_reverse, hi]),
        List.length_reverse, hi, Nat.sub_self]
      rfl
    obtain ⟨p, hp, hw⟩ := Trav.run_history fuel (r.start faceId uv) []
      (fun i v hiv => by
        have : (r.start faceId uv).stack = [] := rfl
        rw [this] at hiv
        simp at hiv)
      pre q post hrun i v hslot
    rw [List.nil_append] at hp
    refine ⟨hwrite p ?_ i v hw, p, hp, hw⟩
    rw [hrun]
    exact List.mem_append_left _ hp
  · intro t herr
    unfold Ray.intersectBVH at herr
    by_cases hempty : r.nodes.isEmpty = true
    · rw [if_pos hempty] at herr
      cases herr
    · rw [if_neg hempty] at herr
      have := Trav.loop_error r hpre hbound fuel _ hon _ herr
      cases this

theorem forkRay_preorder : forkRay.Preorder 0 forkRay.nodes.length :=
  Ray.Preorder.inner 0 2 3 ⟨![0, 0, 0], ![1, 1, 0]⟩ rfl
    (Ray.Preorder.leaf 1 ⟨![0, 0, 0], ![1, 1, 0]⟩ 0 1 rfl)
    (Ray.Preorder.leaf 2 ⟨![0, 0, 0], ![1, 1, 0]⟩ 1 2 rfl)

theorem forkRay_depth (k : Nat) (b : AABB ℚ) (mid : Nat)
    (h : forkRay.nodes.get? k = some (.inner b mid)) : forkRay.depth k ≤ 63 := by
  rcases k with _ | _ | _ | k
  · exact Nat.zero_le _
  · cases h
  · cases h
  · cases h

theorem stack_in_bounds_witness :
    forkRay.Preorder 0 forkRay.nodes.length ∧
    forkRay.depth 0 = 0 ∧ forkRay.depth 1 = 1 ∧ forkRay.depth 2 = 1 ∧
    (∀ q ∈ Trav.run 3 (forkRay.start (-1) none), q.stack.length ≤ forkRay.depth q.nodeId) ∧
    (∀ t : WithTop ℚ, forkRay.intersectBVH 3 (-1) t none ≠ .error .stackOverflow) :=
  ⟨forkRay_preorder, by decide, by decide, by decide,
    (stack_in_bounds forkRay forkRay_preorder 3 (-1) none).1,
    ((stack_in_bounds forkRay forkRay_preorder 3 (-1) none).2 forkRay_depth).2.2⟩

/-! ### Termination of the walk -/

theorem Trav.pop_fst (s : Trav K) : s.pop.1 = !s.stack.isEmpty := by
  unfold Trav.pop
  cases s.stack <;> rfl

/-- An iteration breaks exactly when it prunes or processes its node with an
empty stack. -/
theorem Trav.finished_of_step (s : Trav K) (bs : Bool × Trav K) (h : s.step = .ok bs) :
    s.finished = !bs.1 := by
  rcases Trav.step_ok_cases s bs h with ⟨node, hget, hb, rfl⟩ | ⟨b, mid, hget, hb, -, rfl⟩ |
    ⟨b, startId, endId, hget, hb, rfl⟩
  · rw [Trav.pop_fst]
    unfold Trav.finished
    rw [hget]
    cases node with
    | inner b mid =>
      have hb' : s.ray.intersectAABB b = false := hb
      simp [hb']
    | leaf b a e => simp
  · unfold Trav.finished
    rw [hget]
    simp [hb]
  · rw [Trav.pop_fst, (Trav.leafLoop_tightened s startId endId).2.1]
    unfold Trav.finished
    rw [hget]
    simp

/-- On a tree in preorder layout whose inner nodes have depth at most 63, the
loop started on the tree with an iteration left for every node from the current
one on returns; the nodes it visits have strictly increasing indices; only its
last iteration breaks. -/
theorem Trav.walk_terminates (r : Ray K) (hpre : r.Preorder 0 r.nodes.length)
    (hbound : ∀ (k : Nat) (b : AABB K) (mid : Nat),
      r.nodes.get? k = some (.inner b mid) → r.depth k ≤ 63)
    (fuel : Nat) :
    ∀ s : Trav K, Trav.OnTree r s → r.nodes.length - s.nodeId ≤ fuel →
      ∃ (res : Trav K) (pre : List (Trav K)) (last : Trav K),
        Trav.loop fuel s = .ok res ∧ Trav.run fuel s = pre ++ [last] ∧
        last.step = .ok (false, res) ∧ (∀ q ∈ pre, q.finished = false) ∧
        last.finished = true ∧
        ((Trav.run fuel s).map (fun q => q.nodeId)).Pairwise (fun a b => a < b) ∧
        (Trav.run fuel s).length ≤ r.nodes.length - s.nodeId := by
  induction fuel with
  | zero =>
    intro s hs hfuel
    have := Ray.Frames.node_lt r _ _ _ hs.2.1
    omega
  | succ fuel ih =>
    intro s hs hfuel
    have hlt := Ray.Frames.node_lt r _ _ _ hs.2.1
    obtain ⟨bs, hstep⟩ := Trav.step_defined r hbound s hs
    obtain ⟨b, s'⟩ := bs
    have hfin := Trav.finished_of_step s _ hstep
    cases b with
    | false =>
      refine ⟨s', [], s, ?_, ?_, hstep, (fun q hq => by cases hq), (by simpa using hfin), ?_, ?_⟩
      · rw [Trav.loop_succ s fuel _ hstep]
        rfl
      · rw [Trav.run_stop s fuel s' hstep]
        rfl
      · rw [Trav.run_stop s fuel s' hstep]
        exact List.pairwise_singleton _ _
      · rw [Trav.run_stop s fuel s' hstep]
        simp only [List.length_singleton]
        omega
    | true =>
      obtain ⟨hs', hnext⟩ := Trav.step_onTree r hpre s s' hs hstep
      obtain ⟨res, pre, last, h1, h2, h3, h4, h5, h6, h7⟩ := ih s' hs' (by omega)
      refine ⟨res, s :: pre, last, ?_, ?_, h3, ?_, h5, ?_, ?_⟩
      · rw [Trav.loop_succ s fuel _ hstep]
        exact h1
      · rw [Trav.run_succ s fuel s' hstep, h2]
        rfl
      · intro q hq
        rcases List.mem_cons.1 hq with rfl | hq'
        · simpa using hfin
        · exact h4 q hq'
      · rw [Trav.run_succ s fuel s' hstep, List.map_cons]
        refine List.Pairwise.cons (fun id hid => ?_) h6
        rw [List.mem_map] at hid
        obtain ⟨q, hq, rfl⟩ := hid
        have := (Trav.run_onTree r hpre fuel s' hs' q hq).2
        omega
      · rw [Trav.run_succ s fuel s' hstep]
        simp only [List.length_cons]
        have := Ray.Frames.node_lt r _ _ _ hs'.2.1
        omega

/-- C18, amended: with the depth bound.  On a node array in preorder layout whose
inner nodes have depth at most 63, for every ray and with an iteration allowed
for every node, the loop of intersect returns.  The nodes it visits have
strictly increasing indices, so each node is visited at most once, at most as
many iterations as nodes are run, and every index read lies inside the array.
The loop stops exactly when a node has been pruned or processed and the stack
is empty: this holds in the last iteration and in none before it. -/
theorem traversal_terminates (r : Ray K) (hpre : r.Preorder 0 r.nodes.length)
    (hbound : ∀ (k : Nat) (b : AABB K) (mid : Nat),
      r.nodes.get? k = some (.inner b mid) → r.depth k ≤ 63)
    (fuel : Nat) (hfuel : r.nodes.length ≤ fuel) (faceId : Int) (t : WithTop K)
    (uv : Option (K × K)) :
    ∃ (res : Trav K) (pre : List (Trav K)) (last : Trav K),
      r.intersectBVH fuel faceId t uv = .ok res ∧
      Trav.run fuel (r.start faceId uv) = pre ++ [last] ∧
      last.step = .ok (false, res) ∧
      (∀ q ∈ pre, q.finished = false) ∧ last.finished = true ∧
      ((pre ++ [last]).map (fun q => q.nodeId)).Pairwise (fun a b => a < b) ∧
      (pre ++ [last]).length ≤ r.nodes.length ∧
      (∀ q ∈ pre ++ [last], q.ray.nodes = r.nodes ∧ q.nodeId < r.nodes.length) := by
  have hon := Ray.start_onTree r hpre faceId uv
  obtain ⟨res, pre, last, h1, h2, h3, h4, h5, h6, h7⟩ :=
    Trav.walk_terminates r hpre hbound fuel _ hon (by
      have : (r.start faceId uv).nodeId = 0 := rfl
      rw [this]
      omega)
  have hne : r.nodes.isEmpty = false := by
    have hpos := Ray.Preorder.lo_lt_hi r _ _ hpre
    cases hn : r.nodes with
    | nil => rw [hn] at hpos; simp at hpos
    | cons a l => rfl
  refine ⟨res, pre, last, ?_, h2, h3, h4, h5, ?_, ?_, ?_⟩
  · unfold Ray.intersectBVH
    rw [if_neg (by rw [hne]; simp)]
    exact h1
  · rw [← h2]
    exact h6
  · rw [← h2]
    have : (r.start faceId uv).nodeId = 0 := rfl
    rw [this] at h7
    omega
  · intro q hq
    rw [← h2] at hq
    obtain ⟨⟨g1, g2, -⟩, -⟩ := Trav.run_onTree r hpre fuel _ hon q hq
    exact ⟨g1, Ray.Frames.node_lt r _ _ _ g2⟩

theorem forkRay_box : forkRay.intersectAABB ⟨![0, 0, 0], ![1, 1, 0]⟩ = true := tieRay_box

theorem traversal_terminates_witness :
    (forkRay.Preorder 0 forkRay.nodes.length ∧ forkRay.nodes.length ≤ 3 ∧
      forkRay.depth 0 = 0) ∧
    ∃ (res : Trav ℚ) (pre : List (Trav ℚ)) (last : Trav ℚ),
      forkRay.intersectBVH 3 (-1) ⊤ none = .ok res ∧
      Trav.run 3 (forkRay.start (-1) none) = pre ++ [last] ∧
      last.step = .ok (false, res) ∧
      (∀ q ∈ pre, q.finished = false) ∧ last.finished = true ∧
      ((pre ++ [last]).map (fun q => q.nodeId)).Pairwise (fun a b => a < b) ∧
      (pre ++ [last]).length ≤ forkRay.nodes.length ∧
      (∀ q ∈ pre ++ [last], q.ray.nodes = forkRay.nodes ∧ q.nodeId < forkRay.nodes.length) :=
  ⟨⟨forkRay_preorder, by decide, by decide⟩,
    traversal_terminates forkRay forkRay_preorder forkRay_depth 3 (by decide) (-1) ⊤ none⟩

/-! ### A tree deeper than the stack -/

theorem deepRay_nodes :
    deepRay.nodes
      = (List.range 65).map
          (fun k => (BVHNode.inner ⟨![0, 0, 0], ![1, 1, 0]⟩ (130 - k) : BVHNode ℚ))
        ++ List.replicate 66 (BVHNode.leaf ⟨![0, 0, 0], ![1, 1, 0]⟩ 0 0) := rfl

theorem deepRay_inner (k : Nat) (hk : k < 65) :
    deepRay.nodes.get? k = some (.inner ⟨![0, 0, 0], ![1, 1, 0]⟩ (130 - k)) := by
  rw [deepRay_nodes]
  rw [List.get?_eq_getElem?, List.getElem?_append_left (by simpa using hk),
    List.getElem?_map, List.getElem?_range hk]
  rfl

theorem deepRay_leaf (k : Nat) (h1 : 65 ≤ k) (h2 : k < 131) :
    deepRay.nodes.get? k = some (.leaf ⟨![0, 0, 0], ![1, 1, 0]⟩ 0 0) := by
  rw [deepRay_nodes]
  rw [List.get?_eq_getElem?, List.getElem?_append_right (by simpa using h1),
    List.getElem?_replicate]
  simp only [List.length_map, List.length_range]
  rw [if_pos (by omega)]

theorem deepRay_length : deepRay.nodes.length = 131 := by
  rw [deepRay_nodes]
  simp

theorem deepRay_chain (j : Nat) (hj : j ≤ 64) : deepRay.Preorder (64 - j) (67 + j) := by
  induction j with
  | zero =>
    exact Ray.Preorder.inner 64 66 67 _ (deepRay_inner 64 (by omega))
      (Ray.Preorder.leaf 65 _ 0 0 (deepRay_leaf 65 (by omega) (by omega)))
      (Ray.Preorder.leaf 66 _ 0 0 (deepRay_leaf 66 (by omega) (by omega)))
  | succ j ih =>
    have hl := ih (by omega)
    have hnode := deepRay_inner (64 - (j + 1)) (by omega)
    have e1 : 130 - (64 - (j + 1)) = 67 + j := by omega
    have e2 : 64 - (j + 1) + 1 = 64 - j := by omega
    rw [e1] at hnode
    refine Ray.Preorder.inner (64 - (j + 1)) (67 + j) (67 + (j + 1)) _ hnode ?_ ?_
    · rw [e2]
      exact hl
    · exact Ray.Preorder.leaf (67 + j) _ 0 0 (deepRay_leaf (67 + j) (by omega) (by omega))

theorem deepRay_preorder : deepRay.Preorder 0 deepRay.nodes.length := by
  rw [deepRay_length]
  exact deepRay_chain 64 (le_refl _)

theorem deepRay_box : deepRay.intersectAABB ⟨![0, 0, 0], ![1, 1, 0]⟩ = true := tieRay_box

theorem deepState_step (faceId : Int) (uv : Option (ℚ × ℚ)) (k : Nat) (hk : k < 64) :
    (deepState faceId uv k).step = .ok (true, deepState faceId uv (k + 1)) := by
  have hray : (deepState faceId uv k).ray = deepRay := rfl
  have hbox : ¬ (deepState faceId uv k).ray.intersectAABB ⟨![0, 0, 0], ![1, 1, 0]⟩ = false := by
    rw [hray, deepRay_box]
    simp
  have hlen : (deepState faceId uv k).stack.length < stackSize := by
    show ((List.range k).reverse.map (fun j => 130 - j)).length < stackSize
    rw [List.length_map, List.length_reverse, List.length_range]
    exact hk
  rw [Trav.step_inner (deepState faceId uv k) ⟨![0, 0, 0], ![1, 1, 0]⟩ (130 - k)
    (deepRay_inner k (by omega)) hbox hlen]
  unfold deepState
  simp only [List.range_succ, List.reverse_append, List.reverse_cons, List.reverse_nil,
    List.nil_append, List.singleton_append, List.map_cons]

theorem deepState_overflow (faceId : Int) (uv : Option (ℚ × ℚ)) :
    (deepState faceId uv 64).step = .error .stackOverflow := by
  unfold Trav.step
  have hray : (deepState faceId uv 64).ray = deepRay := rfl
  have hid : (deepState faceId uv 64).nodeId = 64 := rfl
  rw [hray, hid, deepRay_inner 64 (by omega)]
  have hlen : (deepState faceId uv 64).stack.length = 64 := by
    show ((List.range 64).reverse.map (fun j => 130 - j)).length = 64
    rw [List.length_map, List.length_reverse, List.length_range]
  simp only [BVHNode.aabb, deepRay_box, Bool.true_eq_false, if_false, hlen, stackSize,
    le_refl, if_true]

/-- The loop on `deepRay` never returns: it runs out of iterations or overruns
the stack. -/
theorem deepState_loop (faceId : Int) (uv : Option (ℚ × ℚ)) (fuel : Nat) :
    ∀ k : Nat, k ≤ 64 → ∃ e : TravError, Trav.loop fuel (deepState faceId uv k) = .error e ∧
      (65 - k ≤ fuel → e = .stackOverflow) := by
  induction fuel with
  | zero =>
    intro k hk
    exact ⟨.outOfFuel, rfl, fun h => by omega⟩
  | succ fuel ih =>
    intro k hk
    by_cases h64 : k = 64
    · subst h64
      refine ⟨.stackOverflow, ?_, fun _ => rfl⟩
      simp only [Trav.loop, deepState_overflow]
    · have hstep := deepState_step faceId uv k (by omega)
      obtain ⟨e, he, hfuel⟩ := ih (k + 1) (by omega)
      refine ⟨e, ?_, fun h => hfuel (by omega)⟩
      rw [Trav.loop_succ _ fuel _ hstep]
      exact he

/-- C18, as stated, fails on trees deeper than the stack.  The node array of
`deepRay` is in preorder layout (131 nodes, a chain of 65 nested inner nodes),
and the ray hits every box.  The traversal pushes a right child at each of the
nodes 0 to 63 and then, at node 64, writes `stack[64]` past the end of the array
`int stack[64]`: the call never returns, whatever the number of iterations
allowed, and with 65 or more it ends in the stack overrun. -/
theorem deep_tree_overruns :
    deepRay.Preorder 0 deepRay.nodes.length ∧ deepRay.nodes.length = 131 ∧
    ∀ (fuel : Nat) (faceId : Int) (t : WithTop ℚ) (uv : Option (ℚ × ℚ)),
      (∀ res : Trav ℚ, deepRay.intersectBVH fuel faceId t uv ≠ .ok res) ∧
      (65 ≤ fuel → deepRay.intersectBVH fuel faceId t uv = .error .stackOverflow) := by
  refine ⟨deepRay_preorder, deepRay_length, fun fuel faceId t uv => ?_⟩
  have hloop : deepRay.intersectBVH fuel faceId t uv
      = Trav.loop fuel (deepState faceId uv 0) := by
    unfold Ray.intersectBVH
    rw [if_neg (by
      have h := deepRay_length
      cases hn : deepRay.nodes with
      | nil => rw [hn] at h; simp at h
      | cons a l => simp)]
    rfl
  obtain ⟨e, he, hfuel⟩ := deepState_loop faceId uv fuel 0 (Nat.zero_le _)
  rw [hloop, he]
  refine ⟨(fun res h => by cases h), fun h => ?_⟩
  rw [hfuel (by omega)]

/-! ## The ray code in float arithmetic -/

/-! ### Order of the floats -/

theorem float_two_zpow_pos (c : Int) : (0 : ℚ) < (2 : ℚ) ^ c := zpow_pos (by norm_num) c

/-- An aligned mantissa, scaled back, is the value of the float. -/
theorem float_scaled_cast (s : Bool) (m : Nat) (e c : Int) (hc : c ≤ e) :
    ((F32.scaled s m e c : Int) : ℚ) * (2 : ℚ) ^ c = (F32.fin s m e).toRat := by
  have h2 : (2 : ℚ) ≠ 0 := by norm_num
  have hn : (((e - c).toNat : Nat) : Int) = e - c := Int.toNat_of_nonneg (by omega)
  have hp : (2 : ℚ) ^ (e - c).toNat * (2 : ℚ) ^ c = (2 : ℚ) ^ e := by
    rw [← zpow_natCast, hn, ← zpow_add₀ h2]
    congr 1
    omega
  unfold F32.scaled F32.toRat
  push_cast
  rw [← hp]
  cases s <;> simp <;> ring

theorem float_fin_lt_iff (s : Bool) (m1 : Nat) (e1 : Int) (t : Bool) (m2 : Nat) (e2 : Int) :
    F32.lt (.fin s m1 e1) (.fin t m2 e2) = true ↔
      (F32.fin s m1 e1).toRat < (F32.fin t m2 e2).toRat := by
  have hpos := float_two_zpow_pos (min e1 e2)
  rw [← float_scaled_cast s m1 e1 (min e1 e2) (min_le_left _ _),
    ← float_scaled_cast t m2 e2 (min e1 e2) (min_le_right _ _)]
  rw [mul_lt_mul_right hpos]
  simp only [F32.lt, decide_eq_true_eq, Int.cast_lt]

theorem float_fin_le_iff (s : Bool) (m1 : Nat) (e1 : Int) (t : Bool) (m2 : Nat) (e2 : Int) :
    F32.le (.fin s m1 e1) (.fin t m2 e2) = true ↔
      (F32.fin s m1 e1).toRat ≤ (F32.fin t m2 e2).toRat := by
  have hpos := float_two_zpow_pos (min e1 e2)
  rw [← float_scaled_cast s m1 e1 (min e1 e2) (min_le_left _ _),
    ← float_scaled_cast t m2 e2 (min e1 e2) (min_le_right _ _)]
  rw [mul_le_mul_right hpos]
  simp only [F32.le, decide_eq_true_eq, Int.cast_le]

/-- A true comparison `a <= b` has no NaN on either side. -/
theorem float_le_not_nan (a b : F32) (h : F32.le a b = true) :
    a.isNaN = false ∧ b.isNaN = false := by
  cases a <;> cases b <;> simp_all [F32.le, F32.isNaN]

theorem float_le_self (a : F32) (h : a.isNaN = false) : F32.le a a = true := by
  cases a with
  | nan => simp [F32.isNaN] at h
  | inf s => cases s <;> simp [F32.le]
  | fin s m e => exact (float_fin_le_iff s m e s m e).2 (le_refl _)

theorem float_le_chain (a b c : F32) (h1 : F32.le a b = true) (h2 : F32.le b c = true) :
    F32.le a c = true := by
  cases a with
  | nan => simp [F32.le] at h1
  | inf s =>
    cases b with
    | nan => simp [F32.le] at h1
    | inf s2 =>
      cases c with
      | nan => simp [F32.le] at h2
      | inf s3 => cases s <;> cases s2 <;> cases s3 <;> simp_all [F32.le]
      | fin s3 m3 e3 => cases s <;> cases s2 <;> simp_all [F32.le]
    | fin s2 m2 e2 =>
      cases c with
      | nan => simp [F32.le] at h2
      | inf s3 => cases s <;> cases s3 <;> simp_all [F32.le]
      | fin s3 m3 e3 => cases s <;> simp_all [F32.le]
  | fin s m e =>
    cases b with
    | nan => simp [F32.le] at h1
    | inf s2 =>
      cases c with
      | nan => simp [F32.le] at h2
      | inf s3 => cases s2 <;> cases s3 <;> simp_all [F32.le]
      | fin s3 m3 e3 => cases s2 <;> simp_all [F32.le]
    | fin s2 m2 e2 =>
      cases c with
      | nan => simp [F32.le] at h2
      | inf s3 => cases s3 <;> simp_all [F32.le]
      | fin s3 m3 e3 =>
        exact (float_fin_le_iff s m e s3 m3 e3).2
          (le_trans ((float_fin_le_iff s m e s2 m2 e2).1 h1) ((float_fin_le_iff s2 m2 e2 s3 m3 e3).1 h2))

/-- Without a NaN, `!(a < b)` is `b <= a`. -/
theorem float_le_of_not_lt (a b : F32) (ha : a.isNaN = false) (hb : b.isNaN = false)
    (h : F32.lt a b = false) : F32.le b a = true := by
  cases a with
  | nan => simp [F32.isNaN] at ha
  | inf s =>
    cases b with
    | nan => simp [F32.isNaN] at hb
    | inf s2 => cases s <;> cases s2 <;> simp_all [F32.le, F32.lt]
    | fin s2 m2 e2 => cases s <;> simp_all [F32.le, F32.lt]
  | fin s m e =>
    cases b with
    | nan => simp [F32.isNaN] at hb
    | inf s2 => cases s2 <;> simp_all [F32.le, F32.lt]
    | fin s2 m2 e2 =>
      rw [float_fin_le_iff]
      have h' : ¬ (F32.fin s m e).toRat < (F32.fin s2 m2 e2).toRat := by
        rw [← float_fin_lt_iff, h]; simp
      exact not_lt.1 h'

theorem float_le_of_lt (a b : F32) (h : F32.lt a b = true) : F32.le a b = true := by
  cases a with
  | nan => simp [F32.lt] at h
  | inf s =>
    cases b with
    | nan => simp [F32.lt] at h
    | inf s2 => cases s <;> cases s2 <;> simp_all [F32.le, F32.lt]
    | fin s2 m2 e2 => cases s <;> simp_all [F32.le, F32.lt]
  | fin s m e =>
    cases b with
    | nan => simp [F32.lt] at h
    | inf s2 => cases s2 <;> simp_all [F32.le, F32.lt]
    | fin s2 m2 e2 =>
      exact (float_fin_le_iff _ _ _ _ _ _).2 (le_of_lt ((float_fin_lt_iff _ _ _ _ _ _).1 h))

/-- A comparison `a < b` that holds has no NaN on either side. -/
theorem float_lt_not_nan (a b : F32) (h : F32.lt a b = true) :
    a.isNaN = false ∧ b.isNaN = false := by
  cases a <;> cases b <;> simp_all [F32.lt, F32.isNaN]

/-! ### The brute-force scan in float -/

/-- Loop invariant of the float brute-force scan after the faces `0 .. n-1`, when
every hit time among them is below `+inf`. -/
theorem intersect32_scan (r : Ray32) (n : Nat)
    (hfin : ∀ i : Nat, i < n → ∀ (t : F32) (uv : F32 × F32),
      r.intersectFace i = some (t, uv) → F32.lt t (.inf false) = true) :
    let st := (List.range n).foldl r.intersectStep (-1, .inf false)
    (st.1 = -1 ∧ st.2 = .inf false ∧ ∀ i : Nat, i < n → r.intersectFace i = none) ∨
    (∃ (f : Nat) (t : F32), st.1 = (f : Int) ∧ st.2 = t ∧ f < n ∧
      (∃ uv : F32 × F32, r.intersectFace f = some (t, uv)) ∧
      (∀ g : Nat, g < n → ∀ (t' : F32) (uv' : F32 × F32),
        r.intersectFace g = some (t', uv') → F32.le t t' = true)) := by
  induction n with
  | zero =>
    left
    exact ⟨rfl, rfl, fun i hi => absurd hi (Nat.not_lt_zero i)⟩
  | succ n ih =>
    have ih' := ih (fun i hi => hfin i (Nat.lt_succ_of_lt hi))
    simp only [List.range_succ, List.foldl_append, List.foldl_cons, List.foldl_nil]
    simp only [] at ih'
    generalize (List.range n).foldl r.intersectStep (-1, .inf false) = st at ih'
    unfold Ray32.intersectStep
    cases hn : r.intersectFace n with
    | none =>
      simp only []
      rcases ih' with ⟨h1, h2, h3⟩ | ⟨f, t, h1, h2, h3, h4, h5⟩
      · left
        refine ⟨h1, h2, fun i hi => ?_⟩
        rcases Nat.lt_succ_iff_lt_or_eq.1 hi with h | h
        · exact h3 i h
        · rw [h]; exact hn
      · right
        refine ⟨f, t, h1, h2, Nat.lt_succ_of_lt h3, h4, fun g hg t' uv' hg' => ?_⟩
        rcases Nat.lt_succ_iff_lt_or_eq.1 hg with h | h
        · exact h5 g h t' uv' hg'
        · rw [h, hn] at hg'; cases hg'
    | some tuv =>
      obtain ⟨time, uv⟩ := tuv
      have hbelow : F32.lt time (.inf false) = true := hfin n (Nat.lt_succ_self n) time uv hn
      have hnan : time.isNaN = false := (float_lt_not_nan _ _ hbelow).1
      simp only []
      rcases ih' with ⟨h1, h2, h3⟩ | ⟨f, t, h1, h2, h3, h4, h5⟩
      · right
        have hlt : F32.lt time st.2 = true := by rw [h2]; exact hbelow
        rw [if_pos hlt]
        refine ⟨n, time, rfl, rfl, Nat.lt_succ_self n, ⟨uv, hn⟩, fun g hg t' uv' hg' => ?_⟩
        rcases Nat.lt_succ_iff_lt_or_eq.1 hg with h | h
        · rw [h3 g h] at hg'; cases hg'
        · rw [h, hn] at hg'
          simp only [Option.some.injEq, Prod.mk.injEq] at hg'
          rw [← hg'.1]
          exact float_le_self time hnan
      · right
        obtain ⟨uvf, h4'⟩ := h4
        have htnan : t.isNaN = false :=
          (float_lt_not_nan _ _ (hfin f (Nat.lt_succ_of_lt h3) t uvf h4')).1
        by_cases hlt : F32.lt time st.2 = true
        · rw [if_pos hlt]
          rw [h2] at hlt
          refine ⟨n, time, rfl, rfl, Nat.lt_succ_self n, ⟨uv, hn⟩, fun g hg t' uv' hg' => ?_⟩
          rcases Nat.lt_succ_iff_lt_or_eq.1 hg with h | h
          · exact float_le_chain _ _ _ (float_le_of_lt _ _ hlt) (h5 g h t' uv' hg')
          · rw [h, hn] at hg'
            simp only [Option.some.injEq, Prod.mk.injEq] at hg'
            rw [← hg'.1]
            exact float_le_self time hnan
        · rw [if_neg hlt]
          rw [h2] at hlt
          have hle : F32.le t time = true :=
            float_le_of_not_lt time t hnan htnan (by simpa using hlt)
          refine ⟨f, t, h1, h2, Nat.lt_succ_of_lt h3, ⟨uvf, h4'⟩, fun g hg t' uv' hg' => ?_⟩
          rcases Nat.lt_succ_iff_lt_or_eq.1 hg with h | h
          · exact h5 g h t' uv' hg'
          · rw [h, hn] at hg'
            simp only [Option.some.injEq, Prod.mk.injEq] at hg'
            rw [← hg'.1]; exact hle

/-- C4, amended. The brute-force Ray::intersect() as the machine runs it, in
float arithmetic: when every hit time that intersectFace reports for the mesh
compares `<` to `+inf` (it is neither a NaN nor `+inf`), the scan returns -1 if
and only if intersectFace misses every face, and otherwise returns a face id `f`
that intersectFace hits, whose hit time is `<=` the hit time of every face that
intersectFace hits. -/
theorem intersect32_closest (r : Ray32)
    (hfin : ∀ i : Nat, i < r.F.length → ∀ (t : F32) (uv : F32 × F32),
      r.intersectFace i = some (t, uv) → F32.lt t (.inf false) = true) :
    (r.intersect = -1 ↔ ∀ i : Nat, i < r.F.length → r.intersectFace i = none) ∧
    (r.intersect ≠ -1 → ∃ (f : Nat) (t : F32) (uv : F32 × F32),
      r.intersect = (f : Int) ∧ f < r.F.length ∧ r.intersectFace f = some (t, uv) ∧
      ∀ g : Nat, g < r.F.length → ∀ (t' : F32) (uv' : F32 × F32),
        r.intersectFace g = some (t', uv') → F32.le t t' = true) := by
  have h := intersect32_scan r r.F.length hfin
  simp only [] at h
  unfold Ray32.intersect
  rcases h with ⟨h1, -, h3⟩ | ⟨f, t, h1, -, h2, ⟨uv, h3⟩, h4⟩
  · exact ⟨⟨fun _ => h3, fun _ => h1⟩, fun h => absurd h1 h⟩
  · refine ⟨⟨fun h => ?_, fun h => ?_⟩, fun _ => ⟨f, t, uv, h1, h2, h3, h4⟩⟩
    · rw [h1] at h; omega
    · rw [h f h2] at h3; cases h3

/-! ### The float traversal, iteration by iteration -/

/-- A hit that float intersectFace returns has passed both range checks, and its
time is the value computed from the mesh, the origin and the direction alone. -/
theorem intersectFace32_range (r : Ray32) (fi : Nat) (t : F32) (uv : F32 × F32)
    (h : r.intersectFace fi = some (t, uv)) :
    F32.lt t r.minTime = false ∧ F32.lt r.maxTime t = false ∧ t = (r.faceValues fi).1 ∧
    (r.faceDet fi).isZero = false := by
  unfold Ray32.intersectFace at h
  simp only [] at h
  split_ifs at h with h1 h2 h3 h4
  simp only [Option.some.injEq, Prod.mk.injEq] at h
  obtain ⟨ht, -⟩ := h
  rw [← ht]
  simp only [Bool.or_eq_true, not_or, Bool.not_eq_true] at h4
  exact ⟨h4.1, h4.2, rfl, by simpa using h1⟩

theorem Ray32.timesDefined_tighten (r : Ray32) (m : F32) (h : r.TimesDefined) :
    ({ r with maxTime := m } : Ray32).TimesDefined :=
  fun m' fi t uv hh => h m' fi t uv hh

theorem Trav32.tightened_refl (s : Trav32) (h : s.ray.maxTime.isNaN = false) :
    Trav32.Tightened s s :=
  ⟨rfl, float_le_self _ h, id, id⟩

theorem Trav32.tightened_trans (s1 s2 s3 : Trav32) (h12 : Trav32.Tightened s1 s2)
    (h23 : Trav32.Tightened s2 s3) : Trav32.Tightened s1 s3 := by
  obtain ⟨a1, a2, a3, a4⟩ := h12
  obtain ⟨b1, b2, b3, b4⟩ := h23
  have hmin : s2.ray.minTime = s1.ray.minTime := by rw [a1]
  refine ⟨?_, float_le_chain _ _ _ b2 a2, fun h => ?_, fun h => b4 (a4 h)⟩
  · rw [b1, a1]
  · have := b3 (by rw [hmin]; exact a3 h)
    rw [hmin] at this
    exact this

/-- A tightening keeps the ray free of NaN times. -/
theorem Trav32.tightened_sane (s s' : Trav32) (h : Trav32.Tightened s s')
    (hdef : s.ray.TimesDefined) (hmin : s.ray.minTime.isNaN = false) :
    s'.ray.TimesDefined ∧ s'.ray.minTime.isNaN = false ∧ s'.ray.maxTime.isNaN = false := by
  obtain ⟨a1, a2, -, -⟩ := h
  refine ⟨?_, ?_, (float_le_not_nan _ _ a2).1⟩
  · rw [a1]; exact Ray32.timesDefined_tighten _ _ hdef
  · rw [a1]; exact hmin

/-- One float face test: the ray is tightened, `nodeId` and the stack are left
alone. -/
theorem Trav32.leafStep_tightened32 (s : Trav32) (fi : Nat) (hdef : s.ray.TimesDefined)
    (hmin : s.ray.minTime.isNaN = false) (hmax : s.ray.maxTime.isNaN = false) :
    Trav32.Tightened s (s.leafStep fi) ∧ (s.leafStep fi).stack = s.stack ∧
    (s.leafStep fi).nodeId = s.nodeId := by
  cases hres : s.ray.intersectFace fi with
  | none =>
    have hs : s.leafStep fi = s := by unfold Trav32.leafStep; rw [hres]
    rw [hs]
    exact ⟨Trav32.tightened_refl s hmax, rfl, rfl⟩
  | some tuv =>
    obtain ⟨t1, uv1⟩ := tuv
    have hs : s.leafStep fi =
        { s with faceId := (fi : Int), t := t1, ray := { s.ray with maxTime := t1 },
                 hit := true, uv := s.uv.map (fun _ => uv1) } := by
      unfold Trav32.leafStep; rw [hres]
    rw [hs]
    obtain ⟨hlo, hhi, -, -⟩ := intersectFace32_range s.ray fi t1 uv1 hres
    have ht : t1.isNaN = false := hdef s.ray.maxTime fi t1 uv1 hres
    refine ⟨⟨rfl, float_le_of_not_lt _ _ hmax ht hhi, fun _ => ?_, fun _ _ => rfl⟩, rfl, rfl⟩
    exact float_le_of_not_lt _ _ ht hmin hlo

theorem Trav32.leafFold_tightened32 (l : List Nat) :
    ∀ s : Trav32, s.ray.TimesDefined → s.ray.minTime.isNaN = false →
      s.ray.maxTime.isNaN = false →
      Trav32.Tightened s (l.foldl Trav32.leafStep s) ∧
      (l.foldl Trav32.leafStep s).stack = s.stack ∧
      (l.foldl Trav32.leafStep s).nodeId = s.nodeId := by
  induction l with
  | nil => intro s _ _ hmax; exact ⟨Trav32.tightened_refl s hmax, rfl, rfl⟩
  | cons fi rest ih =>
    intro s hdef hmin hmax
    rw [List.foldl_cons]
    obtain ⟨h1, h2, h3⟩ := Trav32.leafStep_tightened32 s fi hdef hmin hmax
    obtain ⟨k1, k2, k3⟩ := Trav32.tightened_sane _ _ h1 hdef hmin
    obtain ⟨g1, g2, g3⟩ := ih (s.leafStep fi) k1 k2 k3
    exact ⟨Trav32.tightened_trans _ _ _ h1 g1, g2.trans h2, g3.trans h3⟩

theorem Trav32.leafLoop_tightened32 (s : Trav32) (startId endId : Nat)
    (hdef : s.ray.TimesDefined) (hmin : s.ray.minTime.isNaN = false)
    (hmax : s.ray.maxTime.isNaN = false) :
    Trav32.Tightened s (s.leafLoop startId endId) ∧
    (s.leafLoop startId endId).stack = s.stack ∧
    (s.leafLoop startId endId).nodeId = s.nodeId :=
  Trav32.leafFold_tightened32 _ s hdef hmin hmax

/-- The face tests of a leaf leave the node array, `nodeId` and the stack alone,
whatever the hit times are. -/
theorem Trav32.leafFold_frame32 (l : List Nat) :
    ∀ s : Trav32, (l.foldl Trav32.leafStep s).ray.nodes = s.ray.nodes ∧
      (l.foldl Trav32.leafStep s).stack = s.stack ∧
      (l.foldl Trav32.leafStep s).nodeId = s.nodeId := by
  induction l with
  | nil => intro s; exact ⟨rfl, rfl, rfl⟩
  | cons fi rest ih =>
    intro s
    rw [List.foldl_cons]
    obtain ⟨g1, g2, g3⟩ := ih (s.leafStep fi)
    have h : (s.leafStep fi).ray.nodes = s.ray.nodes ∧ (s.leafStep fi).stack = s.stack ∧
        (s.leafStep fi).nodeId = s.nodeId := by
      unfold Trav32.leafStep
      cases s.ray.intersectFace fi with
      | none => exact ⟨rfl, rfl, rfl⟩
      | some tuv => exact ⟨rfl, rfl, rfl⟩
    exact ⟨g1.trans h.1, g2.trans h.2.1, g3.trans h.2.2⟩

/-- The shapes of a float iteration that stays within defined behaviour. -/
theorem Trav32.step_ok_cases32 (s : Trav32) (bs : Bool × Trav32) (h : s.step = .ok bs) :
    (∃ node : BVHNode F32, s.ray.nodes.get? s.nodeId = some node ∧
      s.ray.intersectAABB node.aabb = false ∧ bs = s.pop) ∨
    (∃ (b : AABB F32) (mid : Nat), s.ray.nodes.get? s.nodeId = some (.inner b mid) ∧
      s.ray.intersectAABB b = true ∧ s.stack.length < stackSize ∧
      bs = (true, { s with stack := mid :: s.stack, nodeId := s.nodeId + 1 })) ∨
    (∃ (b : AABB F32) (startId endId : Nat),
      s.ray.nodes.get? s.nodeId = some (.leaf b startId endId) ∧
      s.ray.intersectAABB b = true ∧ bs = (s.leafLoop startId endId).pop) := by
  unfold Trav32.step at h
  cases hget : s.ray.nodes.get? s.nodeId with
  | none =>
    rw [hget] at h
    cases h
  | some node =>
    rw [hget] at h
    by_cases hb : s.ray.intersectAABB node.aabb = false
    · have h' : (Except.ok s.pop : Except TravError (Bool × Trav32)) = .ok bs := by
        simpa only [hb, if_true] using h
      exact Or.inl ⟨node, rfl, hb, (Except.ok.inj h').symm⟩
    · have hb' : s.ray.intersectAABB node.aabb = true := by simpa using hb
      cases node with
      | inner b mid =>
        have hb2 : s.ray.intersectAABB b = true := hb'
        by_cases hst : s.stack.length < stackSize
        · simp only [BVHNode.aabb, hb2, Bool.true_eq_false, if_false,
            if_neg (not_le.2 hst)] at h
          exact Or.inr (Or.inl ⟨b, mid, rfl, hb2, hst, (Except.ok.inj h).symm⟩)
        · simp only [BVHNode.aabb, hb2, Bool.true_eq_false, if_false,
            if_pos (not_lt.1 hst)] at h
          cases h
      | leaf b startId endId =>
        have hb2 : s.ray.intersectAABB b = true := hb'
        simp only [BVHNode.aabb, hb2, Bool.true_eq_false, if_false] at h
        exact Or.inr (Or.inr ⟨b, startId, endId, rfl, hb2, (Except.ok.inj h).symm⟩)

theorem Trav32.pop_fields32 (s : Trav32) :
    s.pop.2.ray = s.ray ∧ s.pop.2.hit = s.hit ∧ s.pop.2.t = s.t := by
  unfold Trav32.pop
  cases s.stack <;> exact ⟨rfl, rfl, rfl⟩

theorem Trav32.pop_tightened32 (s : Trav32) (h : s.ray.maxTime.isNaN = false) :
    Trav32.Tightened s s.pop.2 := by
  obtain ⟨h1, h2, h3⟩ := Trav32.pop_fields32 s
  unfold Trav32.Tightened
  rw [h1, h2, h3]
  exact ⟨rfl, float_le_self _ h, id, id⟩

/-- Every float iteration tightens the ray. -/
theorem Trav32.step_tightened32 (s : Trav32) (bs : Bool × Trav32) (h : s.step = .ok bs)
    (hdef : s.ray.TimesDefined) (hmin : s.ray.minTime.isNaN = false)
    (hmax : s.ray.maxTime.isNaN = false) :
    Trav32.Tightened s bs.2 := by
  rcases Trav32.step_ok_cases32 s bs h with ⟨node, -, -, rfl⟩ | ⟨b, mid, -, -, -, rfl⟩ |
    ⟨b, startId, endId, -, -, rfl⟩
  · exact Trav32.pop_tightened32 s hmax
  · exact ⟨rfl, float_le_self _ hmax, id, id⟩
  · have h1 := (Trav32.leafLoop_tightened32 s startId endId hdef hmin hmax).1
    exact Trav32.tightened_trans _ _ _ h1
      (Trav32.pop_tightened32 _ (Trav32.tightened_sane _ _ h1 hdef hmin).2.2)

theorem Trav32.run_succ32 (s : Trav32) (fuel : Nat) (s' : Trav32) (h : s.step = .ok (true, s')) :
    Trav32.run (fuel + 1) s = s :: Trav32.run fuel s' := by
  simp only [Trav32.run, h]

theorem Trav32.run_stop32 (s : Trav32) (fuel : Nat) (s' : Trav32)
    (h : s.step = .ok (false, s')) : Trav32.run (fuel + 1) s = [s] := by
  simp only [Trav32.run, h]

theorem Trav32.run_error32 (s : Trav32) (fuel : Nat) (e : TravError) (h : s.step = .error e) :
    Trav32.run (fuel + 1) s = [s] := by
  simp only [Trav32.run, h]

theorem Trav32.loop_succ32 (s : Trav32) (fuel : Nat) (bs : Bool × Trav32) (h : s.step = .ok bs) :
    Trav32.loop (fuel + 1) s = if bs.1 then Trav32.loop fuel bs.2 else .ok bs.2 := by
  obtain ⟨b, s'⟩ := bs
  cases b <;> simp only [Trav32.loop, h] <;> rfl

/-- Every state of the float trace is a tightening of the state it starts in. -/
theorem Trav32.run_tightened32 (fuel : Nat) :
    ∀ s : Trav32, s.ray.TimesDefined → s.ray.minTime.isNaN = false →
      s.ray.maxTime.isNaN = false → ∀ q ∈ Trav32.run fuel s, Trav32.Tightened s q := by
  induction fuel with
  | zero => intro s _ _ _ q hq; simp [Trav32.run] at hq
  | succ fuel ih =>
    intro s hdef hmin hmax q hq
    cases hstep : s.step with
    | error e =>
      rw [Trav32.run_error32 s fuel e hstep] at hq
      rw [List.mem_singleton.1 hq]
      exact Trav32.tightened_refl s hmax
    | ok bs =>
      obtain ⟨b, s'⟩ := bs
      cases b with
      | false =>
        rw [Trav32.run_stop32 s fuel s' hstep] at hq
        rw [List.mem_singleton.1 hq]
        exact Trav32.tightened_refl s hmax
      | true =>
        rw [Trav32.run_succ32 s fuel s' hstep] at hq
        rcases List.mem_cons.1 hq with rfl | hq'
        · exact Trav32.tightened_refl _ hmax
        · have h1 := Trav32.step_tightened32 s _ hstep hdef hmin hmax
          obtain ⟨k1, k2, k3⟩ := Trav32.tightened_sane _ _ h1 hdef hmin
          exact Trav32.tightened_trans _ _ _ h1 (ih s' k1 k2 k3 q hq')

/-- The state the float loop returns is a tightening of the state it starts in. -/
theorem Trav32.loop_tightened32 (fuel : Nat) :
    ∀ (s res : Trav32), s.ray.TimesDefined → s.ray.minTime.isNaN = false →
      s.ray.maxTime.isNaN = false → Trav32.loop fuel s = .ok res → Trav32.Tightened s res := by
  induction fuel with
  | zero => intro s res _ _ _ h; cases h
  | succ fuel ih =>
    intro s res hdef hmin hmax h
    cases hstep : s.step with
    | error e =>
      simp only [Trav32.loop, hstep] at h
      cases h
    | ok bs =>
      obtain ⟨b, s'⟩ := bs
      have ht := Trav32.step_tightened32 s _ hstep hdef hmin hmax
      rw [Trav32.loop_succ32 s fuel _ hstep] at h
      cases b with
      | false =>
        have : s' = res := Except.ok.inj h
        rw [← this]
        exact ht
      | true =>
        obtain ⟨k1, k2, k3⟩ := Trav32.tightened_sane _ _ ht hdef hmin
        exact Trav32.tightened_trans _ _ _ ht (ih s' res k1 k2 k3 h)

/-- Later states of the float trace have a `maxTime` that is `<=` earlier ones. -/
theorem Trav32.run_pairwise32 (fuel : Nat) :
    ∀ s : Trav32, s.ray.TimesDefined → s.ray.minTime.isNaN = false →
      s.ray.maxTime.isNaN = false →
      (Trav32.run fuel s).Pairwise (fun a b => F32.le b.ray.maxTime a.ray.maxTime = true) := by
  induction fuel with
  | zero => intro s _ _ _; exact List.Pairwise.nil
  | succ fuel ih =>
    intro s hdef hmin hmax
    cases hstep : s.step with
    | error e =>
      rw [Trav32.run_error32 s fuel e hstep]
      exact List.pairwise_singleton _ _
    | ok bs =>
      obtain ⟨b, s'⟩ := bs
      cases b with
      | false =>
        rw [Trav32.run_stop32 s fuel s' hstep]
        exact List.pairwise_singleton _ _
      | true =>
        rw [Trav32.run_succ32 s fuel s' hstep]
        have h1 := Trav32.step_tightened32 s _ hstep hdef hmin hmax
        obtain ⟨k1, k2, k3⟩ := Trav32.tightened_sane _ _ h1 hdef hmin
        refine List.Pairwise.cons (fun q hq => ?_) (ih s' k1 k2 k3)
        exact (Trav32.tightened_trans _ _ _ h1 (Trav32.run_tightened32 fuel s' k1 k2 k3 q hq)).2.1

/-! ### The float walk over the tree -/

theorem Ray32.exact_get (r : Ray32) (k : Nat) :
    r.exact.nodes.get? k = (r.nodes.get? k).map exactNode := by
  show (r.nodes.map exactNode).get? k = _
  rw [List.get?_eq_getElem?, List.get?_eq_getElem?, List.getElem?_map]

theorem Ray32.exact_inner (r : Ray32) (k : Nat) (b : AABB F32) (mid : Nat)
    (h : r.nodes.get? k = some (.inner b mid)) :
    r.exact.nodes.get? k = some (.inner (exactBox b) mid) := by
  rw [Ray32.exact_get, h]
  rfl

theorem Ray32.exact_length (r : Ray32) : r.exact.nodes.length = r.nodes.length := by
  show (r.nodes.map exactNode).length = _
  rw [List.length_map]

/-- The float walk starts on the tree. -/
theorem Ray32.start_onTree32 (r : Ray32) (hpre : r.exact.Preorder 0 r.exact.nodes.length)
    (faceId : Int) (uv : Option (F32 × F32)) : Trav32.OnTree r (r.start faceId uv) :=
  ⟨rfl, Ray.Frames.nil 0 hpre, trivial⟩

/-- Popping keeps the float walk on the tree and moves to a later node. -/
theorem Trav32.pop_onTree32 (r : Ray32) (s s1 s' : Trav32) (h : Trav32.OnTree r s)
    (hnodes : s1.ray.nodes = s.ray.nodes) (hstack : s1.stack = s.stack)
    (hpop : s1.pop = (true, s')) :
    Trav32.OnTree r s' ∧ s.nodeId < s'.nodeId := by
  obtain ⟨h1, h2, h3⟩ := h
  unfold Trav32.pop at hpop
  cases hst : s1.stack with
  | nil =>
    rw [hst] at hpop
    cases hpop
  | cons top rest =>
    rw [hst] at hpop
    have hs' : s' = { s1 with nodeId := top, stack := rest } := (Prod.mk.inj hpop).2.symm
    rw [hstack] at hst
    rw [hst] at h2 h3
    cases h2 with
    | cons _ _ _ hk hrest =>
      rw [hs']
      refine ⟨⟨hnodes.trans h1, hrest, ?_⟩, Ray.Preorder.lo_lt_hi r.exact _ _ hk⟩
      exact descends_mono r.exact.depth _ _ (Nat.sub_le _ _) rest h3.2.2

/-- A float iteration that continues keeps the walk on the tree and moves to a
later node. -/
theorem Trav32.step_onTree32 (r : Ray32) (hpre : r.exact.Preorder 0 r.exact.nodes.length)
    (s s' : Trav32) (h : Trav32.OnTree r s) (hstep : s.step = .ok (true, s')) :
    Trav32.OnTree r s' ∧ s.nodeId < s'.nodeId := by
  rcases Trav32.step_ok_cases32 s _ hstep with ⟨node, -, -, hbs⟩ | ⟨b, mid, hget, -, -, hbs⟩ |
    ⟨b, startId, endId, -, -, hbs⟩
  · exact Trav32.pop_onTree32 r s s s' h rfl rfl hbs.symm
  · have hs' : s' = { s with stack := mid :: s.stack, nodeId := s.nodeId + 1 } :=
      (Prod.mk.inj hbs).2
    obtain ⟨h1, h2, h3⟩ := h
    rw [h1] at hget
    have hget' := Ray32.exact_inner r _ b mid hget
    obtain ⟨d1, d2⟩ := (Ray.depth_rules r.exact hpre).2 s.nodeId (exactBox b) mid hget'
    rw [hs']
    refine ⟨⟨h1, ?_, ?_⟩, Nat.lt_succ_self _⟩
    · exact Ray.Frames.push r.exact _ _ _ (exactBox b) mid h2 hget'
    · show descends r.exact.depth (r.exact.depth (s.nodeId + 1)) (mid :: s.stack)
      refine ⟨by omega, by omega, ?_⟩
      rw [d2, Nat.add_sub_cancel]
      exact h3
  · obtain ⟨hn, hst, -⟩ := Trav32.leafFold_frame32 (List.range' startId (endId - startId)) s
    exact Trav32.pop_onTree32 r s _ s' h hn hst hbs.symm

/-- On the tree, with every inner node less deep than the stack is large, a float
iteration stays within defined behaviour. -/
theorem Trav32.step_defined32 (r : Ray32)
    (hbound : ∀ (k : Nat) (b : AABB F32) (mid : Nat),
      r.nodes.get? k = some (.inner b mid) → r.exact.depth k ≤ 63)
    (s : Trav32) (h : Trav32.OnTree r s) : ∃ bs : Bool × Trav32, s.step = .ok bs := by
  obtain ⟨h1, h2, h3⟩ := h
  have hlt : s.nodeId < s.ray.nodes.length := by
    rw [h1, ← Ray32.exact_length]
    exact Ray.Frames.node_lt r.exact _ _ _ h2
  have hget : s.ray.nodes.get? s.nodeId = some (s.ray.nodes.get ⟨s.nodeId, hlt⟩) :=
    List.get?_eq_get hlt
  generalize s.ray.nodes.get ⟨s.nodeId, hlt⟩ = node at hget
  unfold Trav32.step
  rw [hget]
  by_cases hb : s.ray.intersectAABB node.aabb = false
  · refine ⟨s.pop, ?_⟩
    simp only [hb, if_true]
  · have hb' : s.ray.intersectAABB node.aabb = true := by simpa using hb
    cases node with
    | inner b mid =>
      have hb2 : s.ray.intersectAABB b = true := hb'
      have hd : r.exact.depth s.nodeId ≤ 63 := hbound s.nodeId b mid (by rw [← h1]; exact hget)
      have hlen := descends_length r.exact.depth s.stack _ h3
      have hst : ¬ stackSize ≤ s.stack.length := by unfold stackSize; omega
      refine ⟨(true, { s with stack := mid :: s.stack, nodeId := s.nodeId + 1 }), ?_⟩
      simp only [BVHNode.aabb, hb2, Bool.true_eq_false, if_false, if_neg hst]
    | leaf b a e =>
      have hb2 : s.ray.intersectAABB b = true := hb'
      refine ⟨(s.leafLoop a e).pop, ?_⟩
      simp only [BVHNode.aabb, hb2, Bool.true_eq_false, if_false]

/-- On a tree in preorder layout whose inner nodes have depth at most 63, the
float loop started on the tree with an iteration left for every node from the
current one on returns. -/
theorem Trav32.walk_terminates32 (r : Ray32) (hpre : r.exact.Preorder 0 r.exact.nodes.length)
    (hbound : ∀ (k : Nat) (b : AABB F32) (mid : Nat),
      r.nodes.get? k = some (.inner b mid) → r.exact.depth k ≤ 63)
    (fuel : Nat) :
    ∀ s : Trav32, Trav32.OnTree r s → r.nodes.length - s.nodeId ≤ fuel →
      ∃ res : Trav32, Trav32.loop fuel s = .ok res := by
  induction fuel with
  | zero =>
    intro s hs hfuel
    have := Ray.Frames.node_lt r.exact _ _ _ hs.2.1
    rw [Ray32.exact_length] at this
    omega
  | succ fuel ih =>
    intro s hs hfuel
    obtain ⟨bs, hstep⟩ := Trav32.step_defined32 r hbound s hs
    obtain ⟨b, s'⟩ := bs
    rw [Trav32.loop_succ32 s fuel _ hstep]
    cases b with
    | false => exact ⟨s', rfl⟩
    | true =>
      obtain ⟨hs', hnext⟩ := Trav32.step_onTree32 r hpre s s' hs hstep
      exact ih s' hs' (by omega)

/-- C16, amended. `maxTime` tightens monotonically during the BVH-accelerated
intersect as the machine runs it, in float arithmetic, provided that `minTime`
and `maxTime` are not NaN at the call and that no face is hit at a time that is
a NaN.  Every face test leaves origin, direction and `minTime` alone; an
accepted hit time is `<=` the `maxTime` before it, which after a hit is the
previously accepted time `t`, is `>=` `minTime`, and becomes the new `maxTime`
and `t`.  In every state the loop runs through, the ray differs from the one of
the call at most in `maxTime`, which is `<=` that of the call, `>=` `minTime` if
it was so at the call, and equal to `t` once a face has been hit; later states
have the smaller `maxTime`.  On a node array in preorder layout whose inner
nodes have depth at most 63 the call returns, and whenever it returns, origin,
direction and `minTime` are those of the call, `maxTime` is `<=` that of the
call, and it is the returned `t` when the call returns true. -/
theorem maxTime32_tightens (r : Ray32) (fuel : Nat) (faceId : Int) (t : F32)
    (uv : Option (F32 × F32)) (hdef : r.TimesDefined) (hmin : r.minTime.isNaN = false)
    (hmax : r.maxTime.isNaN = false) :
    (∀ (m : F32) (fi : Nat) (tm : F32) (uv' : F32 × F32), m.isNaN = false →
      ({ r with maxTime := m } : Ray32).intersectFace fi = some (tm, uv') →
        F32.le tm m = true ∧ F32.le r.minTime tm = true) ∧
    (∀ (s : Trav32) (fi : Nat), s.ray = { r with maxTime := s.ray.maxTime } →
      s.ray.maxTime.isNaN = false →
      (s.leafStep fi).ray = { r with maxTime := (s.leafStep fi).ray.maxTime } ∧
      F32.le (s.leafStep fi).ray.maxTime s.ray.maxTime = true ∧
      ∀ (tm : F32) (uv' : F32 × F32), s.ray.intersectFace fi = some (tm, uv') →
        (s.leafStep fi).ray.maxTime = tm ∧ (s.leafStep fi).t = tm ∧
        (s.hit = true → s.ray.maxTime = s.t → F32.le tm s.t = true)) ∧
    (∀ q ∈ Trav32.run fuel (r.start faceId uv),
      q.ray = { r with maxTime := q.ray.maxTime } ∧
      F32.le q.ray.maxTime r.maxTime = true ∧
      (F32.le r.minTime r.maxTime = true → F32.le r.minTime q.ray.maxTime = true) ∧
      (q.hit = true → q.ray.maxTime = q.t)) ∧
    (Trav32.run fuel (r.start faceId uv)).Pairwise
      (fun a b => F32.le b.ray.maxTime a.ray.maxTime = true) ∧
    (r.exact.Preorder 0 r.exact.nodes.length →
      (∀ (k : Nat) (b : AABB F32) (mid : Nat),
        r.nodes.get? k = some (.inner b mid) → r.exact.depth k ≤ 63) →
      r.nodes.length ≤ fuel → ∃ res : Trav32, r.intersectBVH fuel faceId t uv = .ok res) ∧
    (∀ res : Trav32, r.intersectBVH fuel faceId t uv = .ok res →
      res.ray.origin = r.origin ∧ res.ray.direction = r.direction ∧
      res.ray.minTime = r.minTime ∧
      F32.le res.ray.maxTime r.maxTime = true ∧
      (F32.le r.minTime r.maxTime = true → F32.le r.minTime res.ray.maxTime = true) ∧
      (res.hit = true → res.ray.maxTime = res.t)) := by
  have hstart : ∀ q : Trav32, Trav32.Tightened (r.start faceId uv) q →
      q.ray = { r with maxTime := q.ray.maxTime } ∧
      F32.le q.ray.maxTime r.maxTime = true ∧
      (F32.le r.minTime r.maxTime = true → F32.le r.minTime q.ray.maxTime = true) ∧
      (q.hit = true → q.ray.maxTime = q.t) := by
    intro q hq
    obtain ⟨h1, h2, h3, h4⟩ := hq
    exact ⟨h1, h2, h3, h4 (fun hh => by cases hh)⟩
  refine ⟨?_, ?_, ?_, Trav32.run_pairwise32 fuel _ hdef hmin hmax, ?_, ?_⟩
  · intro m fi tm uv' hm hres
    obtain ⟨hlo, hhi, -, -⟩ := intersectFace32_range _ fi tm uv' hres
    have ht : tm.isNaN = false := hdef m fi tm uv' hres
    exact ⟨float_le_of_not_lt _ _ hm ht hhi, float_le_of_not_lt _ _ ht hmin hlo⟩
  · intro s fi hs hsmax
    have hsdef : s.ray.TimesDefined := by
      rw [hs]; exact Ray32.timesDefined_tighten _ _ hdef
    have hsmin : s.ray.minTime.isNaN = false := by rw [hs]; exact hmin
    obtain ⟨⟨h1, h2, -, -⟩, -, -⟩ := Trav32.leafStep_tightened32 s fi hsdef hsmin hsmax
    refine ⟨?_, h2, ?_⟩
    · rw [h1, hs]
    · intro tm uv' hres
      have hst : s.leafStep fi =
          { s with faceId := (fi : Int), t := tm, ray := { s.ray with maxTime := tm },
                   hit := true, uv := s.uv.map (fun _ => uv') } := by
        unfold Trav32.leafStep; rw [hres]
      obtain ⟨-, hhi, -, -⟩ := intersectFace32_range s.ray fi tm uv' hres
      have ht : tm.isNaN = false := hsdef s.ray.maxTime fi tm uv' hres
      have hle : F32.le tm s.ray.maxTime = true := float_le_of_not_lt _ _ hsmax ht hhi
      rw [hst]
      exact ⟨rfl, rfl, fun _ hh => by rw [← hh]; exact hle⟩
  · intro q hq
    exact hstart q (Trav32.run_tightened32 fuel _ hdef hmin hmax q hq)
  · intro hpre hbound hfuel
    have hne : r.nodes.isEmpty = false := by
      have hpos := Ray.Preorder.lo_lt_hi r.exact _ _ hpre
      rw [Ray32.exact_length] at hpos
      cases hn : r.nodes with
      | nil => rw [hn] at hpos; simp at hpos
      | cons a l => rfl
    unfold Ray32.intersectBVH
    rw [if_neg (by rw [hne]; simp)]
    exact Trav32.walk_terminates32 r hpre hbound fuel _ (Ray32.start_onTree32 r hpre faceId uv)
      (by
        have : (r.start faceId uv).nodeId = 0 := rfl
        rw [this]
        omega)
  · intro res hres
    unfold Ray32.intersectBVH at hres
    by_cases hempty : r.nodes.isEmpty = true
    · rw [if_pos hempty] at hres
      have hr := Except.ok.inj hres
      rw [← hr]
      exact ⟨rfl, rfl, rfl, float_le_self _ hmax, id, fun hh => by cases hh⟩
    · rw [if_neg hempty] at hres
      obtain ⟨h1, h2, h3, h4⟩ := hstart res (Trav32.loop_tightened32 fuel _ res hdef hmin hmax hres)
      refine ⟨?_, ?_, ?_, h2, h3, h4⟩
      · rw [h1]
      · rw [h1]
      · rw [h1]

/-! ### Sample runs in float -/

/-- A result read through a projection is the projection of a returned state. -/
theorem except_ok_of_map {ε α β : Type} (x : Except ε α) (f : α → β) (b : β)
    (h : x.toOption.map f = some b) : ∃ a : α, x = .ok a ∧ f a = b := by
  cases x with
  | error e => simp [Except.toOption] at h
  | ok a =>
    refine ⟨a, rfl, ?_⟩
    simpa [Except.toOption] using h

/-- Beyond the end of the face array every face index reads the same face. -/
theorem Ray32.faceDet_out (r : Ray32) (fi : Nat) (h : r.F.length ≤ fi) :
    r.faceDet fi = r.faceDet r.F.length := by
  have hF : r.F.getD fi (fun _ => 0) = r.F.getD r.F.length (fun _ => 0) := by
    rw [List.getD_eq_default _ _ h, List.getD_eq_default _ _ (le_refl _)]
  unfold Ray32.faceDet Ray32.faceVertex
  rw [hF]

theorem layerRay_face0 :
    layerRay.intersectFace 0 = some (F32.ofFrac 2 1, F32.ofFrac 1 4, F32.ofFrac 1 4) := by
  decide!

theorem layerRay_face1 :
    layerRay.intersectFace 1 = some (F32.ofFrac 1 1, F32.ofFrac 1 4, F32.ofFrac 1 4) := by
  decide!

/-- No face of `layerRay` is hit at a NaN time, whatever `maxTime` is. -/
theorem layerRay_timesDefined : layerRay.TimesDefined := by
  intro m fi t uv h
  obtain ⟨-, -, ht, hdet⟩ := intersectFace32_range _ fi t uv h
  have ht' : t = (layerRay.faceValues fi).1 := ht
  have hdet' : (layerRay.faceDet fi).isZero = false := hdet
  by_cases h2 : fi < 2
  · rw [ht']
    interval_cases fi
    · decide!
    · decide!
  · rw [Ray32.faceDet_out layerRay fi (by
      have : layerRay.F.length = 2 := rfl
      omega)] at hdet'
    have hz : (layerRay.faceDet layerRay.F.length).isZero = true := by decide!
    rw [hz] at hdet'
    cases hdet'

theorem layerRay_preorder : layerRay.exact.Preorder 0 layerRay.exact.nodes.length :=
  Ray.Preorder.inner 0 2 3 _ rfl (Ray.Preorder.leaf 1 _ 0 1 rfl) (Ray.Preorder.leaf 2 _ 1 2 rfl)

theorem layerRay_depth (k : Nat) (b : AABB F32) (mid : Nat)
    (h : layerRay.nodes.get? k = some (.inner b mid)) : layerRay.exact.depth k ≤ 63 := by
  rcases k with _ | _ | _ | k
  · exact Nat.zero_le _
  · cases h
  · cases h
  · cases h

/-- Witness for C16 as amended: the float traversal of the two layered triangles
first accepts face 0 at time 2, then face 1 at time 1, and returns with
`maxTime = t = 1`. -/
theorem maxTime32_tightens_witness :
    (layerRay.TimesDefined ∧ layerRay.minTime.isNaN = false ∧ layerRay.maxTime.isNaN = false) ∧
    (Trav32.run 3 (layerRay.start (-1) none)).map (fun q => (q.nodeId, q.ray.maxTime, q.faceId))
      = [(0, .inf false, -1), (1, .inf false, -1), (2, F32.ofFrac 2 1, 0)] ∧
    ∃ res : Trav32, layerRay.intersectBVH 3 (-1) .nan none = .ok res ∧
      (res.hit, res.faceId, res.t) = (true, 1, F32.ofFrac 1 1) ∧
      (res.ray.origin = layerRay.origin ∧ res.ray.direction = layerRay.direction ∧
        res.ray.minTime = layerRay.minTime ∧
        F32.le res.ray.maxTime layerRay.maxTime = true ∧
        (F32.le layerRay.minTime layerRay.maxTime = true →
          F32.le layerRay.minTime res.ray.maxTime = true) ∧
        (res.hit = true → res.ray.maxTime = res.t)) := by
  refine ⟨⟨layerRay_timesDefined, rfl, rfl⟩, by decide!, ?_⟩
  obtain ⟨res, hres, hval⟩ := except_ok_of_map (layerRay.intersectBVH 3 (-1) .nan none)
    (fun s => (s.hit, s.faceId, s.t)) (true, 1, F32.ofFrac 1 1) (by decide!)
  exact ⟨res, hres, hval,
    (maxTime32_tightens layerRay 3 (-1) .nan none layerRay_timesDefined rfl rfl).2.2.2.2.2
      res hres⟩

/-- C16, counterexample. On the triangle `(0,0,0)`, `(2^70,0,0)`, `(0,2^70,0)`
under one leaf with its bounding box, the float intersect called on the freshly
set ray from `(2^68, 2^68, 2^70)` straight down returns true with a NaN as `t`
and leaves a NaN in `maxTime`: the determinant overflows to an infinity, the
hit time is `0 · inf`, and a NaN passes both range checks of intersectFace.
The new `maxTime` is neither `<=` the one before nor `>=` `minTime`, and the
comparison `maxTime == t` is false. -/
theorem maxTime_nan_after_hit :
    bigRay.set bigRay.origin bigRay.direction = bigRay ∧
    bigRay.exact.Preorder 0 bigRay.exact.nodes.length ∧
    ∃ res : Trav32, bigRay.intersectBVH 1 (-1) .nan none = .ok res ∧
      res.hit = true ∧ res.t = .nan ∧ res.ray.maxTime = .nan ∧
      F32.le res.ray.maxTime bigRay.maxTime = false ∧
      F32.le bigRay.minTime res.ray.maxTime = false ∧
      (F32.le res.ray.maxTime res.t && F32.le res.t res.ray.maxTime) = false := by
  refine ⟨rfl, Ray.Preorder.leaf 0 _ 0 1 rfl, ?_⟩
  obtain ⟨res, hres, hval⟩ := except_ok_of_map (bigRay.intersectBVH 1 (-1) .nan none)
    (fun s => (s.hit, s.t, s.ray.maxTime)) (true, .nan, .nan) (by decide!)
  simp only [Prod.mk.injEq] at hval
  obtain ⟨h1, h2, h3⟩ := hval
  refine ⟨res, hres, h1, h2, h3, ?_, ?_, ?_⟩
  · rw [h3]; rfl
  · rw [h3]; rfl
  · rw [h2, h3]; rfl

/-- C4, counterexample. On the triangle `(0,0,0)`, `(2^70,0,0)`, `(0,2^70,0)` and
the ray from `(2^68, 2^68, 2^70)` straight down, float intersectFace hits face 0
(the determinant overflows to an infinity and the hit time is a NaN, which
passes both range checks), but `time < minTime` is false of a NaN and the
brute-force scan returns -1: it returns -1 although intersectFace does not miss
every face. -/
theorem intersect_nan_hit_lost :
    bigRay.F.length = 1 ∧
    bigRay.faceDet 0 = .inf false ∧
    bigRay.intersectFace 0 = some (.nan, .nan, .nan) ∧
    bigRay.intersect = -1 ∧
    ¬ (bigRay.intersect = -1 ↔
        ∀ i : Nat, i < bigRay.F.length → bigRay.intersectFace i = none) := by
  have h0 : bigRay.intersectFace 0 = some (.nan, .nan, .nan) := by decide!
  have h1 : bigRay.intersect = -1 := by decide!
  refine ⟨rfl, by decide!, h0, h1, fun h => ?_⟩
  have h2 := h.1 h1 0 (by decide)
  rw [h0] at h2
  cases h2

/-- Witness for C4 as amended: the float scan of the two layered triangles
replaces face 0, hit at time 2, by face 1, hit at time 1. -/
theorem intersect32_closest_witness :
    (∀ i : Nat, i < layerRay.F.length → ∀ (t : F32) (uv : F32 × F32),
      layerRay.intersectFace i = some (t, uv) → F32.lt t (.inf false) = true) ∧
    layerRay.intersect = 1 ∧
    ((layerRay.intersect = -1 ↔
        ∀ i : Nat, i < layerRay.F.length → layerRay.intersectFace i = none) ∧
     (layerRay.intersect ≠ -1 → ∃ (f : Nat) (t : F32) (uv : F32 × F32),
        layerRay.intersect = (f : Int) ∧ f < layerRay.F.length ∧
        layerRay.intersectFace f = some (t, uv) ∧
        ∀ g : Nat, g < layerRay.F.length → ∀ (t' : F32) (uv' : F32 × F32),
          layerRay.intersectFace g = some (t', uv') → F32.le t t' = true)) := by
  have hfin : ∀ i : Nat, i < layerRay.F.length → ∀ (t : F32) (uv : F32 × F32),
      layerRay.intersectFace i = some (t, uv) → F32.lt t (.inf false) = true := by
    intro i hi t uv h
    have hi2 : i < 2 := hi
    interval_cases i
    · rw [layerRay_face0] at h
      simp only [Option.some.injEq, Prod.mk.injEq] at h
      rw [← h.1]; rfl
    · rw [layerRay_face1] at h
      simp only [Option.some.injEq, Prod.mk.injEq] at h
      rw [← h.1]; rfl
  exact ⟨hfin, by decide!, intersect32_closest layerRay hfin⟩

/-! ### Float runs against the exact reading -/

theorem flatRay_wellFormed : flatRay.exact.WellFormedBVH := by
  right
  refine ⟨Ray.SubtreeAt.leaf 0 stackSize (exactBox flatBox) 0 1 rfl (le_refl 1) ?_, ?_⟩
  · intro f _ hf
    have hf0 : f = 0 := by omega
    rw [hf0]
    unfold Ray.BoxHasFace
    decide!
  · intro f hf
    exact ⟨0, le_refl 0, Nat.zero_lt_one, exactBox flatBox, 0, 1, rfl, Nat.zero_le f, hf⟩

/-- C2, counterexample. One triangle in the plane `y = 1/2` under a single leaf
whose box is the bounding box of the triangle, flat in `y`, and the freshly set
ray from `(1.5, -0.8f, -4.5)` in the direction `(-10, 13, 45)`.  In float,
intersectFace hits the triangle at time `13421773 · 2^-27`, but the box test of
the leaf fails: the two times for the `y` slab are both rounded to
`13421772 · 2^-27`, one unit in the last place below the entry time
`13421773 · 2^-27` of the `x` slab, so `nearTime <= farTime` is false.  The
BVH-accelerated intersect returns false although intersectFace hits a face. -/
theorem bvh_rounding_miss :
    flatRay.set flatRay.origin flatRay.direction = flatRay ∧
    flatRay.exact.WellFormedBVH ∧
    flatRay.intersectFace 0
      = some (.fin false 13421773 (-27), F32.ofFrac 1 2, F32.ofFrac 0 1) ∧
    flatRay.slabAxis flatBox 0 (.inf true, .inf false)
      = some (.fin false 13421773 (-27), .fin false 13421773 (-26)) ∧
    flatRay.slabAxis flatBox 1 (.fin false 13421773 (-27), .fin false 13421773 (-26)) = none ∧
    F32.div (F32.sub (flatBox.min 1) (flatRay.origin 1)) (flatRay.direction 1)
      = .fin false 13421772 (-27) ∧
    F32.div (F32.sub (flatBox.max 1) (flatRay.origin 1)) (flatRay.direction 1)
      = .fin false 13421772 (-27) ∧
    F32.le (.fin false 13421773 (-27)) (.fin false 13421772 (-27)) = false ∧
    ∃ res : Trav32, flatRay.intersectBVH 1 (-1) .nan none = .ok res ∧ res.hit = false := by
  refine ⟨rfl, flatRay_wellFormed, by decide!, by decide!, by decide!, by decide!, by decide!,
    by decide!, ?_⟩
  exact except_ok_of_map (flatRay.intersectBVH 1 (-1) .nan none) (fun s => s.hit) false
    (by decide!)

/-- C7, counterexample. The box `[-1/2, 1/2] × [1/2, 1/2] × [-1/2, 1/2]` (min ≤ max
on every axis) and the ray from `(1.5, -0.8f, -4.5)` in the direction
`(-10, 13, 45)` with the validity interval `[0, +inf]`: at the time
`t = 21810381/218103808` the point `origin + t·direction` lies inside the box,
and the exact reading of intersectAABB returns true, but the float
intersectAABB returns false. -/
theorem intersectAABB_rounding_miss :
    (∀ i : Fin 3, F32.le (flatBox.min i) (flatBox.max i) = true) ∧
    F32.le flatRay.minTime flatRay.maxTime = true ∧
    (∃ t : ℚ, flatRay.exact.minTime ≤ t ∧ (t : WithTop ℚ) ≤ flatRay.exact.maxTime ∧
      ∀ i : Fin 3,
        (exactBox flatBox).min i ≤ flatRay.exact.origin i + t * flatRay.exact.direction i ∧
        flatRay.exact.origin i + t * flatRay.exact.direction i ≤ (exactBox flatBox).max i) ∧
    flatRay.exact.intersectAABB (exactBox flatBox) = true ∧
    flatRay.intersectAABB flatBox = false := by
  refine ⟨by decide!, by decide!, ⟨21810381 / 218103808, by decide!, le_top, by decide!⟩,
    by decide!, by decide!⟩

/-- C6, counterexample. The triangle `(0,0,0)`, `(9,0,0)`, `(0,45,0)` and the ray
from `(1, 40, 1)` straight down: the determinant is not zero, and `t = 1`,
`u = 1/9`, `v = 8/9` solve `origin + t·direction = va + u·(vb − va) + v·(vc − va)`
within the ranges, with `u + v = 1`: the point lies on an edge.  The exact
reading of intersectFace reports this hit; the float intersectFace computes
`u + v` above 1 and reports a miss. -/
theorem intersectFace_rounding_miss :
    edgeRay.exact.faceDet 0 ≠ 0 ∧
    (edgeRay.exact.minTime ≤ 1 ∧ ((1 : ℚ) : WithTop ℚ) ≤ edgeRay.exact.maxTime ∧
      (0 : ℚ) ≤ 1 / 9 ∧ (0 : ℚ) ≤ 8 / 9 ∧ (1 / 9 + 8 / 9 : ℚ) ≤ 1 ∧
      ∀ i : Fin 3, edgeRay.exact.origin i + 1 * edgeRay.exact.direction i =
        edgeRay.exact.faceVertex 0 0 i
          + 1 / 9 * (edgeRay.exact.faceVertex 0 1 i - edgeRay.exact.faceVertex 0 0 i)
          + 8 / 9 * (edgeRay.exact.faceVertex 0 2 i - edgeRay.exact.faceVertex 0 0 i)) ∧
    edgeRay.exact.intersectFace 0 = some (1, 1 / 9, 8 / 9) ∧
    F32.lt F32.one (F32.add (edgeRay.faceValues 0).2.1 (edgeRay.faceValues 0).2.2) = true ∧
    edgeRay.intersectFace 0 = none := by
  refine ⟨by decide!, ⟨by decide!, le_top, by decide!, by decide!, by decide!, by decide!⟩,
    by decide!, by decide!, by decide!⟩

/-- C3, counterexample. Over exact arithmetic, on the split square the ray
through the diagonal hits faces 0 and 1 at the same time 1: the brute-force
intersect() returns face 0, the BVH-accelerated intersect returns face 1.  In
float, on the flat triangle under its bounding box, the ray from
`(1.5, -0.8f, -4.5)` hits face 0: the brute-force intersect() returns face 0,
the BVH-accelerated intersect returns false, because the box test of the leaf
fails by a rounding error. -/
theorem bvh_brute_face_mismatch :
    (tieRay.WellFormedBVH ∧ tieRay.set ![1 / 2, 1 / 2, 1] ![0, 0, -1] = tieRay ∧
      (∃ f : Nat, f < tieRay.F.length ∧ (tieRay.intersectFace f).isSome = true) ∧
      tieRay.intersect = 0 ∧
      ∃ res : Trav ℚ, tieRay.intersectBVH 1 (-1) ⊤ none = .ok res ∧ res.hit = true ∧
        res.faceId = 1 ∧ res.faceId ≠ tieRay.intersect) ∧
    (flatRay.exact.WellFormedBVH ∧ flatRay.set flatRay.origin flatRay.direction = flatRay ∧
      (∃ f : Nat, f < flatRay.F.length ∧ (flatRay.intersectFace f).isSome = true) ∧
      flatRay.intersect = 0 ∧
      ∃ res : Trav32, flatRay.intersectBVH 1 (-1) .nan none = .ok res ∧ res.hit = false) :=
  ⟨⟨tieRay_wellFormed, rfl, tieRay_hits, tieRay_intersect,
      tieResult, tieRay_bvh, rfl, rfl, by rw [tieRay_intersect]; decide⟩,
    ⟨flatRay_wellFormed, rfl, ⟨0, Nat.zero_lt_one, by decide!⟩, by decide!,
      except_ok_of_map (flatRay.intersectBVH 1 (-1) .nan none) (fun s => s.hit) false
        (by decide!)⟩⟩

end CadApp
